import Mathlib

/-! # Brodal–Okasaki heap (`BrodalOkasakiHeap`): pointer-level embedding

The Go package keeps `BONode` and `BOHeap` objects on the garbage-collected heap and
links them with pointers.  The embedding keeps one map per struct field, from object
address to field content (`State`); a pointer is an `Option Nat`, `none` being `nil`.
Every method becomes a state transformer `M α := State → Res α`.  A `nil` dereference is
the outcome `Res.fault`, carrying the state at the moment of the fault.  Loops and the
recursion of `insert` run on fuel; running out of fuel is the separate outcome
`Res.timeout`.

The `int` fields `value`, `rank` and `size` are `Int`, and `+ 1` on them is the sum of
integers, which is the sum of Go as long as the operand is below the largest `int`.
Values are only compared and copied; `rank` and `size` change by one per call, `size`
also by the size of a merged queue, so on a queue built from a fresh heap neither leaves
the range of a 64-bit `int` before 2^63 nodes are allocated.  A state given from outside
may hold any rank (the tests write the field directly): the theorems on a single call of
`skewLink`, `simpleLink` or the cascade of `insert_binomial` on such a state assume that
the ranks they increment are below `maxInt64`.
-/

namespace BrodalOkasakiHeap

/-- Pointwise update of a field map. -/
def upd {β : Type} (f : Nat → β) (a : Nat) (b : β) : Nat → β :=
  fun x => if x = a then b else f x

/-- The Go heap: the fields of every `BONode` (bonode.go:10) and of every `BOHeap`
(boheap.go:9), indexed by address, with the two allocation counters. -/
structure State where
  value : Nat → Int
  subqueue_head : Nat → Option Nat
  children_head : Nat → Option Nat
  parent : Nat → Option Nat
  rightsibling : Nat → Option Nat
  leftsibling : Nat → Option Nat
  rank : Nat → Int
  nodes : Nat
  root : Nat → Option Nat
  size : Nat → Int
  heaps : Nat

/-- The state before anything is allocated. -/
def State.init : State where
  value := fun _ => 0
  subqueue_head := fun _ => none
  children_head := fun _ => none
  parent := fun _ => none
  rightsibling := fun _ => none
  leftsibling := fun _ => none
  rank := fun _ => 0
  nodes := 0
  root := fun _ => none
  size := fun _ => 0
  heaps := 0

/-- Outcome of running a method. -/
inductive Res (α : Type) where
  | ok (a : α) (s : State)
  | fault (s : State)
  | timeout (s : State)

/-- State transformers with faults. -/
def M (α : Type) : Type := State → Res α

/-- Sequencing: a fault or a timeout stops the run and keeps the state reached. -/
def M.bind {α β : Type} (m : M α) (f : α → M β) : M β := fun s =>
  match m s with
  | .ok a s1 => f a s1
  | .fault s1 => .fault s1
  | .timeout s1 => .timeout s1

instance : Monad M where
  pure a := fun s => .ok a s
  bind := M.bind

/-- Read something off the state. -/
def gets {α : Type} (f : State → α) : M α := fun s => .ok (f s) s

/-- Change the state. -/
def modify (f : State → State) : M Unit := fun s => .ok () (f s)

/-- Dereference a pointer: `nil` faults. -/
def deref (p : Option Nat) : M Nat := fun s =>
  match p with
  | some a => .ok a s
  | none => .fault s

/-- Result of a loop that ran on fuel. -/
def orTimeout {α : Type} (o : Option α) : M α := fun s =>
  match o with
  | some a => .ok a s
  | none => .timeout s

/-- Run `f` on the elements of a slice, in order (`for _, node := range ...`). -/
def forEach (f : Nat → M Unit) : List Nat → M Unit
  | [] => pure ()
  | a :: l => do f a; forEach f l

/-! ## bonode.go -/

/-- bonode.go:34 `newBONode`. -/
def newBONode (value : Int) : M Nat := fun s =>
  .ok s.nodes
    { s with
      value := upd s.value s.nodes value
      subqueue_head := upd s.subqueue_head s.nodes none
      children_head := upd s.children_head s.nodes none
      parent := upd s.parent s.nodes none
      rightsibling := upd s.rightsibling s.nodes none
      leftsibling := upd s.leftsibling s.nodes none
      rank := upd s.rank s.nodes 0
      nodes := s.nodes + 1 }

/-- The scanning loop of `putNodeAmongChildren` (bonode.go:74):
`for next != nil && other.rank > next.rank`. -/
def scanRank (s : State) (r : Int) : Nat → Option Nat → Option Nat → Option (Option Nat × Option Nat)
  | 0, _, _ => none
  | _ + 1, prev, none => some (prev, none)
  | F + 1, prev, some nx =>
    if r > s.rank nx then scanRank s r F (some nx) (s.rightsibling nx) else some (prev, some nx)

/-- bonode.go:67 `putNodeAmongChildren`. -/
def putNodeAmongChildren (F : Nat) (bon other : Nat) : M Unit := fun s =>
  match scanRank s (s.rank other) F none (s.children_head bon) with
  | none => .timeout s
  | some (none, none) =>
    .ok () { s with children_head := upd s.children_head bon (some other) }
  | some (none, some nx) =>
    .ok () { s with
      children_head := upd s.children_head bon (some other)
      rightsibling := upd s.rightsibling other (some nx)
      leftsibling := upd s.leftsibling nx (some other) }
  | some (some pv, none) =>
    .ok () { s with
      rightsibling := upd s.rightsibling pv (some other)
      leftsibling := upd s.leftsibling other (some pv) }
  | some (some pv, some nx) =>
    .ok () { s with
      rightsibling := upd (upd s.rightsibling pv (some other)) other (some nx)
      leftsibling := upd (upd s.leftsibling nx (some other)) other (some pv) }

/-- bonode.go:54 `adopt`. -/
def adopt (F : Nat) (bon other : Nat) : M Unit := do
  modify fun s => { s with parent := upd s.parent other (some bon) }
  putNodeAmongChildren F bon other

/-- The last three assignments of `rogue` and `rogue_subqueue`. -/
def clearLinks (bon : Nat) (s : State) : State :=
  { s with
    parent := upd s.parent bon none
    leftsibling := upd s.leftsibling bon none
    rightsibling := upd s.rightsibling bon none }

/-- bonode.go:107 `rogue`. -/
def rogue (bon : Nat) : M Unit := fun s =>
  match s.parent bon with
  | none => .ok () s
  | some parent =>
    if s.children_head parent = some bon then
      .ok () (clearLinks bon { s with children_head := upd s.children_head parent (s.rightsibling bon) })
    else
      match s.leftsibling bon with
      | none => .fault s
      | some l =>
        let s1 := { s with rightsibling := upd s.rightsibling l (s.rightsibling bon) }
        match s1.rightsibling bon with
        | none => .ok () (clearLinks bon s1)
        | some r =>
          .ok () (clearLinks bon { s1 with leftsibling := upd s1.leftsibling r (s1.leftsibling bon) })

/-- bonode.go:130 `rogue_subqueue`. -/
def rogue_subqueue (bon : Nat) : M Unit := fun s =>
  match s.parent bon with
  | none => .ok () s
  | some parent =>
    if s.subqueue_head parent = some bon then
      .ok () (clearLinks bon { s with subqueue_head := upd s.subqueue_head parent (s.rightsibling bon) })
    else
      match s.leftsibling bon with
      | none => .fault s
      | some l =>
        let s1 := { s with rightsibling := upd s.rightsibling l (s.rightsibling bon) }
        match s1.rightsibling bon with
        | none => .ok () (clearLinks bon s1)
        | some r =>
          .ok () (clearLinks bon { s1 with leftsibling := upd s1.leftsibling r (s1.leftsibling bon) })

/-- bonode.go:304 `min_of_3`. -/
def min_of_3 (s : State) (n1 n2 n3 : Nat) : Nat × Nat × Nat :=
  if s.value n1 < s.value n2 then
    if s.value n1 < s.value n3 then (n1, n2, n3) else (n3, n1, n2)
  else
    if s.value n2 < s.value n3 then (n2, n1, n3) else (n3, n1, n2)

/-- bonode.go:155 `skewLink`.  The sum `currRank + 1` is that of Go for `currRank` below
the largest `int`. -/
def skewLink (F : Nat) (firnode secnode : Option Nat) (newnode : Nat) : M Nat := fun s =>
  match firnode, secnode with
  | none, _ => .ok newnode s
  | some _, none => .ok newnode s
  | some fir, some sec =>
    if s.rank fir ≠ s.rank sec then .ok newnode s
    else
      let currRank := s.rank fir
      let (minnode, node1, node2) := min_of_3 s fir sec newnode
      (do
        rogue minnode
        rogue node1
        rogue node2
        adopt F minnode node1
        adopt F minnode node2
        modify fun t => { t with rank := upd t.rank minnode (currRank + 1) }
        pure minnode) s

/-- bonode.go:188 `simpleLink`.  The sum `rank + 1` is that of Go for a rank below the
largest `int`. -/
def simpleLink (F : Nat) (existingnode newnode : Nat) : M Nat := do
  rogue existingnode
  if (← gets fun s => decide (s.value existingnode < s.value newnode)) then
    adopt F existingnode newnode
    modify fun s => { s with rank := upd s.rank existingnode (s.rank existingnode + 1) }
    pure existingnode
  else
    adopt F newnode existingnode
    modify fun s => { s with rank := upd s.rank newnode (s.rank newnode + 1) }
    pure newnode

/-- The loop of `getMinChild` (bonode.go:214). -/
def minLoop (s : State) : Nat → Nat → Option Nat → Option Nat
  | 0, _, _ => none
  | _ + 1, minchild, none => some minchild
  | F + 1, minchild, some c =>
    minLoop s F (if s.value c < s.value minchild then c else minchild) (s.rightsibling c)

/-- bonode.go:225 `hasChildren`. -/
def hasChildren (s : State) (bon : Nat) : Bool := (s.children_head bon).isSome

/-- bonode.go:206 `getMinChild`. -/
def getMinChild (F : Nat) (bon : Nat) : M (Option Nat) := fun s =>
  match s.children_head bon with
  | none => .ok none s
  | some minchild =>
    match minLoop s F minchild (s.rightsibling minchild) with
    | none => .timeout s
    | some m => .ok (some m) s

/-- bonode.go:235 `getSmallestRankChildren`. -/
def getSmallestRankChildren (s : State) (bon : Nat) : Option Nat × Option Nat :=
  match s.children_head bon with
  | none => (none, none)
  | some h => (some h, s.rightsibling h)

/-- The loop of `getSameRankChild` (bonode.go:249). -/
def sameRankLoop (s : State) (rank : Int) : Nat → Option Nat → Option (Option Nat)
  | 0, _ => none
  | _ + 1, none => some none
  | F + 1, some c => if s.rank c = rank then some (some c) else sameRankLoop s rank F (s.rightsibling c)

/-- bonode.go:247 `getSameRankChild`. -/
def getSameRankChild (F : Nat) (bon : Nat) (rank : Int) : M (Option Nat) := fun s =>
  orTimeout (sameRankLoop s rank F (s.children_head bon)) s

/-- The loop shared by `subqueueIterator`, `childrenIterator` and `appendList`
(bonode.go:330, 345, 365): follow `rightsibling` and collect the nodes met. -/
def walk (s : State) : Nat → Option Nat → Option (List Nat)
  | 0, _ => none
  | _ + 1, none => some []
  | F + 1, some c => (walk s F (s.rightsibling c)).map (c :: ·)

/-- bonode.go:326 `subqueueIterator`. -/
def subqueueIterator (F : Nat) (bon : Nat) : M (List Nat) := fun s =>
  orTimeout (walk s F (s.subqueue_head bon)) s

/-- bonode.go:341 `childrenIterator`. -/
def childrenIterator (F : Nat) (bon : Nat) : M (List Nat) := fun s =>
  orTimeout (walk s F (s.children_head bon)) s

/-- bonode.go:353 `moveChildrenToSubqueue`. -/
def moveChildrenToSubqueue (bon : Nat) : M Unit :=
  modify fun s =>
    let s1 := { s with subqueue_head := upd s.subqueue_head bon (s.children_head bon) }
    { s1 with children_head := upd s1.children_head bon none }

/-! ## boheap.go -/

/-- boheap.go:18 `NewBOHeap`. -/
def NewBOHeap : M Nat := fun s =>
  .ok s.heaps { s with root := upd s.root s.heaps none, size := upd s.size s.heaps 0, heaps := s.heaps + 1 }

/-- boheap.go:219 `swapWithRoot`. -/
def swapWithRoot (F : Nat) (bq newroot : Nat) : M Nat := do
  let oldroot ← deref (← gets fun s => s.root bq)
  let it ← childrenIterator F oldroot
  forEach (fun node => do rogue node; adopt F newroot node) it
  modify fun s => { s with rank := upd s.rank oldroot 0 }
  modify fun s => { s with root := upd s.root bq (some newroot) }
  pure oldroot

/-- boheap.go:174 `insert_skew`. -/
def insert_skew (F : Nat) (bq newnode : Nat) : M Unit := do
  let r ← deref (← gets fun s => s.root bq)
  let (node1, node2) ← gets fun s => getSmallestRankChildren s r
  let mergednode ← skewLink F node1 node2 newnode
  let r ← deref (← gets fun s => s.root bq)
  adopt F r mergednode

/-- boheap.go:200 `insert_binomial`; the recursive call `bq.insert` is the argument `ins`. -/
def insert_binomial (F : Nat) (ins : Nat → Nat → M Unit) (bq other : Nat) : M Unit := do
  let r ← deref (← gets fun s => s.root bq)
  let srnode ← getSameRankChild F r (← gets fun s => s.rank other)
  match srnode with
  | none =>
    let r ← deref (← gets fun s => s.root bq)
    adopt F r other
  | some sr =>
    let newnode ← simpleLink F sr other
    ins bq newnode

/-- boheap.go:127 `insert`, with `n` bounding the depth of its recursion. -/
def insertAux (F : Nat) : Nat → Nat → Nat → M Unit
  | 0, _, _ => fun s => .timeout s
  | n + 1, bq, newnode => do
    match (← gets fun s => s.root bq) with
    | none => modify fun s => { s with root := upd s.root bq (some newnode) }
    | some r =>
      if (← gets fun s => decide (s.value newnode < s.value r)) then
        let oldroot ← swapWithRoot F bq newnode
        insertAux F n bq oldroot
      else if (← gets fun s => decide (s.rank newnode > 0)) then
        insert_binomial F (insertAux F n) bq newnode
      else
        insert_skew F bq newnode

/-- boheap.go:127 `insert`. -/
def insert (F : Nat) (bq newnode : Nat) : M Unit := insertAux F F bq newnode

/-- boheap.go:147 `merge_subqueue`. -/
def merge_subqueue (F : Nat) (bq : Nat) : M Unit := do
  let r ← deref (← gets fun s => s.root bq)
  let it ← subqueueIterator F r
  forEach (fun node => do rogue_subqueue node; insert F bq node) it

/-- boheap.go:157 `reInsertChildren`. -/
def reInsertChildren (F : Nat) (bq bon : Nat) : M Unit := do
  let it ← childrenIterator F bon
  forEach (fun node => do rogue node; insert F bq node) it

/-- boheap.go:240 `promoteToRoot`. -/
def promoteToRoot (bq minnode : Nat) : M Unit := do
  let r ← deref (← gets fun s => s.root bq)
  modify fun s => { s with value := upd s.value r (s.value minnode) }
  let r ← deref (← gets fun s => s.root bq)
  modify fun s => { s with subqueue_head := upd s.subqueue_head r (s.subqueue_head minnode) }

/-- Fuel handed to the loops and to `insert` by the exported methods: no sibling list and
no chain of recursive `insert` calls is longer than the number of nodes allocated. -/
def fuel (s : State) : Nat := s.nodes + 2

/-- boheap.go:37 `Insert`. -/
def Insert (bq : Nat) (value : Int) : M Unit := do
  let newnode ← newBONode value
  modify fun s => { s with size := upd s.size bq (s.size bq + 1) }
  insert (← gets fuel) bq newnode

/-- boheap.go:59 `Pop`. -/
def Pop (bq : Nat) : M Int := do
  let F ← gets fuel
  modify fun s => { s with size := upd s.size bq (s.size bq - 1) }
  let r ← deref (← gets fun s => s.root bq)
  let retval ← gets fun s => s.value r
  if (← gets fun s => s.subqueue_head r) ≠ none then
    merge_subqueue F bq
  let r ← deref (← gets fun s => s.root bq)
  let minchild ← getMinChild F r
  match minchild with
  | none => modify fun s => { s with root := upd s.root bq none }
  | some mc =>
    rogue mc
    reInsertChildren F bq mc
    promoteToRoot bq mc
  pure retval

/-- boheap.go:85 `Peek`. -/
def Peek (bq : Nat) : M Int := do
  let r ← deref (← gets fun s => s.root bq)
  gets fun s => s.value r

/-- boheap.go:94 `Size`. -/
def Size (bq : Nat) : M Int := gets fun s => s.size bq

/-- boheap.go:105 `Merge`. -/
def Merge (bq other : Nat) : M Unit := do
  let F ← gets fuel
  modify fun s => { s with size := upd s.size bq (s.size bq + s.size other) }
  let oroot ← deref (← gets fun s => s.root other)
  moveChildrenToSubqueue oroot
  insert F bq oroot

/-! ## Shape of the node graph

The proofs describe the nodes reachable from a root by a tree: every node with the list
of the trees of its children and the list of the trees of its subqueue.  `WFT` says that
the pointers of a state draw a given tree; the functions on trees below say what each
method does to the tree.
-/

/-- Node with its address, value, rank, the trees of its `children_head` list, the trees
of its `subqueue_head` list, and the node the members of the subqueue list name as their
`parent` when that is another node than this one. -/
inductive Tree where
  | node (addr : Nat) (value : Int) (rank : Int) (kids : List Tree) (own : Option Nat)
      (subq : List Tree)

namespace Tree

/-- Address of the node. -/
def addr : Tree → Nat
  | node a _ _ _ _ _ => a

/-- Value of the node. -/
def value : Tree → Int
  | node _ v _ _ _ _ => v

/-- Rank of the node. -/
def rank : Tree → Int
  | node _ _ r _ _ _ => r

/-- Trees of the children list. -/
def kids : Tree → List Tree
  | node _ _ _ k _ _ => k

/-- Foreign parent of the subqueue members, if any. -/
def own : Tree → Option Nat
  | node _ _ _ _ o _ => o

/-- Trees of the subqueue list. -/
def subq : Tree → List Tree
  | node _ _ _ _ _ q => q

/-- The node the subqueue members name as `parent`. -/
def owner (t : Tree) : Nat := t.own.getD t.addr

/-- Replace the children. -/
def setKids (t : Tree) (ks : List Tree) : Tree := node t.addr t.value t.rank ks t.own t.subq

/-- Replace the rank. -/
def setRank (t : Tree) (r : Int) : Tree := node t.addr t.value r t.kids t.own t.subq

/-- Replace the subqueue. -/
def setSubq (t : Tree) (q : List Tree) : Tree := node t.addr t.value t.rank t.kids t.own q

mutual
/-- Addresses a tree depends on: its nodes and the foreign subqueue parents. -/
def fp : Tree → Multiset Nat
  | node a _ _ kids own subq => a ::ₘ ((own.toList : Multiset Nat) + (fpL kids + fpL subq))
/-- Addresses a list of trees depends on. -/
def fpL : List Tree → Multiset Nat
  | [] => 0
  | t :: l => fp t + fpL l
end

mutual
/-- Keys held by a tree. -/
def keys : Tree → Multiset Int
  | node _ v _ kids _ subq => v ::ₘ (keysL kids + keysL subq)
/-- Keys held by a list of trees. -/
def keysL : List Tree → Multiset Int
  | [] => 0
  | t :: l => keys t + keysL l
end

end Tree

open Tree

/-- Addresses of the roots of a list of trees. -/
def roots (l : List Tree) : List Nat := l.map Tree.addr

/-- Two neighbours of a sibling list point at each other. -/
def Lnk (s : State) (a b : Nat) : Prop := s.rightsibling a = some b ∧ s.leftsibling b = some a

/-- The nodes of `L`, in this order, form a sibling list whose members name `p` as parent:
neighbours are linked in both directions and the last one has no right sibling.  Nothing
is said of the left sibling of the first one. -/
def Seg (s : State) (p : Nat) (L : List Nat) : Prop :=
  (∀ a ∈ L, s.parent a = some p) ∧ L.Chain' (Lnk s) ∧ ∀ a ∈ L.getLast?, s.rightsibling a = none

/-- The children list of node `a` is drawn by the state. -/
def KidsOK (s : State) (a : Nat) (kids : List Tree) : Prop :=
  s.children_head a = (roots kids).head? ∧ Seg s a (roots kids)

/-- The subqueue list of node `a` is drawn by the state: `a` and the parent `o` of the
members both have its first node as `subqueue_head`. -/
def SqOK (s : State) (a o : Nat) (subq : List Tree) : Prop :=
  s.subqueue_head a = (roots subq).head? ∧ s.subqueue_head o = (roots subq).head? ∧
    Seg s o (roots subq)

/-- The state draws the tree below and at its root node (the links of the root node to
its own parent and siblings are left open). -/
inductive WFT (s : State) : Tree → Prop
  | mk (a : Nat) (v r : Int) (kids : List Tree) (own : Option Nat) (subq : List Tree) :
      s.value a = v → s.rank a = r → KidsOK s a kids → (∀ k ∈ kids, WFT s k) →
      SqOK s a (own.getD a) subq → (∀ k ∈ subq, WFT s k) → WFT s (Tree.node a v r kids own subq)

/-- As `WFT`, without the subqueue pointers of the root node. -/
def WFTk (s : State) (t : Tree) : Prop :=
  s.value t.addr = t.value ∧ s.rank t.addr = t.rank ∧ KidsOK s t.addr t.kids ∧
    (∀ k ∈ t.kids, WFT s k) ∧ ∀ k ∈ t.subq, WFT s k

/-- The node has no parent and no siblings. -/
def Detached (s : State) (a : Nat) : Prop :=
  s.parent a = none ∧ s.leftsibling a = none ∧ s.rightsibling a = none

/-- Heap order: no node is larger than a member of its children or subqueue list. -/
inductive HeapOrd : Tree → Prop
  | mk (a : Nat) (v r : Int) (kids : List Tree) (own : Option Nat) (subq : List Tree) :
      (∀ k ∈ kids, v ≤ k.value) → (∀ k ∈ kids, HeapOrd k) →
      (∀ k ∈ subq, v ≤ k.value) → (∀ k ∈ subq, HeapOrd k) →
      HeapOrd (Tree.node a v r kids own subq)

/-- The loop of `getMinChild` on addresses. -/
def minAddrLoop (s : State) (m : Nat) : List Nat → Nat
  | [] => m
  | c :: l => minAddrLoop s (if s.value c < s.value m then c else m) l

/-- Two states agree on the fields of node `a` that describe the node itself. -/
def SameCore (s t : State) (a : Nat) : Prop :=
  t.value a = s.value a ∧ t.rank a = s.rank a ∧ t.children_head a = s.children_head a ∧
    t.subqueue_head a = s.subqueue_head a

/-- Two states agree on the fields of node `a` that link it to its parent and siblings. -/
def SameLink (s t : State) (a : Nat) : Prop :=
  t.parent a = s.parent a ∧ t.leftsibling a = s.leftsibling a ∧
    t.rightsibling a = s.rightsibling a

/-- Only nodes of `A` and the `root` field of the queue `bq` differ between the states. -/
def FrameH (s t : State) (A : Multiset Nat) (bq : Nat) : Prop :=
  (∀ a, a ∉ A → SameCore s t a ∧ SameLink s t a) ∧ t.nodes = s.nodes ∧ t.heaps = s.heaps ∧
    t.size = s.size ∧ (∀ h, h ≠ bq → t.root h = s.root h) ∧
    t.subqueue_head = s.subqueue_head

/-- Only nodes of `A` differ between the states. -/
def Frame (s t : State) (A : Multiset Nat) : Prop :=
  (∀ a, a ∉ A → SameCore s t a ∧ SameLink s t a) ∧ t.nodes = s.nodes ∧ t.heaps = s.heaps ∧
    t.size = s.size ∧ t.root = s.root ∧ t.subqueue_head = s.subqueue_head

/-- What an exported method leaves alone: the nodes outside `A`, and the queues other
than `bq`. -/
def OpFrame (s t : State) (A : Multiset Nat) (bq : Nat) : Prop :=
  (∀ a, a ∉ A → SameCore s t a ∧ SameLink s t a) ∧ s.nodes ≤ t.nodes ∧ t.heaps = s.heaps ∧
    ∀ h, h ≠ bq → t.root h = s.root h ∧ t.size h = s.size h

/-- The state draws the tree; with `b` set, the subqueue pointers of its root included. -/
def WFTb (b : Bool) (s : State) (t : Tree) : Prop :=
  WFTk s t ∧ (b = true → SqOK s t.addr t.owner t.subq)

/-- What `rogue` and `adopt` change: the `children_head` of `p` and the links of the nodes
of `L`. -/
structure LinkStep (s t : State) (p : Nat) (L : List Nat) : Prop where
  value : t.value = s.value
  rank : t.rank = s.rank
  sq : t.subqueue_head = s.subqueue_head
  ch : ∀ a, a ≠ p → t.children_head a = s.children_head a
  link : ∀ a, a ∉ L → SameLink s t a
  nodes : t.nodes = s.nodes
  heaps : t.heaps = s.heaps
  size : t.size = s.size
  root : t.root = s.root

/-- Every tree of the list is heap ordered and has a root value of at least `v`. -/
def KidsOrd (v : Int) (l : List Tree) : Prop := ∀ k ∈ l, v ≤ k.value ∧ HeapOrd k

/-! ### What the methods do to the tree -/

/-- Effect of `putNodeAmongChildren` on the children list. -/
def insertByRank (c : Tree) : List Tree → List Tree
  | [] => [c]
  | k :: l => if c.rank > k.rank then k :: insertByRank c l else c :: k :: l

/-- Effect of `adopt`. -/
def adoptT (p c : Tree) : Tree := p.setKids (insertByRank c p.kids)

/-- Effect of `min_of_3`. -/
def minOf3T (a b n : Tree) : Tree × Tree × Tree :=
  if a.value < b.value then
    if a.value < n.value then (a, b, n) else (n, a, b)
  else
    if b.value < n.value then (b, a, n) else (n, a, b)

/-- Effect of `getSmallestRankChildren` and `skewLink` on the children of the root and
the inserted node: what is left of the children, and the node to adopt. -/
def skewLinkT (kids : List Tree) (n : Tree) : List Tree × Tree :=
  match kids with
  | a :: b :: rest =>
    if a.rank ≠ b.rank then (kids, n)
    else
      let m := minOf3T a b n
      (rest, (adoptT (adoptT m.1 m.2.1) m.2.2).setRank (a.rank + 1))
  | _ => (kids, n)

/-- Effect of `insert_skew`. -/
def insert_skewT (R n : Tree) : Tree :=
  R.setKids (insertByRank (skewLinkT R.kids n).2 (skewLinkT R.kids n).1)

/-- Effect of `simpleLink`. -/
def simpleLinkT (e n : Tree) : Tree :=
  if e.value < n.value then (adoptT e n).setRank (e.rank + 1)
  else (adoptT n e).setRank (n.rank + 1)

/-- Remove the tree with root `a` from a list. -/
def eraseAddr (a : Nat) (l : List Tree) : List Tree := l.filter fun k => decide (k.addr ≠ a)

/-- Effect of `getSameRankChild`. -/
def findRank (r : Int) (l : List Tree) : Option Tree := l.find? fun k => decide (k.rank = r)

/-- New root after `swapWithRoot`. -/
def swapNew (R x : Tree) : Tree :=
  x.setKids (R.kids.foldl (fun acc k => insertByRank k acc) x.kids)

/-- Old root after `swapWithRoot`. -/
def swapOld (R : Tree) : Tree := Tree.node R.addr R.value 0 [] R.own R.subq

/-- Effect of `insert` on a non-empty queue with root tree `R`; `none` when the depth `n`
does not suffice. -/
def insertT : Nat → Tree → Tree → Option Tree
  | 0, _, _ => none
  | n + 1, R, x =>
    if x.value < R.value then insertT n (swapNew R x) (swapOld R)
    else if x.rank > 0 then
      match findRank x.rank R.kids with
      | none => some (adoptT R x)
      | some e => insertT n (R.setKids (eraseAddr e.addr R.kids)) (simpleLinkT e x)
    else some (insert_skewT R x)

/-- Effect of `insert` on a queue. -/
def insertH : Nat → Option Tree → Tree → Option Tree
  | 0, _, _ => none
  | _ + 1, none, x => some x
  | n + 1, some R, x => insertT (n + 1) R x

/-- Effect of `reInsertChildren`, and of `merge_subqueue` when no drained node becomes the
root. -/
def reinsT (n : Nat) : List Tree → Tree → Option Tree
  | [], R => some R
  | k :: l, R => (insertT n R k).bind (reinsT n l)

/-- The loop of `getMinChild`. -/
def minKidLoop (m : Tree) : List Tree → Tree
  | [] => m
  | c :: l => minKidLoop (if c.value < m.value then c else m) l

/-- Effect of `getMinChild`. -/
def minKid : List Tree → Option Tree
  | [] => none
  | h :: l => some (minKidLoop h l)

/-- The root node without its subqueue. -/
def strip (R : Tree) : Tree := Tree.node R.addr R.value R.rank R.kids none []

/-- Effect of `promoteToRoot`. -/
def promoteT (R m : Tree) : Tree := Tree.node R.addr m.value R.rank R.kids (some m.owner) m.subq

/-- Effect of `Pop` on a non-empty queue: the value returned and the tree left. -/
def popT (n : Nat) (R : Tree) : Option (Int × Option Tree) :=
  match reinsT n R.subq (strip R) with
  | none => none
  | some R1 =>
    match minKid R1.kids with
    | none => some (R.value, none)
    | some m =>
      match reinsT n m.kids (R1.setKids (eraseAddr m.addr R1.kids)) with
      | none => none
      | some R3 => some (R.value, some (promoteT R3 m))

/-- Effect of `moveChildrenToSubqueue`. -/
def moveT (B : Tree) : Tree := Tree.node B.addr B.value B.rank [] none B.kids

/-- The tree of a node just made by `newBONode`. -/
def leaf (a : Nat) (v : Int) : Tree := Tree.node a v 0 [] none []

/-- Addresses the tree of a queue depends on. -/
def fpO : Option Tree → Multiset Nat
  | none => 0
  | some R => fp R

/-- Keys held by a queue. -/
def keysO : Option Tree → Multiset Int
  | none => 0
  | some R => keys R

/-- Heap order of a queue. -/
def HeapOrdO : Option Tree → Prop
  | none => True
  | some R => HeapOrd R

/-- The queue `bq` is drawn by the state as the tree `T`: its root node stands alone, no
node occurs twice, and every node is allocated. -/
def HeapRep (s : State) (bq : Nat) : Option Tree → Prop
  | none => s.root bq = none
  | some R => s.root bq = some R.addr ∧ Detached s R.addr ∧ WFT s R ∧ (fp R).Nodup ∧
      ∀ a ∈ fp R, a < s.nodes

/-! ## Observing a queue

The package has no method that lists the keys of a queue.  `keysFrom` reads them off the
state by following `children_head`, `subqueue_head` and `rightsibling`, which is what
"reachable from `root`" means for this data structure. -/

/-- Values of the nodes reachable from a sibling list through `children_head`,
`subqueue_head` and `rightsibling`, the depth of the walk bounded by the first argument. -/
def keysFrom (s : State) : Nat → Option Nat → List Int
  | 0, _ => []
  | _ + 1, none => []
  | F + 1, some a =>
    s.value a :: (keysFrom s F (s.children_head a) ++ keysFrom s F (s.subqueue_head a)
      ++ keysFrom s F (s.rightsibling a))

/-- Values of the nodes reachable from the root of the queue `bq`. -/
def heapKeys (s : State) (bq : Nat) : List Int := keysFrom s (s.nodes + 1) (s.root bq)

/-- What the state `t`, reached from `s` by calls on the queue `bq` and on queues made
later, keeps of `s`: the nodes allocated in `s` outside `A`, and the other queues of `s`. -/
def Grow (s t : State) (A : Multiset Nat) (bq : Nat) : Prop :=
  (∀ a, a < s.nodes → a ∉ A → SameCore s t a ∧ SameLink s t a) ∧ s.nodes ≤ t.nodes ∧
    s.heaps ≤ t.heaps ∧ ∀ h, h < s.heaps → h ≠ bq → t.root h = s.root h ∧ t.size h = s.size h

/-- The root value after a node of value `v` is inserted into the queue. -/
def minO : Option Tree → Int → Int
  | none, v => v
  | some R, v => min R.value v

/-- The subqueue list of the root node of a queue. -/
def subqO : Option Tree → List Tree
  | none => []
  | some R => R.subq

/-! ## Test programs and call sequences -/

/-- boheap_test.go:368 `insert_mult`. -/
def insert_mult (bq : Nat) : List Int → M Unit
  | [] => pure ()
  | v :: l => do Insert bq v; insert_mult bq l

/-- The popping loop of the tests (boheap_test.go:209, 265, 321): `n` calls of `Pop`, the
values returned collected in order. -/
def popN (bq : Nat) : Nat → M (List Int)
  | 0 => pure []
  | n + 1 => do
    let pval ← Pop bq
    let rest ← popN bq n
    pure (pval :: rest)

/-- boheap_test.go:253 `Test_heapsort_shuffle_1`, for any list of values. -/
def heapsort (nums : List Int) : M (List Int) := do
  let heap ← NewBOHeap
  insert_mult heap nums
  popN heap nums.length

/-- boheap_test.go:329 `Test_merge_shuffle`, for any two lists of values: the size read
after the merge and the values popped. -/
def mergesort (s1 s2 : List Int) : M (Int × List Int) := do
  let h1 ← NewBOHeap
  let h2 ← NewBOHeap
  insert_mult h1 s1
  insert_mult h2 s2
  Merge h1 h2
  let size ← Size h1
  let out ← popN h1 (s1.length + s2.length)
  pure (size, out)

/-- A call on a queue. -/
inductive Op where
  | insert (value : Int)
  | pop

/-- Run the calls in order on the queue `bq`, collecting what the `Pop` calls return. -/
def runOps (bq : Nat) : List Op → M (List Int)
  | [] => pure []
  | .insert v :: l => do
    Insert bq v
    runOps bq l
  | .pop :: l => do
    let pval ← Pop bq
    let rest ← runOps bq l
    pure (pval :: rest)

/-- A fresh heap on which the calls are run: the heap and what the `Pop` calls return. -/
def session (ops : List Op) : M (Nat × List Int) := do
  let heap ← NewBOHeap
  let out ← runOps heap ops
  pure (heap, out)

/-- Values of the `Insert` calls. -/
def inserted : List Op → List Int
  | [] => []
  | .insert v :: l => v :: inserted l
  | .pop :: l => inserted l

/-- Number of `Pop` calls. -/
def pops : List Op → Nat
  | [] => 0
  | .insert _ :: l => pops l
  | .pop :: l => pops l + 1

/-- No `Pop` of the sequence is issued on an empty queue, for a queue that holds `n` keys
at the start. -/
def noPopOnEmpty : Nat → List Op → Bool
  | _, [] => true
  | n, .insert _ :: l => noPopOnEmpty (n + 1) l
  | n, .pop :: l => decide (0 < n) && noPopOnEmpty (n - 1) l

/-- A call in a program that works on several queues.  The queues are named by their
addresses, which `NewBOHeap` hands out in order. -/
inductive Cmd where
  | new
  | insert (bq : Nat) (value : Int)
  | pop (bq : Nat)
  | merge (bq other : Nat)

/-- Run one call, dropping what it returns. -/
def runCmd : Cmd → M Unit
  | .new => do
    let _ ← NewBOHeap
    pure ()
  | .insert bq value => Insert bq value
  | .pop bq => do
    let _ ← Pop bq
    pure ()
  | .merge bq other => Merge bq other

/-- Run the calls in order. -/
def runCmds : List Cmd → M Unit
  | [] => pure ()
  | c :: l => do
    runCmd c
    runCmds l

/-- The queues in use after the calls, given the queues in use and the number of queues
made before them: a queue is in use from its `NewBOHeap` until it is the argument of a
`Merge`, which consumes it.  The result is `none` when a call names a queue that is not in
use, or merges a queue into itself. -/
def inUse : List Nat → Nat → List Cmd → Option (List Nat)
  | L, _, [] => some L
  | L, n, .new :: l => inUse (n :: L) (n + 1) l
  | L, n, .insert bq _ :: l => if bq ∈ L then inUse L n l else none
  | L, n, .pop bq :: l => if bq ∈ L then inUse L n l else none
  | L, n, .merge bq other :: l =>
    if bq ∈ L ∧ other ∈ L ∧ bq ≠ other then inUse (L.erase other) n l else none

/-- Every queue in use is drawn by the state as a heap-ordered tree, and no two of them
share a node. -/
def World (t : State) (L : List Nat) : Prop :=
  L.Nodup ∧ ∃ tree : Nat → Option Tree,
    (∀ h ∈ L, h < t.heaps ∧ HeapRep t h (tree h) ∧ HeapOrdO (tree h)) ∧
    ∀ h ∈ L, ∀ k ∈ L, h ≠ k → ∀ x ∈ fpO (tree h), x ∉ fpO (tree k)

/-- The value a run returns, when it returns one. -/
def Res.val? {α : Type} : Res α → Option α
  | .ok a _ => some a
  | .fault _ => none
  | .timeout _ => none

/-- The state a run ends in. -/
def Res.state {α : Type} : Res α → State
  | .ok _ s => s
  | .fault s => s
  | .timeout s => s

/-- Run the calls, merge the queue `other` into the queue `bq`, and report the keys
reachable from the root of each before the merge, and the keys reachable and the size of
`bq` after it. -/
def mergeTrace (cmds : List Cmd) (bq other : Nat) :
    M (List Int × List Int × List Int × Int) := do
  runCmds cmds
  let before ← gets fun s => heapKeys s bq
  let obefore ← gets fun s => heapKeys s other
  Merge bq other
  let after ← gets fun s => heapKeys s bq
  let size ← Size bq
  pure (before, obefore, after, size)

/-- The largest value of an `int` of Go on a 64-bit platform, `math.MaxInt64`: adding 1 to
a smaller `int` does not wrap around. -/
def maxInt64 : Int := 9223372036854775807

/-! ## Observing the nodes of a queue -/

/-- Nodes reachable from a sibling list through `children_head`, `subqueue_head` and
`rightsibling`, the depth of the walk bounded by the first argument. -/
def nodesFrom (s : State) : Nat → Option Nat → List Nat
  | 0, _ => []
  | _ + 1, none => []
  | F + 1, some a =>
    a :: (nodesFrom s F (s.children_head a) ++ nodesFrom s F (s.subqueue_head a)
      ++ nodesFrom s F (s.rightsibling a))

/-- Nodes reachable from the root of the queue `bq`. -/
def heapNodes (s : State) (bq : Nat) : List Nat := nodesFrom s (s.nodes + 1) (s.root bq)

/-- Nodes reachable from a sibling list through `children_head` and `rightsibling`. -/
def treeFrom (s : State) : Nat → Option Nat → List Nat
  | 0, _ => []
  | _ + 1, none => []
  | F + 1, some a => a :: (treeFrom s F (s.children_head a) ++ treeFrom s F (s.rightsibling a))

/-- The node `x` together with its descendants through children lists. -/
def subtree (s : State) (x : Nat) : List Nat := x :: treeFrom s (s.nodes + 1) (s.children_head x)

/-- The children list of the node `x`. -/
def childrenOf (s : State) (x : Nat) : List Nat :=
  (walk s (s.nodes + 1) (s.children_head x)).getD []

/-- The loop of `rankOrdered` (boheap_test.go:425). -/
def rankOrderedLoop (s : State) : Nat → Nat → Option Nat → Option Bool
  | 0, _, _ => none
  | _ + 1, _, none => some true
  | F + 1, prev, some next =>
    if s.rank prev > s.rank next then some false
    else rankOrderedLoop s F next (s.rightsibling next)

/-- boheap_test.go:416 `rankOrdered`. -/
def rankOrdered (F : Nat) (parent : Option Nat) : M Bool := fun s =>
  match parent with
  | none => .ok true s
  | some p =>
    match s.children_head p with
    | none => .ok true s
    | some c =>
      match s.rightsibling c with
      | none => .ok true s
      | some n => orTimeout (rankOrderedLoop s F c (some n)) s

/-! ## Adoption in rank order -/

/-- The calls `p.adopt(n)` for the nodes of a list, in order (boheap_test.go:63, 100). -/
def adoptAll (F : Nat) (p : Nat) (nodes : List Nat) : M Unit := forEach (adopt F p) nodes

/-- Where the specification puts a node `o` in a children list `L`: immediately before the
first member whose rank is not smaller than its own, at the end if there is none. -/
def placeByRank (rank : Nat → Int) (o : Nat) (L : List Nat) : List Nat :=
  L.takeWhile (fun a => decide (rank o > rank a)) ++
    o :: L.dropWhile (fun a => decide (rank o > rank a))

/-- The children list the specification gives a childless node after it has adopted the
nodes of a list one after another. -/
def adoptedOrder (rank : Nat → Int) (nodes : List Nat) : List Nat :=
  nodes.foldl (fun L o => placeByRank rank o L) []

/-! ## The two sibling lists of a node -/

/-- The state with the children list and the subqueue list of every node exchanged. -/
def swapLists (s : State) : State :=
  { s with children_head := s.subqueue_head, subqueue_head := s.children_head }

/-- Apply a function to the state a run ends in. -/
def Res.mapState {α : Type} (f : State → State) : Res α → Res α
  | .ok a s => .ok a (f s)
  | .fault s => .fault (f s)
  | .timeout s => .timeout (f s)

/-- Check that the nodes of `L`, in this order, form a sibling list whose members name `p`
as parent. -/
def segCheck (s : State) (p : Nat) : List Nat → Bool
  | [] => true
  | a :: l =>
    decide (s.parent a = some p) && decide (s.rightsibling a = l.head?) &&
      (match l.head? with
        | none => true
        | some b => decide (s.leftsibling b = some a)) && segCheck s p l

mutual
/-- Check that the state draws the tree. -/
def wfCheck (s : State) : Tree → Bool
  | .node a v r kids own subq =>
    decide (s.value a = v) && decide (s.rank a = r) &&
    decide (s.children_head a = (roots kids).head?) && segCheck s a (roots kids) &&
    wfCheckL s kids &&
    decide (s.subqueue_head a = (roots subq).head?) &&
    decide (s.subqueue_head (own.getD a) = (roots subq).head?) &&
    segCheck s (own.getD a) (roots subq) && wfCheckL s subq
/-- Check that the state draws every tree of the list. -/
def wfCheckL (s : State) : List Tree → Bool
  | [] => true
  | t :: l => wfCheck s t && wfCheckL s l
end

instance (s : State) (a : Nat) : Decidable (Detached s a) :=
  inferInstanceAs (Decidable (s.parent a = none ∧ s.leftsibling a = none ∧
    s.rightsibling a = none))

/-- A node `0` with the children list `1, 2, 3`, and a node `4` with the subqueue list
`5, 6, 7`. -/
def siblingsState : State :=
  { State.init with
    nodes := 8
    children_head := fun a => if a = 0 then some 1 else none
    subqueue_head := fun a => if a = 4 then some 5 else none
    parent := fun a => if a = 1 ∨ a = 2 ∨ a = 3 then some 0
      else if a = 5 ∨ a = 6 ∨ a = 7 then some 4 else none
    rightsibling := fun a => if a = 1 ∨ a = 2 ∨ a = 5 ∨ a = 6 then some (a + 1) else none
    leftsibling := fun a => if a = 2 ∨ a = 3 ∨ a = 6 ∨ a = 7 then some (a - 1) else none }

/-- Five nodes `1, …, 5` standing alone, of ranks `1, 2, 3, 4, 4`, and a childless node
`0` (boheap_test.go:46). -/
def rankedState : State :=
  { State.init with nodes := 6, rank := fun a => if a = 5 then 4 else (a : Int) }

/-! ## Example queues -/

/-- The state after the keys 1, 2, 3 have been inserted into a fresh heap and a node with
the given value has been allocated: the root 0 holds 1 and has the children 2 (holding 3)
and 1 (holding 2), both of rank 0; the new node is 3. -/
def threeKeys (value : Int) : State :=
  ((do
    let heap ← NewBOHeap
    Insert heap 1
    Insert heap 2
    Insert heap 3
    let _ ← newBONode value
    pure () : M Unit) State.init).state

/-- The tree of the queue of `threeKeys`. -/
def threeKeysTree : Tree :=
  Tree.node 0 1 0 [Tree.node 2 3 0 [] none [], Tree.node 1 2 0 [] none []] none []

/-- A direct write to the field `rank` (boheap_test.go:279 `n1.rank = 3`). -/
def assignRank (a : Nat) (r : Int) : M Unit :=
  modify fun s => { s with rank := upd s.rank a r }

/-- The state of `Test_insert_binomial` (boheap_test.go:272) before its last call
`heap.insert(catalyst)`: the root 0 holds 0 and has the children 1, 2, 3, 4 holding 1, 2,
3, 4, of ranks 3, 4, 5, 6; the node 5, `catalyst`, holds 100, has rank 3 and stands
alone. -/
def binomialSetup : State :=
  ((do
    let heap ← NewBOHeap
    let n0 ← newBONode 0
    let n1 ← newBONode 1
    assignRank n1 3
    let n2 ← newBONode 2
    assignRank n2 4
    let n3 ← newBONode 3
    assignRank n3 5
    let n4 ← newBONode 4
    assignRank n4 6
    let catalyst ← newBONode 100
    assignRank catalyst 3
    insert 8 heap n0
    insert 8 heap n1
    insert 8 heap n2
    insert 8 heap n3
    insert 8 heap n4 : M Unit) State.init).state

/-- The tree of the queue of `binomialSetup`. -/
def binomialTree : Tree :=
  Tree.node 0 0 0 [Tree.node 1 1 3 [] none [], Tree.node 2 2 4 [] none [],
    Tree.node 3 3 5 [] none [], Tree.node 4 4 6 [] none []] none []

/-- The node `catalyst` of `binomialSetup`. -/
def catalyst : Tree := Tree.node 5 100 3 [] none []

/-- A queue holding 1 takes over a queue holding 2 and 3, and pops once: the node that
held 2 has been promoted, and the root 0 has its subqueue list, the node 2, whose parent
is still node 1. -/
def promotedProgram : List Cmd :=
  [.new, .insert 0 1, .new, .insert 1 2, .insert 1 3, .merge 0 1, .pop 0]

/-- The state after `promotedProgram`. -/
def promotedState : State := (runCmds promotedProgram State.init).state

/-! ## The cascade of `insert_binomial` -/

/-- The node the cascade of `insert_binomial` builds from the node `x` and the children
`es` of the root it meets, in this order. -/
def carryT (es : List Tree) (x : Tree) : Tree := es.foldl (fun acc e => simpleLinkT e acc) x

open Tree

/-! ## The nodes of a tree, and the rank invariants -/

namespace Tree

mutual
/-- The trees of a node and of its descendants through children lists, in the order
`treeFrom` visits them. -/
def descs : Tree → List Tree
  | node a v r kids own subq => node a v r kids own subq :: descsL kids
/-- The trees of the nodes of a children list and of their descendants. -/
def descsL : List Tree → List Tree
  | [] => []
  | t :: l => descs t ++ descsL l
end

mutual
/-- The trees of a node and of all nodes below it, through children lists and subqueue
lists, in the order `nodesFrom` visits them. -/
def subs : Tree → List Tree
  | node a v r kids own subq => node a v r kids own subq :: (subsL kids ++ subsL subq)
/-- The trees of the nodes of a sibling list and of all nodes below them. -/
def subsL : List Tree → List Tree
  | [] => []
  | t :: l => subs t ++ subsL l
end

/-- Number of nodes of a tree through children lists. -/
def size (t : Tree) : Nat := (descs t).length

end Tree

/-- Rank invariants of a tree: at every node, below it through children lists and subqueue
lists, the children list is sorted by rank, the rank is not negative, and two to the power
of the rank is at most the number of nodes of the node and its descendants through children
lists. -/
inductive Shape : Tree → Prop
  | mk (a : Nat) (v r : Int) (kids : List Tree) (own : Option Nat) (subq : List Tree) :
      (kids.map Tree.rank).Sorted (· ≤ ·) → 0 ≤ r →
      2 ^ r.toNat ≤ (Tree.node a v r kids own subq).size →
      (∀ k ∈ kids, Shape k) → (∀ k ∈ subq, Shape k) →
      Shape (Tree.node a v r kids own subq)

/-- Rank invariants of a queue: those of its tree, and the root has rank 0. -/
def ShapeO : Option Tree → Prop
  | none => True
  | some R => Shape R ∧ R.rank = 0

/-- Every queue in use is drawn by the state as a heap-ordered tree with the rank
invariants that holds no more keys than the queue counts, and no two of them share a
node. -/
def WorldR (t : State) (L : List Nat) : Prop :=
  L.Nodup ∧ ∃ tree : Nat → Option Tree,
    (∀ h ∈ L, h < t.heaps ∧ HeapRep t h (tree h) ∧ HeapOrdO (tree h) ∧ ShapeO (tree h) ∧
      (Multiset.card (keysO (tree h)) : Int) ≤ t.size h) ∧
    ∀ h ∈ L, ∀ k ∈ L, h ≠ k → ∀ x ∈ fpO (tree h), x ∉ fpO (tree k)

/-- A program on two queues: seven keys go into queue 0, which is popped; two keys go into
queue 1, which queue 0 takes over; queue 0 is popped again. -/
def exampleProgram : List Cmd :=
  [.new, .insert 0 1, .insert 0 2, .insert 0 3, .insert 0 4, .insert 0 5, .insert 0 6,
    .insert 0 7, .pop 0, .new, .insert 1 4, .insert 1 9, .merge 0 1, .pop 0]

open Tree

/-! ## Heaps built by `Insert` only -/

/-- A queue holding 1, and a queue with nothing in it. -/
def emptyArgumentState : State := (runCmds [.new, .insert 0 1, .new] State.init).state

/-- A program that leaves two queues in use: queue 0 holds 1, 2, 3, 4 and queue 1 holds 5,
6, 7. -/
def twoQueuesProgram : List Cmd :=
  [.new, .insert 0 1, .insert 0 2, .insert 0 3, .insert 0 4, .new, .insert 1 5, .insert 1 6,
    .insert 1 7]

/-- Skew-binary canonical form of a sequence of ranks: the ranks do not decrease and, from
the second on, increase strictly; so only the first two may be equal. -/
def skewCanonical (l : List Int) : Prop := l.Sorted (· ≤ ·) ∧ l.tail.Sorted (· < ·)

/-- The ranks of the children of the root of the queue `bq`, read from `children_head`;
empty when the queue has no root. -/
def rootRanks (s : State) (bq : Nat) : List Int :=
  match s.root bq with
  | none => []
  | some r => (childrenOf s r).map s.rank

/-- A fresh heap built by `Insert` calls only: `NewBOHeap` and then `insert_mult`
(boheap_test.go:368). -/
def buildHeap (xs : List Int) : M Nat := do
  let heap ← NewBOHeap
  insert_mult heap xs
  pure heap

/-- The calls `Insert` (boheap.go:37) makes when the branch of `insert` (boheap.go:127)
for a node of rank above 0 is left out, both for the new node and for the old root after
`swapWithRoot`: no call of `insert_binomial`, hence none of `simpleLink`, and one call of
`insert_skew`, hence at most one of `skewLink`. -/
def Insert_skewOnly (bq : Nat) (value : Int) : M Unit := do
  let newnode ← newBONode value
  modify fun s => { s with size := upd s.size bq (s.size bq + 1) }
  let F ← gets fuel
  match (← gets fun s => s.root bq) with
  | none => modify fun s => { s with root := upd s.root bq (some newnode) }
  | some r =>
    if (← gets fun s => decide (s.value newnode < s.value r)) then
      let oldroot ← swapWithRoot F bq newnode
      insert_skew F bq oldroot
    else
      insert_skew F bq newnode

/-- The children of the root of a queue have ranks in skew-binary canonical form, none
negative. -/
def CanonO : Option Tree → Prop
  | none => True
  | some R => skewCanonical (R.kids.map Tree.rank) ∧ ∀ k ∈ R.kids, 0 ≤ k.rank

/-! ## States in the middle of `Insert` and `Merge` -/

/-- The state after `newBONode value` and the size update of `Insert`. -/
def afterNew (s : State) (bq : Nat) (v : Int) : State :=
  { s with
    value := upd s.value s.nodes v
    subqueue_head := upd s.subqueue_head s.nodes none
    children_head := upd s.children_head s.nodes none
    parent := upd s.parent s.nodes none
    rightsibling := upd s.rightsibling s.nodes none
    leftsibling := upd s.leftsibling s.nodes none
    rank := upd s.rank s.nodes 0
    nodes := s.nodes + 1
    size := upd s.size bq (s.size bq + 1) }

/-- The state after the size update and `moveChildrenToSubqueue` of `Merge`. -/
def afterMove (s : State) (bq other a : Nat) : State :=
  { s with
    size := upd s.size bq (s.size bq + s.size other)
    subqueue_head := upd s.subqueue_head a (s.children_head a)
    children_head := upd s.children_head a none }

/-! # Theorems -/

/-! ### Field maps and sequencing -/

@[simp] theorem upd_same {β : Type} (f : Nat → β) (a : Nat) (b : β) : upd f a b a = b := by
  simp [upd]

theorem upd_ne {β : Type} (f : Nat → β) {a x : Nat} (b : β) (h : x ≠ a) : upd f a b x = f x := by
  simp [upd, h]

theorem upd_apply {β : Type} (f : Nat → β) (a x : Nat) (b : β) :
    upd f a b x = if x = a then b else f x := rfl

@[simp] theorem bind_run {α β : Type} (m : M α) (f : α → M β) (s : State) :
    (m >>= f) s = M.bind m f s := rfl

@[simp] theorem pure_run {α : Type} (a : α) (s : State) : (pure a : M α) s = .ok a s := rfl

theorem bind_ok {α β : Type} {m : M α} {f : α → M β} {s s1 : State} {a : α}
    (h : m s = .ok a s1) : M.bind m f s = f a s1 := by
  simp [M.bind, h]

theorem bind_ok' {α β : Type} {m : M α} {f : α → M β} {s s1 : State} {a : α}
    (h : m s = .ok a s1) : (m >>= f) s = f a s1 := by
  simp [M.bind, h]

@[simp] theorem gets_run {α : Type} (f : State → α) (s : State) : gets f s = .ok (f s) s := rfl

@[simp] theorem modify_run (f : State → State) (s : State) : modify f s = .ok () (f s) := rfl

@[simp] theorem deref_some (a : Nat) (s : State) : deref (some a) s = .ok a s := rfl

@[simp] theorem deref_none (s : State) : deref none s = .fault s := rfl

@[simp] theorem orTimeout_some {α : Type} (a : α) (s : State) : orTimeout (some a) s = .ok a s := rfl

@[simp] theorem bind_gets {α β : Type} (g : State → α) (f : α → M β) (s : State) :
    M.bind (gets g) f s = f (g s) s := rfl

@[simp] theorem bind_modify {β : Type} (g : State → State) (f : Unit → M β) (s : State) :
    M.bind (modify g) f s = f () (g s) := rfl

@[simp] theorem bind_deref_some {β : Type} (a : Nat) (f : Nat → M β) (s : State) :
    M.bind (deref (some a)) f s = f a s := rfl

@[simp] theorem bind_pure {α β : Type} (a : α) (f : α → M β) (s : State) :
    M.bind (pure a) f s = f a s := rfl

theorem gets_bind' {α β : Type} (g : State → α) (f : α → M β) (s : State) :
    (gets g >>= f) s = f (g s) s := rfl

theorem modify_bind' {β : Type} (g : State → State) (f : Unit → M β) (s : State) :
    (modify g >>= f) s = f () (g s) := rfl

theorem deref_bind' {β : Type} (a : Nat) (f : Nat → M β) (s : State) :
    (deref (some a) >>= f) s = f a s := rfl

theorem pure_bind' {α β : Type} (a : α) (f : α → M β) (s : State) :
    (pure a >>= f) s = f a s := rfl

/-! ### Sibling lists -/

@[simp] theorem seg_nil (s : State) (p : Nat) : Seg s p [] := by
  simp [Seg]

theorem seg_cons (s : State) (p a : Nat) (l : List Nat) :
    Seg s p (a :: l) ↔ s.parent a = some p ∧ s.rightsibling a = l.head? ∧
      (∀ b ∈ l.head?, s.leftsibling b = some a) ∧ Seg s p l := by
  cases l with
  | nil => simp [Seg]
  | cons b l =>
    simp only [Seg, List.mem_cons, forall_eq_or_imp, List.chain'_cons, Lnk, List.head?_cons,
      Option.mem_def, Option.some.injEq, forall_eq', List.getLast?_cons_cons]
    tauto

theorem Seg.congr_seg {s t : State} {p : Nat} {L : List Nat} (h : Seg s p L)
    (hp : ∀ a ∈ L, t.parent a = s.parent a) (hr : ∀ a ∈ L, t.rightsibling a = s.rightsibling a)
    (hl : ∀ a ∈ L.tail, t.leftsibling a = s.leftsibling a) : Seg t p L := by
  induction L with
  | nil => simp
  | cons a l ih =>
    rw [seg_cons] at h ⊢
    obtain ⟨h1, h2, h3, h4⟩ := h
    refine ⟨by rw [hp a (by simp), h1], by rw [hr a (by simp), h2], ?_, ?_⟩
    · intro b hb
      rw [hl b (by cases l <;> simp_all), h3 b hb]
    · apply ih h4
      · intro x hx; exact hp x (by simp [hx])
      · intro x hx; exact hr x (by simp [hx])
      · intro x hx; exact hl x (by simpa using List.mem_of_mem_tail hx)

theorem Seg.parent_eq {s : State} {p : Nat} {L : List Nat} (h : Seg s p L) {a : Nat} (ha : a ∈ L) :
    s.parent a = some p := h.1 a ha

/-- Following `rightsibling` from the head of a sibling list visits the list. -/
theorem walk_seg (s : State) (p : Nat) (L : List Nat) (F : Nat) (h : Seg s p L)
    (hF : L.length < F) : walk s F L.head? = some L := by
  induction L generalizing F with
  | nil => cases F with
    | zero => omega
    | succ F => simp [walk]
  | cons a l ih =>
    cases F with
    | zero => simp at hF
    | succ F =>
      rw [seg_cons] at h
      simp only [List.head?_cons, walk, h.2.1]
      rw [ih F h.2.2.2 (by simpa using hF)]
      rfl

theorem getLast?_cons_ne {a x : Nat} {l : List Nat} (hx : x ≠ a) (h : x ∉ l.getLast?) :
    x ∉ (a :: l).getLast? := by
  cases l with
  | nil => simpa using fun e : a = x => hx e.symm
  | cons b l => simpa [List.getLast?_cons_cons] using h

theorem mem_getLast?_cons {a x : Nat} {l : List Nat} (h : x ∈ l.getLast?) :
    x ∈ (a :: l).getLast? := by
  cases l with
  | nil => simp at h
  | cons b l => simpa [List.getLast?_cons_cons] using h

theorem head?_mem_tail_false {a : Nat} {l : List Nat} (hn : l.Nodup) (h : a ∈ l.tail) :
    a ∉ l.head? := by
  cases l with
  | nil => simp
  | cons b l =>
    simp only [List.tail_cons] at h
    simp only [List.head?_cons, Option.mem_def, Option.some.injEq]
    rintro rfl
    exact (List.nodup_cons.1 hn).1 h

/-- Unlinking `c` from a sibling list. -/
theorem seg_remove {s t : State} {p : Nat} (l1 : List Nat) (c : Nat) (l2 : List Nat)
    (h : Seg s p (l1 ++ c :: l2)) (hn : (l1 ++ c :: l2).Nodup)
    (hp : ∀ a ∈ l1 ++ l2, t.parent a = s.parent a)
    (hr : ∀ a ∈ l1 ++ l2, a ∉ l1.getLast? → t.rightsibling a = s.rightsibling a)
    (hrl : ∀ a ∈ l1.getLast?, t.rightsibling a = l2.head?)
    (hl : ∀ a ∈ l1 ++ l2, (l1 ≠ [] → a ∉ l2.head?) → t.leftsibling a = s.leftsibling a)
    (hll : ∀ a ∈ l1.getLast?, ∀ b ∈ l2.head?, t.leftsibling b = some a) :
    Seg t p (l1 ++ l2) := by
  induction l1 with
  | nil =>
    simp only [List.nil_append] at h hn hp hr hl ⊢
    rw [seg_cons] at h
    exact h.2.2.2.congr_seg hp (fun a ha => hr a ha (by simp))
      (fun a ha => hl a (List.mem_of_mem_tail ha) (by simp))
  | cons x l1 ih =>
    simp only [List.cons_append] at h hn ⊢
    rw [seg_cons] at h ⊢
    obtain ⟨h1, h2, h3, h4⟩ := h
    have hn1 := List.nodup_cons.1 hn
    have hxm : ∀ a ∈ l1 ++ l2, a ≠ x := by
      intro a ha e
      subst e
      apply hn1.1
      simp only [List.mem_append, List.mem_cons] at ha ⊢
      tauto
    have hd : ∀ a ∈ l1, a ∉ l2.head? := by
      intro a ha hb
      have := List.mem_of_mem_head? hb
      have hn2 := hn1.2
      rw [List.nodup_append] at hn2
      exact hn2.2.2 ha (List.mem_cons_of_mem _ this)
    cases l1 with
    | nil =>
      simp only [List.nil_append] at h4 hxm ⊢
      rw [seg_cons] at h4
      refine ⟨by rw [hp x (by simp), h1], by simpa using hrl x (by simp), ?_, ?_⟩
      · intro b hb
        exact hll x (by simp) b hb
      · apply h4.2.2.2.congr_seg
        · intro a ha; exact hp a (by simp [ha])
        · intro a ha
          apply hr a (by simp [ha])
          simpa using fun e : x = a => hxm a ha e.symm
        · intro a ha
          apply hl a (by simp [List.mem_of_mem_tail ha])
          intro _
          have hn3 : l2.Nodup := (List.nodup_cons.1 hn1.2).2
          exact head?_mem_tail_false hn3 ha
    | cons y l1 =>
      refine ⟨by rw [hp x (by simp), h1], ?_, ?_, ?_⟩
      · rw [hr x (by simp)]
        · simpa using h2
        · simp only [List.getLast?_cons_cons]
          intro hx
          have := List.mem_of_mem_getLast? hx
          exact hn1.1 (by simp only [List.mem_append]; exact Or.inl this)
      · intro b hb
        simp only [List.cons_append, List.head?_cons, Option.mem_def, Option.some.injEq] at hb
        subst hb
        rw [hl y (by simp) (fun _ => hd y (by simp))]
        exact h3 y (by simp)
      · apply ih h4 hn1.2
        · intro a ha; exact hp a (List.mem_cons_of_mem _ ha)
        · intro a ha hla
          apply hr a (List.mem_cons_of_mem _ ha)
          exact getLast?_cons_ne (hxm a ha) hla
        · intro a ha; exact hrl a (mem_getLast?_cons ha)
        · intro a ha hc
          apply hl a (List.mem_cons_of_mem _ ha)
          intro _
          exact hc (by simp)
        · intro a ha; exact hll a (mem_getLast?_cons ha)

/-- Linking `o` into a sibling list between `l1` and `l2`. -/
theorem seg_insert {s t : State} {p : Nat} (l1 : List Nat) (o : Nat) (l2 : List Nat)
    (h : Seg s p (l1 ++ l2)) (hn : (l1 ++ o :: l2).Nodup)
    (hpo : t.parent o = some p)
    (hp : ∀ a ∈ l1 ++ l2, t.parent a = s.parent a)
    (hr : ∀ a ∈ l1 ++ l2, a ∉ l1.getLast? → t.rightsibling a = s.rightsibling a)
    (hrl : ∀ a ∈ l1.getLast?, t.rightsibling a = some o)
    (hro : t.rightsibling o = l2.head?)
    (hl : ∀ a ∈ l1 ++ l2, a ∉ l2.head? → t.leftsibling a = s.leftsibling a)
    (hlo : ∀ b ∈ l2.head?, t.leftsibling b = some o)
    (hol : ∀ a ∈ l1.getLast?, t.leftsibling o = some a) :
    Seg t p (l1 ++ o :: l2) := by
  induction l1 with
  | nil =>
    simp only [List.nil_append] at h hn hp hr hl ⊢
    rw [seg_cons]
    refine ⟨hpo, hro, hlo, ?_⟩
    apply h.congr_seg hp (fun a ha => hr a ha (by simp))
    intro a ha
    exact hl a (List.mem_of_mem_tail ha) (head?_mem_tail_false (List.nodup_cons.1 hn).2 ha)
  | cons x l1 ih =>
    simp only [List.cons_append] at h hn ⊢
    rw [seg_cons] at h ⊢
    obtain ⟨h1, h2, h3, h4⟩ := h
    have hn1 := List.nodup_cons.1 hn
    have hxm : ∀ a ∈ l1 ++ l2, a ≠ x := by
      intro a ha e
      subst e
      apply hn1.1
      simp only [List.mem_append, List.mem_cons] at ha ⊢
      tauto
    have hd : ∀ a ∈ l1, a ∉ l2.head? := by
      intro a ha hb
      have := List.mem_of_mem_head? hb
      have hn2 := hn1.2
      rw [List.nodup_append] at hn2
      exact hn2.2.2 ha (List.mem_cons_of_mem _ this)
    have hxh : x ∉ l2.head? := by
      intro hb
      have := List.mem_of_mem_head? hb
      apply hn1.1
      simp only [List.mem_append, List.mem_cons]
      tauto
    refine ⟨by rw [hp x (by simp), h1], ?_, ?_, ?_⟩
    · cases l1 with
      | nil => simpa using hrl x (by simp)
      | cons y l1 =>
        rw [hr x (by simp)]
        · simpa using h2
        · simp only [List.getLast?_cons_cons]
          intro hx
          have := List.mem_of_mem_getLast? hx
          exact hn1.1 (by simp only [List.mem_append]; exact Or.inl this)
    · cases l1 with
      | nil =>
        intro b hb
        simp only [List.nil_append, List.head?_cons, Option.mem_def, Option.some.injEq] at hb
        subst hb
        exact hol x (by simp)
      | cons y l1 =>
        intro b hb
        simp only [List.cons_append, List.head?_cons, Option.mem_def, Option.some.injEq] at hb
        subst hb
        rw [hl y (by simp) (hd y (by simp))]
        exact h3 y (by simp)
    · apply ih h4 hn1.2
      · intro a ha; exact hp a (List.mem_cons_of_mem _ ha)
      · intro a ha hla
        apply hr a (List.mem_cons_of_mem _ ha)
        exact getLast?_cons_ne (hxm a ha) hla
      · intro a ha; exact hrl a (mem_getLast?_cons ha)
      · intro a ha hc; exact hl a (List.mem_cons_of_mem _ ha) hc
      · intro a ha; exact hol a (mem_getLast?_cons ha)

/-- The scanning loop of `putNodeAmongChildren` stops between the children of smaller rank
and the others. -/
theorem scanRank_seg (s : State) (p : Nat) (r : Int) (L : List Nat) (F : Nat) (prev : Option Nat)
    (h : Seg s p L) (hF : L.length < F) :
    scanRank s r F prev L.head? =
      some (((L.takeWhile fun a => decide (r > s.rank a)).getLast?).or prev,
        (L.dropWhile fun a => decide (r > s.rank a)).head?) := by
  induction L generalizing F prev with
  | nil => cases F with
    | zero => omega
    | succ F => simp [scanRank]
  | cons a l ih =>
    cases F with
    | zero => simp at hF
    | succ F =>
      rw [seg_cons] at h
      simp only [List.head?_cons, scanRank, h.2.1]
      by_cases hr : r > s.rank a
      · rw [if_pos hr, ih F (some a) h.2.2.2 (by simpa using hF)]
        simp only [List.takeWhile_cons, hr, decide_True, ite_true, List.dropWhile_cons]
        congr 2
        cases hq : (List.takeWhile (fun a => decide (r > s.rank a)) l) with
        | nil => simp
        | cons b l3 =>
          obtain ⟨z, hz⟩ : ∃ z, (b :: l3).getLast? = some z :=
            ⟨_, List.getLast?_eq_getLast _ (by simp)⟩
          simp [List.getLast?_cons_cons, hz]
      · rw [if_neg hr]
        simp [List.takeWhile_cons, hr, List.dropWhile_cons]

/-- The loop of `getSameRankChild` finds the first child of the rank asked for. -/
theorem sameRankLoop_seg (s : State) (p : Nat) (r : Int) (L : List Nat) (F : Nat)
    (h : Seg s p L) (hF : L.length < F) :
    sameRankLoop s r F L.head? = some (L.find? fun a => decide (s.rank a = r)) := by
  induction L generalizing F with
  | nil => cases F with
    | zero => omega
    | succ F => simp [sameRankLoop]
  | cons a l ih =>
    cases F with
    | zero => simp at hF
    | succ F =>
      rw [seg_cons] at h
      simp only [List.head?_cons, sameRankLoop, h.2.1]
      by_cases hr : s.rank a = r
      · simp [hr]
      · rw [if_neg hr, ih F h.2.2.2 (by simpa using hF)]
        simp [List.find?_cons, hr]

theorem minLoop_seg (s : State) (p : Nat) (m b : Nat) (L : List Nat) (F : Nat)
    (h : Seg s p (b :: L)) (hF : L.length < F) :
    minLoop s F m (s.rightsibling b) = some (minAddrLoop s m L) := by
  induction L generalizing F m b with
  | nil =>
    rw [seg_cons] at h
    cases F with
    | zero => omega
    | succ F => simp [minLoop, h.2.1, minAddrLoop]
  | cons a l ih =>
    cases F with
    | zero => simp at hF
    | succ F =>
      rw [seg_cons] at h
      simp only [h.2.1, List.head?_cons, minLoop, minAddrLoop]
      exact ih _ a F h.2.2.2 (by simpa using hF)

/-! ### Footprints -/

@[simp] theorem fpL_nil : fpL [] = 0 := by simp [fpL]

@[simp] theorem fpL_cons (t : Tree) (l : List Tree) : fpL (t :: l) = fp t + fpL l := by
  simp [fpL]

@[simp] theorem fpL_append (l1 l2 : List Tree) : fpL (l1 ++ l2) = fpL l1 + fpL l2 := by
  induction l1 with
  | nil => simp
  | cons a l ih => simp [ih, add_assoc]

theorem fp_eq (t : Tree) :
    fp t = t.addr ::ₘ ((t.own.toList : Multiset Nat) + (fpL t.kids + fpL t.subq)) := by
  cases t; simp [fp, Tree.addr, Tree.own, Tree.kids, Tree.subq]

@[simp] theorem keysL_nil : keysL [] = 0 := by simp [keysL]

@[simp] theorem keysL_cons (t : Tree) (l : List Tree) : keysL (t :: l) = keys t + keysL l := by
  simp [keysL]

@[simp] theorem keysL_append (l1 l2 : List Tree) : keysL (l1 ++ l2) = keysL l1 + keysL l2 := by
  induction l1 with
  | nil => simp
  | cons a l ih => simp [ih, add_assoc]

theorem keys_eq (t : Tree) : keys t = t.value ::ₘ (keysL t.kids + keysL t.subq) := by
  cases t; simp [keys, Tree.value, Tree.kids, Tree.subq]

theorem addr_mem_fp (t : Tree) : t.addr ∈ fp t := by
  rw [fp_eq]; simp

theorem fp_le_fpL {k : Tree} {l : List Tree} (h : k ∈ l) : fp k ≤ fpL l := by
  induction l with
  | nil => simp at h
  | cons a l ih =>
    rcases List.mem_cons.1 h with rfl | h
    · simp
    · exact (ih h).trans (by simp)

theorem mem_fpL {k : Tree} {l : List Tree} {a : Nat} (h : k ∈ l) (ha : a ∈ fp k) : a ∈ fpL l :=
  Multiset.mem_of_le (fp_le_fpL h) ha

theorem mem_fpL_iff {l : List Tree} {a : Nat} : a ∈ fpL l ↔ ∃ k ∈ l, a ∈ fp k := by
  induction l with
  | nil => simp
  | cons b l ih => simp [ih]

theorem kids_le_fp (t : Tree) : fpL t.kids ≤ fp t := by
  rw [fp_eq]
  refine le_trans ?_ (Multiset.le_cons_self _ _)
  exact le_trans (Multiset.le_add_right _ _) (Multiset.le_add_left _ _)

theorem subq_le_fp (t : Tree) : fpL t.subq ≤ fp t := by
  rw [fp_eq]
  refine le_trans ?_ (Multiset.le_cons_self _ _)
  exact le_trans (Multiset.le_add_left _ _) (Multiset.le_add_left _ _)

theorem owner_mem_fp (t : Tree) : t.owner ∈ fp t := by
  rw [fp_eq]
  unfold Tree.owner
  cases t.own <;> simp

theorem roots_mem_fpL {l : List Tree} {a : Nat} (h : a ∈ roots l) : a ∈ fpL l := by
  obtain ⟨k, hk, rfl⟩ := List.mem_map.1 h
  exact mem_fpL hk (addr_mem_fp k)

theorem count_roots_le (l : List Tree) (a : Nat) : (roots l).count a ≤ (fpL l).count a := by
  induction l with
  | nil => simp [roots]
  | cons k l ih =>
    simp only [roots, List.map_cons, fpL_cons, Multiset.count_add, List.count_cons] at ih ⊢
    have : (if k.addr = a then 1 else 0) ≤ (fp k).count a := by
      split
      · rename_i h
        subst h
        exact Multiset.count_pos.2 (addr_mem_fp k)
      · omega
    simp only [beq_iff_eq]
    omega

theorem nodup_roots {l : List Tree} (h : (fpL l).Nodup) : (roots l).Nodup := by
  rw [List.nodup_iff_count_le_one]
  intro a
  exact (count_roots_le l a).trans (Multiset.nodup_iff_count_le_one.1 h a)

/-! ### Well-formed trees -/

theorem WFT_iff (s : State) (t : Tree) : WFT s t ↔ WFTk s t ∧ SqOK s t.addr t.owner t.subq := by
  constructor
  · intro h
    cases h with
    | mk a v r kids own subq h1 h2 h3 h4 h5 h6 => exact ⟨⟨h1, h2, h3, h4, h6⟩, h5⟩
  · rintro ⟨⟨h1, h2, h3, h4, h6⟩, h5⟩
    cases t
    exact WFT.mk _ _ _ _ _ _ h1 h2 h3 h4 h5 h6

theorem WFTb_true (s : State) (t : Tree) : WFTb true s t ↔ WFT s t := by
  simp [WFTb, WFT_iff]

theorem WFTb.k {b : Bool} {s : State} {t : Tree} (h : WFTb b s t) : WFTk s t := h.1

theorem KidsOK.congr_kids {s t : State} {a : Nat} {kids : List Tree} (h : KidsOK s a kids)
    (hc : t.children_head a = s.children_head a) (hl : ∀ x ∈ roots kids, SameLink s t x) :
    KidsOK t a kids :=
  ⟨by rw [hc, h.1], h.2.congr_seg (fun x hx => (hl x hx).1) (fun x hx => (hl x hx).2.2)
    (fun x hx => (hl x (List.mem_of_mem_tail hx)).2.1)⟩

theorem SqOK.congr_sq {s t : State} {a o : Nat} {subq : List Tree} (h : SqOK s a o subq)
    (ha : t.subqueue_head a = s.subqueue_head a) (ho : t.subqueue_head o = s.subqueue_head o)
    (hl : ∀ x ∈ roots subq, SameLink s t x) : SqOK s a o subq → SqOK t a o subq := fun _ =>
  ⟨by rw [ha, h.1], by rw [ho, h.2.1], h.2.2.congr_seg (fun x hx => (hl x hx).1)
    (fun x hx => (hl x hx).2.2) (fun x hx => (hl x (List.mem_of_mem_tail hx)).2.1)⟩

theorem inner_mem_fp {x : Tree} {a : Nat} (h : a ∈ fpL x.kids + fpL x.subq) : a ∈ fp x := by
  rw [fp_eq]
  simp only [Multiset.mem_cons, Multiset.mem_add] at h ⊢
  exact Or.inr (Or.inr h)

theorem kid_mem_fp {x k : Tree} {a : Nat} (hk : k ∈ x.kids) (h : a ∈ fp k) : a ∈ fp x :=
  Multiset.mem_of_le (kids_le_fp x) (mem_fpL hk h)

theorem subq_mem_fp {x k : Tree} {a : Nat} (hk : k ∈ x.subq) (h : a ∈ fp k) : a ∈ fp x :=
  Multiset.mem_of_le (subq_le_fp x) (mem_fpL hk h)

/-- A tree stays drawn when the fields of its nodes stay, the links of its root node apart. -/
theorem WFT.congr_wft {s t : State} {x : Tree} (h : WFT s x)
    (hc : ∀ a ∈ fp x, SameCore s t a) (hl : ∀ a ∈ fpL x.kids + fpL x.subq, SameLink s t a) :
    WFT t x := by
  induction h with
  | mk a v r kids own subq h1 h2 h3 h4 h5 h6 ih4 ih6 =>
    simp only [Tree.kids, Tree.subq, Multiset.mem_add] at hl
    have hca := hc a (by simp [fp])
    have hco := hc (own.getD a) (by cases own <;> simp [fp])
    refine WFT.mk _ _ _ _ _ _ (by rw [hca.1, h1]) (by rw [hca.2.1, h2]) ?_ ?_ ?_ ?_
    · exact h3.congr_kids hca.2.2.1 fun x hx => hl x (Or.inl (roots_mem_fpL hx))
    · intro k hk
      apply ih4 k hk
      · intro b hb
        exact hc b (kid_mem_fp (x := Tree.node a v r kids own subq) hk hb)
      · intro b hb
        exact hl b (Or.inl (mem_fpL hk (inner_mem_fp hb)))
    · exact h5.congr_sq hca.2.2.2 hco.2.2.2 (fun x hx => hl x (Or.inr (roots_mem_fpL hx))) h5
    · intro k hk
      apply ih6 k hk
      · intro b hb
        exact hc b (subq_mem_fp (x := Tree.node a v r kids own subq) hk hb)
      · intro b hb
        exact hl b (Or.inr (mem_fpL hk (inner_mem_fp hb)))

/-- A tree stays drawn when none of its nodes is touched. -/
theorem WFT.frame_wft {s t : State} {x : Tree} {A : Multiset Nat} {bq : Nat} (h : WFT s x)
    (hf : FrameH s t A bq) (hd : ∀ a ∈ fp x, a ∉ A) : WFT t x :=
  h.congr_wft (fun a ha => (hf.1 a (hd a ha)).1) fun a ha => (hf.1 a (hd a (inner_mem_fp ha))).2

theorem Frame.toH {s t : State} {A : Multiset Nat} (h : Frame s t A) (bq : Nat) :
    FrameH s t A bq :=
  ⟨h.1, h.2.1, h.2.2.1, h.2.2.2.1, fun x _ => by rw [h.2.2.2.2.1], h.2.2.2.2.2⟩

theorem Frame.refl_frame (s : State) (A : Multiset Nat) : Frame s s A :=
  ⟨fun _ _ => ⟨⟨rfl, rfl, rfl, rfl⟩, rfl, rfl, rfl⟩, rfl, rfl, rfl, rfl, rfl⟩

theorem FrameH.refl_frameH (s : State) (A : Multiset Nat) (bq : Nat) : FrameH s s A bq :=
  (Frame.refl_frame s A).toH bq

theorem Frame.mono_frame {s t : State} {A B : Multiset Nat} (h : Frame s t A) (hs : ∀ a ∈ A, a ∈ B) :
    Frame s t B :=
  ⟨fun a ha => h.1 a fun hh => ha (hs a hh), h.2⟩

theorem FrameH.mono_frameH {s t : State} {A B : Multiset Nat} {bq : Nat} (h : FrameH s t A bq)
    (hs : ∀ a ∈ A, a ∈ B) : FrameH s t B bq :=
  ⟨fun a ha => h.1 a fun hh => ha (hs a hh), h.2⟩

theorem Frame.trans_frame {s t u : State} {A : Multiset Nat} (h1 : Frame s t A) (h2 : Frame t u A) :
    Frame s u A := by
  refine ⟨fun a ha => ?_, by rw [h2.2.1, h1.2.1], by rw [h2.2.2.1, h1.2.2.1],
    by rw [h2.2.2.2.1, h1.2.2.2.1], by rw [h2.2.2.2.2.1, h1.2.2.2.2.1],
    by rw [h2.2.2.2.2.2, h1.2.2.2.2.2]⟩
  obtain ⟨⟨a1, a2, a3, a4⟩, a5, a6, a7⟩ := h1.1 a ha
  obtain ⟨⟨b1, b2, b3, b4⟩, b5, b6, b7⟩ := h2.1 a ha
  exact ⟨⟨by rw [b1, a1], by rw [b2, a2], by rw [b3, a3], by rw [b4, a4]⟩,
    by rw [b5, a5], by rw [b6, a6], by rw [b7, a7]⟩

theorem FrameH.trans_frameH {s t u : State} {A : Multiset Nat} {bq : Nat} (h1 : FrameH s t A bq)
    (h2 : FrameH t u A bq) : FrameH s u A bq := by
  refine ⟨fun a ha => ?_, by rw [h2.2.1, h1.2.1], by rw [h2.2.2.1, h1.2.2.1],
    by rw [h2.2.2.2.1, h1.2.2.2.1],
    fun h hh => by rw [h2.2.2.2.2.1 h hh, h1.2.2.2.2.1 h hh],
    by rw [h2.2.2.2.2.2, h1.2.2.2.2.2]⟩
  obtain ⟨⟨a1, a2, a3, a4⟩, a5, a6, a7⟩ := h1.1 a ha
  obtain ⟨⟨b1, b2, b3, b4⟩, b5, b6, b7⟩ := h2.1 a ha
  exact ⟨⟨by rw [b1, a1], by rw [b2, a2], by rw [b3, a3], by rw [b4, a4]⟩,
    by rw [b5, a5], by rw [b6, a6], by rw [b7, a7]⟩

theorem Frame.root_same {s t : State} {A : Multiset Nat} (h : Frame s t A) : t.root = s.root :=
  h.2.2.2.2.1

theorem Frame.sq_same {s t : State} {A : Multiset Nat} (h : Frame s t A) :
    t.subqueue_head = s.subqueue_head := h.2.2.2.2.2

theorem FrameH.sq_eq {s t : State} {A : Multiset Nat} {bq : Nat} (h : FrameH s t A bq) :
    t.subqueue_head = s.subqueue_head := h.2.2.2.2.2

theorem FrameH.root_eq {s t : State} {A : Multiset Nat} {bq : Nat} (h : FrameH s t A bq)
    {x : Nat} (hx : x ≠ bq) : t.root x = s.root x := h.2.2.2.2.1 x hx

theorem FrameH.nodes_eq {s t : State} {A : Multiset Nat} {bq : Nat} (h : FrameH s t A bq) :
    t.nodes = s.nodes := h.2.1

theorem Detached.frame_det {s t : State} {a : Nat} {A : Multiset Nat} {bq : Nat}
    (h : Detached s a) (hf : FrameH s t A bq) (ha : a ∉ A) : Detached t a := by
  obtain ⟨_, h1, h2, h3⟩ := hf.1 a ha
  exact ⟨by rw [h1, h.1], by rw [h2, h.2.1], by rw [h3, h.2.2]⟩

/-- The neighbours of a node inside a sibling list. -/
theorem seg_mid {s : State} {p : Nat} (l1 : List Nat) (c : Nat) (l2 : List Nat)
    (h : Seg s p (l1 ++ c :: l2)) :
    s.parent c = some p ∧ s.rightsibling c = l2.head? ∧
      ∀ z ∈ l1.getLast?, s.rightsibling z = some c ∧ s.leftsibling c = some z := by
  induction l1 with
  | nil =>
    simp only [List.nil_append] at h
    rw [seg_cons] at h
    exact ⟨h.1, h.2.1, by simp⟩
  | cons x l1 ih =>
    simp only [List.cons_append] at h
    rw [seg_cons] at h
    obtain ⟨h1, h2, h3, h4⟩ := h
    obtain ⟨i1, i2, i3⟩ := ih h4
    refine ⟨i1, i2, ?_⟩
    cases l1 with
    | nil =>
      intro z hz
      simp only [List.getLast?_singleton, Option.mem_def, Option.some.injEq] at hz
      subst hz
      simp only [List.nil_append, List.head?_cons] at h2 h3
      exact ⟨h2, h3 c rfl⟩
    | cons y l1 =>
      intro z hz
      exact i3 z (by simpa [List.getLast?_cons_cons] using hz)

/-- Method `rogue` on a member of the children list of `p`. -/
theorem rogue_addr (s : State) (p : Nat) (l1 : List Nat) (c : Nat) (l2 : List Nat)
    (hseg : Seg s p (l1 ++ c :: l2)) (hhd : s.children_head p = (l1 ++ c :: l2).head?)
    (hn : (l1 ++ c :: l2).Nodup) :
    ∃ t, rogue c s = .ok () t ∧ Seg t p (l1 ++ l2) ∧ t.children_head p = (l1 ++ l2).head? ∧
      Detached t c ∧ LinkStep s t p (l1 ++ c :: l2) := by
  obtain ⟨hpar, hright, hleft⟩ := seg_mid l1 c l2 hseg
  have hc1 : c ∉ l1 := fun hm => by
    rw [List.nodup_append] at hn
    exact hn.2.2 hm (by simp)
  have hc2 : c ∉ l2 := fun hm => by
    rw [List.nodup_append] at hn
    exact (List.nodup_cons.1 hn.2.1).1 hm
  have hcm : ∀ a ∈ l1 ++ l2, a ≠ c := by
    intro a ha e
    subst e
    rcases List.mem_append.1 ha with h | h
    · exact hc1 h
    · exact hc2 h
  cases l1 with
  | nil =>
    simp only [List.nil_append, List.head?_cons] at hhd hseg hn hcm ⊢
    refine ⟨_, by simp only [rogue, hpar, hhd, if_true]; rfl, ?_, ?_, ?_, ?_⟩
    · apply seg_remove [] c l2 hseg hn <;>
        simp +contextual [clearLinks, upd_apply, hcm]
    · simp [clearLinks, hright]
    · simp [Detached, clearLinks]
    · constructor <;> simp +contextual [clearLinks, upd_apply, SameLink]
  | cons x l1 =>
    obtain ⟨z, hz⟩ : ∃ z, (x :: l1).getLast? = some z :=
      ⟨_, List.getLast?_eq_getLast _ (by simp)⟩
    obtain ⟨hzr, hzl⟩ := hleft z hz
    have hzm : z ∈ x :: l1 := List.mem_of_mem_getLast? hz
    have hzc : z ≠ c := fun e => hc1 (e ▸ hzm)
    have hxc : x ≠ c := fun e => hc1 (by simp [e])
    have hne : ¬ s.children_head p = some c := by
      rw [hhd]; simpa using hxc
    have hzg : ∀ a, a ∈ (x :: l1).getLast? ↔ a = z := by
      intro a; rw [hz]; simp [eq_comm]
    cases l2 with
    | nil =>
      simp only [List.head?_nil] at hright
      refine ⟨_, by simp only [rogue, hpar, hne, if_false, hzl, upd_apply, hzc.symm, hright]; rfl,
        ?_, ?_, ?_, ?_⟩
      · apply seg_remove (x :: l1) c [] hseg hn
        · intro a ha; simp [clearLinks, upd_apply, hcm a ha]
        · intro a ha hla
          rw [hzg] at hla
          simp [clearLinks, upd_apply, hcm a ha, hla]
        · intro a ha
          rw [hzg] at ha
          subst ha
          simp [clearLinks, upd_apply, hzc]
        · intro a ha _; simp [clearLinks, upd_apply, hcm a ha]
        · intro a _ b hb; simp at hb
      · have hpc : p = p := rfl
        simpa [clearLinks] using hhd
      · simp [Detached, clearLinks]
      · constructor <;> try rfl
        · intro a _; rfl
        · intro a ha
          have h1 : a ≠ c := fun e => ha (by simp [e])
          have h2 : a ≠ z := fun e => ha (by
            subst e; exact List.mem_append_left _ hzm)
          simp [SameLink, clearLinks, upd_apply, h1, h2]
    | cons r l2 =>
      simp only [List.head?_cons] at hright
      have hrc : r ≠ c := hcm r (by simp)
      have hrz : r ≠ z := by
        intro e
        subst e
        rw [List.nodup_append] at hn
        exact hn.2.2 hzm (by simp)
      refine ⟨_, by simp only [rogue, hpar, hne, if_false, hzl, upd_apply, hzc.symm, hright]; rfl,
        ?_, ?_, ?_, ?_⟩
      · apply seg_remove (x :: l1) c (r :: l2) hseg hn
        · intro a ha; simp [clearLinks, upd_apply, hcm a ha]
        · intro a ha hla
          rw [hzg] at hla
          simp [clearLinks, upd_apply, hcm a ha, hla]
        · intro a ha
          rw [hzg] at ha
          subst ha
          simp [clearLinks, upd_apply, hzc]
        · intro a ha har
          have har2 : a ≠ r := by simpa [eq_comm] using har (by simp)
          simp [clearLinks, upd_apply, hcm a ha, har2]
        · intro a ha b hb
          rw [hzg] at ha
          subst ha
          simp only [List.head?_cons, Option.mem_def, Option.some.injEq] at hb
          subst hb
          simp [clearLinks, upd_apply, hrc]
      · simpa [clearLinks] using hhd
      · simp [Detached, clearLinks]
      · constructor <;> try rfl
        · intro a _; rfl
        · intro a ha
          have h1 : a ≠ c := fun e => ha (by simp [e])
          have h2 : a ≠ z := fun e => ha (by
            subst e; exact List.mem_append_left _ hzm)
          have h3 : a ≠ r := fun e => ha (by simp [e])
          simp [SameLink, clearLinks, upd_apply, h1, h2, h3]

/-- Where `putNodeAmongChildren` puts a node of rank `r`. -/
theorem insA_nodup {o : Nat} {L : List Nat} (f : Nat → Bool) (hn : (o :: L).Nodup) :
    (L.takeWhile f ++ o :: L.dropWhile f).Nodup := by
  have hp : (L.takeWhile f ++ o :: L.dropWhile f).Perm (o :: L) := by
    refine List.perm_middle.trans ?_
    rw [List.takeWhile_append_dropWhile]
  exact hp.nodup_iff.2 hn

/-- Method `adopt` on a detached node. -/
theorem adopt_addr (s : State) (p o : Nat) (L : List Nat) (F : Nat)
    (hseg : Seg s p L) (hhd : s.children_head p = L.head?) (hn : (o :: L).Nodup)
    (hdet : Detached s o) (hF : L.length < F) :
    ∃ t, adopt F p o s = .ok () t ∧
      Seg t p (L.takeWhile (fun a => decide (s.rank o > s.rank a)) ++
        o :: L.dropWhile (fun a => decide (s.rank o > s.rank a))) ∧
      t.children_head p = (L.takeWhile (fun a => decide (s.rank o > s.rank a)) ++
        o :: L.dropWhile (fun a => decide (s.rank o > s.rank a))).head? ∧
      LinkStep s t p (o :: L) := by
  have hoL : ∀ a ∈ L, a ≠ o := fun a ha e => (List.nodup_cons.1 hn).1 (e ▸ ha)
  have hseg0 : Seg { s with parent := upd s.parent o (some p) } p L :=
    hseg.congr_seg (fun a ha => by simp [upd_apply, hoL a ha]) (fun _ _ => rfl) (fun _ _ => rfl)
  have hscan := scanRank_seg { s with parent := upd s.parent o (some p) } p (s.rank o) L F none
    hseg0 hF
  simp only [Option.or_none] at hscan
  generalize hl1 : L.takeWhile (fun a => decide (s.rank o > s.rank a)) = l1 at hscan ⊢
  generalize hl2 : L.dropWhile (fun a => decide (s.rank o > s.rank a)) = l2 at hscan ⊢
  have hL : l1 ++ l2 = L := by rw [← hl1, ← hl2, List.takeWhile_append_dropWhile]
  have hn2 : (l1 ++ o :: l2).Nodup := by
    rw [← hl1, ← hl2]; exact insA_nodup _ hn
  have hseg2 : Seg s p (l1 ++ l2) := by rw [hL]; exact hseg
  have hm : ∀ a ∈ l1 ++ l2, a ≠ o := fun a ha => hoL a (hL ▸ ha)
  have hunf : adopt F p o s =
      putNodeAmongChildren F p o { s with parent := upd s.parent o (some p) } := rfl
  have hmemL : ∀ a, a ∉ o :: L → a ≠ o ∧ a ∉ l1 ++ l2 := by
    intro a ha
    rw [hL]
    simp only [List.mem_cons, not_or] at ha
    exact ⟨ha.1, ha.2⟩
  rw [hunf]
  unfold putNodeAmongChildren
  simp only [hhd, hscan]
  cases h1 : l1.getLast? with
  | none =>
    have hl1n : l1 = [] := by simpa using h1
    subst hl1n
    cases h2 : l2.head? with
    | none =>
      have : l2 = [] := by simpa using h2
      subst this
      refine ⟨_, rfl, ?_, ?_, ?_⟩
      · apply seg_insert [] o [] hseg2 hn2 <;> simp [upd_apply, hdet.2.2]
      · simp
      · constructor <;> try rfl
        · intro a ha; simp [upd_apply, ha]
        · intro a ha
          simp [SameLink, upd_apply, (hmemL a ha).1]
    | some nx =>
      have hnx : nx ∈ l2 := List.mem_of_mem_head? h2
      have hnxo : nx ≠ o := hm nx (by simp [hnx])
      have hhg : ∀ a, a ∈ l2.head? ↔ a = nx := by
        intro a; rw [h2]; simp [eq_comm]
      refine ⟨_, rfl, ?_, ?_, ?_⟩
      · apply seg_insert [] o l2 hseg2 hn2
        · simp
        · intro a ha; simp [upd_apply, hm a ha]
        · intro a ha _; simp [upd_apply, hm a ha]
        · simp
        · simp [h2]
        · intro a ha hh
          rw [hhg] at hh
          simp [upd_apply, hh]
        · intro b hb
          rw [hhg] at hb
          subst hb
          simp
        · simp
      · simp
      · constructor <;> try rfl
        · intro a ha; simp [upd_apply, ha]
        · intro a ha
          have h3 : a ≠ nx := fun e => (hmemL a ha).2 (by simp [e, hnx])
          simp [SameLink, upd_apply, (hmemL a ha).1, h3]
  | some pv =>
    have hpv : pv ∈ l1 := List.mem_of_mem_getLast? h1
    have hpvo : pv ≠ o := hm pv (by simp [hpv])
    have hlg : ∀ a, a ∈ l1.getLast? ↔ a = pv := by
      intro a; rw [h1]; simp [eq_comm]
    have hhead : (l1 ++ o :: l2).head? = (l1 ++ l2).head? := by
      cases l1 with
      | nil => simp at hpv
      | cons y l1 => simp
    cases h2 : l2.head? with
    | none =>
      have : l2 = [] := by simpa using h2
      subst this
      refine ⟨_, rfl, ?_, ?_, ?_⟩
      · apply seg_insert l1 o [] hseg2 hn2
        · simp
        · intro a ha; simp [upd_apply, hm a ha]
        · intro a ha hh
          rw [hlg] at hh
          simp [upd_apply, hh]
        · intro a ha
          rw [hlg] at ha
          subst ha
          simp
        · simp [upd_apply, hpvo.symm, hdet.2.2]
        · intro a ha _; simp [upd_apply, hm a ha]
        · simp
        · intro a ha
          rw [hlg] at ha
          subst ha
          simp
      · rw [hhead, hL]; exact hhd
      · constructor <;> try rfl
        · intro a _; rfl
        · intro a ha
          have h3 : a ≠ pv := fun e => (hmemL a ha).2 (by simp [e, hpv])
          simp [SameLink, upd_apply, (hmemL a ha).1, h3]
    | some nx =>
      have hnx : nx ∈ l2 := List.mem_of_mem_head? h2
      have hnxo : nx ≠ o := hm nx (by simp [hnx])
      have hhg : ∀ a, a ∈ l2.head? ↔ a = nx := by
        intro a; rw [h2]; simp [eq_comm]
      refine ⟨_, rfl, ?_, ?_, ?_⟩
      · apply seg_insert l1 o l2 hseg2 hn2
        · simp
        · intro a ha; simp [upd_apply, hm a ha]
        · intro a ha hh
          rw [hlg] at hh
          simp [upd_apply, hh, hm a ha]
        · intro a ha
          rw [hlg] at ha
          subst ha
          simp [upd_apply, hpvo]
        · simp [h2]
        · intro a ha hh
          rw [hhg] at hh
          simp [upd_apply, hh, hm a ha]
        · intro b hb
          rw [hhg] at hb
          subst hb
          simp [upd_apply, hnxo]
        · intro a ha
          rw [hlg] at ha
          subst ha
          simp
      · rw [hhead, hL]; exact hhd
      · constructor <;> try rfl
        · intro a _; rfl
        · intro a ha
          have h3 : a ≠ pv := fun e => (hmemL a ha).2 (by simp [e, hpv])
          have h4 : a ≠ nx := fun e => (hmemL a ha).2 (by simp [e, hnx])
          simp [SameLink, upd_apply, (hmemL a ha).1, h3, h4]

/-! ### Disjointness read off a duplicate-free footprint -/

theorem nodup_fp_kids {T : Tree} (h : (fp T).Nodup) : (fpL T.kids).Nodup :=
  Multiset.nodup_of_le (kids_le_fp T) h

theorem nodup_fp_subq {T : Tree} (h : (fp T).Nodup) : (fpL T.subq).Nodup :=
  Multiset.nodup_of_le (subq_le_fp T) h

theorem nodup_fp_of_mem {l : List Tree} {k : Tree} (h : (fpL l).Nodup) (hk : k ∈ l) :
    (fp k).Nodup :=
  Multiset.nodup_of_le (fp_le_fpL hk) h

theorem addr_not_mem_inner {T : Tree} (h : (fp T).Nodup) {a : Nat}
    (ha : a ∈ fpL T.kids + fpL T.subq) : a ≠ T.addr := by
  rw [fp_eq, Multiset.nodup_cons] at h
  rintro rfl
  apply h.1
  simp only [Multiset.mem_add] at ha ⊢
  exact Or.inr ha

theorem addr_not_mem_kid {T k : Tree} (h : (fp T).Nodup) (hk : k ∈ T.kids) : T.addr ∉ fp k :=
  fun hm => addr_not_mem_inner h (Multiset.mem_add.2 (Or.inl (mem_fpL hk hm))) rfl

theorem addr_not_mem_subq {T k : Tree} (h : (fp T).Nodup) (hk : k ∈ T.subq) : T.addr ∉ fp k :=
  fun hm => addr_not_mem_inner h (Multiset.mem_add.2 (Or.inr (mem_fpL hk hm))) rfl

theorem addr_not_mem_roots {T : Tree} (h : (fp T).Nodup) : T.addr ∉ roots T.kids :=
  fun hm => addr_not_mem_inner h (Multiset.mem_add.2 (Or.inl (roots_mem_fpL hm))) rfl

theorem inner_not_root {l : List Tree} (h : (fpL l).Nodup) {k : Tree} (hk : k ∈ l) {a : Nat}
    (ha : a ∈ fpL k.kids + fpL k.subq) : a ∉ roots l := by
  induction l with
  | nil => simp at hk
  | cons k0 l ih =>
    rw [fpL_cons, Multiset.nodup_add] at h
    obtain ⟨h1, h2, h3⟩ := h
    simp only [roots, List.map_cons, List.mem_cons, not_or]
    rcases List.mem_cons.1 hk with rfl | hk
    · refine ⟨addr_not_mem_inner h1 ha, fun hm => ?_⟩
      exact Multiset.disjoint_left.1 h3 (inner_mem_fp ha) (roots_mem_fpL hm)
    · refine ⟨?_, ih h2 hk⟩
      rintro rfl
      exact Multiset.disjoint_left.1 h3 (addr_mem_fp k0) (mem_fpL hk (inner_mem_fp ha))

theorem kids_subq_disjoint {T : Tree} (h : (fp T).Nodup) {a : Nat} (ha : a ∈ fpL T.subq) :
    a ∉ fpL T.kids := by
  rw [fp_eq, Multiset.nodup_cons, Multiset.nodup_add, Multiset.nodup_add] at h
  exact fun hk => Multiset.disjoint_left.1 h.2.2.1.2.2 hk ha

theorem disjoint_of_nodup_add {A B : Multiset Nat} (h : (A + B).Nodup) {a : Nat} (ha : a ∈ A) :
    a ∉ B :=
  fun hb => Multiset.disjoint_left.1 (Multiset.nodup_add.1 h).2.2 ha hb

theorem disjoint_of_nodup_add' {A B : Multiset Nat} (h : (A + B).Nodup) {a : Nat} (ha : a ∈ B) :
    a ∉ A :=
  fun hb => Multiset.disjoint_left.1 (Multiset.nodup_add.1 h).2.2 hb ha

/-! ### Consequences of a link step -/

theorem LinkStep.wft {s t : State} {p : Nat} {L : List Nat} (h : LinkStep s t p L) {x : Tree}
    (hx : WFT s x) (hp : p ∉ fp x) (hL : ∀ a ∈ fpL x.kids + fpL x.subq, a ∉ L) : WFT t x := by
  apply hx.congr_wft
  · intro a ha
    refine ⟨by rw [h.value], by rw [h.rank], h.ch a ?_, by rw [h.sq]⟩
    rintro rfl
    exact hp ha
  · intro a ha
    exact h.link a (hL a ha)

theorem LinkStep.sqok {s t : State} {p : Nat} {L : List Nat} (h : LinkStep s t p L) {a o : Nat}
    {subq : List Tree} (hq : SqOK s a o subq) (hL : ∀ x ∈ roots subq, x ∉ L) : SqOK t a o subq :=
  hq.congr_sq (by rw [h.sq]) (by rw [h.sq]) (fun x hx => h.link x (hL x hx)) hq

theorem LinkStep.to_frame {s t : State} {p : Nat} {L : List Nat} (h : LinkStep s t p L)
    {A : Multiset Nat} (hp : p ∈ A) (hL : ∀ a ∈ L, a ∈ A) : Frame s t A := by
  refine ⟨fun a ha => ⟨⟨by rw [h.value], by rw [h.rank], h.ch a ?_, by rw [h.sq]⟩,
    h.link a fun hm => ha (hL a hm)⟩, h.nodes, h.heaps, h.size, h.root, h.sq⟩
  rintro rfl
  exact ha hp

theorem LinkStep.detached {s t : State} {p : Nat} {L : List Nat} (h : LinkStep s t p L) {a : Nat}
    (hd : Detached s a) (ha : a ∉ L) : Detached t a := by
  obtain ⟨h1, h2, h3⟩ := h.link a ha
  exact ⟨by rw [h1, hd.1], by rw [h2, hd.2.1], by rw [h3, hd.2.2]⟩

theorem WFT.value_eq {s : State} {x : Tree} (h : WFT s x) : s.value x.addr = x.value :=
  ((WFT_iff s x).1 h).1.1

theorem WFT.rank_eq {s : State} {x : Tree} (h : WFT s x) : s.rank x.addr = x.rank :=
  ((WFT_iff s x).1 h).1.2.1

@[simp] theorem roots_append (l1 l2 : List Tree) : roots (l1 ++ l2) = roots l1 ++ roots l2 := by
  simp [roots]

@[simp] theorem roots_cons (k : Tree) (l : List Tree) : roots (k :: l) = k.addr :: roots l := rfl

@[simp] theorem roots_nil : roots [] = [] := rfl

@[simp] theorem setKids_addr (T : Tree) (ks : List Tree) : (T.setKids ks).addr = T.addr := rfl
@[simp] theorem setKids_value (T : Tree) (ks : List Tree) : (T.setKids ks).value = T.value := rfl
@[simp] theorem setKids_rank (T : Tree) (ks : List Tree) : (T.setKids ks).rank = T.rank := rfl
@[simp] theorem setKids_kids (T : Tree) (ks : List Tree) : (T.setKids ks).kids = ks := rfl
@[simp] theorem setKids_own (T : Tree) (ks : List Tree) : (T.setKids ks).own = T.own := rfl
@[simp] theorem setKids_subq (T : Tree) (ks : List Tree) : (T.setKids ks).subq = T.subq := rfl
@[simp] theorem setKids_owner (T : Tree) (ks : List Tree) : (T.setKids ks).owner = T.owner := rfl
@[simp] theorem setRank_addr (T : Tree) (r : Int) : (T.setRank r).addr = T.addr := rfl
@[simp] theorem setRank_value (T : Tree) (r : Int) : (T.setRank r).value = T.value := rfl
@[simp] theorem setRank_rank (T : Tree) (r : Int) : (T.setRank r).rank = r := rfl
@[simp] theorem setRank_kids (T : Tree) (r : Int) : (T.setRank r).kids = T.kids := rfl
@[simp] theorem setRank_own (T : Tree) (r : Int) : (T.setRank r).own = T.own := rfl
@[simp] theorem setRank_subq (T : Tree) (r : Int) : (T.setRank r).subq = T.subq := rfl
@[simp] theorem setRank_owner (T : Tree) (r : Int) : (T.setRank r).owner = T.owner := rfl
@[simp] theorem setSubq_addr (T : Tree) (q : List Tree) : (T.setSubq q).addr = T.addr := rfl
@[simp] theorem setSubq_value (T : Tree) (q : List Tree) : (T.setSubq q).value = T.value := rfl
@[simp] theorem setSubq_rank (T : Tree) (q : List Tree) : (T.setSubq q).rank = T.rank := rfl
@[simp] theorem setSubq_kids (T : Tree) (q : List Tree) : (T.setSubq q).kids = T.kids := rfl
@[simp] theorem setSubq_own (T : Tree) (q : List Tree) : (T.setSubq q).own = T.own := rfl
@[simp] theorem setSubq_subq (T : Tree) (q : List Tree) : (T.setSubq q).subq = q := rfl
@[simp] theorem setSubq_owner (T : Tree) (q : List Tree) : (T.setSubq q).owner = T.owner := rfl

/-- Method `rogue` on a child of a node whose tree is drawn: the child leaves the children list
and stands alone. -/
theorem rogue_spec (s : State) (b : Bool) (T : Tree) (l1 : List Tree) (c : Tree)
    (l2 : List Tree) (hT : WFTb b s T) (hk : T.kids = l1 ++ c :: l2) (hn : (fp T).Nodup) :
    ∃ t, rogue c.addr s = .ok () t ∧ WFTb b t (T.setKids (l1 ++ l2)) ∧ WFT t c ∧
      Detached t c.addr ∧ (Detached s T.addr → Detached t T.addr) ∧ Frame s t (fp T) := by
  obtain ⟨⟨hv, hr, hko, hkw, hsw⟩, hsq⟩ := hT
  have hnk := nodup_fp_kids hn
  have hnr : (roots T.kids).Nodup := nodup_roots hnk
  rw [hk] at hko hnr
  simp only [KidsOK, roots_append, roots_cons] at hko hnr
  obtain ⟨t, ht, hseg, hhd, hdet, hls⟩ := rogue_addr s T.addr (roots l1) c.addr (roots l2)
    hko.2 hko.1 hnr
  have hroots : roots l1 ++ c.addr :: roots l2 = roots T.kids := by rw [hk]; simp
  rw [hroots] at hls
  have hkid : ∀ k ∈ T.kids, WFT t k := fun k hkm =>
    hls.wft (hkw k hkm) (addr_not_mem_kid hn hkm) fun a ha => inner_not_root hnk hkm ha
  refine ⟨t, ht, ⟨⟨?_, ?_, ?_, ?_, ?_⟩, ?_⟩, ?_, hdet, ?_, ?_⟩
  · simp only [setKids_addr, setKids_value]; rw [hls.value, hv]
  · simp only [setKids_addr, setKids_rank]; rw [hls.rank, hr]
  · exact ⟨by simpa using hhd, by simpa using hseg⟩
  · intro k hkm
    apply hkid k
    rw [hk]
    simp only [setKids_kids, List.mem_append] at hkm
    simp only [List.mem_append, List.mem_cons]
    tauto
  · intro k hkm
    simp only [setKids_subq] at hkm
    apply hls.wft (hsw k hkm) (addr_not_mem_subq hn hkm)
    intro a ha hr
    exact kids_subq_disjoint hn (mem_fpL hkm (inner_mem_fp ha)) (roots_mem_fpL hr)
  · intro hb
    simp only [setKids_addr, setKids_owner, setKids_subq]
    apply hls.sqok (hsq hb)
    intro x hx hr
    exact kids_subq_disjoint hn (roots_mem_fpL hx) (roots_mem_fpL hr)
  · exact hkid c (by rw [hk]; simp)
  · intro hd
    exact hls.detached hd (addr_not_mem_roots hn)
  · apply hls.to_frame (addr_mem_fp T)
    intro a ha
    exact Multiset.mem_of_le (kids_le_fp T) (roots_mem_fpL ha)

theorem roots_insertByRank (rk : Nat → Int) (c : Tree) (kids : List Tree)
    (hk : ∀ k ∈ kids, rk k.addr = k.rank) (hc : rk c.addr = c.rank) :
    roots (insertByRank c kids) =
      (roots kids).takeWhile (fun a => decide (rk c.addr > rk a)) ++
        c.addr :: (roots kids).dropWhile (fun a => decide (rk c.addr > rk a)) := by
  induction kids with
  | nil => simp [insertByRank]
  | cons k l ih =>
    have h1 := hk k (by simp)
    simp only [insertByRank, roots_cons, List.takeWhile_cons, List.dropWhile_cons, h1, hc]
    by_cases h : c.rank > k.rank
    · simp only [h, if_true, decide_True, roots_cons, List.cons_append]
      rw [ih fun x hx => hk x (by simp [hx])]
      simp [hc]
    · simp [h]

theorem mem_insertByRank {c k : Tree} {kids : List Tree} :
    k ∈ insertByRank c kids ↔ k = c ∨ k ∈ kids := by
  induction kids with
  | nil => simp [insertByRank]
  | cons x l ih =>
    simp only [insertByRank]
    split
    · simp only [List.mem_cons, ih]; tauto
    · simp

@[simp] theorem fpL_insertByRank (c : Tree) (kids : List Tree) :
    fpL (insertByRank c kids) = fp c + fpL kids := by
  induction kids with
  | nil => simp [insertByRank]
  | cons x l ih =>
    simp only [insertByRank]
    split
    · simp only [fpL_cons, ih]
      rw [← add_assoc, ← add_assoc, add_comm (fp x)]
    · simp

@[simp] theorem keysL_insertByRank (c : Tree) (kids : List Tree) :
    keysL (insertByRank c kids) = keys c + keysL kids := by
  induction kids with
  | nil => simp [insertByRank]
  | cons x l ih =>
    simp only [insertByRank]
    split
    · simp only [keysL_cons, ih]
      rw [← add_assoc, ← add_assoc, add_comm (keys x)]
    · simp

@[simp] theorem length_insertByRank (c : Tree) (kids : List Tree) :
    (insertByRank c kids).length = kids.length + 1 := by
  induction kids with
  | nil => simp [insertByRank]
  | cons x l ih =>
    simp only [insertByRank]
    split <;> simp [ih]

/-- Method `adopt` of a detached tree by a node whose tree is drawn. -/
theorem adopt_spec (s : State) (b : Bool) (P c : Tree) (F : Nat) (hP : WFTb b s P)
    (hc : WFT s c) (hdet : Detached s c.addr) (hn : (fp P + fp c).Nodup)
    (hF : P.kids.length < F) :
    ∃ t, adopt F P.addr c.addr s = .ok () t ∧ WFTb b t (adoptT P c) ∧
      (Detached s P.addr → Detached t P.addr) ∧ Frame s t (fp P + fp c) := by
  obtain ⟨⟨hv, hr, hko, hkw, hsw⟩, hsq⟩ := hP
  have hnP : (fp P).Nodup := (Multiset.nodup_add.1 hn).1
  have hnc : (fp c).Nodup := (Multiset.nodup_add.1 hn).2.1
  have hnk := nodup_fp_kids hnP
  have hcr : c.addr ∉ roots P.kids := fun hm =>
    disjoint_of_nodup_add hn (Multiset.mem_of_le (kids_le_fp P) (roots_mem_fpL hm)) (addr_mem_fp c)
  have hnr : (c.addr :: roots P.kids).Nodup := List.nodup_cons.2 ⟨hcr, nodup_roots hnk⟩
  obtain ⟨t, ht, hseg, hhd, hls⟩ := adopt_addr s P.addr c.addr (roots P.kids) F hko.2 hko.1 hnr
    hdet (by simpa [roots] using hF)
  rw [← roots_insertByRank s.rank c P.kids (fun k hk => (hkw k hk).rank_eq) hc.rank_eq]
    at hseg hhd
  have hPc : P.addr ∉ fp c := disjoint_of_nodup_add hn (addr_mem_fp P)
  have hkid : ∀ k ∈ P.kids, WFT t k := fun k hkm =>
    hls.wft (hkw k hkm) (addr_not_mem_kid hnP hkm) fun a ha => by
      simp only [List.mem_cons, not_or]
      refine ⟨?_, inner_not_root hnk hkm ha⟩
      rintro rfl
      exact disjoint_of_nodup_add hn (kid_mem_fp hkm (inner_mem_fp ha)) (addr_mem_fp c)
  have hcw : WFT t c := hls.wft hc hPc fun a ha => by
    simp only [List.mem_cons, not_or]
    refine ⟨addr_not_mem_inner hnc ha, fun hm => ?_⟩
    exact disjoint_of_nodup_add hn (Multiset.mem_of_le (kids_le_fp P) (roots_mem_fpL hm))
      (inner_mem_fp ha)
  refine ⟨t, ht, ⟨⟨?_, ?_, ⟨hhd, hseg⟩, ?_, ?_⟩, ?_⟩, ?_, ?_⟩
  · show t.value P.addr = P.value
    rw [hls.value, hv]
  · show t.rank P.addr = P.rank
    rw [hls.rank, hr]
  · intro k hkm
    rcases mem_insertByRank.1 hkm with rfl | hkm
    · exact hcw
    · exact hkid k hkm
  · intro k hkm
    apply hls.wft (hsw k hkm) (addr_not_mem_subq hnP hkm)
    intro a ha
    simp only [List.mem_cons, not_or]
    refine ⟨?_, fun hr => ?_⟩
    · rintro rfl
      exact disjoint_of_nodup_add hn (subq_mem_fp hkm (inner_mem_fp ha)) (addr_mem_fp c)
    · exact kids_subq_disjoint hnP (mem_fpL hkm (inner_mem_fp ha)) (roots_mem_fpL hr)
  · intro hb
    apply hls.sqok (hsq hb)
    intro x hx
    simp only [List.mem_cons, not_or]
    refine ⟨?_, fun hr => ?_⟩
    · rintro rfl
      exact disjoint_of_nodup_add hn (Multiset.mem_of_le (subq_le_fp P) (roots_mem_fpL hx))
        (addr_mem_fp c)
    · exact kids_subq_disjoint hnP (roots_mem_fpL hx) (roots_mem_fpL hr)
  · intro hd
    apply hls.detached hd
    simp only [List.mem_cons, not_or]
    refine ⟨?_, addr_not_mem_roots hnP⟩
    intro e
    exact hPc (e ▸ addr_mem_fp c)
  · apply hls.to_frame (Multiset.mem_add.2 (Or.inl (addr_mem_fp P)))
    intro a ha
    rcases List.mem_cons.1 ha with rfl | ha
    · exact Multiset.mem_add.2 (Or.inr (addr_mem_fp c))
    · exact Multiset.mem_add.2 (Or.inl (Multiset.mem_of_le (kids_le_fp P) (roots_mem_fpL ha)))

/-- Writing the rank of a node that stands alone. -/
theorem rank_spec (s : State) (b : Bool) (x : Tree) (r : Int) (hx : WFTb b s x)
    (hn : (fp x).Nodup) :
    WFTb b { s with rank := upd s.rank x.addr r } (x.setRank r) ∧
      Frame s { s with rank := upd s.rank x.addr r } (fp x) := by
  obtain ⟨⟨hv, hr, hko, hkw, hsw⟩, hsq⟩ := hx
  have hcore : ∀ a, a ≠ x.addr → SameCore s { s with rank := upd s.rank x.addr r } a := by
    intro a ha
    exact ⟨rfl, by simp [upd_apply, ha], rfl, rfl⟩
  have hlink : ∀ a, SameLink s { s with rank := upd s.rank x.addr r } a := fun a => ⟨rfl, rfl, rfl⟩
  refine ⟨⟨⟨hv, by simp, hko.congr_kids rfl fun a _ => hlink a, ?_, ?_⟩, ?_⟩, ?_⟩
  · intro k hk
    apply (hkw k hk).congr_wft _ fun a _ => hlink a
    intro a ha
    apply hcore
    rintro rfl
    exact addr_not_mem_kid hn hk ha
  · intro k hk
    apply (hsw k hk).congr_wft _ fun a _ => hlink a
    intro a ha
    apply hcore
    rintro rfl
    exact addr_not_mem_subq hn hk ha
  · intro hb
    exact (hsq hb).congr_sq rfl rfl (fun a _ => hlink a) (hsq hb)
  · refine ⟨fun a ha => ⟨hcore a ?_, hlink a⟩, rfl, rfl, rfl, rfl, rfl⟩
    rintro rfl
    exact ha (addr_mem_fp _)

@[simp] theorem fp_setKids (T : Tree) (ks : List Tree) :
    fp (T.setKids ks) = T.addr ::ₘ ((T.own.toList : Multiset Nat) + (fpL ks + fpL T.subq)) := by
  simp [Tree.setKids, fp]

@[simp] theorem fp_setRank (T : Tree) (r : Int) : fp (T.setRank r) = fp T := by
  rw [fp_eq T]; simp [Tree.setRank, fp]

@[simp] theorem fp_adoptT (p c : Tree) : fp (adoptT p c) = fp p + fp c := by
  rw [fp_eq p]
  simp only [adoptT, fp_setKids, fpL_insertByRank, Multiset.cons_add]
  congr 1
  ac_rfl

theorem fp_split (T : Tree) (l1 : List Tree) (c : Tree) (l2 : List Tree)
    (hk : T.kids = l1 ++ c :: l2) : fp T = fp (T.setKids (l1 ++ l2)) + fp c := by
  rw [fp_eq T, hk]
  simp only [fp_setKids, fpL_append, fpL_cons, Multiset.cons_add]
  congr 1
  ac_rfl

theorem setKids_self (T : Tree) : T.setKids T.kids = T := by
  cases T; rfl

theorem length_kids_lt (T : Tree) : T.kids.length < Multiset.card (fp T) := by
  have h1 : (roots T.kids : Multiset Nat) ≤ fpL T.kids := by
    rw [Multiset.le_iff_count]
    intro a
    simpa using count_roots_le T.kids a
  have h2 := Multiset.card_le_card (h1.trans (kids_le_fp T))
  rw [fp_eq] at h2 ⊢
  have h3 : Multiset.card (fpL T.kids) ≤
      Multiset.card ((T.own.toList : Multiset Nat) + (fpL T.kids + fpL T.subq)) := by
    apply Multiset.card_le_card
    exact le_trans (Multiset.le_add_right _ _) (Multiset.le_add_left _ _)
  have h4 := Multiset.card_le_card h1
  simp only [Multiset.coe_card, roots, List.length_map, Multiset.card_cons] at h4 ⊢
  omega

/-- A node that stands alone adopts two others and gets a new rank: the second half of
`skewLink`. -/
theorem link3_spec (s : State) (m x y : Tree) (r : Int) (F : Nat)
    (hm : WFT s m) (hx : WFT s x) (hy : WFT s y)
    (dm : Detached s m.addr) (dx : Detached s x.addr) (dy : Detached s y.addr)
    (hn : (fp m + fp x + fp y).Nodup) (hF : m.kids.length + 1 < F) :
    ∃ t, (do
        adopt F m.addr x.addr
        adopt F m.addr y.addr
        modify fun t => { t with rank := upd t.rank m.addr r }
        pure m.addr : M Nat) s = .ok m.addr t ∧
      WFT t ((adoptT (adoptT m x) y).setRank r) ∧ Detached t m.addr ∧
      Frame s t (fp m + fp x + fp y) := by
  have hn1 : (fp m + fp x).Nodup := (Multiset.nodup_add.1 hn).1
  obtain ⟨t1, e1, w1, d1, f1⟩ := adopt_spec s true m x F ((WFTb_true s m).2 hm) hx dx hn1
    (by omega)
  have hyd : ∀ a ∈ fp y, a ∉ fp m + fp x := fun a ha => disjoint_of_nodup_add' hn ha
  have hy1 : WFT t1 y := hy.frame_wft (f1.toH 0) hyd
  have dy1 : Detached t1 y.addr := dy.frame_det (f1.toH 0) (hyd _ (addr_mem_fp y))
  obtain ⟨t2, e2, w2, d2, f2⟩ := adopt_spec t1 true (adoptT m x) y F w1 hy1 dy1
    (by rw [fp_adoptT]; exact hn) (by simp [adoptT]; omega)
  have hn3 : (fp (adoptT (adoptT m x) y)).Nodup := by
    rw [fp_adoptT, fp_adoptT]; exact hn
  obtain ⟨w3, f3⟩ := rank_spec t2 true (adoptT (adoptT m x) y) r w2 hn3
  refine ⟨_, ?_, (WFTb_true _ _).1 w3, ?_, ?_⟩
  · have e2' : adopt F m.addr y.addr t1 = .ok () t2 := e2
    rw [bind_ok' e1, bind_ok' e2']
    rfl
  · have := d2 (d1 dm)
    exact this
  · rw [fp_adoptT] at f2
    rw [fp_adoptT, fp_adoptT] at f3
    exact ((f1.mono_frame fun a ha => Multiset.mem_add.2 (Or.inl ha)).trans_frame f2).trans_frame f3

theorem WFTb.frame_wftb {b : Bool} {s t : State} {x : Tree} {A : Multiset Nat} {bq : Nat}
    (h : WFTb b s x) (hf : FrameH s t A bq) (hd : ∀ a ∈ fp x, a ∉ A) : WFTb b t x := by
  obtain ⟨⟨hv, hr, hko, hkw, hsw⟩, hsq⟩ := h
  have ha := hf.1 x.addr (hd _ (addr_mem_fp x))
  refine ⟨⟨by rw [ha.1.1, hv], by rw [ha.1.2.1, hr], ?_, ?_, ?_⟩, ?_⟩
  · exact hko.congr_kids ha.1.2.2.1 fun a hm =>
      (hf.1 a (hd a (Multiset.mem_of_le (kids_le_fp x) (roots_mem_fpL hm)))).2
  · intro k hk
    exact (hkw k hk).frame_wft hf fun a hm => hd a (kid_mem_fp hk hm)
  · intro k hk
    exact (hsw k hk).frame_wft hf fun a hm => hd a (subq_mem_fp hk hm)
  · intro hb
    exact (hsq hb).congr_sq ha.1.2.2.2 (hf.1 _ (hd _ (owner_mem_fp x))).1.2.2.2
      (fun a hm => (hf.1 a (hd a (Multiset.mem_of_le (subq_le_fp x) (roots_mem_fpL hm)))).2)
      (hsq hb)

theorem rogue_detached (s : State) (a : Nat) (h : Detached s a) : rogue a s = .ok () s := by
  simp [rogue, h.1]

theorem setKids_setKids (T : Tree) (k1 k2 : List Tree) : (T.setKids k1).setKids k2 = T.setKids k2 :=
  rfl

theorem nodup_sub {A B : Multiset Nat} (h : B.Nodup) (hle : A ≤ B) : A.Nodup :=
  Multiset.nodup_of_le hle h

/-- The two smallest-rank children leave the children list, in either order: the first
half of `skewLink`. -/
theorem rogue2_spec (s : State) (b : Bool) (R a c : Tree) (rest : List Tree) (first : Bool)
    (hR : WFTb b s R) (dR : Detached s R.addr) (hk : R.kids = a :: c :: rest)
    (hn : (fp R).Nodup) :
    ∃ t1 t, rogue (if first then a.addr else c.addr) s = .ok () t1 ∧
      rogue (if first then c.addr else a.addr) t1 = .ok () t ∧
      WFTb b t (R.setKids rest) ∧ WFT t a ∧ WFT t c ∧ Detached t a.addr ∧ Detached t c.addr ∧
      Detached t R.addr ∧ Frame s t (fp R) := by
  have hsp : fp R = fp (R.setKids rest) + fp c + fp a := by
    rw [fp_split R [] a (c :: rest) hk, fp_split (R.setKids ([] ++ c :: rest)) [] c rest rfl]
    rfl
  cases first with
  | true =>
    obtain ⟨t1, e1, w1, wa, da, d1, f1⟩ := rogue_spec s b R [] a (c :: rest) hR hk hn
    have hn1 : (fp (R.setKids ([] ++ c :: rest))).Nodup :=
      nodup_sub hn (by rw [fp_split R [] a (c :: rest) hk]; exact Multiset.le_add_right _ _)
    obtain ⟨t2, e2, w2, wc, dc, d2, f2⟩ := rogue_spec t1 b (R.setKids ([] ++ c :: rest)) [] c rest
      w1 rfl hn1
    have hdisj : ∀ x ∈ fp a, x ∉ fp (R.setKids ([] ++ c :: rest)) := by
      intro x hx
      rw [fp_split R [] a (c :: rest) hk] at hn
      exact disjoint_of_nodup_add' hn hx
    refine ⟨t1, t2, e1, e2, w2, wa.frame_wft (f2.toH 0) hdisj, wc,
      da.frame_det (f2.toH 0) (hdisj _ (addr_mem_fp a)), dc, d2 (d1 dR), ?_⟩
    · refine f1.trans_frame (f2.mono_frame fun x hx => ?_)
      rw [fp_split R [] a (c :: rest) hk]
      exact Multiset.mem_add.2 (Or.inl hx)
  | false =>
    obtain ⟨t1, e1, w1, wc, dc, d1, f1⟩ := rogue_spec s b R [a] c rest hR hk hn
    have hn1 : (fp (R.setKids ([a] ++ rest))).Nodup :=
      nodup_sub hn (by rw [fp_split R [a] c rest hk]; exact Multiset.le_add_right _ _)
    obtain ⟨t2, e2, w2, wa, da, d2, f2⟩ := rogue_spec t1 b (R.setKids ([a] ++ rest)) [] a rest
      w1 rfl hn1
    have hdisj : ∀ x ∈ fp c, x ∉ fp (R.setKids ([a] ++ rest)) := by
      intro x hx
      rw [fp_split R [a] c rest hk] at hn
      exact disjoint_of_nodup_add' hn hx
    refine ⟨t1, t2, e1, e2, w2, wa, wc.frame_wft (f2.toH 0) hdisj, da,
      dc.frame_det (f2.toH 0) (hdisj _ (addr_mem_fp c)), d2 (d1 dR), ?_⟩
    · refine f1.trans_frame (f2.mono_frame fun x hx => ?_)
      rw [fp_split R [a] c rest hk]
      exact Multiset.mem_add.2 (Or.inl hx)

theorem getSmallest_spec (s : State) (R : Tree) (hk : KidsOK s R.addr R.kids) :
    getSmallestRankChildren s R.addr =
      ((roots R.kids).head?, (roots R.kids).tail.head?) := by
  unfold getSmallestRankChildren
  rcases hkk : R.kids with _ | ⟨a, l⟩
  · rw [hkk] at hk
    simp [hk.1]
  · rw [hkk] at hk
    have := (seg_cons _ _ _ _).1 hk.2
    simp [hk.1, this.2.1, roots]

theorem card_kid_lt {R k : Tree} (hk : k ∈ R.kids) :
    Multiset.card (fp k) < Multiset.card (fp R) := by
  have h1 := Multiset.card_le_card ((fp_le_fpL hk).trans
    (le_trans (Multiset.le_add_right _ (fpL R.subq)) (Multiset.le_add_left _ (R.own.toList : Multiset Nat))))
  rw [fp_eq R, Multiset.card_cons]
  omega

/-- Method `skewLink` on the two smallest-rank children of a node whose tree is drawn and a node
standing alone. -/
theorem skewLink_spec (s : State) (b : Bool) (R n : Tree) (F : Nat)
    (hR : WFTb b s R) (dR : Detached s R.addr) (hx : WFT s n) (dn : Detached s n.addr)
    (hn : (fp R + fp n).Nodup) (hF : Multiset.card (fp R + fp n) < F) :
    ∃ t, skewLink F (getSmallestRankChildren s R.addr).1 (getSmallestRankChildren s R.addr).2
        n.addr s = .ok (skewLinkT R.kids n).2.addr t ∧
      WFTb b t (R.setKids (skewLinkT R.kids n).1) ∧ WFT t (skewLinkT R.kids n).2 ∧
      Detached t (skewLinkT R.kids n).2.addr ∧ Detached t R.addr ∧
      Frame s t (fp R + fp n) := by
  have hnR : (fp R).Nodup := (Multiset.nodup_add.1 hn).1
  have hnn : (fp n).Nodup := (Multiset.nodup_add.1 hn).2.1
  rw [getSmallest_spec s R hR.1.2.2.1]
  have triv : ∀ ks : List Tree, ks = R.kids →
      WFTb b s (R.setKids ks) ∧ WFT s n ∧ Detached s n.addr ∧ Detached s R.addr ∧
        Frame s s (fp R + fp n) := by
    rintro ks rfl
    rw [setKids_self]
    exact ⟨hR, hx, dn, dR, Frame.refl_frame _ _⟩
  rcases hk : R.kids with _ | ⟨a, _ | ⟨c, rest⟩⟩
  · exact ⟨s, by simp [skewLink, skewLinkT], by simpa [skewLinkT] using triv [] hk.symm⟩
  · exact ⟨s, by simp [skewLink, skewLinkT], by simpa [skewLinkT] using triv [a] hk.symm⟩
  · have ha : a ∈ R.kids := by rw [hk]; simp
    have hc : c ∈ R.kids := by rw [hk]; simp
    have wa := hR.1.2.2.2.1 a ha
    have wc := hR.1.2.2.2.1 c hc
    by_cases hrk : a.rank = c.rank
    swap
    · refine ⟨s, ?_, by simpa [skewLinkT, hrk] using triv _ hk.symm⟩
      simp [skewLink, skewLinkT, hrk, wa.rank_eq, wc.rank_eq]
    · have hsp : fp R = fp (R.setKids rest) + fp c + fp a := by
        rw [fp_split R [] a (c :: rest) hk, fp_split (R.setKids ([] ++ c :: rest)) [] c rest rfl]
        rfl
      have hn' := hn
      rw [hsp] at hn'
      have hla := length_kids_lt a
      have hlc := length_kids_lt c
      have hln := length_kids_lt n
      have hcard : Multiset.card (fp a) + Multiset.card (fp c) + Multiset.card (fp n) < F := by
        have := hF
        rw [hsp] at this
        simp only [Multiset.card_add] at this
        omega
      have hnR2 : ∀ x ∈ fp n, x ∉ fp R := fun x hx => disjoint_of_nodup_add' hn hx
      have hmin : min_of_3 s a.addr c.addr n.addr =
          ((minOf3T a c n).1.addr, (minOf3T a c n).2.1.addr, (minOf3T a c n).2.2.addr) := by
        simp only [min_of_3, minOf3T, wa.value_eq, wc.value_eq, hx.value_eq]
        split <;> split <;> rfl
      have hT : skewLinkT (a :: c :: rest) n = (rest,
          (adoptT (adoptT (minOf3T a c n).1 (minOf3T a c n).2.1) (minOf3T a c n).2.2).setRank
            (a.rank + 1)) := by
        simp [skewLinkT, hrk]
      rw [hT]
      have hunf : skewLink F (some a.addr) (some c.addr) n.addr s =
          (do
            rogue (minOf3T a c n).1.addr
            rogue (minOf3T a c n).2.1.addr
            rogue (minOf3T a c n).2.2.addr
            adopt F (minOf3T a c n).1.addr (minOf3T a c n).2.1.addr
            adopt F (minOf3T a c n).1.addr (minOf3T a c n).2.2.addr
            modify fun t => { t with rank := upd t.rank (minOf3T a c n).1.addr (a.rank + 1) }
            pure (minOf3T a c n).1.addr : M Nat) s := by
        simp only [skewLink, wa.rank_eq, wc.rank_eq, hrk, ne_eq, not_true_eq_false, if_false, hmin]
      simp only [roots, hk, List.map_cons, List.head?_cons, List.tail_cons]
      rw [hunf]
      have finish : ∀ (t2 : State) (m x y : Tree), WFTb b t2 (R.setKids rest) →
          Detached t2 R.addr → Frame s t2 (fp R) → WFT t2 m → WFT t2 x → WFT t2 y →
          Detached t2 m.addr → Detached t2 x.addr → Detached t2 y.addr →
          fp m + fp x + fp y = fp a + fp c + fp n → m.kids.length + 1 < F →
          ∃ t, (do
              adopt F m.addr x.addr
              adopt F m.addr y.addr
              modify fun t => { t with rank := upd t.rank m.addr (a.rank + 1) }
              pure m.addr : M Nat) t2 = .ok m.addr t ∧
            WFTb b t (R.setKids rest) ∧ WFT t ((adoptT (adoptT m x) y).setRank (a.rank + 1)) ∧
            Detached t m.addr ∧ Detached t R.addr ∧ Frame s t (fp R + fp n) := by
        intro t2 m x y w2 dR2 f2 wm wx wy dm dx dy hperm hlen
        have hn3 : (fp m + fp x + fp y).Nodup := by
          rw [hperm]
          refine nodup_sub hn' (Multiset.le_iff_count.2 fun z => ?_)
          simp only [Multiset.count_add]
          omega
        obtain ⟨t, e, w, d, f⟩ := link3_spec t2 m x y (a.rank + 1) F wm wx wy dm dx dy hn3 hlen
        have hdis : ∀ z ∈ fp (R.setKids rest), z ∉ fp m + fp x + fp y := by
          intro z hz
          rw [hperm]
          have : (fp (R.setKids rest) + (fp a + fp c + fp n)).Nodup := by
            refine nodup_sub hn' (le_of_eq ?_)
            ac_rfl
          exact disjoint_of_nodup_add this hz
        refine ⟨t, e, w2.frame_wftb (f.toH 0) hdis, w, d,
          dR2.frame_det (f.toH 0) (hdis _ (by simp)), ?_⟩
        refine (f2.mono_frame fun z hz => Multiset.mem_add.2 (Or.inl hz)).trans_frame (f.mono_frame fun z hz => ?_)
        rw [hperm] at hz
        rw [hsp]
        simp only [Multiset.mem_add] at hz ⊢
        tauto
      obtain ⟨t1, t2, e1, e2, w2, wa2, wc2, da2, dc2, dR2, f2⟩ :=
        rogue2_spec s b R a c rest (decide (a.value < c.value ∨ ¬ c.value < n.value)) hR dR hk hnR
      have wn2 : WFT t2 n := hx.frame_wft (f2.toH 0) hnR2
      have dn2 : Detached t2 n.addr := dn.frame_det (f2.toH 0) (hnR2 _ (addr_mem_fp n))
      by_cases h1 : a.value < c.value
      · simp only [h1, true_or, decide_True, if_true] at e1 e2
        by_cases h2 : a.value < n.value
        · have hm : minOf3T a c n = (a, c, n) := by simp [minOf3T, h1, h2]
          rw [hm]
          obtain ⟨t, e, r⟩ := finish t2 a c n w2 dR2 f2 wa2 wc2 wn2 da2 dc2 dn2 rfl (by omega)
          exact ⟨t, by rw [bind_ok' e1, bind_ok' e2, bind_ok' (rogue_detached t2 _ dn2)]; exact e, r⟩
        · have hm : minOf3T a c n = (n, a, c) := by simp [minOf3T, h1, h2]
          rw [hm]
          obtain ⟨t, e, r⟩ := finish t2 n a c w2 dR2 f2 wn2 wa2 wc2 dn2 da2 dc2 (by ac_rfl)
            (by omega)
          exact ⟨t, by rw [bind_ok' (rogue_detached s _ dn), bind_ok' e1, bind_ok' e2]; exact e, r⟩
      · by_cases h2 : c.value < n.value
        · simp only [h1, h2, not_true_eq_false, or_self, decide_False, if_false,
            Bool.false_eq_true] at e1 e2
          have hm : minOf3T a c n = (c, a, n) := by simp [minOf3T, h1, h2]
          rw [hm]
          obtain ⟨t, e, r⟩ := finish t2 c a n w2 dR2 f2 wc2 wa2 wn2 dc2 da2 dn2 (by ac_rfl)
            (by omega)
          exact ⟨t, by rw [bind_ok' e1, bind_ok' e2, bind_ok' (rogue_detached t2 _ dn2)]; exact e, r⟩
        · simp only [h1, h2, not_false_eq_true, or_true, decide_True, if_true] at e1 e2
          have hm : minOf3T a c n = (n, a, c) := by simp [minOf3T, h1, h2]
          rw [hm]
          obtain ⟨t, e, r⟩ := finish t2 n a c w2 dR2 f2 wn2 wa2 wc2 dn2 da2 dc2 (by ac_rfl)
            (by omega)
          exact ⟨t, by rw [bind_ok' (rogue_detached s _ dn), bind_ok' e1, bind_ok' e2]; exact e, r⟩

theorem minOf3T_fp (a c n : Tree) :
    fp (minOf3T a c n).1 + fp (minOf3T a c n).2.1 + fp (minOf3T a c n).2.2 =
      fp a + fp c + fp n := by
  unfold minOf3T
  split <;> split <;> simp only [] <;> ac_rfl

theorem skewLinkT_fp (kids : List Tree) (n : Tree) :
    fpL (skewLinkT kids n).1 + fp (skewLinkT kids n).2 = fpL kids + fp n := by
  rcases kids with _ | ⟨a, _ | ⟨c, rest⟩⟩
  · simp [skewLinkT]
  · simp [skewLinkT]
  · by_cases h : a.rank = c.rank
    · simp only [skewLinkT, h, ne_eq, not_true_eq_false, if_false, fp_setRank, fp_adoptT,
        minOf3T_fp, fpL_cons]
      ac_rfl
    · simp [skewLinkT, h]

theorem skewLinkT_length (kids : List Tree) (n : Tree) :
    (skewLinkT kids n).1.length ≤ kids.length := by
  rcases kids with _ | ⟨a, _ | ⟨c, rest⟩⟩
  · simp [skewLinkT]
  · simp [skewLinkT]
  · by_cases h : a.rank = c.rank
    · simp only [skewLinkT, h, ne_eq, not_true_eq_false, if_false, List.length_cons]
      omega
    · simp [skewLinkT, h]

theorem fp_setKids_add (R : Tree) (ks : List Tree) (X : Multiset Nat) (Y : Multiset Nat)
    (h : fpL ks + X = fpL R.kids + Y) : fp (R.setKids ks) + X = fp R + Y := by
  rw [fp_eq R, fp_setKids]
  simp only [Multiset.cons_add]
  congr 1
  calc (R.own.toList : Multiset Nat) + (fpL ks + fpL R.subq) + X
      = (R.own.toList : Multiset Nat) + fpL R.subq + (fpL ks + X) := by ac_rfl
    _ = (R.own.toList : Multiset Nat) + fpL R.subq + (fpL R.kids + Y) := by rw [h]
    _ = _ := by ac_rfl

/-- Method `insert_skew` on a queue whose root tree is drawn. -/
theorem insert_skew_spec (s : State) (b : Bool) (bq : Nat) (R n : Tree) (F : Nat)
    (hroot : s.root bq = some R.addr) (hR : WFTb b s R) (dR : Detached s R.addr)
    (hx : WFT s n) (dn : Detached s n.addr) (hn : (fp R + fp n).Nodup)
    (hF : Multiset.card (fp R + fp n) < F) :
    ∃ t, insert_skew F bq n.addr s = .ok () t ∧ WFTb b t (insert_skewT R n) ∧
      Detached t R.addr ∧ Frame s t (fp R + fp n) := by
  obtain ⟨t1, e1, w1, wm, dm, dR1, f1⟩ := skewLink_spec s b R n F hR dR hx dn hn hF
  have hfp : fp (R.setKids (skewLinkT R.kids n).1) + fp (skewLinkT R.kids n).2 = fp R + fp n :=
    fp_setKids_add R _ _ _ (skewLinkT_fp R.kids n)
  have hlen : (R.setKids (skewLinkT R.kids n).1).kids.length < F := by
    have h1 := skewLinkT_length R.kids n
    have h2 := length_kids_lt R
    simp only [setKids_kids, Multiset.card_add] at hF ⊢
    omega
  obtain ⟨t2, e2, w2, d2, f2⟩ := adopt_spec t1 b (R.setKids (skewLinkT R.kids n).1)
    (skewLinkT R.kids n).2 F w1 wm dm (by rw [hfp]; exact hn) hlen
  refine ⟨t2, ?_, w2, d2 dR1, f1.trans_frame (by rw [hfp] at f2; exact f2)⟩
  unfold insert_skew
  simp only [bind_run, bind_gets, hroot, bind_deref_some]
  rw [bind_ok e1]
  simp only [bind_run, bind_gets, f1.root_same, hroot, bind_deref_some]
  exact e2

theorem simpleLinkT_fp (e n : Tree) : fp (simpleLinkT e n) = fp e + fp n := by
  unfold simpleLinkT
  split
  · simp
  · simp [add_comm]

/-- A node that stands alone adopts another and gains a rank: the second half of
`simpleLink`. -/
theorem link2_spec (s : State) (m x : Tree) (F : Nat) (hm : WFT s m) (hx : WFT s x)
    (dm : Detached s m.addr) (dx : Detached s x.addr) (hn : (fp m + fp x).Nodup)
    (hF : m.kids.length < F) :
    ∃ t, (do
        adopt F m.addr x.addr
        modify fun s => { s with rank := upd s.rank m.addr (s.rank m.addr + 1) }
        pure m.addr : M Nat) s = .ok m.addr t ∧
      WFT t ((adoptT m x).setRank (m.rank + 1)) ∧ Detached t m.addr ∧
      Frame s t (fp m + fp x) := by
  obtain ⟨t2, e2, w2, d2, f2⟩ := adopt_spec s true m x F ((WFTb_true _ _).2 hm) hx dx hn hF
  have hn3 : (fp (adoptT m x)).Nodup := by rw [fp_adoptT]; exact hn
  obtain ⟨w3, f3⟩ := rank_spec t2 true (adoptT m x) (m.rank + 1) w2 hn3
  have hr2 : t2.rank m.addr = m.rank := by
    have := w2.1.2.1
    simpa [adoptT] using this
  refine ⟨_, ?_, (WFTb_true _ _).1 w3, d2 dm, f2.trans_frame (by rw [fp_adoptT] at f3; exact f3)⟩
  rw [bind_ok' e2]
  simp only [bind_run, bind_modify, pure_run, hr2]
  rfl

/-- Method `simpleLink` of a child of a node whose tree is drawn with a node standing alone. -/
theorem simpleLink_spec (s : State) (b : Bool) (R n : Tree) (l1 : List Tree) (e : Tree)
    (l2 : List Tree) (F : Nat) (hR : WFTb b s R) (dR : Detached s R.addr)
    (hk : R.kids = l1 ++ e :: l2) (hx : WFT s n) (dn : Detached s n.addr)
    (hn : (fp R + fp n).Nodup) (hF : Multiset.card (fp R + fp n) < F) :
    ∃ t, simpleLink F e.addr n.addr s = .ok (simpleLinkT e n).addr t ∧
      WFTb b t (R.setKids (l1 ++ l2)) ∧ WFT t (simpleLinkT e n) ∧
      Detached t (simpleLinkT e n).addr ∧ Detached t R.addr ∧ Frame s t (fp R + fp n) := by
  have hnR : (fp R).Nodup := (Multiset.nodup_add.1 hn).1
  have hnR2 : ∀ x ∈ fp n, x ∉ fp R := fun x hx => disjoint_of_nodup_add' hn hx
  have hsp := fp_split R l1 e l2 hk
  obtain ⟨t1, e1, w1, we, de, d1, f1⟩ := rogue_spec s b R l1 e l2 hR hk hnR
  have wn1 : WFT t1 n := hx.frame_wft (f1.toH 0) hnR2
  have dn1 : Detached t1 n.addr := dn.frame_det (f1.toH 0) (hnR2 _ (addr_mem_fp n))
  have hn' := hn
  rw [hsp] at hn'
  have hle := length_kids_lt e
  have hln := length_kids_lt n
  have hcard : Multiset.card (fp e) + Multiset.card (fp n) < F := by
    have := hF
    rw [hsp] at this
    simp only [Multiset.card_add] at this
    omega
  have hen : (fp e + fp n).Nodup := by
    refine nodup_sub hn' (Multiset.le_iff_count.2 fun z => ?_)
    simp only [Multiset.count_add]
    omega
  have hdis : ∀ z ∈ fp (R.setKids (l1 ++ l2)), z ∉ fp e + fp n := by
    intro z hz
    have : (fp (R.setKids (l1 ++ l2)) + (fp e + fp n)).Nodup := by
      refine nodup_sub hn' (le_of_eq ?_)
      ac_rfl
    exact disjoint_of_nodup_add this hz
  have hfr : ∀ z, z ∈ fp e + fp n → z ∈ fp R + fp n := by
    intro z hz
    rw [hsp]
    simp only [Multiset.mem_add] at hz ⊢
    tauto
  have hunf : simpleLink F e.addr n.addr s = (do
      if decide (t1.value e.addr < t1.value n.addr) = true then
        adopt F e.addr n.addr
        modify fun s => { s with rank := upd s.rank e.addr (s.rank e.addr + 1) }
        pure e.addr
      else
        adopt F n.addr e.addr
        modify fun s => { s with rank := upd s.rank n.addr (s.rank n.addr + 1) }
        pure n.addr : M Nat) t1 := by
    unfold simpleLink
    rw [bind_ok' e1]
    rfl
  rw [hunf, we.value_eq, wn1.value_eq]
  have hRa : R.addr ∉ fp e + fp n := hdis _ (by simp)
  by_cases hv : e.value < n.value
  · obtain ⟨t, e2, w2, d2, f2⟩ := link2_spec t1 e n F we wn1 de dn1 hen (by omega)
    simp only [hv, decide_True, if_true, simpleLinkT]
    exact ⟨t, e2, w1.frame_wftb (f2.toH 0) hdis, w2, d2, (d1 dR).frame_det (f2.toH 0) hRa,
      (f1.mono_frame fun z hz => Multiset.mem_add.2 (Or.inl hz)).trans_frame (f2.mono_frame hfr)⟩
  · obtain ⟨t, e2, w2, d2, f2⟩ := link2_spec t1 n e F wn1 we dn1 de
      (by rw [add_comm]; exact hen) (by omega)
    simp only [hv, decide_False, if_false, simpleLinkT, Bool.false_eq_true]
    rw [add_comm] at f2
    exact ⟨t, e2, w1.frame_wftb (f2.toH 0) hdis, w2, d2, (d1 dR).frame_det (f2.toH 0) hRa,
      (f1.mono_frame fun z hz => Multiset.mem_add.2 (Or.inl hz)).trans_frame (f2.mono_frame hfr)⟩

theorem forEach_cons (f : Nat → M Unit) (a : Nat) (l : List Nat) (s : State) :
    forEach f (a :: l) s = M.bind (f a) (fun _ => forEach f l) s := rfl

theorem forEach_nil (f : Nat → M Unit) (s : State) : forEach f [] s = .ok () s := rfl

theorem childrenIterator_spec (s : State) (R : Tree) (F : Nat) (hk : KidsOK s R.addr R.kids)
    (hF : R.kids.length < F) : childrenIterator F R.addr s = .ok (roots R.kids) s := by
  unfold childrenIterator
  rw [hk.1, walk_seg s R.addr (roots R.kids) F hk.2 (by simpa [roots] using hF)]
  rfl

/-- The loop of `swapWithRoot`: every child of the old root moves to the new root. -/
theorem swapLoop_spec (F : Nat) : ∀ (ks : List Tree) (s : State) (b : Bool)
    (R N : Tree), WFTb b s R → Detached s R.addr → R.kids = ks → WFT s N →
    Detached s N.addr → (fp R + fp N).Nodup → Multiset.card (fp R + fp N) < F →
    ∃ t, forEach (fun node => do rogue node; adopt F N.addr node) (roots ks) s = .ok () t ∧
      WFTb b t (R.setKids []) ∧
      WFT t (N.setKids (ks.foldl (fun acc k => insertByRank k acc) N.kids)) ∧
      Detached t R.addr ∧ Detached t N.addr ∧ Frame s t (fp R + fp N) := by
  intro ks
  induction ks with
  | nil =>
    intro s b R N hR dR hk hN dN hn hF
    refine ⟨s, rfl, ?_, ?_, dR, dN, Frame.refl_frame _ _⟩
    · rw [← hk, setKids_self]; exact hR
    · simpa [setKids_self] using hN
  | cons k ks ih =>
    intro s b R N hR dR hk hN dN hn hF
    have hnR : (fp R).Nodup := (Multiset.nodup_add.1 hn).1
    have hsp := fp_split R [] k ks hk
    obtain ⟨t1, e1, w1, wk, dk, d1, f1⟩ := rogue_spec s b R [] k ks hR hk hnR
    have hNR : ∀ x ∈ fp N, x ∉ fp R := fun x hx => disjoint_of_nodup_add' hn hx
    have wN1 : WFT t1 N := hN.frame_wft (f1.toH 0) hNR
    have dN1 : Detached t1 N.addr := dN.frame_det (f1.toH 0) (hNR _ (addr_mem_fp N))
    have hn' := hn
    rw [hsp] at hn'
    have hNk : (fp N + fp k).Nodup := by
      refine nodup_sub hn' (Multiset.le_iff_count.2 fun z => ?_)
      simp only [Multiset.count_add]
      omega
    have hlN := length_kids_lt N
    have hlk := length_kids_lt k
    have hF' := hF
    rw [hsp] at hF'
    simp only [Multiset.card_add, List.nil_append] at hF'
    obtain ⟨t2, e2, w2, d2, f2⟩ := adopt_spec t1 true N k F ((WFTb_true _ _).2 wN1) wk dk hNk
      (by omega)
    have hdis : ∀ z ∈ fp (R.setKids ([] ++ ks)), z ∉ fp N + fp k := by
      intro z hz
      have : (fp (R.setKids ([] ++ ks)) + (fp N + fp k)).Nodup := by
        refine nodup_sub hn' (le_of_eq ?_)
        ac_rfl
      exact disjoint_of_nodup_add this hz
    have hfpeq : fp (R.setKids ([] ++ ks)) + fp (adoptT N k) = fp R + fp N := by
      rw [hsp, fp_adoptT]; ac_rfl
    obtain ⟨t3, e3, w3, wN3, dR3, dN3, f3⟩ := ih t2 b (R.setKids ([] ++ ks)) (adoptT N k)
      (w1.frame_wftb (f2.toH 0) hdis) ((d1 dR).frame_det (f2.toH 0) (hdis _ (by simp))) rfl
      ((WFTb_true _ _).1 w2) (d2 dN1) (by rw [hfpeq]; exact hn) (by rw [hfpeq]; exact hF)
    refine ⟨t3, ?_, w3, ?_, dR3, dN3, ?_⟩
    · rw [roots_cons, forEach_cons]
      have e12 : (do rogue k.addr; adopt F N.addr k.addr : M Unit) s = .ok () t2 := by
        rw [bind_ok' e1]; exact e2
      rw [bind_ok e12]
      exact e3
    · exact wN3
    · rw [hfpeq] at f3
      refine ((f1.mono_frame fun z hz => Multiset.mem_add.2 (Or.inl hz)).trans_frame (f2.mono_frame ?_)).trans_frame f3
      intro z hz
      rw [hsp]
      simp only [Multiset.mem_add] at hz ⊢
      tauto

theorem fpL_foldl_insertByRank (ks acc : List Tree) :
    fpL (ks.foldl (fun acc k => insertByRank k acc) acc) = fpL ks + fpL acc := by
  induction ks generalizing acc with
  | nil => simp
  | cons k ks ih =>
    simp only [List.foldl_cons, ih, fpL_insertByRank, fpL_cons]
    ac_rfl

theorem fp_swapOld (R : Tree) : fp (swapOld R) = fp (R.setKids []) := by
  simp [swapOld, Tree.setKids, fp]

theorem swap_fp (R x : Tree) : fp (swapNew R x) + fp (swapOld R) = fp R + fp x := by
  rw [fp_eq R, fp_eq x, fp_swapOld]
  simp only [swapNew, fp_setKids, fpL_foldl_insertByRank, fpL_nil]
  ext a
  simp only [Multiset.count_add, Multiset.count_cons, Multiset.count_zero]
  omega

/-- Method `swapWithRoot` on a queue whose root tree is drawn and a node standing alone. -/
theorem swapWithRoot_spec (s : State) (bq : Nat) (R x : Tree) (F : Nat)
    (hroot : s.root bq = some R.addr) (hR : WFT s R) (dR : Detached s R.addr)
    (hx : WFT s x) (dx : Detached s x.addr) (hn : (fp R + fp x).Nodup)
    (hF : Multiset.card (fp R + fp x) < F) :
    ∃ t, swapWithRoot F bq x.addr s = .ok R.addr t ∧ t.root bq = some x.addr ∧
      WFT t (swapNew R x) ∧ WFT t (swapOld R) ∧ Detached t x.addr ∧ Detached t R.addr ∧
      FrameH s t (fp R + fp x) bq := by
  have hRb := (WFTb_true s R).2 hR
  have hlR := length_kids_lt R
  obtain ⟨t1, e1, w1, wN, dR1, dN1, f1⟩ := swapLoop_spec F R.kids s true R x hRb dR rfl hx dx
    hn hF
  have hnR : (fp R).Nodup := (Multiset.nodup_add.1 hn).1
  have hn0 : (fp (R.setKids [])).Nodup := by
    refine nodup_sub hnR (Multiset.le_iff_count.2 fun z => ?_)
    rw [fp_eq R, fp_setKids]
    simp only [Multiset.count_add, Multiset.count_cons, fpL_nil, Multiset.count_zero]
    omega
  obtain ⟨w2, f2⟩ := rank_spec t1 true (R.setKids []) 0 w1 hn0
  have hdis : ∀ z ∈ fp (swapNew R x), z ∉ fp (R.setKids []) := by
    intro z hz hz2
    have h3 : (fp (swapNew R x) + fp (swapOld R)).Nodup := by rw [swap_fp]; exact hn
    exact disjoint_of_nodup_add h3 hz (by rw [fp_swapOld]; exact hz2)
  refine ⟨{ ({ t1 with rank := upd t1.rank R.addr 0 } : State) with
      root := upd t1.root bq (some x.addr) }, ?_, by simp, ?_, ?_, ?_, ?_, ?_⟩
  · unfold swapWithRoot
    simp only [gets_bind', hroot, deref_bind']
    rw [bind_ok' (childrenIterator_spec s R F hRb.1.2.2.1 (by
      simp only [Multiset.card_add] at hF; omega))]
    rw [bind_ok' e1]
    rfl
  · have h1 : WFT { t1 with rank := upd t1.rank R.addr 0 } (swapNew R x) :=
      wN.frame_wft (f2.toH bq) hdis
    exact h1.congr_wft (fun a _ => ⟨rfl, rfl, rfl, rfl⟩) (fun a _ => ⟨rfl, rfl, rfl⟩)
  · have h1 : WFT { t1 with rank := upd t1.rank R.addr 0 } (swapOld R) := (WFTb_true _ _).1 w2
    exact h1.congr_wft (fun a _ => ⟨rfl, rfl, rfl, rfl⟩) (fun a _ => ⟨rfl, rfl, rfl⟩)
  · exact dN1
  · exact dR1
  · refine ⟨fun a ha => ?_, f1.2.1, f1.2.2.1, f1.2.2.2.1, fun h hh => ?_, f1.sq_same⟩
    · obtain ⟨h1, h2⟩ := f1.1 a ha
      refine ⟨⟨h1.1, ?_, h1.2.2⟩, h2⟩
      have : a ≠ R.addr := by
        rintro rfl
        exact ha (Multiset.mem_add.2 (Or.inl (addr_mem_fp _)))
      simp only [upd_apply, this, if_false]
      exact h1.2.1
    · simp only [upd_apply, hh, if_false]
      rw [f1.root_same]

theorem find_roots (rk : Nat → Int) (r : Int) (kids : List Tree)
    (hk : ∀ k ∈ kids, rk k.addr = k.rank) :
    (roots kids).find? (fun a => decide (rk a = r)) = (findRank r kids).map Tree.addr := by
  induction kids with
  | nil => simp [findRank]
  | cons k l ih =>
    have h1 := hk k (by simp)
    simp only [roots_cons, List.find?_cons, findRank, h1]
    by_cases h : k.rank = r
    · simp [h]
    · simp only [h, decide_False]
      exact ih fun x hx => hk x (by simp [hx])

theorem getSameRankChild_spec (s : State) (R : Tree) (r : Int) (F : Nat)
    (hk : KidsOK s R.addr R.kids) (hw : ∀ k ∈ R.kids, WFT s k) (hF : R.kids.length < F) :
    getSameRankChild F R.addr r s = .ok ((findRank r R.kids).map Tree.addr) s := by
  unfold getSameRankChild
  rw [hk.1, sameRankLoop_seg s R.addr r (roots R.kids) F hk.2 (by simpa [roots] using hF),
    find_roots s.rank r R.kids fun k hkm => (hw k hkm).rank_eq]
  rfl

theorem eraseAddr_split (l1 : List Tree) (e : Tree) (l2 : List Tree)
    (hn : (roots (l1 ++ e :: l2)).Nodup) : eraseAddr e.addr (l1 ++ e :: l2) = l1 ++ l2 := by
  simp only [roots_append, roots_cons] at hn
  have h1 : ∀ k ∈ l1, k.addr ≠ e.addr := by
    intro k hk he
    rw [List.nodup_append] at hn
    exact hn.2.2 (List.mem_map_of_mem _ hk) (by simp [he])
  have h2 : ∀ k ∈ l2, k.addr ≠ e.addr := by
    intro k hk he
    rw [List.nodup_append] at hn
    exact (List.nodup_cons.1 hn.2.1).1 (he ▸ List.mem_map_of_mem _ hk)
  simp only [eraseAddr, List.filter_append, List.filter_cons, ne_eq, not_true_eq_false,
    decide_False, Bool.false_eq_true, if_false]
  rw [List.filter_eq_self.2 fun k hk => by simpa using h1 k hk,
    List.filter_eq_self.2 fun k hk => by simpa using h2 k hk]

theorem findRank_split {r : Int} {kids : List Tree} {e : Tree} (h : findRank r kids = some e) :
    ∃ l1 l2, kids = l1 ++ e :: l2 := by
  have := List.mem_of_find?_eq_some h
  exact List.append_of_mem this

theorem simpleLinkT_value (e x : Tree) :
    (simpleLinkT e x).value = if e.value < x.value then e.value else x.value := by
  unfold simpleLinkT
  split <;> rfl

theorem insert_skewT_fp (R x : Tree) : fp (insert_skewT R x) = fp R + fp x := by
  have h := fp_setKids_add R (insertByRank (skewLinkT R.kids x).2 (skewLinkT R.kids x).1) 0
    (fp x) (by
      rw [fpL_insertByRank, add_zero, add_comm]
      exact skewLinkT_fp R.kids x)
  simpa [insert_skewT] using h

/-- Method `insert` on a non-empty queue whose root tree is drawn, for a node standing alone. -/
theorem insertAux_spec (F bq : Nat) : ∀ (n : Nat) (s : State) (b : Bool) (R x R' : Tree),
    s.root bq = some R.addr → WFTb b s R → Detached s R.addr → WFT s x → Detached s x.addr →
    (fp R + fp x).Nodup → Multiset.card (fp R + fp x) < F →
    (b = true ∨ (R.value ≤ x.value ∧ ∀ k ∈ R.kids, R.value ≤ k.value)) →
    insertT n R x = some R' →
    ∃ t, insertAux F n bq x.addr s = .ok () t ∧ t.root bq = some R'.addr ∧ WFTb b t R' ∧
      Detached t R'.addr ∧ FrameH s t (fp R + fp x) bq ∧ fp R' = fp R + fp x := by
  intro n
  induction n with
  | zero =>
    intro s b R x R' _ _ _ _ _ _ _ _ h
    simp [insertT] at h
  | succ n ih =>
    intro s b R x R' hroot hR dR hx dx hn hF hb h
    have hnR : (fp R).Nodup := (Multiset.nodup_add.1 hn).1
    have hlR := length_kids_lt R
    have hFR : R.kids.length < F := by
      simp only [Multiset.card_add] at hF; omega
    have hunf : insertAux F (n + 1) bq x.addr s =
        (if decide (x.value < R.value) = true then
          (do let oldroot ← swapWithRoot F bq x.addr; insertAux F n bq oldroot : M Unit) s
        else if decide (x.rank > 0) = true then
          insert_binomial F (insertAux F n) bq x.addr s
        else insert_skew F bq x.addr s) := by
      simp only [insertAux, gets_bind', hroot, hx.value_eq, hR.1.1]
      by_cases hv : x.value < R.value
      · simp only [hv, decide_True, if_true]
      · simp only [hv, decide_False, if_false, Bool.false_eq_true, gets_bind', hx.rank_eq]
        split <;> rfl
    rw [hunf]
    unfold insertT at h
    by_cases hv : x.value < R.value
    · simp only [hv, if_true, decide_True] at h ⊢
      have hbt : b = true := by
        rcases hb with hb | hb
        · exact hb
        · omega
      subst hbt
      obtain ⟨t1, e1, r1, wN, wO, dN, dO, f1⟩ := swapWithRoot_spec s bq R x F hroot
        ((WFTb_true _ _).1 hR) dR hx dx hn hF
      obtain ⟨t, e2, r2, w2, d2, f2, hfp⟩ := ih t1 true (swapNew R x) (swapOld R) R' r1
        ((WFTb_true _ _).2 wN) dN wO dO (by rw [swap_fp]; exact hn) (by rw [swap_fp]; exact hF)
        (Or.inl rfl) h
      rw [swap_fp] at f2 hfp
      exact ⟨t, by rw [bind_ok' e1]; exact e2, r2, w2, d2, f1.trans_frameH f2, hfp⟩
    · simp only [hv, if_false, decide_False, Bool.false_eq_true] at h ⊢
      by_cases hr : x.rank > 0
      · simp only [hr, if_true, decide_True] at h ⊢
        have hgs := getSameRankChild_spec s R x.rank F hR.1.2.2.1 hR.1.2.2.2.1 hFR
        have hunf2 : insert_binomial F (insertAux F n) bq x.addr s =
            (match (findRank x.rank R.kids).map Tree.addr with
              | none => adopt F R.addr x.addr s
              | some sr => (do
                  let newnode ← simpleLink F sr x.addr
                  insertAux F n bq newnode : M Unit) s) := by
          unfold insert_binomial
          simp only [gets_bind', hroot, deref_bind', hx.rank_eq]
          rw [bind_ok' hgs]
          cases (findRank x.rank R.kids).map Tree.addr with
          | none => simp only [gets_bind', hroot, deref_bind']
          | some sr => rfl
        rw [hunf2]
        cases hf : findRank x.rank R.kids with
        | none =>
          rw [hf] at h
          simp only [Option.some.injEq] at h
          subst h
          simp only [Option.map_none']
          obtain ⟨t, e, w, d, f⟩ := adopt_spec s b R x F hR hx dx hn hFR
          exact ⟨t, e, by rw [f.root_same]; exact hroot, w, d dR, f.toH bq, fp_adoptT R x⟩
        | some e =>
          rw [hf] at h
          simp only [Option.map_some'] at h ⊢
          obtain ⟨l1, l2, hk⟩ := findRank_split hf
          have her : eraseAddr e.addr R.kids = l1 ++ l2 := by
            rw [hk]
            exact eraseAddr_split l1 e l2 (by rw [← hk]; exact nodup_roots (nodup_fp_kids hnR))
          rw [her] at h
          obtain ⟨t1, e1, w1, wl, dl, dR1, f1⟩ := simpleLink_spec s b R x l1 e l2 F hR dR hk hx
            dx hn hF
          have hfpeq : fp (R.setKids (l1 ++ l2)) + fp (simpleLinkT e x) = fp R + fp x := by
            rw [simpleLinkT_fp, fp_split R l1 e l2 hk]; ac_rfl
          have hem : e ∈ R.kids := by rw [hk]; simp
          obtain ⟨t, e2, r2, w2, d2, f2, hfp⟩ := ih t1 b (R.setKids (l1 ++ l2)) (simpleLinkT e x)
            R' (by rw [f1.root_same]; exact hroot) w1 dR1 wl dl (by rw [hfpeq]; exact hn)
            (by rw [hfpeq]; exact hF) (by
              rcases hb with hb | hb
              · exact Or.inl hb
              · refine Or.inr ⟨?_, fun k hkm => hb.2 k ?_⟩
                · rw [simpleLinkT_value]
                  have := hb.2 e hem
                  simp only [setKids_value]
                  split <;> omega
                · rw [hk]
                  simp only [setKids_kids, List.mem_append] at hkm
                  simp only [List.mem_append, List.mem_cons]
                  tauto) h
          rw [hfpeq] at f2 hfp
          exact ⟨t, by rw [bind_ok' e1]; exact e2, r2, w2, d2, (f1.toH bq).trans_frameH f2, hfp⟩
      · simp only [hr, if_false, decide_False, Bool.false_eq_true, Option.some.injEq] at h ⊢
        subst h
        obtain ⟨t, e, w, d, f⟩ := insert_skew_spec s b bq R x F hroot hR dR hx dx hn hF
        exact ⟨t, e, by rw [f.root_same]; exact hroot, w, d, f.toH bq, insert_skewT_fp R x⟩

/-! ### Facts on the tree functions that the drain loop needs -/

theorem adoptT_fields (R x : Tree) :
    (adoptT R x).addr = R.addr ∧ (adoptT R x).value = R.value ∧ (adoptT R x).rank = R.rank ∧
      (adoptT R x).own = R.own ∧ (adoptT R x).subq = R.subq := ⟨rfl, rfl, rfl, rfl, rfl⟩

theorem minOf3T_cases (a c n : Tree) :
    minOf3T a c n = (a, c, n) ∧ a.value < c.value ∧ a.value < n.value ∨
      minOf3T a c n = (n, a, c) ∧ n.value ≤ a.value ∧ n.value ≤ c.value ∨
        minOf3T a c n = (c, a, n) ∧ c.value ≤ a.value ∧ c.value < n.value := by
  unfold minOf3T
  by_cases h1 : a.value < c.value <;> by_cases h2 : a.value < n.value <;>
    by_cases h3 : c.value < n.value <;> simp [h1, h2, h3] <;> omega

theorem skewLinkT_value (kids : List Tree) (n : Tree) (v : Int) (hk : ∀ k ∈ kids, v ≤ k.value)
    (hn : v ≤ n.value) :
    v ≤ (skewLinkT kids n).2.value ∧ ∀ k ∈ (skewLinkT kids n).1, v ≤ k.value := by
  rcases kids with _ | ⟨a, _ | ⟨c, rest⟩⟩
  · simpa [skewLinkT] using hn
  · exact ⟨by simpa [skewLinkT] using hn, by simpa [skewLinkT] using hk⟩
  · have ha := hk a (by simp)
    have hc := hk c (by simp)
    by_cases h : a.rank = c.rank
    · simp only [skewLinkT, h, ne_eq, not_true_eq_false, if_false, setRank_value]
      refine ⟨?_, fun k hkm => hk k (by simp [hkm])⟩
      rcases minOf3T_cases a c n with h1 | h1 | h1 <;> rw [h1.1] <;> simpa [adoptT] using by omega
    · exact ⟨by simpa [skewLinkT, h] using hn, by simpa [skewLinkT, h] using hk⟩

theorem mem_eraseAddr {a : Nat} {l : List Tree} {k : Tree} (h : k ∈ eraseAddr a l) : k ∈ l :=
  List.mem_of_mem_filter h

/-- When neither the inserted node nor a child of the root is below the root, `insert`
keeps the root node and what hangs below it is not below it either. -/
theorem insertT_noswap : ∀ (n : Nat) (R x R' : Tree), R.value ≤ x.value →
    (∀ k ∈ R.kids, R.value ≤ k.value) → insertT n R x = some R' →
    R'.addr = R.addr ∧ R'.value = R.value ∧ R'.rank = R.rank ∧ R'.own = R.own ∧
      R'.subq = R.subq ∧ ∀ k ∈ R'.kids, R.value ≤ k.value := by
  intro n
  induction n with
  | zero => intro R x R' _ _ h; simp [insertT] at h
  | succ n ih =>
    intro R x R' hx hk h
    unfold insertT at h
    have hv : ¬ x.value < R.value := by omega
    simp only [hv, if_false] at h
    by_cases hr : x.rank > 0
    · simp only [hr, if_true] at h
      cases hf : findRank x.rank R.kids with
      | none =>
        rw [hf] at h
        simp only [Option.some.injEq] at h
        subst h
        refine ⟨rfl, rfl, rfl, rfl, rfl, fun k hkm => ?_⟩
        rcases mem_insertByRank.1 hkm with rfl | hkm
        · exact hx
        · exact hk k hkm
      | some e =>
        rw [hf] at h
        simp only at h
        have hem : e ∈ R.kids := List.mem_of_find?_eq_some hf
        have := ih (R.setKids (eraseAddr e.addr R.kids)) (simpleLinkT e x) R' (by
          rw [simpleLinkT_value]
          have := hk e hem
          simp only [setKids_value]
          split <;> omega) (fun k hkm => hk k (mem_eraseAddr hkm)) h
        simpa using this
    · simp only [hr, if_false, Option.some.injEq] at h
      subst h
      refine ⟨rfl, rfl, rfl, rfl, rfl, fun k hkm => ?_⟩
      have hs := skewLinkT_value R.kids x R.value hk hx
      rcases mem_insertByRank.1 hkm with rfl | hkm
      · exact hs.1
      · exact hs.2 k hkm

theorem fp_strip_like (R : Tree) (h1 : R.own = none) (h2 : R.subq = []) :
    fp R = R.addr ::ₘ fpL R.kids := by
  rw [fp_eq, h1, h2]; simp

/-- Method `rogue_subqueue` on the first node of a subqueue list. -/
theorem rogue_subqueue_head (s : State) (o k : Nat) (rest : List Nat)
    (hseg : Seg s o (k :: rest)) (hsq : s.subqueue_head o = some k) :
    rogue_subqueue k s = .ok ()
      (clearLinks k { s with subqueue_head := upd s.subqueue_head o (s.rightsibling k) }) := by
  have hp := ((seg_cons _ _ _ _).1 hseg).1
  simp [rogue_subqueue, hp, hsq]

theorem subqueueIterator_spec (s : State) (a o : Nat) (q : List Tree) (F : Nat)
    (hq : SqOK s a o q) (hF : q.length < F) : subqueueIterator F a s = .ok (roots q) s := by
  unfold subqueueIterator
  rw [hq.1, walk_seg s o (roots q) F hq.2.2 (by simpa [roots] using hF)]
  rfl

theorem FrameH.toOp {s t : State} {A : Multiset Nat} {bq : Nat} (h : FrameH s t A bq) :
    OpFrame s t A bq :=
  ⟨h.1, le_of_eq h.2.1.symm, h.2.2.1, fun x hx => ⟨h.2.2.2.2.1 x hx, by rw [h.2.2.2.1]⟩⟩

theorem OpFrame.refl_op (s : State) (A : Multiset Nat) (bq : Nat) : OpFrame s s A bq :=
  (FrameH.refl_frameH s A bq).toOp

theorem OpFrame.mono_op {s t : State} {A B : Multiset Nat} {bq : Nat} (h : OpFrame s t A bq)
    (hs : ∀ a ∈ A, a ∈ B) : OpFrame s t B bq :=
  ⟨fun a ha => h.1 a fun hh => ha (hs a hh), h.2⟩

theorem OpFrame.trans_op {s t u : State} {A : Multiset Nat} {bq : Nat} (h1 : OpFrame s t A bq)
    (h2 : OpFrame t u A bq) : OpFrame s u A bq := by
  refine ⟨fun a ha => ?_, h1.2.1.trans h2.2.1, by rw [h2.2.2.1, h1.2.2.1], fun h hh => ?_⟩
  · obtain ⟨⟨a1, a2, a3, a4⟩, a5, a6, a7⟩ := h1.1 a ha
    obtain ⟨⟨b1, b2, b3, b4⟩, b5, b6, b7⟩ := h2.1 a ha
    exact ⟨⟨by rw [b1, a1], by rw [b2, a2], by rw [b3, a3], by rw [b4, a4]⟩,
      by rw [b5, a5], by rw [b6, a6], by rw [b7, a7]⟩
  · obtain ⟨a1, a2⟩ := h1.2.2.2 h hh
    obtain ⟨b1, b2⟩ := h2.2.2.2 h hh
    exact ⟨by rw [b1, a1], by rw [b2, a2]⟩

/-- The loop of `merge_subqueue`: every node of the subqueue list, whose members name `o`
as parent, goes below the root. -/
theorem drainLoop_spec (F bq : Nat) : ∀ (q : List Tree) (s : State) (R0 R1 : Tree) (o : Nat),
    s.root bq = some R0.addr → WFTb false s R0 → Detached s R0.addr → R0.subq = [] →
    R0.own = none → s.subqueue_head o = (roots q).head? → Seg s o (roots q) →
    (∀ k ∈ q, WFT s k) → (fp R0 + fpL q).Nodup → o ∉ fpL q → o ∉ fpL R0.kids →
    Multiset.card (fp R0 + fpL q) < F → (∀ k ∈ q, R0.value ≤ k.value) →
    (∀ k ∈ R0.kids, R0.value ≤ k.value) → reinsT F q R0 = some R1 →
    ∃ t, forEach (fun node => do rogue_subqueue node; insert F bq node) (roots q) s = .ok () t ∧
      t.root bq = some R1.addr ∧ WFTb false t R1 ∧ Detached t R1.addr ∧ R1.addr = R0.addr ∧
      R1.value = R0.value ∧ R1.rank = R0.rank ∧ R1.subq = [] ∧ R1.own = none ∧
      (∀ k ∈ R1.kids, R0.value ≤ k.value) ∧ fp R1 = fp R0 + fpL q ∧
      t.subqueue_head o = none ∧
      OpFrame s t (o ::ₘ (fp R0 + fpL q)) bq ∧ t.size = s.size ∧ t.nodes = s.nodes := by
  intro q
  induction q with
  | nil =>
    intro s R0 R1 o hroot hR dR hsub hown hsq hseg hw hn ho1 ho2 hF hv1 hv2 h
    simp only [reinsT, Option.some.injEq] at h
    subst h
    exact ⟨s, rfl, hroot, hR, dR, rfl, rfl, rfl, hsub, hown, hv2, by simp, by simpa using hsq,
      OpFrame.refl_op _ _ _, rfl, rfl⟩
  | cons k rest ih =>
    intro s R0 R1 o hroot hR dR hsub hown hsq hseg hw hn ho1 ho2 hF hv1 hv2 h
    simp only [reinsT] at h
    cases hi : insertT F R0 k with
    | none => rw [hi] at h; simp at h
    | some R0' =>
      rw [hi] at h
      simp only [Option.some_bind] at h
      simp only [roots_cons, List.head?_cons] at hsq hseg
      have hsc := (seg_cons _ _ _ _).1 hseg
      simp only [fpL_cons] at hn ho1 hF
      have hfR0 := fp_strip_like R0 hown hsub
      have hwk := hw k (by simp)
      have hnk : (fp k).Nodup := nodup_sub hn (Multiset.le_iff_count.2 fun z => by
        simp only [Multiset.count_add]; omega)
      have hnR0 : (fp R0).Nodup := (Multiset.nodup_add.1 hn).1
      have hnRk : (fp R0 + fp k).Nodup := nodup_sub hn (Multiset.le_iff_count.2 fun z => by
        simp only [Multiset.count_add]; omega)
      have hnq : (fpL rest).Nodup := nodup_sub hn (Multiset.le_iff_count.2 fun z => by
        simp only [Multiset.count_add]; omega)
      -- the state after `rogue_subqueue`
      have e1 := rogue_subqueue_head s o k.addr (roots rest) hseg hsq
      generalize ht1 : clearLinks k.addr
        { s with subqueue_head := upd s.subqueue_head o (s.rightsibling k.addr) } = t1 at e1
      have hcore : ∀ a, a ≠ o → SameCore s t1 a := by
        intro a ha
        subst ht1
        exact ⟨rfl, rfl, rfl, by simp [clearLinks, upd_apply, ha]⟩
      have hlink : ∀ a, a ≠ k.addr → SameLink s t1 a := by
        intro a ha
        subst ht1
        simp [SameLink, clearLinks, upd_apply, ha]
      have hko : k.addr ≠ o := by
        rintro rfl
        exact ho1 (Multiset.mem_add.2 (Or.inl (addr_mem_fp k)))
      have hkR : ∀ a ∈ fp R0, a ≠ k.addr := by
        rintro a ha rfl
        exact disjoint_of_nodup_add hnRk ha (addr_mem_fp k)
      have hoR : ∀ a ∈ fpL R0.kids, a ≠ o := by
        rintro a ha rfl
        exact ho2 ha
      have wR1 : WFTb false t1 R0 := by
        obtain ⟨⟨h1, h2, h3, h4, h5⟩, _⟩ := hR
        have hsame : t1.value = s.value ∧ t1.rank = s.rank ∧ t1.children_head = s.children_head := by
          subst ht1; exact ⟨rfl, rfl, rfl⟩
        refine ⟨⟨by rw [hsame.1, h1], by rw [hsame.2.1, h2], ?_, ?_, ?_⟩, by simp⟩
        · exact h3.congr_kids (by rw [hsame.2.2]) fun a ha => hlink a
            (hkR a (Multiset.mem_of_le (kids_le_fp R0) (roots_mem_fpL ha)))
        · intro c hc
          exact (h4 c hc).congr_wft (fun a ha => hcore a (hoR a (mem_fpL hc ha)))
            fun a ha => hlink a (hkR a (kid_mem_fp hc (inner_mem_fp ha)))
        · intro c hc
          rw [hsub] at hc
          simp at hc
      have dR1 : Detached t1 R0.addr := by
        obtain ⟨l1, l2, l3⟩ := hlink R0.addr (hkR _ (addr_mem_fp R0))
        exact ⟨by rw [l1, dR.1], by rw [l2, dR.2.1], by rw [l3, dR.2.2]⟩
      have wk1 : WFT t1 k := by
        refine hwk.congr_wft (fun a ha => hcore a ?_) fun a ha => hlink a (addr_not_mem_inner hnk ha)
        rintro rfl
        exact ho1 (Multiset.mem_add.2 (Or.inl ha))
      have dk1 : Detached t1 k.addr := by
        subst ht1
        simp [Detached, clearLinks]
      have hrest : ∀ c ∈ rest, ∀ a ∈ fp c, a ≠ o ∧ a ≠ k.addr := by
        intro c hc a ha
        constructor
        · rintro rfl
          exact ho1 (Multiset.mem_add.2 (Or.inr (mem_fpL hc ha)))
        · rintro rfl
          have h3 : (fp k + fpL rest).Nodup := nodup_sub hn (Multiset.le_iff_count.2 fun z => by
            simp only [Multiset.count_add]; omega)
          exact disjoint_of_nodup_add h3 (addr_mem_fp k) (mem_fpL hc ha)
      have wrest1 : ∀ c ∈ rest, WFT t1 c := fun c hc =>
        (hw c (by simp [hc])).congr_wft (fun a ha => hcore a (hrest c hc a ha).1)
          fun a ha => hlink a (hrest c hc a (inner_mem_fp ha)).2
      have hseg1 : Seg t1 o (roots rest) := by
        refine hsc.2.2.2.congr_seg ?_ ?_ ?_ <;> intro a ha
        · have ha' : a ∈ roots rest := ha
          obtain ⟨c, hc, rfl⟩ := List.mem_map.1 ha'
          exact (hlink _ (hrest c hc _ (addr_mem_fp c)).2).1
        · obtain ⟨c, hc, rfl⟩ := List.mem_map.1 ha
          exact (hlink _ (hrest c hc _ (addr_mem_fp c)).2).2.2
        · obtain ⟨c, hc, rfl⟩ := List.mem_map.1 (List.mem_of_mem_tail ha)
          exact (hlink _ (hrest c hc _ (addr_mem_fp c)).2).2.1
      have hsq1 : t1.subqueue_head o = (roots rest).head? := by
        subst ht1
        simp [clearLinks, hsc.2.1]
      have hroot1 : t1.root bq = some R0.addr := by
        subst ht1; exact hroot
      -- `insert`
      obtain ⟨t2, e2, r2, w2, d2, f2, hfp2⟩ := insertAux_spec F bq F t1 false R0 k R0' hroot1 wR1
        dR1 wk1 dk1 hnRk (by simp only [Multiset.card_add] at hF ⊢; omega)
        (Or.inr ⟨hv1 k (by simp), hv2⟩) hi
      obtain ⟨n1, n2, n3, n4, n5, n6⟩ := insertT_noswap F R0 k R0' (hv1 k (by simp)) hv2 hi
      have hdis : ∀ c ∈ rest, ∀ a ∈ fp c, a ∉ fp R0 + fp k := by
        intro c hc a ha
        have h3 : (fp R0 + fp k + fpL rest).Nodup := nodup_sub hn (le_of_eq (by ac_rfl))
        exact disjoint_of_nodup_add' h3 (mem_fpL hc ha)
      have hfeq : fp R0' + fpL rest = fp R0 + (fp k + fpL rest) := by rw [hfp2]; ac_rfl
      have ho3 : o ∉ fpL R0'.kids := by
        intro hm
        have hm2 : o ∈ fp R0' := Multiset.mem_of_le (kids_le_fp R0') hm
        have hnR0' : (fp R0').Nodup := by rw [hfp2]; exact hnRk
        by_cases hoe : o = R0.addr
        · exact addr_not_mem_inner hnR0' (Multiset.mem_add.2 (Or.inl hm)) (hoe.trans n1.symm)
        · rw [hfp2, hfR0] at hm2
          simp only [Multiset.mem_add, Multiset.mem_cons] at hm2
          rcases hm2 with (h5 | h5) | h5
          · exact hoe h5
          · exact ho2 h5
          · exact ho1 (Multiset.mem_add.2 (Or.inl h5))
      obtain ⟨t3, e3, r3, w3, d3, a3, v3, rk3, s3, o3, k3, fp3, q3, f3, sz3, nd3⟩ :=
        ih t2 R0' R1 o r2 w2 d2 (n5.trans hsub) (n4.trans hown)
        (by rw [f2.sq_eq]; exact hsq1)
        (hseg1.congr_seg
          (fun a ha => by
            obtain ⟨c, hc, rfl⟩ := List.mem_map.1 ha
            exact (f2.1 _ (hdis c hc _ (addr_mem_fp c))).2.1)
          (fun a ha => by
            obtain ⟨c, hc, rfl⟩ := List.mem_map.1 ha
            exact (f2.1 _ (hdis c hc _ (addr_mem_fp c))).2.2.2)
          (fun a ha => by
            obtain ⟨c, hc, rfl⟩ := List.mem_map.1 (List.mem_of_mem_tail ha)
            exact (f2.1 _ (hdis c hc _ (addr_mem_fp c))).2.2.1))
        (fun c hc => (wrest1 c hc).frame_wft f2 (hdis c hc))
        (by rw [hfeq]; exact hn)
        (fun hm => ho1 (Multiset.mem_add.2 (Or.inr hm))) ho3
        (by rw [hfeq]; exact hF)
        (fun c hc => by rw [n2]; exact hv1 c (by simp [hc]))
        (fun c hc => by rw [n2]; exact n6 c hc) h
      refine ⟨t3, ?_, r3, w3, d3, a3.trans n1, v3.trans n2, rk3.trans n3, s3, o3,
        fun c hc => by rw [← n2]; exact k3 c hc, by rw [fp3, hfeq, fpL_cons], q3, ?_, ?_, ?_⟩
      · rw [roots_cons, forEach_cons]
        have e12 : (do rogue_subqueue k.addr; insert F bq k.addr : M Unit) s = .ok () t2 := by
          rw [bind_ok' e1]; exact e2
        rw [bind_ok e12]
        exact e3
      · have f1 : OpFrame s t1 (o ::ₘ (fp R0 + fpL (k :: rest))) bq := by
          refine ⟨fun a ha => ⟨hcore a ?_, hlink a ?_⟩, ?_, ?_, ?_⟩
          · rintro rfl; exact ha (Multiset.mem_cons_self _ _)
          · rintro rfl
            apply ha
            simp only [fpL_cons, Multiset.mem_cons, Multiset.mem_add]
            exact Or.inr (Or.inr (Or.inl (addr_mem_fp k)))
          · subst ht1; exact le_refl _
          · subst ht1; rfl
          · intro h _; subst ht1; exact ⟨rfl, rfl⟩
        have f2' : OpFrame t1 t2 (o ::ₘ (fp R0 + fpL (k :: rest))) bq := by
          refine f2.toOp.mono_op fun a ha => ?_
          simp only [fpL_cons, Multiset.mem_cons, Multiset.mem_add] at ha ⊢
          tauto
        have f3' : OpFrame t2 t3 (o ::ₘ (fp R0 + fpL (k :: rest))) bq := by
          refine f3.mono_op fun a ha => ?_
          rw [hfp2] at ha
          simp only [fpL_cons, Multiset.mem_cons, Multiset.mem_add] at ha ⊢
          tauto
        exact (f1.trans_op f2').trans_op f3'
      · rw [sz3, f2.2.2.2.1]
        subst ht1
        rfl
      · rw [nd3, f2.2.1]
        subst ht1
        rfl

/-- The loop of `reInsertChildren`: every child of the node `Mc`, which stands alone, goes
below the root. -/
theorem reinsLoop_spec (F bq : Nat) : ∀ (ks : List Tree) (s : State) (R0 R1 Mc : Tree),
    s.root bq = some R0.addr → WFTb false s R0 → Detached s R0.addr →
    WFTb true s Mc → Mc.kids = ks → (fp R0 + fp Mc).Nodup →
    Multiset.card (fp R0 + fp Mc) < F → (∀ k ∈ ks, R0.value ≤ k.value) →
    (∀ k ∈ R0.kids, R0.value ≤ k.value) → reinsT F ks R0 = some R1 →
    ∃ t, forEach (fun node => do rogue node; insert F bq node) (roots ks) s = .ok () t ∧
      t.root bq = some R1.addr ∧ WFTb false t R1 ∧ Detached t R1.addr ∧ R1.addr = R0.addr ∧
      R1.value = R0.value ∧ R1.rank = R0.rank ∧ R1.subq = R0.subq ∧ R1.own = R0.own ∧
      (∀ k ∈ R1.kids, R0.value ≤ k.value) ∧ fp R1 = fp R0 + fpL ks ∧
      WFTb true t (Mc.setKids []) ∧ FrameH s t (fp R0 + fp Mc) bq := by
  intro ks
  induction ks with
  | nil =>
    intro s R0 R1 Mc hroot hR dR hM hk hn hF hv1 hv2 h
    simp only [reinsT, Option.some.injEq] at h
    subst h
    refine ⟨s, rfl, hroot, hR, dR, rfl, rfl, rfl, rfl, rfl, hv2, by simp, ?_, FrameH.refl_frameH _ _ _⟩
    rw [← hk, setKids_self]
    exact hM
  | cons k rest ih =>
    intro s R0 R1 Mc hroot hR dR hM hk hn hF hv1 hv2 h
    simp only [reinsT] at h
    cases hi : insertT F R0 k with
    | none => rw [hi] at h; simp at h
    | some R0' =>
      rw [hi] at h
      simp only [Option.some_bind] at h
      have hnM : (fp Mc).Nodup := (Multiset.nodup_add.1 hn).2.1
      have hsp := fp_split Mc [] k rest hk
      have hn' := hn
      rw [hsp] at hn'
      obtain ⟨t1, e1, wM1, wk1, dk1, _, f1⟩ := rogue_spec s true Mc [] k rest hM hk hnM
      have hRM : ∀ a ∈ fp R0, a ∉ fp Mc := fun a ha => disjoint_of_nodup_add hn ha
      have wR1 : WFTb false t1 R0 := hR.frame_wftb (f1.toH bq) hRM
      have dR1 : Detached t1 R0.addr := dR.frame_det (f1.toH bq) (hRM _ (addr_mem_fp R0))
      have hnRk : (fp R0 + fp k).Nodup := nodup_sub hn' (Multiset.le_iff_count.2 fun z => by
        simp only [Multiset.count_add]; omega)
      have hF' := hF
      rw [hsp] at hF'
      simp only [Multiset.card_add] at hF'
      obtain ⟨t2, e2, r2, w2, d2, f2, hfp2⟩ := insertAux_spec F bq F t1 false R0 k R0'
        (by rw [f1.root_same]; exact hroot) wR1 dR1 wk1 dk1 hnRk
        (by simp only [Multiset.card_add]; omega) (Or.inr ⟨hv1 k (by simp), hv2⟩) hi
      obtain ⟨n1, n2, n3, n4, n5, n6⟩ := insertT_noswap F R0 k R0' (hv1 k (by simp)) hv2 hi
      have hMd : ∀ a ∈ fp (Mc.setKids ([] ++ rest)), a ∉ fp R0 + fp k := by
        intro a ha
        have h3 : (fp (Mc.setKids ([] ++ rest)) + (fp R0 + fp k)).Nodup :=
          nodup_sub hn' (le_of_eq (by ac_rfl))
        exact disjoint_of_nodup_add h3 ha
      have hfeq : fp R0' + fp (Mc.setKids ([] ++ rest)) = fp R0 + fp Mc := by
        rw [hfp2, hsp]; ac_rfl
      obtain ⟨t3, e3, r3, w3, d3, a3, v3, rk3, s3, o3, k3, fp3, wM3, f3⟩ :=
        ih t2 R0' R1 (Mc.setKids ([] ++ rest)) r2 w2 d2 (wM1.frame_wftb f2 hMd) rfl
        (by rw [hfeq]; exact hn) (by rw [hfeq]; exact hF)
        (fun c hc => by rw [n2]; exact hv1 c (by simp [hc]))
        (fun c hc => by rw [n2]; exact n6 c hc) h
      refine ⟨t3, ?_, r3, w3, d3, a3.trans n1, v3.trans n2, rk3.trans n3, s3.trans n5,
        o3.trans n4, fun c hc => by rw [← n2]; exact k3 c hc,
        by rw [fp3, hfp2, fpL_cons]; ac_rfl, wM3, ?_⟩
      · rw [roots_cons, forEach_cons]
        have e12 : (do rogue k.addr; insert F bq k.addr : M Unit) s = .ok () t2 := by
          rw [bind_ok' e1]; exact e2
        rw [bind_ok e12]
        exact e3
      · rw [hfeq] at f3
        refine (((f1.toH bq).mono_frameH fun a ha => Multiset.mem_add.2 (Or.inr ha)).trans_frameH
          (f2.mono_frameH fun a ha => ?_)).trans_frameH f3
        rw [hsp]
        simp only [Multiset.mem_add] at ha ⊢
        tauto

theorem minAddrLoop_eq (s : State) (m : Tree) (l : List Tree) (hm : s.value m.addr = m.value)
    (hl : ∀ k ∈ l, s.value k.addr = k.value) :
    minAddrLoop s m.addr (roots l) = (minKidLoop m l).addr := by
  induction l generalizing m with
  | nil => rfl
  | cons c l ih =>
    have hc := hl c (by simp)
    simp only [roots_cons, minAddrLoop, minKidLoop, hm, hc]
    split
    · exact ih c hc fun k hk => hl k (by simp [hk])
    · exact ih m hm fun k hk => hl k (by simp [hk])

theorem getMinChild_spec (s : State) (R : Tree) (F : Nat) (hk : KidsOK s R.addr R.kids)
    (hw : ∀ k ∈ R.kids, WFT s k) (hF : R.kids.length < F) :
    getMinChild F R.addr s = .ok ((minKid R.kids).map Tree.addr) s := by
  unfold getMinChild
  rcases hkk : R.kids with _ | ⟨h, l⟩
  · rw [hkk] at hk
    simp [hk.1, minKid]
  · rw [hkk] at hk hw hF
    simp only [hk.1, roots_cons, List.head?_cons]
    have hF2 : (roots l).length < F := by
      simp only [roots, List.length_map]
      simp only [List.length_cons] at hF
      omega
    rw [minLoop_seg s R.addr h.addr h.addr (roots l) F hk.2 hF2,
      minAddrLoop_eq s h l (hw h (by simp)).value_eq fun k hkm => (hw k (by simp [hkm])).value_eq]
    rfl

theorem minKidLoop_mem (m : Tree) (l : List Tree) : minKidLoop m l = m ∨ minKidLoop m l ∈ l := by
  induction l generalizing m with
  | nil => exact Or.inl rfl
  | cons c l ih =>
    simp only [minKidLoop]
    split
    · rcases ih c with h | h
      · exact Or.inr (by simp [h])
      · exact Or.inr (by simp [h])
    · rcases ih m with h | h
      · exact Or.inl h
      · exact Or.inr (by simp [h])

theorem minKid_mem {l : List Tree} {m : Tree} (h : minKid l = some m) : m ∈ l := by
  cases l with
  | nil => simp [minKid] at h
  | cons c l =>
    simp only [minKid, Option.some.injEq] at h
    subst h
    rcases minKidLoop_mem c l with h | h
    · simp [h]
    · simp [h]

theorem minKidLoop_le (m : Tree) (l : List Tree) :
    (minKidLoop m l).value ≤ m.value ∧ ∀ k ∈ l, (minKidLoop m l).value ≤ k.value := by
  induction l generalizing m with
  | nil => simp [minKidLoop]
  | cons c l ih =>
    simp only [minKidLoop]
    split
    · obtain ⟨h1, h2⟩ := ih c
      refine ⟨by omega, fun k hk => ?_⟩
      rcases List.mem_cons.1 hk with rfl | hk
      · exact h1
      · exact h2 k hk
    · obtain ⟨h1, h2⟩ := ih m
      refine ⟨h1, fun k hk => ?_⟩
      rcases List.mem_cons.1 hk with rfl | hk
      · omega
      · exact h2 k hk

theorem minKid_le {l : List Tree} {m : Tree} (h : minKid l = some m) :
    ∀ k ∈ l, m.value ≤ k.value := by
  cases l with
  | nil => simp [minKid] at h
  | cons c l =>
    simp only [minKid, Option.some.injEq] at h
    subst h
    intro k hk
    rcases List.mem_cons.1 hk with rfl | hk
    · exact (minKidLoop_le k l).1
    · exact (minKidLoop_le c l).2 k hk

/-! ### Heap order and keys on trees -/

theorem HeapOrd_iff (t : Tree) : HeapOrd t ↔ KidsOrd t.value t.kids ∧ KidsOrd t.value t.subq := by
  constructor
  · intro h
    cases h with
    | mk a v r kids own subq h1 h2 h3 h4 =>
      exact ⟨fun k hk => ⟨h1 k hk, h2 k hk⟩, fun k hk => ⟨h3 k hk, h4 k hk⟩⟩
  · rintro ⟨h1, h2⟩
    cases t
    exact HeapOrd.mk _ _ _ _ _ _ (fun k hk => (h1 k hk).1) (fun k hk => (h1 k hk).2)
      (fun k hk => (h2 k hk).1) (fun k hk => (h2 k hk).2)

theorem KidsOrd.mono_ord {v w : Int} {l : List Tree} (h : KidsOrd v l) (hw : w ≤ v) : KidsOrd w l :=
  fun k hk => ⟨hw.trans (h k hk).1, (h k hk).2⟩

theorem KidsOrd.ins {v : Int} {l : List Tree} {c : Tree} (h : KidsOrd v l)
    (hc : v ≤ c.value) (hco : HeapOrd c) : KidsOrd v (insertByRank c l) := by
  intro k hk
  rcases mem_insertByRank.1 hk with rfl | hk
  · exact ⟨hc, hco⟩
  · exact h k hk

theorem HeapOrd.adopt {p c : Tree} (hp : HeapOrd p) (hc : HeapOrd c) (h : p.value ≤ c.value) :
    HeapOrd (adoptT p c) := by
  rw [HeapOrd_iff] at hp ⊢
  exact ⟨hp.1.ins h hc, hp.2⟩

theorem HeapOrd.rank {p : Tree} (hp : HeapOrd p) (r : Int) : HeapOrd (p.setRank r) := by
  rw [HeapOrd_iff] at hp ⊢
  exact hp

theorem HeapOrd.link {e x : Tree} (he : HeapOrd e) (hx : HeapOrd x) :
    HeapOrd (simpleLinkT e x) := by
  unfold simpleLinkT
  split
  · exact (he.adopt hx (by omega)).rank _
  · exact (hx.adopt he (by omega)).rank _

theorem skewLinkT_ord (kids : List Tree) (n : Tree) (v : Int) (hk : KidsOrd v kids)
    (hn : v ≤ n.value) (hno : HeapOrd n) :
    v ≤ (skewLinkT kids n).2.value ∧ HeapOrd (skewLinkT kids n).2 ∧
      KidsOrd v (skewLinkT kids n).1 := by
  rcases kids with _ | ⟨a, _ | ⟨c, rest⟩⟩
  · exact ⟨by simpa [skewLinkT] using hn, by simpa [skewLinkT] using hno,
      by simpa [skewLinkT] using hk⟩
  · exact ⟨by simpa [skewLinkT] using hn, by simpa [skewLinkT] using hno,
      by simpa [skewLinkT] using hk⟩
  · have ha := hk a (by simp)
    have hc := hk c (by simp)
    by_cases h : a.rank = c.rank
    · simp only [skewLinkT, h, ne_eq, not_true_eq_false, if_false, setRank_value]
      refine ⟨?_, ?_, fun k hkm => hk k (by simp [hkm])⟩
      · rcases minOf3T_cases a c n with h1 | h1 | h1 <;> rw [h1.1] <;>
          simpa [adoptT] using by omega
      · rcases minOf3T_cases a c n with h1 | h1 | h1 <;> rw [h1.1]
        · exact ((ha.2.adopt hc.2 (by omega)).adopt hno (by
            show a.value ≤ n.value
            omega)).rank _
        · exact ((hno.adopt ha.2 (by omega)).adopt hc.2 (by
            show n.value ≤ c.value
            omega)).rank _
        · exact ((hc.2.adopt ha.2 (by omega)).adopt hno (by
            show c.value ≤ n.value
            omega)).rank _
    · exact ⟨by simpa [skewLinkT, h] using hn, by simpa [skewLinkT, h] using hno,
        by simpa [skewLinkT, h] using hk⟩

/-- Without a swap, `insert` keeps the children of the root heap ordered and above any
bound that holds for them and for the inserted node. -/
theorem insertT_kidsOrd : ∀ (n : Nat) (R x R' : Tree) (b : Int), R.value ≤ b → b ≤ x.value →
    HeapOrd x → KidsOrd b R.kids → insertT n R x = some R' → KidsOrd b R'.kids := by
  intro n
  induction n with
  | zero => intro R x R' b _ _ _ _ h; simp [insertT] at h
  | succ n ih =>
    intro R x R' b hb hx hxo hk h
    unfold insertT at h
    have hv : ¬ x.value < R.value := by omega
    simp only [hv, if_false] at h
    by_cases hr : x.rank > 0
    · simp only [hr, if_true] at h
      cases hf : findRank x.rank R.kids with
      | none =>
        rw [hf] at h
        simp only [Option.some.injEq] at h
        subst h
        exact hk.ins hx hxo
      | some e =>
        rw [hf] at h
        simp only at h
        have hem : e ∈ R.kids := List.mem_of_find?_eq_some hf
        have := ih (R.setKids (eraseAddr e.addr R.kids)) (simpleLinkT e x) R' b hb (by
          rw [simpleLinkT_value]
          have := (hk e hem).1
          split <;> omega) ((hk e hem).2.link hxo)
          (fun k hkm => hk k (mem_eraseAddr hkm)) h
        simpa using this
    · simp only [hr, if_false, Option.some.injEq] at h
      subst h
      have hs := skewLinkT_ord R.kids x b hk hx hxo
      exact hs.2.2.ins hs.1 hs.2.1

theorem kidsOrd_foldl {v : Int} (ks acc : List Tree) (h1 : KidsOrd v ks)
    (h2 : KidsOrd v acc) : KidsOrd v (ks.foldl (fun acc k => insertByRank k acc) acc) := by
  induction ks generalizing acc with
  | nil => exact h2
  | cons k ks ih =>
    simp only [List.foldl_cons]
    exact ih _ (fun c hc => h1 c (by simp [hc]))
      (h2.ins (h1 k (by simp)).1 (h1 k (by simp)).2)

/-- Method `insert` keeps the heap order and puts the smaller of the two values at the root. -/
theorem insertT_heapOrd (n : Nat) (R x R' : Tree) (hR : HeapOrd R) (hx : HeapOrd x)
    (h : insertT n R x = some R') :
    HeapOrd R' ∧ R'.value = min R.value x.value ∧
      R'.subq = if x.value < R.value then x.subq else R.subq := by
  cases n with
  | zero => simp [insertT] at h
  | succ n =>
    by_cases hv : x.value < R.value
    · have h' : insertT n (swapNew R x) (swapOld R) = some R' := by
        unfold insertT at h
        simpa [hv] using h
      have hRi := (HeapOrd_iff R).1 hR
      have hxi := (HeapOrd_iff x).1 hx
      have hold : HeapOrd (swapOld R) := by
        rw [HeapOrd_iff]
        exact ⟨by simp [swapOld, Tree.kids, KidsOrd], hRi.2⟩
      have hnew : KidsOrd (swapNew R x).value (swapNew R x).kids :=
        kidsOrd_foldl _ _ (hRi.1.mono_ord (by
          show x.value ≤ R.value
          omega)) hxi.1
      have hle : (swapNew R x).value ≤ (swapOld R).value := by
        show x.value ≤ R.value
        omega
      have h1 := insertT_kidsOrd n _ _ R' _ (le_refl _) hle hold hnew h'
      obtain ⟨n1, n2, n3, n4, n5, n6⟩ := insertT_noswap n _ _ R' hle (fun k hk => (hnew k hk).1) h'
      refine ⟨?_, ?_, ?_⟩
      · rw [HeapOrd_iff, n2, n5]
        exact ⟨h1, hxi.2⟩
      · rw [n2]
        show x.value = min R.value x.value
        omega
      · rw [n5, if_pos hv]
        rfl
    · have hle : R.value ≤ x.value := by omega
      have hRi := (HeapOrd_iff R).1 hR
      have h1 := insertT_kidsOrd (n + 1) R x R' _ (le_refl _) hle hx hRi.1 h
      obtain ⟨n1, n2, n3, n4, n5, n6⟩ := insertT_noswap (n + 1) R x R' hle
        (fun k hk => (hRi.1 k hk).1) h
      refine ⟨?_, by rw [n2]; omega, by rw [n5, if_neg hv]⟩
      rw [HeapOrd_iff, n2, n5]
      exact ⟨h1, hRi.2⟩

/-! ### Keys -/

@[simp] theorem keys_setKids (T : Tree) (ks : List Tree) :
    keys (T.setKids ks) = T.value ::ₘ (keysL ks + keysL T.subq) := by
  simp [Tree.setKids, keys]

@[simp] theorem keys_setRank (T : Tree) (r : Int) : keys (T.setRank r) = keys T := by
  rw [keys_eq T]; simp [Tree.setRank, keys]

@[simp] theorem keys_adoptT (p c : Tree) : keys (adoptT p c) = keys p + keys c := by
  rw [keys_eq p]
  simp only [adoptT, keys_setKids, keysL_insertByRank, Multiset.cons_add]
  congr 1
  ac_rfl

theorem keys_split (T : Tree) (l1 : List Tree) (c : Tree) (l2 : List Tree)
    (hk : T.kids = l1 ++ c :: l2) : keys T = keys (T.setKids (l1 ++ l2)) + keys c := by
  rw [keys_eq T, hk]
  simp only [keys_setKids, keysL_append, keysL_cons, Multiset.cons_add]
  congr 1
  ac_rfl

theorem minOf3T_keys (a c n : Tree) :
    keys (minOf3T a c n).1 + keys (minOf3T a c n).2.1 + keys (minOf3T a c n).2.2 =
      keys a + keys c + keys n := by
  unfold minOf3T
  split <;> split <;> simp only [] <;> ac_rfl

theorem skewLinkT_keys (kids : List Tree) (n : Tree) :
    keysL (skewLinkT kids n).1 + keys (skewLinkT kids n).2 = keysL kids + keys n := by
  rcases kids with _ | ⟨a, _ | ⟨c, rest⟩⟩
  · simp [skewLinkT]
  · simp [skewLinkT]
  · by_cases h : a.rank = c.rank
    · simp only [skewLinkT, h, ne_eq, not_true_eq_false, if_false, keys_setRank, keys_adoptT,
        minOf3T_keys, keysL_cons]
      ac_rfl
    · simp [skewLinkT, h]

theorem keys_setKids_add (R : Tree) (ks : List Tree) (X Y : Multiset Int)
    (h : keysL ks + X = keysL R.kids + Y) : keys (R.setKids ks) + X = keys R + Y := by
  rw [keys_eq R, keys_setKids]
  simp only [Multiset.cons_add]
  congr 1
  calc keysL ks + keysL R.subq + X = keysL R.subq + (keysL ks + X) := by ac_rfl
    _ = keysL R.subq + (keysL R.kids + Y) := by rw [h]
    _ = _ := by ac_rfl

theorem simpleLinkT_keys (e n : Tree) : keys (simpleLinkT e n) = keys e + keys n := by
  unfold simpleLinkT
  split
  · simp
  · simp [add_comm]

theorem keysL_foldl_insertByRank (ks acc : List Tree) :
    keysL (ks.foldl (fun acc k => insertByRank k acc) acc) = keysL ks + keysL acc := by
  induction ks generalizing acc with
  | nil => simp
  | cons k ks ih =>
    simp only [List.foldl_cons, ih, keysL_insertByRank, keysL_cons]
    ac_rfl

theorem keys_swapOld (R : Tree) : keys (swapOld R) = R.value ::ₘ keysL R.subq := by
  simp [swapOld, keys]

theorem swap_keys (R x : Tree) : keys (swapNew R x) + keys (swapOld R) = keys R + keys x := by
  rw [keys_eq R, keys_eq x, keys_swapOld]
  simp only [swapNew, keys_setKids, keysL_foldl_insertByRank]
  ext a
  simp only [Multiset.count_add, Multiset.count_cons]
  omega

/-- Method `insert` adds the nodes and the keys of the inserted tree. -/
theorem insertT_fp_keys : ∀ (n : Nat) (R x R' : Tree), (fp R + fp x).Nodup →
    insertT n R x = some R' → fp R' = fp R + fp x ∧ keys R' = keys R + keys x := by
  intro n
  induction n with
  | zero => intro R x R' _ h; simp [insertT] at h
  | succ n ih =>
    intro R x R' hn h
    unfold insertT at h
    by_cases hv : x.value < R.value
    · simp only [hv, if_true] at h
      have := ih _ _ _ (by rw [swap_fp]; exact hn) h
      rw [swap_fp, swap_keys] at this
      exact this
    · simp only [hv, if_false] at h
      by_cases hr : x.rank > 0
      · simp only [hr, if_true] at h
        cases hf : findRank x.rank R.kids with
        | none =>
          rw [hf] at h
          simp only [Option.some.injEq] at h
          subst h
          exact ⟨fp_adoptT R x, keys_adoptT R x⟩
        | some e =>
          rw [hf] at h
          simp only at h
          obtain ⟨l1, l2, hk⟩ := findRank_split hf
          have hnR : (fp R).Nodup := (Multiset.nodup_add.1 hn).1
          have her : eraseAddr e.addr R.kids = l1 ++ l2 := by
            rw [hk]
            exact eraseAddr_split l1 e l2 (by rw [← hk]; exact nodup_roots (nodup_fp_kids hnR))
          rw [her] at h
          have hfpeq : fp (R.setKids (l1 ++ l2)) + fp (simpleLinkT e x) = fp R + fp x := by
            rw [simpleLinkT_fp, fp_split R l1 e l2 hk]; ac_rfl
          have hkeq : keys (R.setKids (l1 ++ l2)) + keys (simpleLinkT e x) = keys R + keys x := by
            rw [simpleLinkT_keys, keys_split R l1 e l2 hk]; ac_rfl
          have := ih _ _ _ (by rw [hfpeq]; exact hn) h
          rw [hfpeq, hkeq] at this
          exact this
      · simp only [hr, if_false, Option.some.injEq] at h
        subst h
        have := keys_setKids_add R (insertByRank (skewLinkT R.kids x).2 (skewLinkT R.kids x).1) 0
          (keys x) (by
            rw [keysL_insertByRank, add_zero, add_comm]
            exact skewLinkT_keys R.kids x)
        exact ⟨insert_skewT_fp R x, by simpa [insert_skewT] using this⟩

theorem length_eraseAddr_lt {e : Tree} {l : List Tree} (h : e ∈ l) :
    (eraseAddr e.addr l).length < l.length := by
  unfold eraseAddr
  apply List.length_filter_lt_length_iff_exists.2
  exact ⟨e, h, by simp⟩

/-- Method `insert` needs a depth of two more than the number of children of the root. -/
theorem insertT_some : ∀ (n : Nat) (R x : Tree), R.kids.length + 2 ≤ n →
    ∃ R', insertT n R x = some R' := by
  intro n
  induction n with
  | zero => intro R x h; omega
  | succ n ih =>
    intro R x hn
    unfold insertT
    by_cases hv : x.value < R.value
    · simp only [hv, if_true]
      obtain ⟨m, rfl⟩ : ∃ m, n = m + 1 := ⟨n - 1, by omega⟩
      unfold insertT
      have h1 : ¬ (swapOld R).value < (swapNew R x).value := by
        show ¬ R.value < x.value
        omega
      have h2 : ¬ (swapOld R).rank > 0 := by
        show ¬ (0 : Int) > 0
        omega
      simp [h1, h2]
    · simp only [hv, if_false]
      by_cases hr : x.rank > 0
      · simp only [hr, if_true]
        cases hf : findRank x.rank R.kids with
        | none => simp
        | some e =>
          have hem : e ∈ R.kids := List.mem_of_find?_eq_some hf
          have := length_eraseAddr_lt hem
          exact ih _ _ (by simp only [setKids_kids]; omega)
      · simp [hr]

/-- Re-inserting heap ordered trees that are not below the root, one after the other. -/
theorem reinsT_spec (n : Nat) : ∀ (ks : List Tree) (R0 : Tree) (b : Int),
    (fp R0 + fpL ks).Nodup → Multiset.card (fp R0 + fpL ks) < n → R0.value ≤ b →
    KidsOrd b ks → KidsOrd b R0.kids →
    ∃ R1, reinsT n ks R0 = some R1 ∧ fp R1 = fp R0 + fpL ks ∧ keys R1 = keys R0 + keysL ks ∧
      KidsOrd b R1.kids ∧ R1.addr = R0.addr ∧ R1.value = R0.value ∧ R1.rank = R0.rank ∧
      R1.own = R0.own ∧ R1.subq = R0.subq := by
  intro ks
  induction ks with
  | nil =>
    intro R0 b _ _ _ _ h2
    exact ⟨R0, rfl, by simp, by simp, h2, rfl, rfl, rfl, rfl, rfl⟩
  | cons k rest ih =>
    intro R0 b hn hc hb h1 h2
    simp only [fpL_cons] at hn hc
    have hl := length_kids_lt R0
    have hk := h1 k (by simp)
    obtain ⟨R0', hi⟩ := insertT_some n R0 k (by simp only [Multiset.card_add] at hc; omega)
    have hnRk : (fp R0 + fp k).Nodup := nodup_sub hn (Multiset.le_iff_count.2 fun z => by
      simp only [Multiset.count_add]; omega)
    obtain ⟨f1, k1⟩ := insertT_fp_keys n R0 k R0' hnRk hi
    have hle : R0.value ≤ k.value := by have := hk.1; omega
    obtain ⟨n1, n2, n3, n4, n5, n6⟩ := insertT_noswap n R0 k R0' hle
      (fun c hc => by have := (h2 c hc).1; omega) hi
    have ko := insertT_kidsOrd n R0 k R0' b hb hk.1 hk.2 h2 hi
    have hfeq : fp R0' + fpL rest = fp R0 + (fp k + fpL rest) := by rw [f1]; ac_rfl
    obtain ⟨R1, e, f2, k2, o2, a2, v2, r2, w2, s2⟩ := ih R0' b (by rw [hfeq]; exact hn)
      (by rw [hfeq]; exact hc) (by rw [n2]; exact hb) (fun c hc => h1 c (by simp [hc])) ko
    refine ⟨R1, by simp [reinsT, hi, e], by rw [f2, hfeq, fpL_cons],
      by rw [k2, k1, keysL_cons]; ac_rfl, o2, a2.trans n1, v2.trans n2, r2.trans n3,
      w2.trans n4, s2.trans n5⟩

/-- Keys of a queue. -/
theorem keys_strip (R : Tree) : keys (strip R) = R.value ::ₘ keysL R.kids := by
  simp [strip, keys]

theorem fp_strip (R : Tree) : fp (strip R) = R.addr ::ₘ fpL R.kids := by
  simp [strip, fp]

theorem fp_promoteT (R3 m : Tree) :
    fp (promoteT R3 m) = R3.addr ::ₘ (m.owner ::ₘ (fpL R3.kids + fpL m.subq)) := by
  simp [promoteT, fp]

theorem keys_promoteT (R3 m : Tree) :
    keys (promoteT R3 m) = m.value ::ₘ (keysL R3.kids + keysL m.subq) := by
  simp [promoteT, keys]

theorem owner_cons_le (m : Tree) (X : Multiset Nat) :
    m.owner ::ₘ X ≤ m.addr ::ₘ ((m.own.toList : Multiset Nat) + X) := by
  unfold Tree.owner
  cases m.own with
  | none => simp
  | some o =>
    simp only [Option.getD_some, Option.toList_some, Multiset.coe_singleton,
      Multiset.singleton_add]
    exact Multiset.le_cons_self _ _

theorem minKid_none {l : List Tree} (h : minKid l = none) : l = [] := by
  cases l with
  | nil => rfl
  | cons c l => simp [minKid] at h

theorem owner_not_mem_inner {R : Tree} (h : (fp R).Nodup) :
    R.owner ∉ fpL R.kids + fpL R.subq := by
  unfold Tree.owner
  cases ho : R.own with
  | none =>
    simp only [Option.getD_none]
    exact fun hm => addr_not_mem_inner h hm rfl
  | some p =>
    rw [fp_eq, ho, Multiset.nodup_cons] at h
    simp only [Option.getD_some, Option.toList_some, Multiset.coe_singleton] at h ⊢
    exact fun hm => disjoint_of_nodup_add h.2 (Multiset.mem_singleton_self p) hm

theorem length_subq_lt (T : Tree) : T.subq.length < Multiset.card (fp T) := by
  have h1 : (roots T.subq : Multiset Nat) ≤ fpL T.subq := by
    rw [Multiset.le_iff_count]
    intro a
    simpa using count_roots_le T.subq a
  have h4 := Multiset.card_le_card h1
  rw [fp_eq]
  simp only [Multiset.coe_card, roots, List.length_map, Multiset.card_cons,
    Multiset.card_add] at h4 ⊢
  omega

theorem strip_le (R : Tree) : fp (strip R) + fpL R.subq ≤ fp R := by
  rw [fp_strip, fp_eq R]
  refine Multiset.le_iff_count.2 fun z => ?_
  simp only [Multiset.count_add, Multiset.count_cons]
  omega

theorem WFTb_strip {s : State} {R : Tree} (h : WFT s R) : WFTb false s (strip R) := by
  obtain ⟨⟨h1, h2, h3, h4, _⟩, _⟩ := (WFT_iff s R).1 h
  exact ⟨⟨h1, h2, h3, h4, fun k hk => by simp [strip, Tree.subq] at hk⟩, by simp⟩

/-- The subqueue step of `Pop`. -/
theorem mergeSub_spec (s : State) (bq : Nat) (R R1 : Tree) (F : Nat)
    (hroot : s.root bq = some R.addr) (dR : Detached s R.addr) (hw : WFT s R)
    (hn : (fp R).Nodup) (ho : HeapOrd R) (hF : Multiset.card (fp R) < F)
    (h1 : reinsT F R.subq (strip R) = some R1) :
    ∃ t, (if s.subqueue_head R.addr ≠ none then merge_subqueue F bq else pure ()) s = .ok () t ∧
      t.root bq = some R1.addr ∧ WFTb false t R1 ∧ Detached t R1.addr ∧ R1.addr = R.addr ∧
      R1.value = R.value ∧ R1.rank = R.rank ∧ R1.subq = [] ∧ R1.own = none ∧
      fp R1 = fp (strip R) + fpL R.subq ∧ OpFrame s t (fp R) bq ∧ t.size = s.size ∧
      t.nodes = s.nodes := by
  obtain ⟨hk, hq⟩ := (WFT_iff s R).1 hw
  have hoi := (HeapOrd_iff R).1 ho
  have hnin := owner_not_mem_inner hn
  simp only [Multiset.mem_add, not_or] at hnin
  have hcard : Multiset.card (fp (strip R) + fpL R.subq) < F :=
    lt_of_le_of_lt (Multiset.card_le_card (strip_le R)) hF
  obtain ⟨t, e, r, w, d, a, v, rk, sq, ow, _, hfp, _, f, sz, nd⟩ := drainLoop_spec F bq R.subq s
    (strip R) R1 R.owner hroot (WFTb_strip hw) dR rfl rfl hq.2.1 hq.2.2 hk.2.2.2.2
    (nodup_sub hn (strip_le R)) hnin.2 hnin.1 hcard (fun k hkm => (hoi.2 k hkm).1)
    (fun k hkm => (hoi.1 k hkm).1) h1
  refine ⟨t, ?_, r, w, d, a, v, rk, sq, ow, hfp, f.mono_op ?_, sz, nd⟩
  · cases hsq : R.subq with
    | nil =>
      have hnone : s.subqueue_head R.addr = none := by rw [hq.1, hsq]; rfl
      rw [hsq] at e
      simp only [hnone, ne_eq, not_true_eq_false, if_false]
      exact e
    | cons k rest =>
      have hsome : s.subqueue_head R.addr = some k.addr := by rw [hq.1, hsq]; rfl
      simp only [hsome, ne_eq, not_false_eq_true, if_true, reduceCtorEq]
      unfold merge_subqueue
      simp only [gets_bind', hroot, deref_bind']
      rw [bind_ok' (subqueueIterator_spec s R.addr R.owner R.subq F hq (by
        have := length_subq_lt R; omega))]
      exact e
  · intro z hz
    rcases Multiset.mem_cons.1 hz with rfl | hz
    · exact owner_mem_fp R
    · exact Multiset.mem_of_le (strip_le R) hz

/-- Method `promoteToRoot` after the children of the promoted node have been re-inserted. -/
theorem promote_spec (s : State) (bq : Nat) (R3 m : Tree) (hroot : s.root bq = some R3.addr)
    (hR : WFTb false s R3) (dR : Detached s R3.addr)
    (hm : WFTb true s (m.setKids [])) (hn : (fp R3 + fp (m.setKids [])).Nodup) :
    ∃ t, promoteToRoot bq m.addr s = .ok () t ∧ t.root bq = some R3.addr ∧
      Detached t R3.addr ∧ WFT t (promoteT R3 m) ∧ OpFrame s t (fp R3) bq ∧
      t.size = s.size ∧ t.nodes = s.nodes := by
  have hnR : (fp R3).Nodup := (Multiset.nodup_add.1 hn).1
  obtain ⟨⟨h1, h2, h3, h4, _⟩, _⟩ := hR
  obtain ⟨⟨m1, _, _, _, m5⟩, m6⟩ := hm
  have m6 := m6 rfl
  simp only [setKids_addr, setKids_value, setKids_subq, setKids_owner] at m1 m5 m6
  have hcore : ∀ a, a ≠ R3.addr → SameCore s
      { s with
        value := upd s.value R3.addr (s.value m.addr)
        subqueue_head := upd s.subqueue_head R3.addr (s.subqueue_head m.addr) } a := by
    intro a ha
    exact ⟨by simp [upd_apply, ha], rfl, rfl, by simp [upd_apply, ha]⟩
  have hlink : ∀ a, SameLink s
      { s with
        value := upd s.value R3.addr (s.value m.addr)
        subqueue_head := upd s.subqueue_head R3.addr (s.subqueue_head m.addr) } a :=
    fun a => ⟨rfl, rfl, rfl⟩
  have hmR : ∀ a ∈ fp (m.setKids []), a ≠ R3.addr := by
    rintro a ha rfl
    exact disjoint_of_nodup_add hn (addr_mem_fp R3) ha
  refine ⟨{ s with
      value := upd s.value R3.addr (s.value m.addr)
      subqueue_head := upd s.subqueue_head R3.addr (s.subqueue_head m.addr) },
    ?_, hroot, dR, ?_, ?_, rfl, rfl⟩
  · unfold promoteToRoot
    simp only [gets_bind', hroot, deref_bind', modify_bind']
    rfl
  · refine WFT.mk _ _ _ _ _ _ (by simp [m1]) (by simpa using h2) (h3.congr_kids rfl fun a _ => hlink a)
      ?_ ?_ ?_
    · intro k hk
      refine (h4 k hk).congr_wft (fun a ha => hcore a ?_) fun a _ => hlink a
      rintro rfl
      exact addr_not_mem_kid hnR hk ha
    · have hne : m.owner ≠ R3.addr := hmR _ (by
        have := owner_mem_fp (m.setKids [])
        simpa using this)
      refine ⟨by simp [m6.1], ?_, m6.2.2.congr_seg (fun a _ => rfl) (fun a _ => rfl) fun a _ => rfl⟩
      simp only [Option.getD_some, upd_apply, hne, if_false]
      exact m6.2.1
    · intro k hk
      refine (m5 k hk).congr_wft (fun a ha => hcore a (hmR a ?_)) fun a _ => hlink a
      exact subq_mem_fp (x := m.setKids []) hk ha
  · refine ⟨fun a ha => ⟨hcore a ?_, hlink a⟩, le_refl _, rfl, fun _ _ => ⟨rfl, rfl⟩⟩
    rintro rfl
    exact ha (addr_mem_fp _)

theorem card_le_nodes {A : Multiset Nat} {N : Nat} (hn : A.Nodup) (hlt : ∀ a ∈ A, a < N) :
    Multiset.card A ≤ N := by
  have h1 : A ≤ Multiset.range N := by
    rw [Multiset.le_iff_subset hn]
    intro a ha
    exact Multiset.mem_range.2 (hlt a ha)
  simpa using Multiset.card_le_card h1

theorem reInsertChildren_unfold (F bq a : Nat) (s : State) :
    reInsertChildren F bq a s =
      M.bind (childrenIterator F a)
        (fun it => forEach (fun node => do rogue node; insert F bq node) it) s := rfl

/-- The last steps of `Pop` when the root has a child: the smallest child leaves the
children list, its children are re-inserted and it is promoted. -/
theorem popTail_spec (s : State) (bq : Nat) (R1 m R3 : Tree) (l1 l2 : List Tree) (F : Nat)
    (hroot : s.root bq = some R1.addr) (hR : WFTb false s R1) (dR : Detached s R1.addr)
    (hsub : R1.subq = []) (hown : R1.own = none) (hk : R1.kids = l1 ++ m :: l2)
    (hn : (fp R1).Nodup) (hF : Multiset.card (fp R1) < F) (hko : KidsOrd R1.value R1.kids)
    (h3 : reinsT F m.kids (R1.setKids (l1 ++ l2)) = some R3) :
    ∃ t, (do rogue m.addr; reInsertChildren F bq m.addr; promoteToRoot bq m.addr : M Unit) s =
        .ok () t ∧
      t.root bq = some (promoteT R3 m).addr ∧ Detached t (promoteT R3 m).addr ∧
      WFT t (promoteT R3 m) ∧ (fp (promoteT R3 m)).Nodup ∧ fp (promoteT R3 m) ≤ fp R1 ∧
      OpFrame s t (fp R1) bq ∧ t.size = s.size ∧ t.nodes = s.nodes := by
  have hsp := fp_split R1 l1 m l2 hk
  have hmem : m ∈ R1.kids := by rw [hk]; simp
  have hmo := (hko m hmem).2
  have hmi := (HeapOrd_iff m).1 hmo
  obtain ⟨t3, e3, w3, wm3, dm3, d3, f3⟩ := rogue_spec s false R1 l1 m l2 hR hk hn
  have hn2 : (fp (R1.setKids (l1 ++ l2)) + fp m).Nodup := by rw [← hsp]; exact hn
  have hci := childrenIterator_spec t3 m F ((WFT_iff _ _).1 wm3).1.2.2.1 (by
    have := length_kids_lt m
    have := Multiset.card_le_card (fp_le_fpL hmem |>.trans (kids_le_fp R1))
    omega)
  obtain ⟨t4, e4, r4, w4, d4, a4, v4, rk4, s4, o4, k4, fp4, wm4, f4⟩ := reinsLoop_spec F bq m.kids
    t3 (R1.setKids (l1 ++ l2)) R3 m (by rw [f3.root_same]; exact hroot) w3 (d3 dR)
    ((WFTb_true _ _).2 wm3) rfl hn2 (by rw [← hsp]; exact hF)
    (fun c hc => le_trans (hko m hmem).1 (hmi.1 c hc).1)
    (fun c hc => (hko c (by
      rw [hk]
      simp only [setKids_kids, List.mem_append] at hc
      simp only [List.mem_append, List.mem_cons]
      tauto)).1) h3
  have hfR3 : fp R3 = R3.addr ::ₘ fpL R3.kids :=
    fp_strip_like R3 (o4.trans hown) (s4.trans hsub)
  have hle : fp R3 + fp (m.setKids []) ≤ fp R1 := by
    rw [hsp, fp4, fp_eq m]
    refine le_of_eq ?_
    generalize fp (R1.setKids (l1 ++ l2)) = X
    rw [fp_setKids]
    ext z
    simp only [Multiset.count_add, Multiset.count_cons, fpL_nil, Multiset.count_zero]
    omega
  have hn5 : (fp R3 + fp (m.setKids [])).Nodup := nodup_sub hn hle
  obtain ⟨t5, e5, r5, d5, w5, f5, sz5, nd5⟩ := promote_spec t4 bq R3 m r4 w4 d4 wm4 hn5
  have hple : fp (promoteT R3 m) ≤ fp R3 + fp (m.setKids []) := by
    rw [fp_promoteT, hfR3, fp_setKids]
    refine Multiset.le_iff_count.2 fun z => ?_
    have := Multiset.le_iff_count.1 (owner_cons_le m (fpL m.subq)) z
    simp only [Multiset.count_add, Multiset.count_cons, fpL_nil, Multiset.count_zero] at this ⊢
    omega
  refine ⟨t5, ?_, r5, d5, w5, nodup_sub hn5 hple, hple.trans hle, ?_, ?_, ?_⟩
  · have e34 : reInsertChildren F bq m.addr t3 = .ok () t4 := by
      rw [reInsertChildren_unfold, bind_ok hci]; exact e4
    rw [bind_ok' e3, bind_ok' e34]
    exact e5
  · have g3 : OpFrame s t3 (fp R1) bq := (f3.toH bq).toOp
    have g4 : OpFrame t3 t4 (fp R1) bq := by rw [hsp]; exact f4.toOp
    have g5 : OpFrame t4 t5 (fp R1) bq := f5.mono_op fun z hz =>
      Multiset.mem_of_le hle (Multiset.mem_add.2 (Or.inl hz))
    exact (g3.trans_op g4).trans_op g5
  · rw [sz5, f4.2.2.2.1, f3.2.2.2.1]
  · rw [nd5, f4.2.1, f3.2.1]

theorem WFT.size_upd {s : State} {x : Tree} (h : WFT s x) (f : Nat → Int) :
    WFT { s with size := f } x :=
  h.congr_wft (fun _ _ => ⟨rfl, rfl, rfl, rfl⟩) fun _ _ => ⟨rfl, rfl, rfl⟩

theorem seq_pure_ok {α : Type} {a b c : M Unit} {s t : State}
    (e : (do a; b; c : M Unit) s = .ok () t) (v : α) :
    (do a; b; c; pure v : M α) s = .ok v t := by
  simp only [bind_run, M.bind] at e ⊢
  cases ha : a s with
  | ok x s1 =>
    rw [ha] at e
    simp only at e ⊢
    cases hb : b s1 with
    | ok y s2 =>
      rw [hb] at e
      simp only at e ⊢
      cases hc : c s2 with
      | ok z s3 =>
        rw [hc] at e
        simp only [Res.ok.injEq, true_and] at e
        subst e
        rfl
      | fault s3 => rw [hc] at e; simp at e
      | timeout s3 => rw [hc] at e; simp at e
    | fault s2 => rw [hb] at e; simp at e
    | timeout s2 => rw [hb] at e; simp at e
  | fault s1 => rw [ha] at e; simp at e
  | timeout s1 => rw [ha] at e; simp at e

/-- Method `Pop` on a non-empty queue that is drawn and heap ordered. -/
theorem Pop_spec (s : State) (bq : Nat) (R : Tree) (v : Int) (T' : Option Tree)
    (h : HeapRep s bq (some R)) (ho : HeapOrd R) (hp : popT (fuel s) R = some (v, T')) :
    ∃ t, Pop bq s = .ok v t ∧ HeapRep t bq T' ∧ OpFrame s t (fp R) bq ∧
      t.size bq = s.size bq - 1 ∧ t.nodes = s.nodes ∧ fpO T' ≤ fp R := by
  obtain ⟨hroot, dR, hw, hn, hlt⟩ := h
  have hF : Multiset.card (fp R) < fuel s := by
    have := card_le_nodes hn hlt
    unfold fuel
    omega
  unfold popT at hp
  cases h1 : reinsT (fuel s) R.subq (strip R) with
  | none => rw [h1] at hp; simp at hp
  | some R1 =>
    rw [h1] at hp
    simp only at hp
    have hoi := (HeapOrd_iff R).1 ho
    obtain ⟨R1', e1', _, _, ko1, _⟩ := reinsT_spec (fuel s) R.subq (strip R) R.value
      (nodup_sub hn (strip_le R)) (lt_of_le_of_lt (Multiset.card_le_card (strip_le R)) hF)
      (le_refl _) hoi.2 hoi.1
    rw [h1] at e1'
    simp only [Option.some.injEq] at e1'
    subst e1'
    obtain ⟨t2, e2, r2, w2, d2, a2, v2, rk2, sq2, ow2, fp2, f2, sz2, nd2⟩ :=
      mergeSub_spec { s with size := upd s.size bq (s.size bq - 1) } bq R R1 (fuel s) hroot dR
        (hw.size_upd _) hn ho hF h1
    have hn1 : (fp R1).Nodup := by rw [fp2]; exact nodup_sub hn (strip_le R)
    have hle1 : fp R1 ≤ fp R := by rw [fp2]; exact strip_le R
    have hlk := length_kids_lt R1
    have hc1 := Multiset.card_le_card hle1
    have hgm := getMinChild_spec t2 R1 (fuel s) w2.1.2.2.1 w2.1.2.2.2.1 (by omega)
    have f0 : OpFrame s { s with size := upd s.size bq (s.size bq - 1) } (fp R) bq :=
      ⟨fun a _ => ⟨⟨rfl, rfl, rfl, rfl⟩, rfl, rfl, rfl⟩, le_refl _, rfl, fun x hx =>
        ⟨rfl, by simp [upd_apply, hx]⟩⟩
    have hunf : Pop bq s = (do
        let minchild ← getMinChild (fuel s) R1.addr
        match minchild with
        | none =>
          modify fun s => { s with root := upd s.root bq none }
          pure R.value
        | some mc =>
          rogue mc
          reInsertChildren (fuel s) bq mc
          promoteToRoot bq mc
          pure R.value : M Int) t2 := by
      unfold Pop
      simp only [gets_bind', modify_bind', hroot, deref_bind', hw.value_eq]
      by_cases hc : s.subqueue_head R.addr ≠ none
      · rw [if_pos hc] at e2 ⊢
        rw [bind_ok' e2]
        simp only [gets_bind', r2, deref_bind']
        try rfl
      · rw [if_neg hc] at e2 ⊢
        simp only [pure_run, Res.ok.injEq, true_and] at e2
        subst e2
        have r2' : s.root bq = some R1.addr := r2
        simp only [pure_bind', gets_bind', r2', deref_bind']
        try rfl
    rw [hunf, bind_ok' hgm]
    cases hm : minKid R1.kids with
    | none =>
      rw [hm] at hp
      simp only [Option.some.injEq, Prod.mk.injEq] at hp
      obtain ⟨rfl, rfl⟩ := hp
      simp only [Option.map_none']
      refine ⟨{ t2 with root := upd t2.root bq none }, rfl, ?_, ?_, ?_, ?_, ?_⟩
      · show upd t2.root bq none bq = none
        simp
      · refine f0.trans_op (f2.trans_op ?_)
        exact ⟨fun a _ => ⟨⟨rfl, rfl, rfl, rfl⟩, rfl, rfl, rfl⟩, le_refl _, rfl, fun x hx =>
          ⟨by simp [upd_apply, hx], rfl⟩⟩
      · show t2.size bq = s.size bq - 1
        rw [sz2]
        simp
      · show t2.nodes = s.nodes
        exact nd2
      · simp [fpO]
    | some m =>
      rw [hm] at hp
      simp only [Option.map_some'] at hp ⊢
      have hmem := minKid_mem hm
      obtain ⟨l1, l2, hk⟩ := List.append_of_mem hmem
      have her : eraseAddr m.addr R1.kids = l1 ++ l2 := by
        rw [hk]
        exact eraseAddr_split l1 m l2 (by rw [← hk]; exact nodup_roots (nodup_fp_kids hn1))
      rw [her] at hp
      cases h3 : reinsT (fuel s) m.kids (R1.setKids (l1 ++ l2)) with
      | none => rw [h3] at hp; simp at hp
      | some R3 =>
        rw [h3] at hp
        simp only [Option.some.injEq, Prod.mk.injEq] at hp
        obtain ⟨rfl, rfl⟩ := hp
        obtain ⟨t, e, r, d, w, n5, le5, f5, sz5, nd5⟩ := popTail_spec t2 bq R1 m R3 l1 l2 (fuel s)
          r2 w2 d2 sq2 ow2 hk hn1 (by omega) (by rw [v2]; exact ko1) h3
        refine ⟨t, ?_, ⟨r, d, w, n5, fun a ha => ?_⟩, ?_, ?_, ?_, le5.trans hle1⟩
        · exact seq_pure_ok e R.value
        · rw [nd5, nd2]
          exact hlt a (Multiset.mem_of_le (le5.trans hle1) ha)
        · exact f0.trans_op (f2.trans_op (f5.mono_op fun a ha => Multiset.mem_of_le hle1 ha))
        · rw [sz5, sz2]
          simp
        · rw [nd5, nd2]

/-- Method `Pop` on a heap-ordered tree: the depth `n` suffices, the root value is returned, the
keys left are the keys held before without one occurrence of it, and heap order is kept. -/
theorem popT_spec (n : Nat) (R : Tree) (ho : HeapOrd R) (hn : (fp R).Nodup)
    (hF : Multiset.card (fp R) < n) :
    ∃ T', popT n R = some (R.value, T') ∧ keys R = R.value ::ₘ keysO T' ∧ HeapOrdO T' := by
  have hoi := (HeapOrd_iff R).1 ho
  obtain ⟨R1, e1, f1, k1, ko1, a1, v1, rk1, ow1, sq1⟩ := reinsT_spec n R.subq (strip R) R.value
    (nodup_sub hn (strip_le R)) (lt_of_le_of_lt (Multiset.card_le_card (strip_le R)) hF)
    (le_refl _) hoi.2 hoi.1
  have hle1 : fp R1 ≤ fp R := by rw [f1]; exact strip_le R
  have hn1 : (fp R1).Nodup := nodup_sub hn hle1
  have hk1 : keys R1 = keys R := by
    rw [k1, keys_strip, keys_eq R, Multiset.cons_add]
  have hsq1 : R1.subq = [] := sq1
  have hv1 : R1.value = R.value := v1
  unfold popT
  rw [e1]
  simp only
  cases hm : minKid R1.kids with
  | none =>
    refine ⟨none, rfl, ?_, trivial⟩
    have hk := minKid_none hm
    rw [← hk1, keys_eq R1, hk, hsq1, hv1]
    simp [keysO]
  | some m =>
    simp only
    have hmem := minKid_mem hm
    obtain ⟨l1, l2, hk⟩ := List.append_of_mem hmem
    have her : eraseAddr m.addr R1.kids = l1 ++ l2 := by
      rw [hk]
      exact eraseAddr_split l1 m l2 (by rw [← hk]; exact nodup_roots (nodup_fp_kids hn1))
    rw [her]
    have hsp := fp_split R1 l1 m l2 hk
    have hks := keys_split R1 l1 m l2 hk
    have hmo := ko1 m hmem
    have hmi := (HeapOrd_iff m).1 hmo.2
    have hle2 : fp (R1.setKids (l1 ++ l2)) + fpL m.kids ≤ fp R1 := by
      rw [hsp, fp_eq m]
      refine Multiset.le_iff_count.2 fun z => ?_
      simp only [Multiset.count_add, Multiset.count_cons]
      omega
    have hko2 : KidsOrd m.value (R1.setKids (l1 ++ l2)).kids := by
      intro k hkm
      simp only [setKids_kids, List.mem_append] at hkm
      have hk' : k ∈ R1.kids := by rw [hk]; simp; tauto
      exact ⟨minKid_le hm k hk', (ko1 k hk').2⟩
    obtain ⟨R3, e3, f3, k3, ko3, a3, v3, rk3, ow3, sq3⟩ := reinsT_spec n m.kids
      (R1.setKids (l1 ++ l2)) m.value (nodup_sub hn1 hle2)
      (lt_of_le_of_lt (Multiset.card_le_card (hle2.trans hle1)) hF)
      (by simp only [setKids_value, hv1]; exact hmo.1) hmi.1 hko2
    rw [e3]
    refine ⟨some (promoteT R3 m), rfl, ?_, ?_⟩
    · have h3 : keys R3 = R.value ::ₘ keysL R3.kids := by
        rw [keys_eq R3, sq3]
        simp [hsq1, v3, hv1]
      rw [h3, keys_setKids, hsq1] at k3
      simp only [hv1, keysL_nil, add_zero, Multiset.cons_add, Multiset.cons_inj_right] at k3
      simp only [keysO]
      rw [← hk1, hks, keys_setKids, hsq1, keys_promoteT, k3, keys_eq m, hv1]
      simp only [keysL_nil, add_zero, keysL_append]
      ext z
      simp only [Multiset.count_add, Multiset.count_cons]
      omega
    · exact (HeapOrd_iff _).2 ⟨by simpa [promoteT] using ko3, by simpa [promoteT] using hmi.2⟩

theorem Insert_unfold (s : State) (bq : Nat) (v : Int) :
    Insert bq v s = insertAux (s.nodes + 3) (s.nodes + 3) bq s.nodes (afterNew s bq v) := rfl

theorem afterNew_same (s : State) (bq : Nat) (v : Int) (a : Nat) (h : a ≠ s.nodes) :
    SameCore s (afterNew s bq v) a ∧ SameLink s (afterNew s bq v) a := by
  simp [SameCore, SameLink, afterNew, upd_apply, h]

theorem leaf_wft (s : State) (bq : Nat) (v : Int) :
    WFT (afterNew s bq v) (leaf s.nodes v) ∧ Detached (afterNew s bq v) s.nodes := by
  constructor
  · refine WFT.mk _ _ _ _ _ _ ?_ ?_ ?_ ?_ ?_ ?_
    · simp [afterNew]
    · simp [afterNew]
    · simp [KidsOK, afterNew, roots]
    · simp
    · simp [SqOK, afterNew, roots]
    · simp
  · simp [Detached, afterNew]

theorem fp_leaf (a : Nat) (v : Int) : fp (leaf a v) = {a} := by
  simp [leaf, fp]

theorem keys_leaf (a : Nat) (v : Int) : keys (leaf a v) = {v} := by
  simp [leaf, keys]

theorem heapOrd_leaf (a : Nat) (v : Int) : HeapOrd (leaf a v) :=
  HeapOrd.mk _ _ _ _ _ _ (by simp) (by simp) (by simp) (by simp)

/-- Method `Insert` on a queue that is drawn by the state. -/
theorem Insert_spec (s : State) (bq : Nat) (T : Option Tree) (v : Int) (h : HeapRep s bq T) :
    ∃ t T', Insert bq v s = .ok () t ∧ HeapRep t bq (some T') ∧
      insertH (s.nodes + 3) T (leaf s.nodes v) = some T' ∧
      fp T' = s.nodes ::ₘ fpO T ∧ OpFrame s t (s.nodes ::ₘ fpO T) bq ∧
      t.size bq = s.size bq + 1 ∧ t.nodes = s.nodes + 1 := by
  obtain ⟨hw1, hd1⟩ := leaf_wft s bq v
  have f0 : OpFrame s (afterNew s bq v) (s.nodes ::ₘ fpO T) bq := by
    refine ⟨fun a ha => afterNew_same s bq v a ?_, Nat.le_succ _, rfl, fun x hx => ⟨rfl, ?_⟩⟩
    · rintro rfl; exact ha (Multiset.mem_cons_self _ _)
    · simp [afterNew, upd_apply, hx]
  cases T with
  | none =>
    have hroot : s.root bq = none := h
    refine ⟨{ afterNew s bq v with root := upd s.root bq (some s.nodes) }, leaf s.nodes v,
      ?_, ⟨?_, ?_, ?_, ?_, ?_⟩, rfl, ?_, ?_, ?_, rfl⟩
    · rw [Insert_unfold]
      have hr : (afterNew s bq v).root bq = none := hroot
      simp only [insertAux, gets_bind', hr]
      rfl
    · show upd s.root bq (some s.nodes) bq = some (leaf s.nodes v).addr
      simp [leaf, Tree.addr]
    · exact hd1
    · exact hw1.congr_wft (fun _ _ => ⟨rfl, rfl, rfl, rfl⟩) fun _ _ => ⟨rfl, rfl, rfl⟩
    · rw [fp_leaf]; simp
    · intro a ha
      rw [fp_leaf] at ha
      simp only [Multiset.mem_singleton] at ha
      subst ha
      exact Nat.lt_succ_self _
    · rw [fp_leaf]; rfl
    · refine f0.trans_op ⟨fun a _ => ⟨⟨rfl, rfl, rfl, rfl⟩, rfl, rfl, rfl⟩, le_refl _, rfl,
        fun x hx => ⟨?_, rfl⟩⟩
      show upd s.root bq (some s.nodes) x = s.root x
      simp [upd_apply, hx]
    · show upd s.size bq (s.size bq + 1) bq = s.size bq + 1
      simp
  | some R =>
    obtain ⟨hroot, dR, hw, hn, hlt⟩ := h
    have hfresh : s.nodes ∉ fp R := fun hm => lt_irrefl _ (hlt _ hm)
    have hne : ∀ a ∈ fp R, a ≠ s.nodes := by
      rintro a ha rfl
      exact hfresh ha
    have hwR : WFT (afterNew s bq v) R :=
      hw.congr_wft (fun a ha => (afterNew_same s bq v a (hne a ha)).1)
        fun a ha => (afterNew_same s bq v a (hne a (inner_mem_fp ha))).2
    have hdR : Detached (afterNew s bq v) R.addr := by
      obtain ⟨l1, l2, l3⟩ := (afterNew_same s bq v R.addr (hne _ (addr_mem_fp R))).2
      exact ⟨by rw [l1, dR.1], by rw [l2, dR.2.1], by rw [l3, dR.2.2]⟩
    have hnd : (fp R + fp (leaf s.nodes v)).Nodup := by
      rw [fp_leaf, add_comm, Multiset.singleton_add]
      exact Multiset.nodup_cons.2 ⟨hfresh, hn⟩
    have hcard := card_le_nodes hn hlt
    have hlk := length_kids_lt R
    obtain ⟨R', hi⟩ := insertT_some (s.nodes + 3) R (leaf s.nodes v) (by omega)
    obtain ⟨t, e, r, w, d, f, hfp⟩ := insertAux_spec (s.nodes + 3) bq (s.nodes + 3)
      (afterNew s bq v) true R (leaf s.nodes v) R' hroot ((WFTb_true _ _).2 hwR) hdR hw1 hd1 hnd
      (by rw [Multiset.card_add, fp_leaf]; simp; omega) (Or.inl rfl) hi
    have hfp' : fp R' = s.nodes ::ₘ fp R := by
      rw [hfp, fp_leaf, add_comm, Multiset.singleton_add]
    refine ⟨t, R', ?_, ⟨r, d, (WFTb_true _ _).1 w, by rw [hfp]; exact hnd, ?_⟩, hi, hfp', ?_,
      ?_, ?_⟩
    · rw [Insert_unfold]; exact e
    · intro a ha
      rw [hfp'] at ha
      rw [f.nodes_eq]
      show a < s.nodes + 1
      rcases Multiset.mem_cons.1 ha with rfl | ha
      · exact Nat.lt_succ_self _
      · exact Nat.lt_succ_of_lt (hlt a ha)
    · refine f0.trans_op (f.toOp.mono_op fun a ha => ?_)
      rw [fp_leaf] at ha
      simp only [fpO, Multiset.mem_add, Multiset.mem_singleton, Multiset.mem_cons] at ha ⊢
      tauto
    · rw [f.2.2.2.1]
      show upd s.size bq (s.size bq + 1) bq = s.size bq + 1
      simp
    · rw [f.nodes_eq]; rfl

/-- Method `Peek` on a non-empty queue returns the value of the root of the tree. -/
theorem Peek_spec (s : State) (bq : Nat) (R : Tree) (h : HeapRep s bq (some R)) :
    Peek bq s = .ok R.value s := by
  obtain ⟨hroot, _, hw, _, _⟩ := h
  unfold Peek
  simp only [gets_bind', hroot, deref_bind']
  rw [gets_run, hw.value_eq]

/-- Both `Peek` and `Pop` dereference the absent root of an empty queue. -/
theorem Peek_empty (s : State) (bq : Nat) (h : s.root bq = none) : Peek bq s = .fault s := by
  unfold Peek
  simp only [gets_bind', h]
  rfl

theorem Pop_empty (s : State) (bq : Nat) (h : s.root bq = none) :
    Pop bq s = .fault { s with size := upd s.size bq (s.size bq - 1) } := by
  unfold Pop
  simp only [gets_bind', modify_bind']
  have : ({ s with size := upd s.size bq (s.size bq - 1) } : State).root bq = none := h
  rw [this]
  rfl

theorem Merge_unfold (s : State) (bq other a : Nat) (h : s.root other = some a) :
    Merge bq other s = insertAux (fuel s) (fuel s) bq a (afterMove s bq other a) := by
  unfold Merge
  simp only [gets_bind', modify_bind']
  have hr : ({ s with size := upd s.size bq (s.size bq + s.size other) } : State).root other =
      some a := h
  rw [hr, deref_bind']
  rfl

theorem Merge_empty (s : State) (bq other : Nat) (h : s.root other = none) :
    Merge bq other s =
      .fault { s with size := upd s.size bq (s.size bq + s.size other) } := by
  unfold Merge
  simp only [gets_bind', modify_bind']
  have hr : ({ s with size := upd s.size bq (s.size bq + s.size other) } : State).root other =
      none := h
  rw [hr]
  rfl

theorem afterMove_same (s : State) (bq other a x : Nat) (h : x ≠ a) :
    SameCore s (afterMove s bq other a) x ∧ SameLink s (afterMove s bq other a) x := by
  simp [SameCore, SameLink, afterMove, upd_apply, h]

theorem fp_moveT (B : Tree) : fp (moveT B) = B.addr ::ₘ fpL B.kids := by
  simp [moveT, fp]

theorem keys_moveT (B : Tree) : keys (moveT B) = B.value ::ₘ keysL B.kids := by
  simp [moveT, keys]

theorem fp_moveT_le (B : Tree) : fp (moveT B) ≤ fp B := by
  rw [fp_moveT, fp_eq B]
  refine Multiset.le_iff_count.2 fun z => ?_
  simp only [Multiset.count_add, Multiset.count_cons]
  omega

theorem heapOrd_moveT {B : Tree} (h : HeapOrd B) : HeapOrd (moveT B) := by
  have hi := (HeapOrd_iff B).1 h
  exact (HeapOrd_iff _).2 ⟨by simp [moveT, Tree.kids, KidsOrd], by simpa [moveT] using hi.1⟩

theorem moveT_wft (s : State) (bq other : Nat) (B : Tree) (hw : WFT s B) (hn : (fp B).Nodup) :
    WFT (afterMove s bq other B.addr) (moveT B) := by
  obtain ⟨⟨h1, h2, h3, h4, _⟩, _⟩ := (WFT_iff s B).1 hw
  rw [WFT_iff]
  refine ⟨⟨h1, h2, ?_, ?_, ?_⟩, ?_, ?_, ?_⟩
  · simp [moveT, Tree.kids, Tree.addr, KidsOK, afterMove, roots]
  · intro k hk
    simp [moveT, Tree.kids] at hk
  · intro k hk
    have hk' : k ∈ B.kids := hk
    refine (h4 k hk').congr_wft (fun a ha => (afterMove_same s bq other _ a ?_).1)
      fun a ha => (afterMove_same s bq other _ a ?_).2
    · rintro rfl; exact addr_not_mem_kid hn hk' ha
    · rintro rfl; exact addr_not_mem_kid hn hk' (inner_mem_fp ha)
  · show upd s.subqueue_head B.addr (s.children_head B.addr) B.addr = (roots B.kids).head?
    rw [upd_same]; exact h3.1
  · show upd s.subqueue_head B.addr (s.children_head B.addr) B.addr = (roots B.kids).head?
    rw [upd_same]; exact h3.1
  · exact h3.2.congr_seg (fun _ _ => rfl) (fun _ _ => rfl) fun _ _ => rfl

/-- Method `Merge` of a non-empty queue into another queue, the two drawn on separate nodes: the
root node of `other`, its children moved to its subqueue, is inserted. -/
theorem Merge_spec (s : State) (bq other : Nat) (TA : Option Tree) (B : Tree)
    (hA : HeapRep s bq TA) (hB : HeapRep s other (some B)) (hdis : (fpO TA + fp B).Nodup) :
    ∃ t T', Merge bq other s = .ok () t ∧ HeapRep t bq (some T') ∧
      insertH (fuel s) TA (moveT B) = some T' ∧ fp T' = fpO TA + fp (moveT B) ∧
      OpFrame s t (fpO TA + fp B) bq ∧ t.size bq = s.size bq + s.size other ∧
      t.nodes = s.nodes := by
  obtain ⟨hrB, dB, hwB, hnB, hltB⟩ := hB
  have hwx := moveT_wft s bq other B hwB hnB
  have hdx : Detached (afterMove s bq other B.addr) (moveT B).addr := dB
  have f0 : OpFrame s (afterMove s bq other B.addr) (fpO TA + fp B) bq := by
    refine ⟨fun a ha => afterMove_same s bq other _ a ?_, le_refl _, rfl, fun x hx => ⟨rfl, ?_⟩⟩
    · rintro rfl; exact ha (Multiset.mem_add.2 (Or.inr (addr_mem_fp B)))
    · simp [afterMove, upd_apply, hx]
  cases TA with
  | none =>
    have hroot : s.root bq = none := hA
    refine ⟨{ afterMove s bq other B.addr with root := upd s.root bq (some B.addr) }, moveT B,
      ?_, ⟨?_, ?_, ?_, ?_, ?_⟩, rfl, ?_, ?_, ?_, rfl⟩
    · rw [Merge_unfold s bq other B.addr hrB]
      have hr : (afterMove s bq other B.addr).root bq = none := hroot
      simp only [fuel, insertAux, gets_bind', hr]
      rfl
    · show upd s.root bq (some B.addr) bq = some (moveT B).addr
      simp [moveT, Tree.addr]
    · exact dB
    · exact hwx.congr_wft (fun _ _ => ⟨rfl, rfl, rfl, rfl⟩) fun _ _ => ⟨rfl, rfl, rfl⟩
    · exact nodup_sub hnB (fp_moveT_le B)
    · intro a ha
      exact hltB a (Multiset.mem_of_le (fp_moveT_le B) ha)
    · simp [fpO]
    · refine f0.trans_op ⟨fun a _ => ⟨⟨rfl, rfl, rfl, rfl⟩, rfl, rfl, rfl⟩, le_refl _, rfl,
        fun x hx => ⟨?_, rfl⟩⟩
      show upd s.root bq (some B.addr) x = s.root x
      simp [upd_apply, hx]
    · show upd s.size bq (s.size bq + s.size other) bq = s.size bq + s.size other
      simp
  | some R =>
    obtain ⟨hroot, dR, hw, hn, hlt⟩ := hA
    have hdis' : (fp R + fp B).Nodup := hdis
    have hne : ∀ a ∈ fp R, a ≠ B.addr := by
      rintro a ha rfl
      exact disjoint_of_nodup_add hdis' ha (addr_mem_fp B)
    have hwR : WFT (afterMove s bq other B.addr) R :=
      hw.congr_wft (fun a ha => (afterMove_same s bq other _ a (hne a ha)).1)
        fun a ha => (afterMove_same s bq other _ a (hne a (inner_mem_fp ha))).2
    have hdR : Detached (afterMove s bq other B.addr) R.addr := dR
    have hle : fp R + fp (moveT B) ≤ fp R + fp B := by
      have := fp_moveT_le B
      rw [Multiset.le_iff_count] at this ⊢
      intro z
      have := this z
      simp only [Multiset.count_add]
      omega
    have hnd : (fp R + fp (moveT B)).Nodup := nodup_sub hdis' hle
    have hall : ∀ a ∈ fp R + fp B, a < s.nodes := by
      intro a ha
      rcases Multiset.mem_add.1 ha with ha | ha
      · exact hlt a ha
      · exact hltB a ha
    have hcard := (Multiset.card_le_card hle).trans (card_le_nodes hdis' hall)
    have hlk := length_kids_lt R
    have hcR := card_le_nodes hn hlt
    obtain ⟨R', hi⟩ := insertT_some (fuel s) R (moveT B) (by unfold fuel; omega)
    obtain ⟨t, e, r, w, d, f, hfp⟩ := insertAux_spec (fuel s) bq (fuel s)
      (afterMove s bq other B.addr) true R (moveT B) R' hroot ((WFTb_true _ _).2 hwR) hdR hwx hdx
      hnd (by unfold fuel; omega) (Or.inl rfl) hi
    refine ⟨t, R', ?_, ⟨r, d, (WFTb_true _ _).1 w, by rw [hfp]; exact hnd, ?_⟩, ?_, hfp, ?_,
      ?_, ?_⟩
    · rw [Merge_unfold s bq other B.addr hrB]; exact e
    · intro a ha
      rw [hfp] at ha
      rw [f.nodes_eq]
      exact hall a (Multiset.mem_of_le hle ha)
    · unfold fuel at hi ⊢
      exact hi
    · exact f0.trans_op (f.toOp.mono_op fun a ha => Multiset.mem_of_le hle ha)
    · rw [f.2.2.2.1]
      show upd s.size bq (s.size bq + s.size other) bq = s.size bq + s.size other
      simp
    · rw [f.nodes_eq]; rfl

/-! ### The keys read off the state are the keys of the tree -/

theorem keysFrom_none (s : State) (F : Nat) : keysFrom s F none = [] := by
  cases F <;> rfl

theorem keysFrom_list (s : State) : ∀ (F : Nat) (L : List Tree) (p : Nat),
    Seg s p (roots L) → (∀ k ∈ L, WFT s k) → Multiset.card (fpL L) ≤ F →
    (keysFrom s F (roots L).head? : Multiset Int) = keysL L := by
  intro F
  induction F with
  | zero =>
    intro L p _ _ hc
    cases L with
    | nil => simp [keysFrom]
    | cons k rest =>
      rw [fpL_cons, fp_eq k] at hc
      simp at hc
  | succ F ih =>
    intro L p hseg hw hc
    cases L with
    | nil => simp [keysFrom, roots]
    | cons k rest =>
      have hsc := (seg_cons _ _ _ _).1 hseg
      obtain ⟨⟨h1, _, h3, h4, h6⟩, h5⟩ := (WFT_iff s k).1 (hw k (by simp))
      rw [fpL_cons, fp_eq k] at hc
      simp only [Multiset.card_add, Multiset.card_cons] at hc
      have e1 := ih k.kids k.addr h3.2 h4 (by omega)
      have e2 := ih k.subq k.owner h5.2.2 h6 (by omega)
      have e3 := ih rest p hsc.2.2.2 (fun c hcm => hw c (by simp [hcm])) (by omega)
      rw [← h3.1] at e1
      rw [← h5.1] at e2
      have hrs : s.rightsibling k.addr = (roots rest).head? := hsc.2.1
      rw [← hrs] at e3
      simp only [roots_cons, List.head?_cons, keysFrom, keysL_cons]
      rw [keys_eq k, ← e1, ← e2, ← e3, h1]
      simp only [← Multiset.cons_coe, ← Multiset.coe_add, Multiset.cons_add, add_assoc]

/-- The keys reachable from the root of a queue are the keys of the tree it is drawn
as. -/
theorem heapKeys_eq (s : State) (bq : Nat) (T : Option Tree) (h : HeapRep s bq T) :
    (heapKeys s bq : Multiset Int) = keysO T := by
  cases T with
  | none =>
    have hroot : s.root bq = none := h
    simp [heapKeys, hroot, keysFrom, keysO]
  | some R =>
    obtain ⟨hroot, dR, hw, hn, hlt⟩ := h
    obtain ⟨⟨h1, _, h3, h4, h6⟩, h5⟩ := (WFT_iff s R).1 hw
    have hc := card_le_nodes hn hlt
    rw [fp_eq R] at hc
    simp only [Multiset.card_add, Multiset.card_cons] at hc
    have e1 := keysFrom_list s s.nodes R.kids R.addr h3.2 h4 (by omega)
    have e2 := keysFrom_list s s.nodes R.subq R.owner h5.2.2 h6 (by omega)
    rw [← h3.1] at e1
    rw [← h5.1] at e2
    simp only [heapKeys, hroot, keysFrom, keysO, dR.2.2, keysFrom_none, List.append_nil]
    rw [keys_eq R, ← e1, ← e2, h1]
    simp only [← Multiset.cons_coe, ← Multiset.coe_add]

/-! ### States reached by later calls -/

theorem OpFrame.to_grow {s t : State} {A B : Multiset Nat} {bq : Nat} (h : OpFrame s t A bq)
    (hs : ∀ a ∈ A, a ∈ B ∨ s.nodes ≤ a) : Grow s t B bq := by
  refine ⟨fun a ha hb => h.1 a fun hm => ?_, h.2.1, le_of_eq h.2.2.1.symm,
    fun x _ hx => h.2.2.2 x hx⟩
  rcases hs a hm with h1 | h1
  · exact hb h1
  · omega

theorem Grow.trans_grow {s t u : State} {A B : Multiset Nat} {bq bq' : Nat} (h1 : Grow s t A bq)
    (h2 : Grow t u B bq') (hs : ∀ a ∈ B, a ∈ A ∨ s.nodes ≤ a)
    (hb : bq' = bq ∨ s.heaps ≤ bq') : Grow s u A bq := by
  refine ⟨fun a ha hA => ?_, h1.2.1.trans h2.2.1, h1.2.2.1.trans h2.2.2.1, fun h hh hne => ?_⟩
  · obtain ⟨⟨a1, a2, a3, a4⟩, a5, a6, a7⟩ := h1.1 a ha hA
    obtain ⟨⟨b1, b2, b3, b4⟩, b5, b6, b7⟩ := h2.1 a (lt_of_lt_of_le ha h1.2.1) fun hm => by
      rcases hs a hm with h3 | h3
      · exact hA h3
      · omega
    exact ⟨⟨by rw [b1, a1], by rw [b2, a2], by rw [b3, a3], by rw [b4, a4]⟩,
      by rw [b5, a5], by rw [b6, a6], by rw [b7, a7]⟩
  · obtain ⟨a1, a2⟩ := h1.2.2.2 h hh hne
    obtain ⟨b1, b2⟩ := h2.2.2.2 h (lt_of_lt_of_le hh h1.2.2.1) (by
      rcases hb with rfl | hb
      · exact hne
      · omega)
    exact ⟨by rw [b1, a1], by rw [b2, a2]⟩

theorem Grow.refl_grow (s : State) (A : Multiset Nat) (bq : Nat) : Grow s s A bq :=
  ⟨fun _ _ _ => ⟨⟨rfl, rfl, rfl, rfl⟩, rfl, rfl, rfl⟩, le_refl _, le_refl _,
    fun _ _ _ => ⟨rfl, rfl⟩⟩

/-- A queue of `s` other than the one operated on stays drawn as it was. -/
theorem HeapRep.grow_rep {s t : State} {A : Multiset Nat} {bq h : Nat} {T : Option Tree}
    (hr : HeapRep s h T) (f : Grow s t A bq) (hh : h < s.heaps) (hne : h ≠ bq)
    (hd : ∀ a ∈ fpO T, a ∉ A) : HeapRep t h T := by
  cases T with
  | none =>
    show t.root h = none
    rw [(f.2.2.2 h hh hne).1]; exact hr
  | some R =>
    obtain ⟨hroot, dR, hw, hn, hlt⟩ := hr
    have hd' : ∀ a ∈ fp R, a ∉ A := hd
    refine ⟨by rw [(f.2.2.2 h hh hne).1]; exact hroot, ?_, ?_, hn,
      fun a ha => lt_of_lt_of_le (hlt a ha) f.2.1⟩
    · obtain ⟨l1, l2, l3⟩ := (f.1 R.addr (hlt _ (addr_mem_fp R)) (hd' _ (addr_mem_fp R))).2
      exact ⟨by rw [l1, dR.1], by rw [l2, dR.2.1], by rw [l3, dR.2.2]⟩
    · exact hw.congr_wft (fun a ha => (f.1 a (hlt a ha) (hd' a ha)).1)
        fun a ha => (f.1 a (hlt a (inner_mem_fp ha)) (hd' a (inner_mem_fp ha))).2

/-! ### The root of a heap-ordered tree is its minimum -/

theorem mem_keysL {l : List Tree} {k : Int} : k ∈ keysL l ↔ ∃ c ∈ l, k ∈ keys c := by
  induction l with
  | nil => simp
  | cons c l ih => simp [ih]

theorem value_mem_keys (t : Tree) : t.value ∈ keys t := by
  rw [keys_eq]; simp

theorem HeapOrd.root_le {t : Tree} (h : HeapOrd t) : ∀ k ∈ keys t, t.value ≤ k := by
  induction h with
  | mk a v r kids own subq h1 h2 h3 h4 ih2 ih4 =>
    intro k hk
    simp only [keys, Multiset.mem_cons, Multiset.mem_add, mem_keysL] at hk
    rcases hk with rfl | ⟨c, hc, hk⟩ | ⟨c, hc, hk⟩
    · exact le_refl _
    · exact (h1 c hc).trans (ih2 c hc k hk)
    · exact (h3 c hc).trans (ih4 c hc k hk)

theorem keysO_none_iff (T : Option Tree) : keysO T = 0 ↔ T = none := by
  cases T with
  | none => simp [keysO]
  | some R =>
    simp only [keysO, reduceCtorEq, iff_false]
    intro h
    have := value_mem_keys R
    rw [h] at this
    simp at this

/-! ### Effect of `insert` on a queue -/

theorem insertH_spec (n : Nat) (T : Option Tree) (x T' : Tree) (hT : HeapOrdO T)
    (hx : HeapOrd x) (hn : (fpO T + fp x).Nodup) (h : insertH n T x = some T') :
    HeapOrd T' ∧ keys T' = keysO T + keys x ∧
      T'.value = minO T x.value ∧
      (T'.subq = x.subq ∨ ∃ R, T = some R ∧ T'.subq = R.subq) := by
  cases n with
  | zero => cases T <;> simp [insertH] at h
  | succ n =>
    cases T with
    | none =>
      simp only [insertH, Option.some.injEq] at h
      subst h
      exact ⟨hx, by simp [keysO], rfl, Or.inl rfl⟩
    | some R =>
      have h' : insertT (n + 1) R x = some T' := h
      obtain ⟨o1, o2, o3⟩ := insertT_heapOrd _ R x T' hT hx h'
      obtain ⟨_, k1⟩ := insertT_fp_keys _ R x T' hn h'
      refine ⟨o1, k1, o2, ?_⟩
      by_cases hv : x.value < R.value
      · rw [if_pos hv] at o3; exact Or.inl o3
      · rw [if_neg hv] at o3; exact Or.inr ⟨R, rfl, o3⟩

/-! ### The exported methods on a heap-ordered queue -/

/-- Method `Insert` adds the value to the keys, keeps the heap order and counts one more. -/
theorem Insert_step (s : State) (bq : Nat) (T : Option Tree) (v : Int) (h : HeapRep s bq T)
    (ho : HeapOrdO T) :
    ∃ t T', Insert bq v s = .ok () t ∧ HeapRep t bq (some T') ∧ HeapOrd T' ∧
      keys T' = v ::ₘ keysO T ∧ (T'.subq = [] ∨ ∃ R, T = some R ∧ T'.subq = R.subq) ∧
      fp T' = s.nodes ::ₘ fpO T ∧ Grow s t (fpO T) bq ∧ t.size bq = s.size bq + 1 ∧
      t.heaps = s.heaps := by
  obtain ⟨t, T', e, hr, hi, hfp, f, sz, _⟩ := Insert_spec s bq T v h
  have hnd : (fpO T + fp (leaf s.nodes v)).Nodup := by
    have := hr.2.2.2.1
    rw [hfp] at this
    rw [fp_leaf, add_comm, Multiset.singleton_add]
    exact this
  obtain ⟨o1, o2, _, o4⟩ := insertH_spec _ T _ T' ho (heapOrd_leaf _ _) hnd hi
  refine ⟨t, T', e, hr, o1, ?_, o4, hfp, f.to_grow fun a ha => ?_, sz, f.2.2.1⟩
  · rw [o2, keys_leaf, add_comm, Multiset.singleton_add]
  · rcases Multiset.mem_cons.1 ha with rfl | ha
    · exact Or.inr (le_refl _)
    · exact Or.inl ha

/-- Method `Pop` returns the root value, which is the smallest key, takes one occurrence of it
from the keys, keeps the heap order and counts one less. -/
theorem Pop_step (s : State) (bq : Nat) (R : Tree) (h : HeapRep s bq (some R))
    (ho : HeapOrd R) :
    ∃ t T', Pop bq s = .ok R.value t ∧ HeapRep t bq T' ∧ HeapOrdO T' ∧
      keys R = R.value ::ₘ keysO T' ∧ fpO T' ≤ fp R ∧ Grow s t (fp R) bq ∧
      t.size bq = s.size bq - 1 ∧ t.heaps = s.heaps := by
  have hc := card_le_nodes h.2.2.2.1 h.2.2.2.2
  obtain ⟨T', e, hk, ho'⟩ := popT_spec (fuel s) R ho h.2.2.2.1 (by unfold fuel; omega)
  obtain ⟨t, e2, hr, f, sz, _, hle⟩ := Pop_spec s bq R R.value T' h ho e
  exact ⟨t, T', e2, hr, ho', hk, hle, f.to_grow fun a ha => Or.inl ha, sz, f.2.2.1⟩

/-- Method `Merge` of a non-empty queue into another one: the keys of the root and of the children
of `other` are added (those of its subqueue are not), the heap order is kept, and the
sizes are added. -/
theorem Merge_step (s : State) (bq other : Nat) (TA : Option Tree) (B : Tree)
    (hA : HeapRep s bq TA) (hB : HeapRep s other (some B)) (hoA : HeapOrdO TA)
    (hoB : HeapOrd B) (hdis : (fpO TA + fp B).Nodup) :
    ∃ t T', Merge bq other s = .ok () t ∧ HeapRep t bq (some T') ∧ HeapOrd T' ∧
      keys T' = keysO TA + (B.value ::ₘ keysL B.kids) ∧
      T'.value = minO TA B.value ∧
      fp T' ≤ fpO TA + fp B ∧ Grow s t (fpO TA + fp B) bq ∧
      t.size bq = s.size bq + s.size other ∧ t.heaps = s.heaps := by
  obtain ⟨t, T', e, hr, hi, hfp, f, sz, _⟩ := Merge_spec s bq other TA B hA hB hdis
  have hle : fpO TA + fp (moveT B) ≤ fpO TA + fp B := by
    have := fp_moveT_le B
    rw [Multiset.le_iff_count] at this ⊢
    intro z
    have := this z
    simp only [Multiset.count_add]
    omega
  obtain ⟨o1, o2, o3, _⟩ := insertH_spec _ TA _ T' hoA (heapOrd_moveT hoB)
    (nodup_sub hdis hle) hi
  refine ⟨t, T', e, hr, o1, by rw [o2, keys_moveT], o3, by rw [hfp]; exact hle,
    f.to_grow fun a ha => Or.inl ha, sz, f.2.2.1⟩

/-! ### Sequences of calls on one queue -/

theorem keysO_some_card (R : Tree) : Multiset.card (keysO (some R)) ≠ 0 := by
  intro h
  have := (keysO_none_iff (some R)).1 (Multiset.card_eq_zero.1 h)
  simp at this

/-- Method `insert_mult` on a heap-ordered queue. -/
theorem insert_mult_spec (bq : Nat) : ∀ (xs : List Int) (s : State) (T : Option Tree),
    HeapRep s bq T → HeapOrdO T →
    ∃ t T', insert_mult bq xs s = .ok () t ∧ HeapRep t bq T' ∧ HeapOrdO T' ∧
      keysO T' = keysO T + (xs : Multiset Int) ∧ t.size bq = s.size bq + xs.length ∧
      Grow s t (fpO T) bq ∧ (∀ a ∈ fpO T', a ∈ fpO T ∨ s.nodes ≤ a) ∧
      (subqO T = [] → subqO T' = []) := by
  intro xs
  induction xs with
  | nil =>
    intro s T h ho
    exact ⟨s, T, rfl, h, ho, by simp, by simp, Grow.refl_grow _ _ _, fun a ha => Or.inl ha,
      fun h => h⟩
  | cons v l ih =>
    intro s T h ho
    obtain ⟨t1, T1, e1, r1, o1, k1, q1, f1, g1, z1, _⟩ := Insert_step s bq T v h ho
    obtain ⟨t, T', e, r, o, k, z, g, f, q⟩ := ih t1 (some T1) r1 o1
    have hsub : ∀ a ∈ fpO (some T1), a ∈ fpO T ∨ s.nodes ≤ a := by
      intro a ha
      have ha' : a ∈ fp T1 := ha
      rw [f1] at ha'
      rcases Multiset.mem_cons.1 ha' with rfl | ha'
      · exact Or.inr (le_refl _)
      · exact Or.inl ha'
    refine ⟨t, T', ?_, r, o, ?_, ?_, g1.trans_grow g hsub (Or.inl rfl), ?_, ?_⟩
    · show (Insert bq v >>= fun _ => insert_mult bq l) s = _
      rw [bind_ok' e1]; exact e
    · rw [k]
      show keys T1 + _ = _
      rw [k1, ← Multiset.cons_coe, Multiset.cons_add, Multiset.add_cons]
    · rw [z, z1]
      simp only [List.length_cons, Nat.cast_add, Nat.cast_one]
      ring
    · intro a ha
      rcases f a ha with h1 | h1
      · exact hsub a h1
      · exact Or.inr (g1.2.1.trans h1)
    · intro hq
      apply q
      show T1.subq = []
      rcases q1 with h1 | ⟨R, rfl, h1⟩
      · exact h1
      · rw [h1]; exact hq

/-- The popping loop run as many times as the queue holds keys returns them in
non-decreasing order and leaves the queue empty. -/
theorem popN_spec (bq : Nat) : ∀ (n : Nat) (s : State) (T : Option Tree),
    HeapRep s bq T → HeapOrdO T → Multiset.card (keysO T) = n →
    ∃ outs t, popN bq n s = .ok outs t ∧ outs.Sorted (· ≤ ·) ∧
      (outs : Multiset Int) = keysO T ∧ t.root bq = none ∧ t.size bq = s.size bq - n := by
  intro n
  induction n with
  | zero =>
    intro s T h ho hc
    have hT := (keysO_none_iff T).1 (Multiset.card_eq_zero.1 hc)
    subst hT
    exact ⟨[], s, rfl, List.sorted_nil, by simp [keysO], h, by simp⟩
  | succ n ih =>
    intro s T h ho hc
    cases T with
    | none => simp [keysO] at hc
    | some R =>
      obtain ⟨t1, T1, e1, r1, o1, k1, _, _, z1, _⟩ := Pop_step s bq R h ho
      have hk : keysO (some R) = R.value ::ₘ keysO T1 := k1
      rw [hk, Multiset.card_cons] at hc
      obtain ⟨outs, t, e, so, ko, ro, zo⟩ := ih t1 T1 r1 o1 (by omega)
      refine ⟨R.value :: outs, t, ?_, ?_, ?_, ro, ?_⟩
      · show (Pop bq >>= fun pval => popN bq n >>= fun rest => pure (pval :: rest)) s = _
        rw [bind_ok' e1, bind_ok' e]
        rfl
      · refine List.sorted_cons.2 ⟨fun k hkm => ?_, so⟩
        apply HeapOrd.root_le ho
        rw [k1, ← ko]
        exact Multiset.mem_cons_of_mem (by simpa using hkm)
      · rw [hk, ← ko, Multiset.cons_coe]
      · rw [zo, z1]
        push_cast
        ring

/-- A sequence of calls in which no `Pop` meets an empty queue runs to its end; the keys
held at the end with the values popped are the keys held at the start with the values
inserted, and `size` counts the keys held. -/
theorem runOps_spec (bq : Nat) : ∀ (ops : List Op) (s : State) (T : Option Tree),
    HeapRep s bq T → HeapOrdO T → s.size bq = Multiset.card (keysO T) →
    noPopOnEmpty (Multiset.card (keysO T)) ops = true →
    ∃ outs t T', runOps bq ops s = .ok outs t ∧ HeapRep t bq T' ∧ HeapOrdO T' ∧
      t.size bq = Multiset.card (keysO T') ∧
      keysO T' + (outs : Multiset Int) = keysO T + (inserted ops : Multiset Int) ∧
      outs.length = pops ops := by
  intro ops
  induction ops with
  | nil =>
    intro s T h ho hz _
    exact ⟨[], s, T, rfl, h, ho, hz, by simp [inserted], rfl⟩
  | cons op l ih =>
    intro s T h ho hz hv
    cases op with
    | insert v =>
      obtain ⟨t1, T1, e1, r1, o1, k1, _, _, _, z1, _⟩ := Insert_step s bq T v h ho
      have hk : keysO (some T1) = v ::ₘ keysO T := k1
      have hc : Multiset.card (keysO (some T1)) = Multiset.card (keysO T) + 1 := by
        rw [hk, Multiset.card_cons]
      obtain ⟨outs, t, T', e, r, o, z, k, p⟩ := ih t1 (some T1) r1 o1
        (by rw [z1, hz, hc]; push_cast; ring) (by rw [hc]; exact hv)
      refine ⟨outs, t, T', ?_, r, o, z, ?_, p⟩
      · show (Insert bq v >>= fun _ => runOps bq l) s = _
        rw [bind_ok' e1]; exact e
      · rw [k, hk]
        simp only [inserted, ← Multiset.cons_coe, Multiset.cons_add, Multiset.add_cons]
    | pop =>
      cases T with
      | none => simp [keysO, noPopOnEmpty] at hv
      | some R =>
        obtain ⟨t1, T1, e1, r1, o1, k1, _, _, z1, _⟩ := Pop_step s bq R h ho
        have hk : keysO (some R) = R.value ::ₘ keysO T1 := k1
        have hc : Multiset.card (keysO (some R)) = Multiset.card (keysO T1) + 1 := by
          rw [hk, Multiset.card_cons]
        rw [hc] at hv hz
        simp only [noPopOnEmpty, Nat.add_sub_cancel, Bool.and_eq_true, decide_eq_true_eq] at hv
        obtain ⟨outs, t, T', e, r, o, z, k, p⟩ := ih t1 T1 r1 o1
          (by rw [z1, hz]; push_cast; ring) hv.2
        refine ⟨R.value :: outs, t, T', ?_, r, o, z, ?_, ?_⟩
        · show (Pop bq >>= fun pval => runOps bq l >>= fun rest => pure (pval :: rest)) s = _
          rw [bind_ok' e1, bind_ok' e]
          rfl
        · rw [hk, ← Multiset.cons_coe, Multiset.add_cons, k]
          simp only [inserted, Multiset.cons_add]
        · simp [pops, p]

/-- The count in `noPopOnEmpty` is exact: a sequence it rejects stops at the `Pop` that
meets the empty queue. -/
theorem runOps_fault (bq : Nat) : ∀ (ops : List Op) (s : State) (T : Option Tree),
    HeapRep s bq T → HeapOrdO T → noPopOnEmpty (Multiset.card (keysO T)) ops = false →
    ∃ t, runOps bq ops s = .fault t := by
  intro ops
  induction ops with
  | nil =>
    intro s T _ _ hv
    simp [noPopOnEmpty] at hv
  | cons op l ih =>
    intro s T h ho hv
    cases op with
    | insert v =>
      obtain ⟨t1, T1, e1, r1, o1, k1, _⟩ := Insert_step s bq T v h ho
      have hk : keysO (some T1) = v ::ₘ keysO T := k1
      have hc : Multiset.card (keysO (some T1)) = Multiset.card (keysO T) + 1 := by
        rw [hk, Multiset.card_cons]
      obtain ⟨t, e⟩ := ih t1 (some T1) r1 o1 (by rw [hc]; exact hv)
      refine ⟨t, ?_⟩
      show (Insert bq v >>= fun _ => runOps bq l) s = _
      rw [bind_ok' e1]; exact e
    | pop =>
      cases T with
      | none =>
        refine ⟨{ s with size := upd s.size bq (s.size bq - 1) }, ?_⟩
        show (Pop bq >>= fun pval => runOps bq l >>= fun rest => pure (pval :: rest)) s = _
        simp only [bind_run, M.bind, Pop_empty s bq h]
      | some R =>
        obtain ⟨t1, T1, e1, r1, o1, k1, _⟩ := Pop_step s bq R h ho
        have hk : keysO (some R) = R.value ::ₘ keysO T1 := k1
        have hc : Multiset.card (keysO (some R)) = Multiset.card (keysO T1) + 1 := by
          rw [hk, Multiset.card_cons]
        rw [hc] at hv
        simp only [noPopOnEmpty, Nat.add_sub_cancel, Nat.zero_lt_succ, decide_True,
          Bool.true_and] at hv
        obtain ⟨t, e⟩ := ih t1 T1 r1 o1 hv
        refine ⟨t, ?_⟩
        show (Pop bq >>= fun pval => runOps bq l >>= fun rest => pure (pval :: rest)) s = _
        simp only [bind_run, M.bind, e1, e]

/-! ### Programs on several queues -/

theorem bind_fault' {α β : Type} {m : M α} {f : α → M β} {s s1 : State}
    (h : m s = .fault s1) : (m >>= f) s = .fault s1 := by
  simp [M.bind, h]

theorem NewBOHeap_spec (s : State) :
    ∃ t, NewBOHeap s = .ok s.heaps t ∧ HeapRep t s.heaps none ∧ t.size s.heaps = 0 ∧
      Grow s t 0 s.heaps ∧ t.heaps = s.heaps + 1 ∧ t.nodes = s.nodes := by
  refine ⟨_, rfl, ?_, ?_, ⟨fun _ _ _ => ⟨⟨rfl, rfl, rfl, rfl⟩, rfl, rfl, rfl⟩, le_refl _,
    Nat.le_succ _, fun h _ hne => ?_⟩, rfl, rfl⟩
  · show upd s.root s.heaps none s.heaps = none
    simp
  · show upd s.size s.heaps 0 s.heaps = 0
    simp
  · exact ⟨upd_ne _ _ hne, upd_ne _ _ hne⟩

theorem HeapRep.fp_lt {s : State} {h : Nat} {T : Option Tree} (r : HeapRep s h T) :
    ∀ x ∈ fpO T, x < s.nodes := by
  intro x hx
  cases T with
  | none => simp [fpO] at hx
  | some R => exact r.2.2.2.2 x hx

theorem HeapRep.fp_nodup {s : State} {h : Nat} {T : Option Tree} (r : HeapRep s h T) :
    (fpO T).Nodup := by
  cases T with
  | none => simp [fpO]
  | some R => exact r.2.2.2.1

/-- The queue `h` of a world is redrawn as `T` by a call on it that touches only its own
nodes and nodes allocated by the call: the result is a world again. -/
theorem World.step {s t : State} {L L' : List Nat} {h : Nat} {A : Multiset Nat}
    {tree : Nat → Option Tree} {T : Option Tree}
    (hall : ∀ k ∈ L, k < s.heaps ∧ HeapRep s k (tree k) ∧ HeapOrdO (tree k))
    (hdis : ∀ k ∈ L', k ≠ h → ∀ x ∈ fpO (tree k), x ∉ A)
    (hpair : ∀ h ∈ L, ∀ k ∈ L, h ≠ k → ∀ x ∈ fpO (tree h), x ∉ fpO (tree k))
    (g : Grow s t A h) (r : HeapRep t h T) (o : HeapOrdO T) (hh : h < t.heaps)
    (hfp : ∀ x ∈ fpO T, x ∈ A ∨ s.nodes ≤ x) (hL : ∀ k ∈ L', k ∈ L)
    (hn' : L'.Nodup) : World t L' := by
  refine ⟨hn', upd tree h T, fun k hk => ?_, fun k hk k' hk' hne x hx => ?_⟩
  · by_cases hkh : k = h
    · subst hkh
      rw [upd_same]
      exact ⟨hh, r, o⟩
    · rw [upd_ne _ _ hkh]
      obtain ⟨a1, a2, a3⟩ := hall k (hL k hk)
      exact ⟨lt_of_lt_of_le a1 g.2.2.1, a2.grow_rep g a1 hkh (hdis k hk hkh), a3⟩
  · by_cases hkh : k = h
    · subst hkh
      rw [upd_same] at hx
      rw [upd_ne _ _ (Ne.symm hne)]
      intro hx'
      have hlt := (hall k' (hL k' hk')).2.1.fp_lt x hx'
      rcases hfp x hx with h1 | h1
      · exact hdis k' hk' (Ne.symm hne) x hx' h1
      · omega
    · rw [upd_ne _ _ hkh] at hx
      by_cases hkh' : k' = h
      · subst hkh'
        rw [upd_same]
        intro hx'
        have hlt := (hall k (hL k hk)).2.1.fp_lt x hx
        rcases hfp x hx' with h1 | h1
        · exact hdis k hk hkh x hx h1
        · omega
      · rw [upd_ne _ _ hkh']
        exact hpair k (hL k hk) k' (hL k' hk') hne x hx

/-- A program that uses its queues properly never runs out of fuel: either a `Pop` meets
an empty queue or a `Merge` an empty argument, or the program runs to its end and the
queues in use form a world. -/
theorem world_spec : ∀ (cmds : List Cmd) (s : State) (L L' : List Nat), World s L →
    inUse L s.heaps cmds = some L' →
    (∃ t, runCmds cmds s = .fault t) ∨ ∃ t, runCmds cmds s = .ok () t ∧ World t L' := by
  intro cmds
  induction cmds with
  | nil =>
    intro s L L' hw hi
    simp only [inUse, Option.some.injEq] at hi
    subst hi
    exact Or.inr ⟨s, rfl, hw⟩
  | cons c l ih =>
    intro s L L' hw hi
    obtain ⟨hn, tree, hall, hpair⟩ := hw
    have hrun : ∀ {t : State}, runCmd c s = .ok () t →
        ((∃ u, runCmds l t = .fault u) ∨ ∃ u, runCmds l t = .ok () u ∧ World u L') →
        (∃ u, runCmds (c :: l) s = .fault u) ∨
          ∃ u, runCmds (c :: l) s = .ok () u ∧ World u L' := by
      intro t e hr
      have : runCmds (c :: l) s = runCmds l t := by
        show (runCmd c >>= fun _ => runCmds l) s = _
        rw [bind_ok' e]
      rw [this]
      exact hr
    have hfault : ∀ {t : State}, runCmd c s = .fault t →
        (∃ u, runCmds (c :: l) s = .fault u) ∨
          ∃ u, runCmds (c :: l) s = .ok () u ∧ World u L' := by
      intro t e
      refine Or.inl ⟨t, ?_⟩
      show (runCmd c >>= fun _ => runCmds l) s = _
      rw [bind_fault' e]
    cases c with
    | new =>
      obtain ⟨t, e, r, _, g, hh, _⟩ := NewBOHeap_spec s
      have hnin : s.heaps ∉ L := fun hm => lt_irrefl _ (hall _ hm).1
      have hw' : World t (s.heaps :: L) := by
        refine ⟨List.nodup_cons.2 ⟨hnin, hn⟩, upd tree s.heaps none, fun k hk => ?_,
          fun k hk k' hk' hne x hx => ?_⟩
        · rcases List.mem_cons.1 hk with rfl | hk
          · rw [upd_same]
            exact ⟨by omega, r, trivial⟩
          · have hks : k ≠ s.heaps := fun e => hnin (e ▸ hk)
            rw [upd_ne _ _ hks]
            obtain ⟨a1, a2, a3⟩ := hall k hk
            exact ⟨by omega, a2.grow_rep g a1 hks (by simp), a3⟩
        · by_cases hks : k = s.heaps
          · subst hks
            rw [upd_same] at hx
            simp [fpO] at hx
          · rw [upd_ne _ _ hks] at hx
            by_cases hks' : k' = s.heaps
            · subst hks'
              rw [upd_same]
              simp [fpO]
            · rw [upd_ne _ _ hks']
              have hk1 : k ∈ L := (List.mem_cons.1 hk).resolve_left hks
              have hk2 : k' ∈ L := (List.mem_cons.1 hk').resolve_left hks'
              exact hpair k hk1 k' hk2 hne x hx
      have e' : runCmd .new s = .ok () t := by
        show (NewBOHeap >>= fun _ => pure ()) s = _
        rw [bind_ok' e]
        rfl
      simp only [inUse] at hi
      rw [← hh] at hi
      exact hrun e' (ih t _ L' hw' hi)
    | insert h v =>
      simp only [inUse] at hi
      by_cases hin : h ∈ L
      · rw [if_pos hin] at hi
        obtain ⟨a1, a2, a3⟩ := hall h hin
        obtain ⟨t, T', e, r, o, _, _, f, g, _, hh⟩ := Insert_step s h (tree h) v a2 a3
        have hw' : World t L := World.step hall
          (fun k hk hne x hx => hpair k hk h hin hne x hx) hpair g r o (by omega)
          (fun x hx => by
            have hx' : x ∈ fp T' := hx
            rw [f] at hx'
            rcases Multiset.mem_cons.1 hx' with rfl | hx'
            · exact Or.inr (le_refl _)
            · exact Or.inl hx') (fun k hk => hk) hn
        rw [← hh] at hi
        exact hrun e (ih t L L' hw' hi)
      · rw [if_neg hin] at hi
        simp at hi
    | pop h =>
      simp only [inUse] at hi
      by_cases hin : h ∈ L
      · rw [if_pos hin] at hi
        obtain ⟨a1, a2, a3⟩ := hall h hin
        cases hT : tree h with
        | none =>
          rw [hT] at a2
          apply hfault
          show (Pop h >>= fun _ => pure ()) s = _
          rw [bind_fault' (Pop_empty s h a2)]
        | some R =>
          rw [hT] at a2 a3
          obtain ⟨t, T', e, r, o, _, f, g, _, hh⟩ := Pop_step s h R a2 a3
          have hw' : World t L := World.step hall
            (fun k hk hne x hx hx' => hpair k hk h hin hne x hx (by rw [hT]; exact hx'))
            hpair g r o (by omega) (fun x hx => Or.inl (Multiset.mem_of_le f hx))
            (fun k hk => hk) hn
          have e' : runCmd (.pop h) s = .ok () t := by
            show (Pop h >>= fun _ => pure ()) s = _
            rw [bind_ok' e]
            rfl
          rw [← hh] at hi
          exact hrun e' (ih t L L' hw' hi)
      · rw [if_neg hin] at hi
        simp at hi
    | merge a b =>
      simp only [inUse] at hi
      by_cases hin : a ∈ L ∧ b ∈ L ∧ a ≠ b
      · rw [if_pos hin] at hi
        obtain ⟨ha, hb, hab⟩ := hin
        obtain ⟨a1, a2, a3⟩ := hall a ha
        obtain ⟨b1, b2, b3⟩ := hall b hb
        cases hT : tree b with
        | none =>
          rw [hT] at b2
          exact hfault (Merge_empty s a b b2)
        | some B =>
          rw [hT] at b2 b3
          have hdis : (fpO (tree a) + fp B).Nodup := by
            refine Multiset.nodup_add.2 ⟨a2.fp_nodup, b2.2.2.2.1, ?_⟩
            rw [Multiset.disjoint_left]
            intro x hx hx'
            exact hpair a ha b hb hab x hx (by rw [hT]; exact hx')
          obtain ⟨t, T', e, r, o, _, _, f, g, _, hh⟩ :=
            Merge_step s a b (tree a) B a2 b2 a3 b3 hdis
          have hw' : World t (L.erase b) := World.step hall
            (fun k hk hne x hx hx' => by
              have hk' := (hn.mem_erase_iff.1 hk)
              rcases Multiset.mem_add.1 hx' with h1 | h1
              · exact hpair k hk'.2 a ha hne x hx h1
              · exact hpair k hk'.2 b hb hk'.1 x hx (by rw [hT]; exact h1))
            hpair g r o (by omega) (fun x hx => Or.inl (Multiset.mem_of_le f hx))
            (fun k hk => List.mem_of_mem_erase hk) (hn.erase b)
          rw [← hh] at hi
          exact hrun e (ih t _ L' hw' hi)
      · rw [if_neg hin] at hi
        simp at hi

/-! ### A fresh heap and a sequence of calls -/

theorem session_spec (s : State) (ops : List Op) (hv : noPopOnEmpty 0 ops = true) :
    ∃ outs t T, session ops s = .ok (s.heaps, outs) t ∧ HeapRep t s.heaps T ∧ HeapOrdO T ∧
      t.size s.heaps = Multiset.card (keysO T) ∧
      keysO T + (outs : Multiset Int) = (inserted ops : Multiset Int) ∧
      outs.length = pops ops := by
  obtain ⟨t0, e0, r0, z0, _, _, _⟩ := NewBOHeap_spec s
  obtain ⟨outs, t, T, e, r, o, z, k, p⟩ := runOps_spec s.heaps ops t0 none r0 trivial
    (by rw [z0]; simp [keysO]) (by simpa [keysO] using hv)
  refine ⟨outs, t, T, ?_, r, o, z, by simpa [keysO] using k, p⟩
  show (NewBOHeap >>= fun heap => runOps heap ops >>= fun out => pure (heap, out)) s = _
  rw [bind_ok' e0, bind_ok' e]
  rfl

theorem session_count {T : Option Tree} {outs : List Int} {ops : List Op}
    (k : keysO T + (outs : Multiset Int) = (inserted ops : Multiset Int))
    (p : outs.length = pops ops) :
    Multiset.card (keysO T) + pops ops = (inserted ops).length := by
  have := congrArg Multiset.card k
  simpa [p] using this

theorem heapRep_root_none {s : State} {bq : Nat} {T : Option Tree} (h : HeapRep s bq T) :
    s.root bq = none ↔ T = none := by
  cases T with
  | none => simpa using h
  | some R => simp [h.1]

theorem card_keysO_zero {T : Option Tree} : Multiset.card (keysO T) = 0 ↔ T = none := by
  rw [Multiset.card_eq_zero, keysO_none_iff]

/-- C1.  Inserting any list of values into a fresh heap and popping as many times returns
the values in non-decreasing order; for a permutation of `0, …, n-1` the values returned
are `0, …, n-1`. -/
theorem heapsort_sorts (s : State) (xs : List Int) :
    ∃ out t, heapsort xs s = .ok out t ∧ out.Sorted (· ≤ ·) ∧ out.Perm xs ∧
      ∀ n : Nat, xs.Perm ((List.range n).map Int.ofNat) →
        out = (List.range n).map Int.ofNat := by
  obtain ⟨t0, e0, r0, z0, _, _, _⟩ := NewBOHeap_spec s
  obtain ⟨t1, T1, e1, r1, o1, k1, _, _, _, _⟩ := insert_mult_spec s.heaps xs t0 none r0 trivial
  have hk : keysO T1 = (xs : Multiset Int) := by simpa [keysO] using k1
  obtain ⟨out, t, e, so, ko, _, _⟩ := popN_spec s.heaps xs.length t1 T1 r1 o1 (by simp [hk])
  have hperm : out.Perm xs := Quotient.exact (ko.trans hk)
  refine ⟨out, t, ?_, so, hperm, fun n hn => ?_⟩
  · show (NewBOHeap >>= fun heap => insert_mult heap xs >>= fun _ => popN heap xs.length) s = _
    rw [bind_ok' e0, bind_ok' e1]
    exact e
  · refine List.eq_of_perm_of_sorted (hperm.trans hn) so ?_
    have h1 : (List.range n).Sorted (· < ·) := List.sorted_lt_range n
    exact (List.Pairwise.map Int.ofNat (fun a b hab => Int.ofNat_le.2 (le_of_lt hab)) h1)

/-- C2.  After a sequence of `Insert` and `Pop` calls on a fresh heap in which no `Pop`
meets an empty queue, and which leaves at least one key, `Peek` returns a smallest one of
the keys inserted and not yet popped. -/
theorem peek_is_minimum (s : State) (ops : List Op) (hv : noPopOnEmpty 0 ops = true)
    (hne : pops ops < (inserted ops).length) :
    ∃ h outs t v, session ops s = .ok (h, outs) t ∧ Peek h t = .ok v t ∧
      v ∈ (inserted ops : Multiset Int) - (outs : Multiset Int) ∧
      ∀ k ∈ (inserted ops : Multiset Int) - (outs : Multiset Int), v ≤ k := by
  obtain ⟨outs, t, T, e, r, o, z, k, p⟩ := session_spec s ops hv
  have hc := session_count k p
  have hk : (inserted ops : Multiset Int) - (outs : Multiset Int) = keysO T := by
    rw [← k]; simp
  cases T with
  | none => simp [keysO] at hc; omega
  | some R =>
    refine ⟨s.heaps, outs, t, R.value, e, Peek_spec t _ R r, ?_, ?_⟩
    · rw [hk]; exact value_mem_keys R
    · rw [hk]; exact HeapOrd.root_le o

/-- C3.  On a non-empty queue reached from a fresh heap by `Insert` and `Pop`, `Pop`
returns the value `Peek` returns, which is a smallest one of the keys reachable from the
root, and the keys reachable afterwards are those reachable before without one occurrence
of it. -/
theorem pop_removes_minimum (s : State) (ops : List Op) (hv : noPopOnEmpty 0 ops = true)
    (hne : pops ops < (inserted ops).length) :
    ∃ h outs t v t', session ops s = .ok (h, outs) t ∧ Peek h t = .ok v t ∧
      Pop h t = .ok v t' ∧ v ∈ heapKeys t h ∧ (∀ k ∈ heapKeys t h, v ≤ k) ∧
      (heapKeys t' h : Multiset Int) = (heapKeys t h : Multiset Int).erase v := by
  obtain ⟨outs, t, T, e, r, o, z, k, p⟩ := session_spec s ops hv
  have hc := session_count k p
  cases T with
  | none => simp [keysO] at hc; omega
  | some R =>
    obtain ⟨t', T', e', r', _, k', _, _, _⟩ := Pop_step t s.heaps R r o
    have h1 : (heapKeys t s.heaps : Multiset Int) = keys R := heapKeys_eq t _ _ r
    have h2 := heapKeys_eq t' _ _ r'
    have hm : ∀ x, x ∈ heapKeys t s.heaps ↔ x ∈ keys R := fun x => by
      rw [← h1]; exact Iff.rfl
    refine ⟨s.heaps, outs, t, R.value, t', e, Peek_spec t _ R r, e', ?_, ?_, ?_⟩
    · exact (hm _).2 (value_mem_keys R)
    · intro x hx
      exact HeapOrd.root_le o x ((hm x).1 hx)
    · rw [h1, h2, k', Multiset.erase_cons_head]

/-- C6.  After `k` `Insert` calls and `m` `Pop` calls on a fresh heap, interleaved so that
no `Pop` meets an empty queue, `m ≤ k` and `Size` returns `k - m`. -/
theorem size_accounting (s : State) (ops : List Op) (hv : noPopOnEmpty 0 ops = true) :
    ∃ h outs t, session ops s = .ok (h, outs) t ∧ pops ops ≤ (inserted ops).length ∧
      Size h t = .ok (((inserted ops).length : Int) - (pops ops : Int)) t := by
  obtain ⟨outs, t, T, e, r, o, z, k, p⟩ := session_spec s ops hv
  have hc := session_count k p
  refine ⟨s.heaps, outs, t, e, by omega, ?_⟩
  show Res.ok (t.size s.heaps) t = _
  rw [z, ← hc]
  push_cast
  ring_nf

/-- C7.  On a queue reached from a fresh heap by `Insert` and `Pop`, the root is absent
exactly when there were as many pops as inserts; then `Peek` and `Pop` stop at the
dereference of the absent root and return no value, and otherwise both return a value. -/
theorem empty_queue_faults (s : State) (ops : List Op) (hv : noPopOnEmpty 0 ops = true) :
    ∃ h outs t, session ops s = .ok (h, outs) t ∧
      (t.root h = none ↔ pops ops = (inserted ops).length) ∧
      (t.root h = none → Peek h t = .fault t ∧ ∃ t', Pop h t = .fault t') ∧
      (t.root h ≠ none → (∃ v, Peek h t = .ok v t) ∧ ∃ v t', Pop h t = .ok v t') := by
  obtain ⟨outs, t, T, e, r, o, z, k, p⟩ := session_spec s ops hv
  have hc := session_count k p
  refine ⟨s.heaps, outs, t, e, ?_, fun h0 => ⟨Peek_empty t _ h0, _, Pop_empty t _ h0⟩,
    fun h0 => ?_⟩
  · rw [heapRep_root_none r, ← card_keysO_zero]
    omega
  · cases T with
    | none => exact absurd r h0
    | some R =>
      obtain ⟨t', T', e', _⟩ := Pop_step t s.heaps R r o
      exact ⟨⟨R.value, Peek_spec t _ R r⟩, R.value, t', e'⟩

/-- The failing `Pop` in general.  `Pop` on a queue emptied by as many pops as inserts
stops at the dereference of the absent root after `size` has been decremented
(boheap.go:60): the root is still absent, nothing else has changed, and `Size` returns `-1`
for a queue that holds no key. -/
theorem pop_on_empty_effect (s : State) (ops : List Op) (hv : noPopOnEmpty 0 ops = true)
    (he : pops ops = (inserted ops).length) :
    ∃ h outs t, session ops s = .ok (h, outs) t ∧ t.root h = none ∧ Size h t = .ok 0 t ∧
      Pop h t = .fault { t with size := upd t.size h (-1) } ∧
      Size h { t with size := upd t.size h (-1) } =
        .ok (-1) { t with size := upd t.size h (-1) } := by
  obtain ⟨outs, t, T, e, r, o, z, k, p⟩ := session_spec s ops hv
  have hc := session_count k p
  have hT : T = none := card_keysO_zero.1 (by omega)
  subst hT
  have hz : t.size s.heaps = 0 := by rw [z]; simp [keysO]
  refine ⟨s.heaps, outs, t, e, r, ?_, ?_, ?_⟩
  · show Res.ok (t.size s.heaps) t = _
    rw [hz]
  · rw [Pop_empty t _ r, hz]
    rfl
  · show Res.ok (upd t.size s.heaps (-1) s.heaps) _ = _
    rw [upd_same]

/-- C8, the run that fails.  `Pop` on a fresh heap faults at the dereference of the absent
root, after `bq.size -= 1` (boheap.go:60) has run: the root is still absent and no key is
reachable, but `Size`, which is to return the total keys present, returns `-1`, not `0`. -/
theorem pop_on_empty_changes_size :
    ∃ t t', session [] State.init = .ok (0, []) t ∧ t.root 0 = none ∧ Size 0 t = .ok 0 t ∧
      Pop 0 t = .fault t' ∧ t'.root 0 = none ∧ heapKeys t' 0 = [] ∧
      Size 0 t' = .ok (-1) t' ∧ Size 0 t' ≠ .ok 0 t' := by
  refine ⟨_, _, rfl, rfl, rfl, rfl, rfl, rfl, rfl, ?_⟩
  intro h
  have h' := (Res.ok.inj h).1
  revert h'
  decide

/-- C9.  On a queue reached from a fresh heap by `Insert` and `Pop` the root is absent
exactly when `Size` returns `0`; `Insert v` followed by `Pop` on a fresh heap returns `v`
and leaves the root absent and the size `0`. -/
theorem root_absent_iff_size_zero (s : State) (ops : List Op)
    (hv : noPopOnEmpty 0 ops = true) :
    (∃ h outs t, session ops s = .ok (h, outs) t ∧ (t.root h = none ↔ Size h t = .ok 0 t)) ∧
    ∀ v : Int, ∃ h t, session [.insert v, .pop] s = .ok (h, [v]) t ∧ t.root h = none ∧
      Size h t = .ok 0 t := by
  constructor
  · obtain ⟨outs, t, T, e, r, o, z, k, p⟩ := session_spec s ops hv
    refine ⟨s.heaps, outs, t, e, ?_⟩
    rw [heapRep_root_none r, ← card_keysO_zero]
    constructor
    · intro h0
      show Res.ok (t.size s.heaps) t = _
      rw [z, h0]
      rfl
    · intro h0
      have h1 : t.size s.heaps = 0 := (Res.ok.inj h0).1
      rw [z] at h1
      exact_mod_cast h1
  · intro v
    obtain ⟨outs, t, T, e, r, o, z, k, p⟩ := session_spec s [.insert v, .pop] rfl
    have hc : Multiset.card (keysO T) + 1 = 1 := session_count k p
    have hT : T = none := card_keysO_zero.1 (by omega)
    subst hT
    have ho : outs = [v] := by
      have : (outs : Multiset Int) = ([v] : List Int) := by simpa [keysO, inserted] using k
      have hp : outs.Perm [v] := Quotient.exact this
      exact List.perm_singleton.1 hp
    subst ho
    refine ⟨s.heaps, t, e, r, ?_⟩
    show Res.ok (t.size s.heaps) t = _
    rw [z]
    rfl

/-- C4.  Two fresh heaps filled by `insert_mult` with the lists `xs` and `ys`, the second
not empty: after the merge `Size` returns the sum of the lengths, and popping that many
times returns the values of both lists in non-decreasing order. -/
theorem merge_then_sort (s : State) (xs ys : List Int) (hy : ys ≠ []) :
    ∃ out t, mergesort xs ys s = .ok (((xs.length + ys.length : Nat) : Int), out) t ∧
      out.Sorted (· ≤ ·) ∧ out.Perm (xs ++ ys) := by
  obtain ⟨t0, e0, r0, z0, g0, hh0, _⟩ := NewBOHeap_spec s
  obtain ⟨u0, e0', r0', z0', g0', hh0', _⟩ := NewBOHeap_spec t0
  have hne : s.heaps ≠ t0.heaps := by omega
  have rA0 : HeapRep u0 s.heaps none := r0.grow_rep g0' (by omega) hne (by simp)
  have zA0 : u0.size s.heaps = 0 := by rw [(g0'.2.2.2 _ (by omega) hne).2, z0]
  obtain ⟨t1, TA, e1, r1, o1, k1, z1, g1, f1, _⟩ :=
    insert_mult_spec s.heaps xs u0 none rA0 trivial
  have rB1 : HeapRep t1 t0.heaps none := r0'.grow_rep g1 (by omega) hne.symm (by simp [fpO])
  have zB1 : t1.size t0.heaps = 0 := by rw [(g1.2.2.2 _ (by omega) hne.symm).2, z0']
  obtain ⟨t2, TB, e2, r2, o2, k2, z2, g2, f2, q2⟩ :=
    insert_mult_spec t0.heaps ys t1 none rB1 trivial
  have hh1 : u0.heaps ≤ t1.heaps := g1.2.2.1
  have rA2 : HeapRep t2 s.heaps TA := r1.grow_rep g2 (by omega) hne (by simp [fpO])
  have zA2 : t2.size s.heaps = xs.length := by
    rw [(g2.2.2.2 _ (by omega) hne).2, z1, zA0]; simp
  have hkA : keysO TA = (xs : Multiset Int) := by simpa [keysO] using k1
  have hkB : keysO TB = (ys : Multiset Int) := by simpa [keysO] using k2
  cases TB with
  | none =>
    exfalso
    apply hy
    have : (ys : Multiset Int) = 0 := by rw [← hkB]; rfl
    simpa using this
  | some B =>
    have hsq : B.subq = [] := q2 rfl
    have hltA : ∀ x ∈ fpO TA, x < t1.nodes := by
      intro x hx
      cases TA with
      | none => simp [fpO] at hx
      | some R => exact r1.2.2.2.2 x hx
    have hnA : (fpO TA).Nodup := by
      cases TA with
      | none => simp [fpO]
      | some R => exact r1.2.2.2.1
    have hdis : (fpO TA + fp B).Nodup := by
      refine Multiset.nodup_add.2 ⟨hnA, r2.2.2.2.1, ?_⟩
      rw [Multiset.disjoint_left]
      intro x hx hx'
      have := hltA x hx
      rcases f2 x hx' with h3 | h3
      · simp [fpO] at h3
      · omega
    obtain ⟨t3, T', e3, r3, o3, k3, _, _, _, z3, _⟩ :=
      Merge_step t2 s.heaps t0.heaps TA B rA2 r2 o1 o2 hdis
    have hk3 : keysO (some T') = ((xs ++ ys : List Int) : Multiset Int) := by
      show keys T' = _
      have hB : keys B = (ys : Multiset Int) := hkB
      rw [keys_eq B, hsq] at hB
      simp only [keysL_nil, add_zero] at hB
      rw [k3, hkA, hB, Multiset.coe_add]
    have hz3 : t3.size s.heaps = ((xs.length + ys.length : Nat) : Int) := by
      rw [z3, zA2, z2, zB1]; push_cast; ring
    obtain ⟨out, t, e, so, ko, _, _⟩ := popN_spec s.heaps (xs.length + ys.length) t3 (some T')
      r3 o3 (by rw [hk3]; simp)
    refine ⟨out, t, ?_, so, Quotient.exact (ko.trans hk3)⟩
    show (NewBOHeap >>= fun h1 => NewBOHeap >>= fun h2 => insert_mult h1 xs >>= fun _ =>
      insert_mult h2 ys >>= fun _ => Merge h1 h2 >>= fun _ => Size h1 >>= fun size =>
      popN h1 (xs.length + ys.length) >>= fun out => pure (size, out)) s = _
    rw [bind_ok' e0, bind_ok' e0', bind_ok' e1, bind_ok' e2, bind_ok' e3]
    have hS : Size s.heaps t3 = .ok ((xs.length + ys.length : Nat) : Int) t3 := by
      show Res.ok (t3.size s.heaps) t3 = _
      rw [hz3]
    rw [bind_ok' hS, bind_ok' e]
    rfl

/-- C4 at two concrete lists. -/
theorem merge_then_sort_witness :
    ([4, 2] : List Int) ≠ [] ∧
    ∃ out t, mergesort [3, 1] [4, 2] State.init = .ok (((2 + 2 : Nat) : Int), out) t ∧
      out.Sorted (· ≤ ·) ∧ out.Perm ([3, 1] ++ [4, 2]) :=
  ⟨by decide, merge_then_sort State.init [3, 1] [4, 2] (by decide)⟩

/-- C5, the failing run.  Queue 0 holds the key 1; queue 1 held 5 and has received the
queue holding 2 and 3 by `Merge`, so the keys reachable from its root are 2, 5 and, on the
subqueue list of the root, 3.  After the merge of queue 1 into queue 0 the keys reachable
from the root of queue 0 are 1, 2 and 5, and `Size` returns 4: `moveChildrenToSubqueue` has
overwritten the subqueue list that held 3. -/
theorem merge_loses_subqueue :
    (mergeTrace [.new, .insert 0 1, .new, .insert 1 5, .new, .insert 2 2, .insert 2 3,
      .merge 1 2] 0 1 State.init).val? =
    some ([1], [2, 5, 3], [1, 2, 5], 4) := by
  decide!

/-- C10.  After a program that makes queues and applies `Insert`, `Pop` and `Merge` to
them, for two of the queues in use, `A` and `B`, with `B` not empty: `A.Merge(B)` returns,
and `A.Peek()` afterwards is the smaller of what `A.Peek()` and `B.Peek()` returned
before, or what `B.Peek()` returned if `A` was empty. -/
theorem merge_peek (s : State) (cmds : List Cmd) (L : List Nat) (t : State) (a b : Nat)
    (vb : Int) (hu : inUse [] s.heaps cmds = some L) (hr : runCmds cmds s = .ok () t)
    (ha : a ∈ L) (hb : b ∈ L) (hab : a ≠ b) (hpb : Peek b t = .ok vb t) :
    ∃ t3, Merge a b t = .ok () t3 ∧
      (∀ va, Peek a t = .ok va t → Peek a t3 = .ok (min va vb) t3) ∧
      (t.root a = none → Peek a t3 = .ok vb t3) := by
  have hw0 : World s [] := ⟨List.nodup_nil, fun _ => none, by simp, by simp⟩
  rcases world_spec cmds s [] L hw0 hu with ⟨u, e⟩ | ⟨u, e, hw⟩
  · rw [hr] at e; simp at e
  rw [hr] at e
  simp only [Res.ok.injEq, true_and] at e
  subst e
  obtain ⟨_, tree, hall, hpair⟩ := hw
  obtain ⟨_, rA, oA⟩ := hall a ha
  obtain ⟨_, rB, oB⟩ := hall b hb
  cases hT : tree b with
  | none =>
    rw [hT] at rB
    rw [Peek_empty t b rB] at hpb
    simp at hpb
  | some B =>
    rw [hT] at rB oB
    have hvb : vb = B.value := by
      rw [Peek_spec t b B rB] at hpb
      exact ((Res.ok.inj hpb).1).symm
    have hdis : (fpO (tree a) + fp B).Nodup := by
      refine Multiset.nodup_add.2 ⟨rA.fp_nodup, rB.2.2.2.1, ?_⟩
      rw [Multiset.disjoint_left]
      intro x hx hx'
      exact hpair a ha b hb hab x hx (by rw [hT]; exact hx')
    obtain ⟨t3, T', e3, r3, _, _, v3, _⟩ := Merge_step t a b (tree a) B rA rB oA oB hdis
    have hP := Peek_spec t3 a T' r3
    refine ⟨t3, e3, fun va hva => ?_, fun h0 => ?_⟩
    · cases hTa : tree a with
      | none =>
        rw [hTa] at rA
        rw [Peek_empty t a rA] at hva
        simp at hva
      | some R =>
        rw [hTa] at rA v3
        rw [Peek_spec t a R rA] at hva
        have : R.value = va := (Res.ok.inj hva).1
        rw [hP, v3, hvb, ← this]
        rfl
    · have hTa := (heapRep_root_none rA).1 h0
      rw [hTa] at v3
      rw [hP, v3, hvb]
      rfl

/-- C2 at a concrete sequence of calls. -/
theorem peek_is_minimum_witness :
    noPopOnEmpty 0 [.insert 3, .insert 1, .pop, .insert 2] = true ∧
    pops [.insert 3, .insert 1, .pop, .insert 2] <
      (inserted [.insert 3, .insert 1, .pop, .insert 2]).length ∧
    ∃ h outs t v, session [.insert 3, .insert 1, .pop, .insert 2] State.init = .ok (h, outs) t ∧
      Peek h t = .ok v t ∧
      v ∈ (inserted [.insert 3, .insert 1, .pop, .insert 2] : Multiset Int) -
        (outs : Multiset Int) ∧
      ∀ k ∈ (inserted [.insert 3, .insert 1, .pop, .insert 2] : Multiset Int) -
        (outs : Multiset Int), v ≤ k :=
  ⟨by decide, by decide,
    peek_is_minimum State.init [.insert 3, .insert 1, .pop, .insert 2] (by decide) (by decide)⟩

/-- C3 at a concrete sequence of calls, with a key inserted twice. -/
theorem pop_removes_minimum_witness :
    noPopOnEmpty 0 [.insert 3, .insert 1, .insert 3] = true ∧
    pops [.insert 3, .insert 1, .insert 3] < (inserted [.insert 3, .insert 1, .insert 3]).length ∧
    ∃ h outs t v t', session [.insert 3, .insert 1, .insert 3] State.init = .ok (h, outs) t ∧
      Peek h t = .ok v t ∧ Pop h t = .ok v t' ∧ v ∈ heapKeys t h ∧
      (∀ k ∈ heapKeys t h, v ≤ k) ∧
      (heapKeys t' h : Multiset Int) = (heapKeys t h : Multiset Int).erase v :=
  ⟨by decide, by decide,
    pop_removes_minimum State.init [.insert 3, .insert 1, .insert 3] (by decide) (by decide)⟩

/-- C6 at a concrete sequence of calls. -/
theorem size_accounting_witness :
    noPopOnEmpty 0 [.insert 7, .pop, .insert 2, .insert 2] = true ∧
    ∃ h outs t, session [.insert 7, .pop, .insert 2, .insert 2] State.init = .ok (h, outs) t ∧
      pops [.insert 7, .pop, .insert 2, .insert 2] ≤
        (inserted [.insert 7, .pop, .insert 2, .insert 2]).length ∧
      Size h t = .ok (((inserted [.insert 7, .pop, .insert 2, .insert 2]).length : Int) -
        (pops [.insert 7, .pop, .insert 2, .insert 2] : Int)) t :=
  ⟨by decide, size_accounting State.init [.insert 7, .pop, .insert 2, .insert 2] (by decide)⟩

/-- C7 at a concrete sequence of calls that empties the queue. -/
theorem empty_queue_faults_witness :
    noPopOnEmpty 0 [.insert 7, .pop] = true ∧
    ∃ h outs t, session [.insert 7, .pop] State.init = .ok (h, outs) t ∧
      (t.root h = none ↔ pops [.insert 7, .pop] = (inserted [.insert 7, .pop]).length) ∧
      (t.root h = none → Peek h t = .fault t ∧ ∃ t', Pop h t = .fault t') ∧
      (t.root h ≠ none → (∃ v, Peek h t = .ok v t) ∧ ∃ v t', Pop h t = .ok v t') :=
  ⟨by decide, empty_queue_faults State.init [.insert 7, .pop] (by decide)⟩

/-- The failing `Pop` at a concrete sequence of calls that empties the queue. -/
theorem pop_on_empty_effect_witness :
    noPopOnEmpty 0 [.insert 7, .pop] = true ∧
    pops [.insert 7, .pop] = (inserted [.insert 7, .pop]).length ∧
    ∃ h outs t, session [.insert 7, .pop] State.init = .ok (h, outs) t ∧ t.root h = none ∧
      Size h t = .ok 0 t ∧
      Pop h t = .fault { t with size := upd t.size h (-1) } ∧
      Size h { t with size := upd t.size h (-1) } =
        .ok (-1) { t with size := upd t.size h (-1) } :=
  ⟨by decide, by decide, pop_on_empty_effect State.init [.insert 7, .pop] (by decide)
    (by decide)⟩

/-- C9 at a concrete sequence of calls. -/
theorem root_absent_iff_size_zero_witness :
    noPopOnEmpty 0 [.insert 7, .insert 4, .pop] = true ∧
    ((∃ h outs t, session [.insert 7, .insert 4, .pop] State.init = .ok (h, outs) t ∧
        (t.root h = none ↔ Size h t = .ok 0 t)) ∧
      ∀ v : Int, ∃ h t, session [.insert v, .pop] State.init = .ok (h, [v]) t ∧
        t.root h = none ∧ Size h t = .ok 0 t) :=
  ⟨by decide, root_absent_iff_size_zero State.init [.insert 7, .insert 4, .pop] (by decide)⟩

theorem Res.eq_ok {α : Type} {r : Res α} {a : α} (h : r.val? = some a) :
    r = .ok a r.state := by
  cases r with
  | ok b s =>
    simp only [Res.val?, Option.some.injEq] at h
    subst h
    rfl
  | fault s => simp [Res.val?] at h
  | timeout s => simp [Res.val?] at h

theorem Peek_eq_ok {s : State} {bq : Nat} {v : Int} (h : (Peek bq s).val? = some v) :
    Peek bq s = .ok v s := by
  cases hr : s.root bq with
  | none =>
    rw [Peek_empty s bq hr] at h
    simp [Res.val?] at h
  | some r =>
    have e : Peek bq s = .ok (s.value r) s := by
      unfold Peek
      simp only [gets_bind', hr, deref_bind']
      rfl
    rw [e] at h ⊢
    simp only [Res.val?, Option.some.injEq] at h
    rw [h]

/-- C10 at a concrete program: queue 1 has received queue 2 by `Merge` and has been
popped once before it is merged into queue 0. -/
theorem merge_peek_witness :
    inUse [] State.init.heaps
      [.new, .insert 0 3, .new, .insert 1 5, .new, .insert 2 4, .merge 1 2, .pop 1] =
      some [1, 0] ∧
    (runCmds [.new, .insert 0 3, .new, .insert 1 5, .new, .insert 2 4, .merge 1 2, .pop 1]
      State.init).val? = some () ∧
    (Peek 1 (runCmds [.new, .insert 0 3, .new, .insert 1 5, .new, .insert 2 4, .merge 1 2,
      .pop 1] State.init).state).val? = some 5 ∧
    ∃ t3, Merge 0 1 (runCmds [.new, .insert 0 3, .new, .insert 1 5, .new, .insert 2 4,
        .merge 1 2, .pop 1] State.init).state = .ok () t3 ∧
      (∀ va, Peek 0 (runCmds [.new, .insert 0 3, .new, .insert 1 5, .new, .insert 2 4,
          .merge 1 2, .pop 1] State.init).state =
          .ok va (runCmds [.new, .insert 0 3, .new, .insert 1 5, .new, .insert 2 4,
            .merge 1 2, .pop 1] State.init).state →
        Peek 0 t3 = .ok (min va 5) t3) ∧
      ((runCmds [.new, .insert 0 3, .new, .insert 1 5, .new, .insert 2 4, .merge 1 2,
          .pop 1] State.init).state.root 0 = none → Peek 0 t3 = .ok 5 t3) :=
  ⟨by decide, by decide!, by decide!,
    merge_peek State.init
      [.new, .insert 0 3, .new, .insert 1 5, .new, .insert 2 4, .merge 1 2, .pop 1]
      [1, 0] _ 0 1 5 (by decide) (Res.eq_ok (by decide!)) (by decide) (by decide) (by decide)
      (Peek_eq_ok (by decide!))⟩

/-! ### Adoption in rank order -/

theorem placeByRank_perm (rank : Nat → Int) (o : Nat) (L : List Nat) :
    (placeByRank rank o L).Perm (o :: L) := by
  unfold placeByRank
  refine List.perm_middle.trans ?_
  rw [List.takeWhile_append_dropWhile]

theorem placeByRank_sorted (rank : Nat → Int) (o : Nat) (L : List Nat)
    (h : (L.map rank).Sorted (· ≤ ·)) : ((placeByRank rank o L).map rank).Sorted (· ≤ ·) := by
  induction L with
  | nil => simp [placeByRank]
  | cons a l ih =>
    have hs := List.sorted_cons.1 h
    by_cases hc : rank o > rank a
    · have e : placeByRank rank o (a :: l) = a :: placeByRank rank o l := by
        simp [placeByRank, hc]
      rw [e, List.map_cons]
      refine List.sorted_cons.2 ⟨fun b hb => ?_, ih hs.2⟩
      obtain ⟨c, hcm, rfl⟩ := List.mem_map.1 hb
      rcases List.mem_cons.1 ((placeByRank_perm rank o l).subset hcm) with rfl | hcl
      · exact le_of_lt hc
      · exact hs.1 _ (List.mem_map_of_mem _ hcl)
    · have e : placeByRank rank o (a :: l) = o :: a :: l := by
        simp [placeByRank, hc]
      rw [e, List.map_cons]
      refine List.sorted_cons.2 ⟨fun b hb => ?_, h⟩
      have hoa : rank o ≤ rank a := not_lt.1 hc
      rcases List.mem_cons.1 hb with rfl | hb
      · exact hoa
      · exact hoa.trans (hs.1 b hb)

/-- The loop of `adoptAll`, started on a node that already has the children list `L`. -/
theorem adoptAll_loop (p : Nat) (F : Nat) : ∀ (ns : List Nat) (s : State) (L : List Nat),
    Seg s p L → s.children_head p = L.head? → (L ++ ns).Nodup → (∀ a ∈ ns, Detached s a) →
    L.length + ns.length < F →
    ∃ t, adoptAll F p ns s = .ok () t ∧
      Seg t p (ns.foldl (fun L o => placeByRank s.rank o L) L) ∧
      t.children_head p = (ns.foldl (fun L o => placeByRank s.rank o L) L).head? ∧
      t.rank = s.rank := by
  intro ns
  induction ns with
  | nil =>
    intro s L hseg hhd _ _ _
    exact ⟨s, rfl, hseg, hhd, rfl⟩
  | cons o l ih =>
    intro s L hseg hhd hn hd hF
    have hoL : (o :: L).Nodup := by
      have h1 : (L ++ [o]).Nodup := by
        have : (L ++ o :: l) = (L ++ [o]) ++ l := by simp
        rw [this] at hn
        exact (List.nodup_append.1 hn).1
      exact (List.perm_append_singleton o L).nodup_iff.1 h1
    simp only [List.length_cons] at hF
    obtain ⟨t1, e1, seg1, hd1, ls⟩ := adopt_addr s p o L F hseg hhd hoL (hd o (by simp))
      (by omega)
    have hperm := placeByRank_perm s.rank o L
    have hn1 : (placeByRank s.rank o L ++ l).Nodup := by
      have hp : (placeByRank s.rank o L ++ l).Perm (L ++ o :: l) :=
        (hperm.append_right l).trans
          (List.perm_middle : (L ++ o :: l).Perm (o :: (L ++ l))).symm
      exact hp.nodup_iff.2 hn
    have hd1' : ∀ a ∈ l, Detached t1 a := by
      intro a ha
      have hnot : a ∉ o :: L := by
        intro hm
        have hm' : a ∈ placeByRank s.rank o L := hperm.symm.subset hm
        exact (List.nodup_append.1 hn1).2.2 hm' ha
      obtain ⟨l1, l2, l3⟩ := ls.link a hnot
      have := hd a (by simp [ha])
      exact ⟨by rw [l1, this.1], by rw [l2, this.2.1], by rw [l3, this.2.2]⟩
    have hlen : (placeByRank s.rank o L).length = L.length + 1 := by
      rw [hperm.length_eq]; rfl
    obtain ⟨t, e, seg, hh, hr⟩ := ih t1 (placeByRank s.rank o L) seg1 hd1 hn1 hd1' (by omega)
    rw [ls.rank] at seg hh hr
    refine ⟨t, ?_, seg, hh, hr⟩
    show forEach (adopt F p) (o :: l) s = _
    rw [forEach_cons, bind_ok e1]
    exact e

theorem adoptedOrder_perm (rank : Nat → Int) : ∀ (ns L : List Nat),
    (ns.foldl (fun L o => placeByRank rank o L) L).Perm (L ++ ns) := by
  intro ns
  induction ns with
  | nil => intro L; simp
  | cons o l ih =>
    intro L
    simp only [List.foldl_cons]
    refine (ih _).trans ?_
    exact ((placeByRank_perm rank o L).append_right l).trans
      (List.perm_middle : (L ++ o :: l).Perm (o :: (L ++ l))).symm

theorem adoptedOrder_sorted (rank : Nat → Int) : ∀ (ns L : List Nat),
    (L.map rank).Sorted (· ≤ ·) →
    ((ns.foldl (fun L o => placeByRank rank o L) L).map rank).Sorted (· ≤ ·) := by
  intro ns
  induction ns with
  | nil => intro L h; exact h
  | cons o l ih =>
    intro L h
    simp only [List.foldl_cons]
    exact ih _ (placeByRank_sorted rank o L h)

/-- C11.  A childless node `p` adopts the nodes of a list, all standing alone, one after
another: each is put where the specification says, so the walk from `p.children_head`
along `rightsibling` visits the adopted nodes, each once, in non-decreasing rank order,
and each has `p` as parent. -/
theorem adopt_rank_order (s : State) (p : Nat) (ns : List Nat) (F : Nat)
    (hc : s.children_head p = none) (hn : ns.Nodup) (hd : ∀ a ∈ ns, Detached s a)
    (hF : ns.length < F) :
    ∃ t, adoptAll F p ns s = .ok () t ∧
      walk t F (t.children_head p) = some (adoptedOrder s.rank ns) ∧
      (adoptedOrder s.rank ns).Perm ns ∧ (adoptedOrder s.rank ns).Nodup ∧
      ((adoptedOrder s.rank ns).map t.rank).Sorted (· ≤ ·) ∧
      ∀ a ∈ adoptedOrder s.rank ns, t.parent a = some p := by
  obtain ⟨t, e, seg, hh, hr⟩ := adoptAll_loop p F ns s [] (seg_nil s p) (by simpa using hc)
    (by simpa using hn) hd (by simpa using hF)
  have hperm : (adoptedOrder s.rank ns).Perm ns := by
    simpa using adoptedOrder_perm s.rank ns []
  refine ⟨t, e, ?_, hperm, hperm.nodup_iff.2 hn, ?_, fun a ha => seg.1 a ha⟩
  · rw [hh]
    have hl := hperm.length_eq
    unfold adoptedOrder at hl
    exact walk_seg t p _ F seg (by omega)
  · rw [hr]
    exact adoptedOrder_sorted s.rank ns [] (by simp)

theorem segCheck_sound (s : State) (p : Nat) : ∀ L : List Nat, segCheck s p L = true →
    Seg s p L := by
  intro L
  induction L with
  | nil => intro _; exact seg_nil s p
  | cons a l ih =>
    intro h
    simp only [segCheck, Bool.and_eq_true, decide_eq_true_eq] at h
    obtain ⟨⟨⟨h1, h2⟩, h3⟩, h4⟩ := h
    rw [seg_cons]
    refine ⟨h1, h2, fun b hb => ?_, ih h4⟩
    have hb' : l.head? = some b := hb
    rw [hb'] at h3
    simpa using h3

/-- C11 on the nodes of `Test_adopt_rankorder_2`, adopted in the order of the test. -/
theorem adopt_rank_order_witness :
    rankedState.children_head 0 = none ∧ ([5, 4, 3, 2, 1] : List Nat).Nodup ∧
    (∀ a ∈ ([5, 4, 3, 2, 1] : List Nat), Detached rankedState a) ∧
    ([5, 4, 3, 2, 1] : List Nat).length < 6 ∧
    ∃ t, adoptAll 6 0 [5, 4, 3, 2, 1] rankedState = .ok () t ∧
      walk t 6 (t.children_head 0) = some (adoptedOrder rankedState.rank [5, 4, 3, 2, 1]) ∧
      (adoptedOrder rankedState.rank [5, 4, 3, 2, 1]).Perm [5, 4, 3, 2, 1] ∧
      (adoptedOrder rankedState.rank [5, 4, 3, 2, 1]).Nodup ∧
      ((adoptedOrder rankedState.rank [5, 4, 3, 2, 1]).map t.rank).Sorted (· ≤ ·) ∧
      ∀ a ∈ adoptedOrder rankedState.rank [5, 4, 3, 2, 1], t.parent a = some 0 :=
  ⟨rfl, by decide, fun _ _ => ⟨rfl, rfl, rfl⟩, by decide,
    adopt_rank_order rankedState 0 [5, 4, 3, 2, 1] 6 rfl (by decide)
      (fun _ _ => ⟨rfl, rfl, rfl⟩) (by decide)⟩

/-! ### The two functions that take a node out of a sibling list -/

theorem rogue_subqueue_swap (c : Nat) (s : State) :
    rogue_subqueue c s = (rogue c (swapLists s)).mapState swapLists := by
  unfold rogue_subqueue rogue
  cases hp : s.parent c with
  | none => simp [swapLists, hp, Res.mapState]
  | some p =>
    simp only [swapLists, hp]
    by_cases hh : s.subqueue_head p = some c
    · simp [hh, Res.mapState, clearLinks, swapLists]
    · simp only [hh, if_false]
      cases hl : s.leftsibling c with
      | none => simp [Res.mapState, swapLists]
      | some l =>
        simp only
        split <;> simp [Res.mapState, clearLinks, swapLists]

theorem seg_swapLists (s : State) (p : Nat) (L : List Nat) :
    Seg (swapLists s) p L ↔ Seg s p L := Iff.rfl

/-- Method `rogue_subqueue` on a member of the subqueue list of `p`. -/
theorem rogue_subqueue_addr (s : State) (p : Nat) (l1 : List Nat) (c : Nat) (l2 : List Nat)
    (hseg : Seg s p (l1 ++ c :: l2)) (hhd : s.subqueue_head p = (l1 ++ c :: l2).head?)
    (hn : (l1 ++ c :: l2).Nodup) :
    ∃ t, rogue_subqueue c s = .ok () t ∧ Seg t p (l1 ++ l2) ∧
      t.subqueue_head p = (l1 ++ l2).head? ∧ Detached t c ∧
      t.children_head = s.children_head ∧ (∀ a, a ≠ p → t.subqueue_head a = s.subqueue_head a) ∧
      ∀ a, a ∉ l1 ++ c :: l2 → SameLink s t a := by
  obtain ⟨t, e, seg, hd, det, ls⟩ := rogue_addr (swapLists s) p l1 c l2 hseg hhd hn
  refine ⟨swapLists t, ?_, seg, hd, det, ls.sq, ls.ch, ls.link⟩
  rw [rogue_subqueue_swap, e]
  rfl

/-- C19, as the code has it.  A node `c` of a sibling list whose members name `p` as
parent: if the list is the children list of `p`, `rogue` takes `c` out of it; if it is the
subqueue list of `p`, `rogue_subqueue` does.  Either way the other members keep their
order, `c` loses its parent and siblings, and nothing else changes.  With no parent, both
functions change nothing. -/
theorem rogue_removes (s : State) (p c : Nat) (l1 l2 : List Nat)
    (hseg : Seg s p (l1 ++ c :: l2)) (hn : (l1 ++ c :: l2).Nodup) :
    (s.children_head p = (l1 ++ c :: l2).head? →
      ∃ t, rogue c s = .ok () t ∧ Seg t p (l1 ++ l2) ∧
        t.children_head p = (l1 ++ l2).head? ∧ Detached t c ∧
        t.subqueue_head = s.subqueue_head ∧
        (∀ a, a ≠ p → t.children_head a = s.children_head a) ∧
        ∀ a, a ∉ l1 ++ c :: l2 → SameLink s t a) ∧
    (s.subqueue_head p = (l1 ++ c :: l2).head? →
      ∃ t, rogue_subqueue c s = .ok () t ∧ Seg t p (l1 ++ l2) ∧
        t.subqueue_head p = (l1 ++ l2).head? ∧ Detached t c ∧
        t.children_head = s.children_head ∧
        (∀ a, a ≠ p → t.subqueue_head a = s.subqueue_head a) ∧
        ∀ a, a ∉ l1 ++ c :: l2 → SameLink s t a) ∧
    ∀ (u : State) (x : Nat), u.parent x = none →
      rogue x u = .ok () u ∧ rogue_subqueue x u = .ok () u := by
  refine ⟨fun hhd => ?_, fun hhd => rogue_subqueue_addr s p l1 c l2 hseg hhd hn,
    fun u x hx => ?_⟩
  · obtain ⟨t, e, seg, hd, det, ls⟩ := rogue_addr s p l1 c l2 hseg hhd hn
    exact ⟨t, e, seg, hd, det, ls.sq, ls.ch, ls.link⟩
  · constructor
    · simp [rogue, hx]
    · simp [rogue_subqueue, hx]

/-- C19 on the middle node of a list of three. -/
theorem rogue_removes_witness :
    Seg siblingsState 0 ([1] ++ 2 :: [3]) ∧ ([1] ++ 2 :: [3] : List Nat).Nodup ∧
    ((siblingsState.children_head 0 = ([1] ++ 2 :: [3] : List Nat).head? →
      ∃ t, rogue 2 siblingsState = .ok () t ∧ Seg t 0 ([1] ++ [3]) ∧
        t.children_head 0 = ([1] ++ [3] : List Nat).head? ∧ Detached t 2 ∧
        t.subqueue_head = siblingsState.subqueue_head ∧
        (∀ a, a ≠ 0 → t.children_head a = siblingsState.children_head a) ∧
        ∀ a, a ∉ ([1] ++ 2 :: [3] : List Nat) → SameLink siblingsState t a) ∧
    (siblingsState.subqueue_head 0 = ([1] ++ 2 :: [3] : List Nat).head? →
      ∃ t, rogue_subqueue 2 siblingsState = .ok () t ∧ Seg t 0 ([1] ++ [3]) ∧
        t.subqueue_head 0 = ([1] ++ [3] : List Nat).head? ∧ Detached t 2 ∧
        t.children_head = siblingsState.children_head ∧
        (∀ a, a ≠ 0 → t.subqueue_head a = siblingsState.subqueue_head a) ∧
        ∀ a, a ∉ ([1] ++ 2 :: [3] : List Nat) → SameLink siblingsState t a) ∧
    ∀ (u : State) (x : Nat), u.parent x = none →
      rogue x u = .ok () u ∧ rogue_subqueue x u = .ok () u) :=
  ⟨segCheck_sound _ _ _ (by decide), by decide,
    rogue_removes siblingsState 0 2 [1] [3] (segCheck_sound _ _ _ (by decide)) (by decide)⟩

/-- C19, counterexample.  Node `5` has the parent `4` and is the first node of the subqueue
list `5, 6, 7` of `4`: `rogue` does not take it out of that list but stops at the
dereference of its absent left sibling, while `rogue_subqueue` takes it out. -/
theorem rogue_on_subqueue_head :
    Seg siblingsState 4 [5, 6, 7] ∧ siblingsState.subqueue_head 4 = some 5 ∧
    siblingsState.parent 5 = some 4 ∧ rogue 5 siblingsState = .fault siblingsState ∧
    ∃ t, rogue_subqueue 5 siblingsState = .ok () t ∧ Seg t 4 [6, 7] ∧
      t.subqueue_head 4 = some 6 :=
  ⟨segCheck_sound _ _ _ (by decide), rfl, rfl, rfl, _, rfl, segCheck_sound _ _ _ (by decide),
    rfl⟩

/-! ### Checking that a state draws a tree -/

theorem wfCheckL_mem (s : State) : ∀ (l : List Tree), wfCheckL s l = true →
    ∀ k ∈ l, wfCheck s k = true := by
  intro l
  induction l with
  | nil => intro _ k hk; simp at hk
  | cons t l ih =>
    intro h k hk
    simp only [wfCheckL, Bool.and_eq_true] at h
    rcases List.mem_cons.1 hk with rfl | hk
    · exact h.1
    · exact ih h.2 k hk

theorem card_subq_lt {R k : Tree} (hk : k ∈ R.subq) :
    Multiset.card (fp k) < Multiset.card (fp R) := by
  have h1 := Multiset.card_le_card ((fp_le_fpL hk).trans
    (le_trans (Multiset.le_add_left _ (fpL R.kids))
      (Multiset.le_add_left _ (R.own.toList : Multiset Nat))))
  rw [fp_eq R, Multiset.card_cons]
  omega

theorem wfCheck_sound (s : State) : ∀ (n : Nat) (T : Tree), Multiset.card (fp T) ≤ n →
    wfCheck s T = true → WFT s T := by
  intro n
  induction n with
  | zero =>
    intro T hc _
    rw [fp_eq T] at hc
    simp at hc
  | succ n ih =>
    intro T hc h
    cases T with
    | node a v r kids own subq =>
      simp only [wfCheck, Bool.and_eq_true, decide_eq_true_eq] at h
      obtain ⟨⟨⟨⟨⟨⟨⟨⟨h1, h2⟩, h3⟩, h4⟩, h5⟩, h6⟩, h7⟩, h8⟩, h9⟩ := h
      refine WFT.mk a v r kids own subq h1 h2 ⟨h3, segCheck_sound _ _ _ h4⟩ (fun k hk => ?_)
        ⟨h6, h7, segCheck_sound _ _ _ h8⟩ (fun k hk => ?_)
      · have hlt := card_kid_lt (R := Tree.node a v r kids own subq) hk
        exact ih k (by omega) (wfCheckL_mem s kids h5 k hk)
      · have hlt := card_subq_lt (R := Tree.node a v r kids own subq) hk
        exact ih k (by omega) (wfCheckL_mem s subq h9 k hk)

/-- A tree that passes the check is drawn by the state. -/
theorem wfCheck_wft {s : State} {T : Tree} (h : wfCheck s T = true) : WFT s T :=
  wfCheck_sound s _ T (le_refl _) h

/-! ### Skew link of two children in any position -/

/-- Method `rogue` on a child, named by membership in the children list. -/
theorem rogue_mem (s : State) (b : Bool) (T c : Tree) (hT : WFTb b s T) (hc : c ∈ T.kids)
    (hn : (fp T).Nodup) :
    ∃ t, rogue c.addr s = .ok () t ∧ WFTb b t (T.setKids (eraseAddr c.addr T.kids)) ∧
      WFT t c ∧ Detached t c.addr ∧ (Detached s T.addr → Detached t T.addr) ∧
      Frame s t (fp T) ∧ fp T = fp (T.setKids (eraseAddr c.addr T.kids)) + fp c := by
  obtain ⟨l1, l2, hk⟩ := List.append_of_mem hc
  have her : eraseAddr c.addr T.kids = l1 ++ l2 := by
    rw [hk]
    exact eraseAddr_split l1 c l2 (by rw [← hk]; exact nodup_roots (nodup_fp_kids hn))
  rw [her]
  obtain ⟨t, e, w, wc, dc, d, f⟩ := rogue_spec s b T l1 c l2 hT hk hn
  exact ⟨t, e, w, wc, dc, d, f, fp_split T l1 c l2 hk⟩

theorem eraseAddr_comm (a c : Nat) (l : List Tree) :
    eraseAddr a (eraseAddr c l) = eraseAddr c (eraseAddr a l) := by
  unfold eraseAddr
  rw [List.filter_filter, List.filter_filter]
  congr 1
  funext k
  exact Bool.and_comm _ _

theorem mem_eraseAddr_of_ne {a : Nat} {l : List Tree} {k : Tree} (h : k ∈ l)
    (hne : k.addr ≠ a) : k ∈ eraseAddr a l := by
  unfold eraseAddr
  exact List.mem_filter.2 ⟨h, by simpa using hne⟩

/-- Two children leave the children list, in either order. -/
theorem rogue2_mem (s : State) (b : Bool) (R a c : Tree) (first : Bool)
    (hR : WFTb b s R) (ha : a ∈ R.kids) (hc : c ∈ R.kids) (hac : a.addr ≠ c.addr)
    (hn : (fp R).Nodup) :
    ∃ t1 t, rogue (if first then a.addr else c.addr) s = .ok () t1 ∧
      rogue (if first then c.addr else a.addr) t1 = .ok () t ∧
      WFTb b t (R.setKids (eraseAddr c.addr (eraseAddr a.addr R.kids))) ∧ WFT t a ∧ WFT t c ∧
      Detached t a.addr ∧ Detached t c.addr ∧ (Detached s R.addr → Detached t R.addr) ∧
      Frame s t (fp R) ∧
      fp R = fp (R.setKids (eraseAddr c.addr (eraseAddr a.addr R.kids))) + fp c + fp a := by
  have key : ∀ (x y : Tree), x ∈ R.kids → y ∈ R.kids → x.addr ≠ y.addr →
      ∃ t1 t, rogue x.addr s = .ok () t1 ∧ rogue y.addr t1 = .ok () t ∧
        WFTb b t (R.setKids (eraseAddr y.addr (eraseAddr x.addr R.kids))) ∧ WFT t x ∧
        WFT t y ∧ Detached t x.addr ∧ Detached t y.addr ∧
        (Detached s R.addr → Detached t R.addr) ∧ Frame s t (fp R) ∧
        fp R = fp (R.setKids (eraseAddr y.addr (eraseAddr x.addr R.kids))) + fp y + fp x := by
    intro x y hx hy hxy
    obtain ⟨t1, e1, w1, wx, dx, d1, f1, s1⟩ := rogue_mem s b R x hR hx hn
    have hn1 : (fp (R.setKids (eraseAddr x.addr R.kids))).Nodup :=
      nodup_sub hn (by rw [s1]; exact Multiset.le_add_right _ _)
    have hy1 : y ∈ (R.setKids (eraseAddr x.addr R.kids)).kids :=
      mem_eraseAddr_of_ne hy (Ne.symm hxy)
    obtain ⟨t2, e2, w2, wy, dy, d2, f2, s2⟩ :=
      rogue_mem t1 b (R.setKids (eraseAddr x.addr R.kids)) y w1 hy1 hn1
    simp only [setKids_kids, setKids_setKids] at w2 s2
    have hdisj : ∀ z ∈ fp x, z ∉ fp (R.setKids (eraseAddr x.addr R.kids)) := by
      intro z hz
      rw [s1] at hn
      exact disjoint_of_nodup_add' hn hz
    refine ⟨t1, t2, e1, e2, w2, wx.frame_wft (f2.toH 0) hdisj, wy,
      dx.frame_det (f2.toH 0) (hdisj _ (addr_mem_fp x)), dy, fun h => d2 (d1 h), ?_, ?_⟩
    · refine f1.trans_frame (f2.mono_frame fun z hz => ?_)
      rw [s1]
      exact Multiset.mem_add.2 (Or.inl hz)
    · rw [s1, s2]
  cases first with
  | true =>
    simpa using key a c ha hc hac
  | false =>
    obtain ⟨t1, t, e1, e2, w, wc, wa, dc, da, d, f, sp⟩ := key c a hc ha (Ne.symm hac)
    rw [eraseAddr_comm] at w sp
    refine ⟨t1, t, by simpa using e1, by simpa using e2, w, wa, wc, da, dc, d, f, ?_⟩
    rw [sp]
    ac_rfl

/-- Method `skewLink` on two children of equal rank of a node whose tree is drawn, in any
position of its children list, and a node standing alone. -/
theorem skewLink_mem (s : State) (R a c n : Tree) (F : Nat)
    (hR : WFT s R) (ha : a ∈ R.kids) (hc : c ∈ R.kids) (hac : a.addr ≠ c.addr)
    (hrk : a.rank = c.rank) (hx : WFT s n) (dn : Detached s n.addr)
    (hn : (fp R + fp n).Nodup) (hF : Multiset.card (fp R + fp n) < F) :
    ∃ t, skewLink F (some a.addr) (some c.addr) n.addr s = .ok (minOf3T a c n).1.addr t ∧
      WFT t (R.setKids (eraseAddr c.addr (eraseAddr a.addr R.kids))) ∧
      WFT t ((adoptT (adoptT (minOf3T a c n).1 (minOf3T a c n).2.1)
        (minOf3T a c n).2.2).setRank (a.rank + 1)) ∧
      Detached t (minOf3T a c n).1.addr ∧ Frame s t (fp R + fp n) := by
  have hRb : WFTb true s R := (WFTb_true s R).2 hR
  have hnR : (fp R).Nodup := (Multiset.nodup_add.1 hn).1
  have wa := hRb.1.2.2.2.1 a ha
  have wc := hRb.1.2.2.2.1 c hc
  obtain ⟨t1, t2, e1, e2, w2, wa2, wc2, da2, dc2, _, f2, hsp⟩ :=
    rogue2_mem s true R a c (decide (a.value < c.value ∨ ¬ c.value < n.value)) hRb ha hc hac hnR
  generalize hrest : eraseAddr c.addr (eraseAddr a.addr R.kids) = rest at w2 hsp ⊢
  have hn' := hn
  rw [hsp] at hn'
  have hla := length_kids_lt a
  have hlc := length_kids_lt c
  have hln := length_kids_lt n
  have hcard : Multiset.card (fp a) + Multiset.card (fp c) + Multiset.card (fp n) < F := by
    have := hF
    rw [hsp] at this
    simp only [Multiset.card_add] at this
    omega
  have hnR2 : ∀ x ∈ fp n, x ∉ fp R := fun x hx => disjoint_of_nodup_add' hn hx
  have hmin : min_of_3 s a.addr c.addr n.addr =
      ((minOf3T a c n).1.addr, (minOf3T a c n).2.1.addr, (minOf3T a c n).2.2.addr) := by
    simp only [min_of_3, minOf3T, wa.value_eq, wc.value_eq, hx.value_eq]
    split <;> split <;> rfl
  have hunf : skewLink F (some a.addr) (some c.addr) n.addr s =
      (do
        rogue (minOf3T a c n).1.addr
        rogue (minOf3T a c n).2.1.addr
        rogue (minOf3T a c n).2.2.addr
        adopt F (minOf3T a c n).1.addr (minOf3T a c n).2.1.addr
        adopt F (minOf3T a c n).1.addr (minOf3T a c n).2.2.addr
        modify fun t => { t with rank := upd t.rank (minOf3T a c n).1.addr (a.rank + 1) }
        pure (minOf3T a c n).1.addr : M Nat) s := by
    simp only [skewLink, wa.rank_eq, wc.rank_eq, hrk, ne_eq, not_true_eq_false, if_false, hmin]
  rw [hunf]
  have finish : ∀ (m x y : Tree), WFT t2 m → WFT t2 x → WFT t2 y →
      Detached t2 m.addr → Detached t2 x.addr → Detached t2 y.addr →
      fp m + fp x + fp y = fp a + fp c + fp n → m.kids.length + 1 < F →
      ∃ t, (do
          adopt F m.addr x.addr
          adopt F m.addr y.addr
          modify fun t => { t with rank := upd t.rank m.addr (a.rank + 1) }
          pure m.addr : M Nat) t2 = .ok m.addr t ∧
        WFT t (R.setKids rest) ∧ WFT t ((adoptT (adoptT m x) y).setRank (a.rank + 1)) ∧
        Detached t m.addr ∧ Frame s t (fp R + fp n) := by
    intro m x y wm wx wy dm dx dy hperm hlen
    have hn3 : (fp m + fp x + fp y).Nodup := by
      rw [hperm]
      refine nodup_sub hn' (Multiset.le_iff_count.2 fun z => ?_)
      simp only [Multiset.count_add]
      omega
    obtain ⟨t, e, w, d, f⟩ := link3_spec t2 m x y (a.rank + 1) F wm wx wy dm dx dy hn3 hlen
    have hdis : ∀ z ∈ fp (R.setKids rest), z ∉ fp m + fp x + fp y := by
      intro z hz
      rw [hperm]
      have : (fp (R.setKids rest) + (fp a + fp c + fp n)).Nodup := by
        refine nodup_sub hn' (le_of_eq ?_)
        ac_rfl
      exact disjoint_of_nodup_add this hz
    refine ⟨t, e, (WFTb_true _ _).1 (w2.frame_wftb (f.toH 0) hdis), w, d, ?_⟩
    refine (f2.mono_frame fun z hz => Multiset.mem_add.2 (Or.inl hz)).trans_frame
      (f.mono_frame fun z hz => ?_)
    rw [hperm] at hz
    rw [hsp]
    simp only [Multiset.mem_add] at hz ⊢
    tauto
  have wn2 : WFT t2 n := hx.frame_wft (f2.toH 0) hnR2
  have dn2 : Detached t2 n.addr := dn.frame_det (f2.toH 0) (hnR2 _ (addr_mem_fp n))
  by_cases h1 : a.value < c.value
  · simp only [h1, true_or, decide_True, if_true] at e1 e2
    by_cases h2 : a.value < n.value
    · have hm : minOf3T a c n = (a, c, n) := by simp [minOf3T, h1, h2]
      rw [hm]
      obtain ⟨t, e, r⟩ := finish a c n wa2 wc2 wn2 da2 dc2 dn2 rfl (by omega)
      exact ⟨t, by rw [bind_ok' e1, bind_ok' e2, bind_ok' (rogue_detached t2 _ dn2)]; exact e, r⟩
    · have hm : minOf3T a c n = (n, a, c) := by simp [minOf3T, h1, h2]
      rw [hm]
      obtain ⟨t, e, r⟩ := finish n a c wn2 wa2 wc2 dn2 da2 dc2 (by ac_rfl) (by omega)
      exact ⟨t, by rw [bind_ok' (rogue_detached s _ dn), bind_ok' e1, bind_ok' e2]; exact e, r⟩
  · by_cases h2 : c.value < n.value
    · simp only [h1, h2, not_true_eq_false, or_self, decide_False, if_false,
        Bool.false_eq_true] at e1 e2
      have hm : minOf3T a c n = (c, a, n) := by simp [minOf3T, h1, h2]
      rw [hm]
      obtain ⟨t, e, r⟩ := finish c a n wc2 wa2 wn2 dc2 da2 dn2 (by ac_rfl) (by omega)
      exact ⟨t, by rw [bind_ok' e1, bind_ok' e2, bind_ok' (rogue_detached t2 _ dn2)]; exact e, r⟩
    · simp only [h1, h2, not_false_eq_true, or_true, decide_True, if_true] at e1 e2
      have hm : minOf3T a c n = (n, a, c) := by simp [minOf3T, h1, h2]
      rw [hm]
      obtain ⟨t, e, r⟩ := finish n a c wn2 wa2 wc2 dn2 da2 dc2 (by ac_rfl) (by omega)
      exact ⟨t, by rw [bind_ok' (rogue_detached s _ dn), bind_ok' e1, bind_ok' e2]; exact e, r⟩

theorem WFT.walk_kids {s : State} {T : Tree} {F : Nat} (h : WFT s T) (hF : T.kids.length < F) :
    walk s F (s.children_head T.addr) = some (roots T.kids) := by
  obtain ⟨⟨_, _, h3, _, _⟩, _⟩ := (WFT_iff s T).1 h
  rw [h3.1]
  exact walk_seg s T.addr _ F h3.2 (by simpa [roots] using hF)

theorem WFT.parent_kid {s : State} {T k : Tree} (h : WFT s T) (hk : k ∈ T.kids) :
    s.parent k.addr = some T.addr := by
  obtain ⟨⟨_, _, h3, _, _⟩, _⟩ := (WFT_iff s T).1 h
  exact h3.2.1 _ (List.mem_map_of_mem _ hk)

theorem mem_insertByRank_self (c : Tree) (l : List Tree) : c ∈ insertByRank c l := by
  rw [mem_insertByRank]; exact Or.inl rfl

theorem mem_insertByRank_of_mem {c k : Tree} {l : List Tree} (h : k ∈ l) :
    k ∈ insertByRank c l := by
  rw [mem_insertByRank]; exact Or.inr h

/-- C17.  Method `skewLink` on two children `a` and `c` of equal rank of a node `R` and a
node `n` standing alone, the rank of `a` being below the largest `int`, so that the sum
`currRank + 1` of the code (bonode.go:175) does not wrap around: the node returned, `m`, is
the one of least value of the three; its rank is the rank of `a` plus one, an `int` still;
it stands alone; the other two, `x` and `y`, are put into its children list by rank, after
its previous children, and name it as parent; and the children list of `R` is what it was
without `a` and `c`. -/
theorem skewLink_links (s : State) (R a c n : Tree) (F : Nat)
    (hR : WFT s R) (ha : a ∈ R.kids) (hc : c ∈ R.kids) (hac : a.addr ≠ c.addr)
    (hrk : a.rank = c.rank) (hmax : s.rank a.addr < maxInt64)
    (hx : WFT s n) (dn : Detached s n.addr)
    (hn : (fp R + fp n).Nodup) (hF : Multiset.card (fp R + fp n) < F) :
    ∃ t m x y, skewLink F (some a.addr) (some c.addr) n.addr s = .ok m.addr t ∧
      minOf3T a c n = (m, x, y) ∧
      m.value ≤ a.value ∧ m.value ≤ c.value ∧ m.value ≤ n.value ∧
      t.rank m.addr = s.rank a.addr + 1 ∧ t.rank m.addr ≤ maxInt64 ∧ Detached t m.addr ∧
      walk t F (t.children_head m.addr) =
        some (roots (insertByRank y (insertByRank x m.kids))) ∧
      t.parent x.addr = some m.addr ∧ t.parent y.addr = some m.addr ∧
      walk t F (t.children_head R.addr) =
        some (roots (eraseAddr c.addr (eraseAddr a.addr R.kids))) ∧
      WFT t ((adoptT (adoptT m x) y).setRank (a.rank + 1)) ∧
      WFT t (R.setKids (eraseAddr c.addr (eraseAddr a.addr R.kids))) ∧
      Frame s t (fp R + fp n) := by
  obtain ⟨t, e, wR, wm, dm, f⟩ := skewLink_mem s R a c n F hR ha hc hac hrk hx dn hn hF
  have wa := ((WFT_iff s R).1 hR).1.2.2.2.1 a ha
  have hcard : Multiset.card (fp R) + Multiset.card (fp n) < F := by
    simpa [Multiset.card_add] using hF
  have hlR := length_kids_lt R
  have hval : (minOf3T a c n).1.value ≤ a.value ∧ (minOf3T a c n).1.value ≤ c.value ∧
      (minOf3T a c n).1.value ≤ n.value := by
    rcases minOf3T_cases a c n with ⟨h, h1, h2⟩ | ⟨h, h1, h2⟩ | ⟨h, h1, h2⟩ <;>
      rw [h] <;> simp only <;> omega
  have hmk : (minOf3T a c n).1.kids.length + 2 < F := by
    have hla := length_kids_lt a
    have hlc := length_kids_lt c
    have hln := length_kids_lt n
    have hca := Multiset.card_le_card (fp_le_fpL ha)
    have hcc := Multiset.card_le_card (fp_le_fpL hc)
    have hkR := Multiset.card_le_card (kids_le_fp R)
    rcases minOf3T_cases a c n with ⟨h, _⟩ | ⟨h, _⟩ | ⟨h, _⟩ <;> rw [h] <;> simp only <;> omega
  refine ⟨t, (minOf3T a c n).1, (minOf3T a c n).2.1, (minOf3T a c n).2.2, e, rfl, hval.1,
    hval.2.1, hval.2.2, ?_, ?_, dm, ?_, ?_, ?_, ?_, wm, wR, f⟩
  · rw [wa.rank_eq]
    exact wm.rank_eq
  · have h1 : t.rank (minOf3T a c n).1.addr = a.rank + 1 := wm.rank_eq
    rw [h1, ← wa.rank_eq]
    omega
  · have := wm.walk_kids (F := F) (by
      simp only [setRank_kids, adoptT, setKids_kids, length_insertByRank]
      omega)
    simpa [adoptT] using this
  · exact wm.parent_kid (k := (minOf3T a c n).2.1) (by
      simp only [setRank_kids, adoptT, setKids_kids]
      exact mem_insertByRank_of_mem (mem_insertByRank_self _ _))
  · exact wm.parent_kid (k := (minOf3T a c n).2.2) (by
      simp only [setRank_kids, adoptT, setKids_kids]
      exact mem_insertByRank_self _ _)
  · have hlen : (eraseAddr c.addr (eraseAddr a.addr R.kids)).length ≤ R.kids.length := by
      unfold eraseAddr
      exact (List.length_filter_le _ _).trans (List.length_filter_le _ _)
    have := wR.walk_kids (F := F) (by simp only [setKids_kids]; omega)
    simpa using this

/-- C17 on the two children of the root of `threeKeys 4`, which hold 3 and 2, and the new
node, which holds 4. -/
theorem skewLink_links_witness :
    WFT (threeKeys 4) threeKeysTree ∧
    ∃ t m x y, skewLink 5 (some 2) (some 1) 3 (threeKeys 4) = .ok m.addr t ∧
      minOf3T (Tree.node 2 3 0 [] none []) (Tree.node 1 2 0 [] none []) (leaf 3 4) =
        (m, x, y) ∧
      m.value ≤ 3 ∧ m.value ≤ 2 ∧ m.value ≤ 4 ∧
      t.rank m.addr = (threeKeys 4).rank 2 + 1 ∧ t.rank m.addr ≤ maxInt64 ∧
      Detached t m.addr ∧
      walk t 5 (t.children_head m.addr) =
        some (roots (insertByRank y (insertByRank x m.kids))) ∧
      t.parent x.addr = some m.addr ∧ t.parent y.addr = some m.addr ∧
      walk t 5 (t.children_head 0) =
        some (roots (eraseAddr 1 (eraseAddr 2 threeKeysTree.kids))) ∧
      WFT t ((adoptT (adoptT m x) y).setRank (0 + 1)) ∧
      WFT t (threeKeysTree.setKids (eraseAddr 1 (eraseAddr 2 threeKeysTree.kids))) ∧
      Frame (threeKeys 4) t (fp threeKeysTree + fp (leaf 3 4)) :=
  ⟨wfCheck_wft (by decide!),
    skewLink_links (threeKeys 4) threeKeysTree (Tree.node 2 3 0 [] none [])
      (Tree.node 1 2 0 [] none []) (leaf 3 4) 5 (wfCheck_wft (by decide!))
      (List.mem_cons_self _ _) (List.mem_cons_of_mem _ (List.mem_cons_self _ _)) (by decide) rfl
      (by decide!) (wfCheck_wft (by decide!)) (by decide!) (by decide!) (by decide!)⟩

/-! ### The branches of `insert` -/

theorem insertAux_unfold (s : State) (bq : Nat) (R x : Tree) (F n : Nat)
    (hroot : s.root bq = some R.addr) (hRv : s.value R.addr = R.value)
    (hxv : s.value x.addr = x.value) (hxr : s.rank x.addr = x.rank) :
    insertAux F (n + 1) bq x.addr s =
      (if decide (x.value < R.value) = true then
        (do let oldroot ← swapWithRoot F bq x.addr; insertAux F n bq oldroot : M Unit) s
      else if decide (x.rank > 0) = true then
        insert_binomial F (insertAux F n) bq x.addr s
      else insert_skew F bq x.addr s) := by
  simp only [insertAux, gets_bind', hroot, hxv, hRv]
  by_cases hv : x.value < R.value
  · simp only [hv, decide_True, if_true]
  · simp only [hv, decide_False, if_false, Bool.false_eq_true, gets_bind', hxr]
    split <;> rfl

theorem card_fp_pos (T : Tree) : 0 < Multiset.card (fp T) :=
  Multiset.card_pos_iff_exists_mem.2 ⟨_, addr_mem_fp T⟩

/-- The swap branch of `insert`: after `swapWithRoot` the recursive call on the old root
takes neither the swap branch nor the branch of `insert_binomial`: it is `insert_skew`. -/
theorem insertAux_swap (s : State) (bq : Nat) (R x : Tree) (F n : Nat)
    (hroot : s.root bq = some R.addr) (hR : WFT s R) (dR : Detached s R.addr)
    (hx : WFT s x) (dx : Detached s x.addr) (hn : (fp R + fp x).Nodup)
    (hF : Multiset.card (fp R + fp x) < F) (hv : x.value < R.value) :
    ∃ t1, swapWithRoot F bq x.addr s = .ok R.addr t1 ∧ t1.root bq = some x.addr ∧
      WFT t1 (swapNew R x) ∧ WFT t1 (swapOld R) ∧ Detached t1 x.addr ∧ Detached t1 R.addr ∧
      FrameH s t1 (fp R + fp x) bq ∧
      insertAux F (n + 2) bq x.addr s = insert_skew F bq R.addr t1 := by
  obtain ⟨t1, e1, r1, wN, wO, dN, dO, f1⟩ := swapWithRoot_spec s bq R x F hroot hR dR hx dx hn hF
  refine ⟨t1, e1, r1, wN, wO, dN, dO, f1, ?_⟩
  rw [insertAux_unfold s bq R x F (n + 1) hroot hR.value_eq hx.value_eq hx.rank_eq,
    if_pos (by simpa using hv), bind_ok' e1]
  have h2 := insertAux_unfold t1 bq (swapNew R x) (swapOld R) F n r1 wN.value_eq wO.value_eq
    wO.rank_eq
  have hv2 : ¬ (swapOld R).value < (swapNew R x).value := by
    show ¬ R.value < x.value
    omega
  have hr2 : ¬ (swapOld R).rank > 0 := by
    show ¬ (0 : Int) > 0
    omega
  rw [if_neg (by simpa using hv2), if_neg (by simpa using hr2)] at h2
  exact h2

theorem foldl_insertByRank_perm (ks acc : List Tree) :
    (ks.foldl (fun acc k => insertByRank k acc) acc).Perm (ks ++ acc) := by
  induction ks generalizing acc with
  | nil => simp
  | cons k ks ih =>
    simp only [List.foldl_cons, List.cons_append]
    refine (ih _).trans ?_
    have h1 : (insertByRank k acc).Perm (k :: acc) := by
      induction acc with
      | nil => simp [insertByRank]
      | cons a l ih2 =>
        unfold insertByRank
        split
        · exact ((List.Perm.cons a ih2).trans (List.Perm.swap k a l))
        · exact List.Perm.refl _
    exact (List.Perm.append_left ks h1).trans (List.perm_middle)

theorem skewLinkT_plain (ks : List Tree) (n : Tree)
    (h : ∀ a b rest, ks = a :: b :: rest → a.rank ≠ b.rank) : skewLinkT ks n = (ks, n) := by
  rcases ks with _ | ⟨a, _ | ⟨b, rest⟩⟩
  · rfl
  · rfl
  · simp [skewLinkT, h a b rest rfl]

theorem minOf3T_least (a b n : Tree) (ha : n.value ≤ a.value) (hb : n.value ≤ b.value) :
    minOf3T a b n = (n, a, b) := by
  unfold minOf3T
  split_ifs <;> first | rfl | omega

theorem skewLinkT_link (a b : Tree) (rest : List Tree) (n : Tree) (hr : a.rank = b.rank)
    (ha : n.value ≤ a.value) (hb : n.value ≤ b.value) :
    skewLinkT (a :: b :: rest) n = (rest, (adoptT (adoptT n a) b).setRank (a.rank + 1)) := by
  simp [skewLinkT, hr, minOf3T_least a b n ha hb]

theorem WFT.kid {s : State} {T k : Tree} (h : WFT s T) (hk : k ∈ T.kids) : WFT s k :=
  ((WFT_iff s T).1 h).1.2.2.2.1 k hk

theorem WFT.sq_head {s : State} {T : Tree} (h : WFT s T) :
    s.subqueue_head T.addr = (roots T.subq).head? :=
  ((WFT_iff s T).1 h).2.1

/-- Swap case of `insert`, the state it ends in: on a queue whose root tree `R` is drawn by
the state, with no child of `R` below the value of `R`, and a childless node `x` standing
alone with a value below the value of `R`, `insert` returns; the root is then `x`; the tree
below it is `insert_skewT (swapNew R x) (swapOld R)`: the children of `x` after the swap,
`(swapNew R x).kids`, are the former children of `R`, re-adopted by rank; `R` keeps its
subqueue and has `x` as parent.  When the first two of these children do not have the same
rank (or there are fewer than two), `R` is a childless node of rank 0 and all former
children of `R` have `x` as parent.  When the first two, `a` and `b`, have the same rank,
`R` is skew-linked with them: its rank is the rank of `a` plus one, its children are `b`
and `a`, and the others have `x` as parent. -/
theorem insert_swap_cases (s : State) (bq : Nat) (R x : Tree) (F : Nat)
    (hroot : s.root bq = some R.addr) (hR : WFT s R) (dR : Detached s R.addr)
    (hx : WFT s x) (dx : Detached s x.addr) (hxk : x.kids = [])
    (hv : x.value < R.value) (hord : ∀ k ∈ R.kids, R.value ≤ k.value)
    (hn : (fp R + fp x).Nodup) (hF : Multiset.card (fp R + fp x) < F) :
    ∃ t, insert F bq x.addr s = .ok () t ∧ t.root bq = some x.addr ∧ Detached t x.addr ∧
      WFT t (insert_skewT (swapNew R x) (swapOld R)) ∧
      (swapNew R x).kids.Perm R.kids ∧
      t.parent R.addr = some x.addr ∧ t.subqueue_head R.addr = s.subqueue_head R.addr ∧
      ((∀ a b rest, (swapNew R x).kids = a :: b :: rest → a.rank ≠ b.rank) →
        t.rank R.addr = 0 ∧ t.children_head R.addr = none ∧
          ∀ k ∈ R.kids, t.parent k.addr = some x.addr) ∧
      (∀ a b rest, (swapNew R x).kids = a :: b :: rest → a.rank = b.rank →
        t.rank R.addr = a.rank + 1 ∧
          walk t F (t.children_head R.addr) = some [b.addr, a.addr] ∧
          t.parent a.addr = some R.addr ∧ t.parent b.addr = some R.addr ∧
          ∀ k ∈ rest, t.parent k.addr = some x.addr) := by
  have hc1 := card_fp_pos R
  have hc2 := card_fp_pos x
  obtain ⟨n, rfl⟩ : ∃ n, F = n + 2 := ⟨F - 2, by simp only [Multiset.card_add] at hF; omega⟩
  obtain ⟨t1, _, r1, wN, wO, dN, dO, _, e1⟩ := insertAux_swap s bq R x (n + 2) n hroot hR dR hx dx
    hn hF hv
  obtain ⟨t, e2, w2, d2, f2⟩ := insert_skew_spec t1 true bq (swapNew R x) (swapOld R) (n + 2) r1
    ((WFTb_true _ _).2 wN) dN wO dO (by rw [swap_fp]; exact hn) (by rw [swap_fp]; exact hF)
  have w := (WFTb_true _ _).1 w2
  have hperm : (swapNew R x).kids.Perm R.kids := by
    have := foldl_insertByRank_perm R.kids x.kids
    rw [hxk, List.append_nil] at this
    simpa only [swapNew, setKids_kids, hxk] using this
  have hordN : ∀ k ∈ (swapNew R x).kids, R.value ≤ k.value := fun k hk =>
    hord k (hperm.mem_iff.1 hk)
  have hsq : ∀ T : Tree, WFT t T → T.addr = R.addr → T.subq = R.subq →
      t.subqueue_head R.addr = s.subqueue_head R.addr := by
    intro T hT ha hs
    rw [hR.sq_head, ← ha, hT.sq_head, hs]
  have hkidsF : (insert_skewT (swapNew R x) (swapOld R)).kids =
      insertByRank (skewLinkT (swapNew R x).kids (swapOld R)).2
        (skewLinkT (swapNew R x).kids (swapOld R)).1 := rfl
  have hlenF : ∀ T : Tree, T ∈ (insert_skewT (swapNew R x) (swapOld R)).kids →
      T.kids.length < n + 2 := by
    intro T hT
    have h1 := length_kids_lt T
    have h2 := card_kid_lt hT
    rw [insert_skewT_fp, swap_fp] at h2
    omega
  -- the two shapes of the children list after the swap
  by_cases hp : ∀ a b rest, (swapNew R x).kids = a :: b :: rest → a.rank ≠ b.rank
  · have hsk := skewLinkT_plain (swapNew R x).kids (swapOld R) hp
    rw [hsk] at hkidsF
    have hmem : swapOld R ∈ (insert_skewT (swapNew R x) (swapOld R)).kids := by
      rw [hkidsF]; exact mem_insertByRank_self _ _
    have wk := w.kid hmem
    refine ⟨t, e1.trans e2, by rw [f2.root_same]; exact r1, d2, w, hperm,
      w.parent_kid (k := swapOld R) hmem,
      hsq _ wk rfl rfl, fun _ => ⟨wk.rank_eq, ?_, fun k hk => ?_⟩, fun a b rest hab hr => ?_⟩
    · have := ((WFT_iff t _).1 wk).1.2.2.1.1
      exact this
    · exact w.parent_kid (k := k) (by
        rw [hkidsF]; exact mem_insertByRank_of_mem (hperm.mem_iff.2 hk))
    · exact absurd hr (hp a b rest hab)
  · push_neg at hp
    obtain ⟨a, b, rest, hab, hr⟩ := hp
    have ha : (swapOld R).value ≤ a.value := hordN a (by rw [hab]; simp)
    have hb : (swapOld R).value ≤ b.value := hordN b (by rw [hab]; simp)
    have hsk := skewLinkT_link a b rest (swapOld R) hr ha hb
    rw [hab, hsk] at hkidsF
    have hmem : (adoptT (adoptT (swapOld R) a) b).setRank (a.rank + 1) ∈
        (insert_skewT (swapNew R x) (swapOld R)).kids := by
      rw [hkidsF]; exact mem_insertByRank_self _ _
    have wk := w.kid hmem
    have hkk : ((adoptT (adoptT (swapOld R) a) b).setRank (a.rank + 1)).kids = [b, a] := by
      show insertByRank b (insertByRank a []) = [b, a]
      simp [insertByRank, hr]
    refine ⟨t, e1.trans e2, by rw [f2.root_same]; exact r1, d2, w, hperm,
      w.parent_kid (k := (adoptT (adoptT (swapOld R) a) b).setRank (a.rank + 1)) hmem,
      hsq _ wk rfl rfl, fun h => absurd hr (h a b rest hab), fun a' b' rest' hab' _ => ?_⟩
    rw [hab] at hab'
    simp only [List.cons.injEq] at hab'
    obtain ⟨rfl, rfl, rfl⟩ := hab'
    refine ⟨wk.rank_eq, ?_, wk.parent_kid (by rw [hkk]; simp), wk.parent_kid (by rw [hkk]; simp),
      fun k hk => w.parent_kid (k := k) (by rw [hkidsF]; exact mem_insertByRank_of_mem hk)⟩
    have := wk.walk_kids (hlenF _ hmem)
    rw [hkk] at this
    exact this

/-- The swap case on the queue holding 1, 2 and 3 (root node 0 with the children 2 and 1,
both of rank 0) and the childless node 3 of value 0.  After `swapWithRoot` node 3 is the
root and has the children 1 and 2, and the old root, node 0, is childless, of rank 0 and
stands alone.  `insert_skew` then skew-links it with the two children of equal rank: in the
end node 0 is the only child of node 3, has rank 1 and the children 2 and 1. -/
theorem insert_swap_old_root_linked :
    (threeKeys 0).root 0 = some 0 ∧ (threeKeys 0).children_head 3 = none ∧
      (threeKeys 0).value 3 < (threeKeys 0).value 0 ∧
      walk (threeKeys 0) 5 ((threeKeys 0).children_head 0) = some [2, 1] ∧
      (swapWithRoot 5 0 3 (threeKeys 0)).val? = some 0 ∧
      (swapWithRoot 5 0 3 (threeKeys 0)).state.root 0 = some 3 ∧
      (swapWithRoot 5 0 3 (threeKeys 0)).state.rank 0 = 0 ∧
      (swapWithRoot 5 0 3 (threeKeys 0)).state.children_head 0 = none ∧
      (swapWithRoot 5 0 3 (threeKeys 0)).state.parent 0 = none ∧
      walk (swapWithRoot 5 0 3 (threeKeys 0)).state 5
        ((swapWithRoot 5 0 3 (threeKeys 0)).state.children_head 3) = some [1, 2] ∧
      (insert 5 0 3 (threeKeys 0)).val? = some () ∧
      (insert 5 0 3 (threeKeys 0)).state.root 0 = some 3 ∧
      (insert 5 0 3 (threeKeys 0)).state.rank 0 = 1 ∧
      walk (insert 5 0 3 (threeKeys 0)).state 5
        ((insert 5 0 3 (threeKeys 0)).state.children_head 0) = some [2, 1] ∧
      walk (insert 5 0 3 (threeKeys 0)).state 5
        ((insert 5 0 3 (threeKeys 0)).state.children_head 3) = some [0] := by
  decide!

theorem insert_binomial_unfold (s : State) (bq : Nat) (R x : Tree) (F : Nat)
    (ins : Nat → Nat → M Unit) (hroot : s.root bq = some R.addr) (hR : WFT s R)
    (hxr : s.rank x.addr = x.rank) (hF : R.kids.length < F) :
    insert_binomial F ins bq x.addr s =
      (match (findRank x.rank R.kids).map Tree.addr with
        | none => adopt F R.addr x.addr s
        | some sr => (do
            let newnode ← simpleLink F sr x.addr
            ins bq newnode : M Unit) s) := by
  have hk := ((WFT_iff s R).1 hR).1
  have hgs := getSameRankChild_spec s R x.rank F hk.2.2.1 hk.2.2.2.1 hF
  unfold insert_binomial
  simp only [gets_bind', hroot, deref_bind', hxr]
  rw [bind_ok' hgs]
  cases (findRank x.rank R.kids).map Tree.addr with
  | none => simp only [gets_bind', hroot, deref_bind']
  | some sr => rfl

/-- One step of the cascade of `insert_binomial`: the node linked with the child of equal
rank is handed to the recursive call; its rank is one more, and the root has lost the
child. -/
theorem insertAux_cascade (s : State) (bq : Nat) (R x e : Tree) (F : Nat)
    (hroot : s.root bq = some R.addr) (hR : WFT s R) (dR : Detached s R.addr)
    (hx : WFT s x) (dx : Detached s x.addr) (hn : (fp R + fp x).Nodup)
    (hF : Multiset.card (fp R + fp x) < F) (hv : R.value ≤ x.value) (hr : 0 < x.rank)
    (he : findRank x.rank R.kids = some e) :
    ∃ t1, simpleLink F e.addr x.addr s = .ok (simpleLinkT e x).addr t1 ∧
      (∀ n, insertAux F (n + 1) bq x.addr s = insertAux F n bq (simpleLinkT e x).addr t1) ∧
      (simpleLinkT e x).rank = x.rank + 1 ∧
      t1.root bq = some R.addr ∧ WFT t1 (R.setKids (eraseAddr e.addr R.kids)) ∧
      WFT t1 (simpleLinkT e x) ∧ Detached t1 (simpleLinkT e x).addr ∧ Detached t1 R.addr ∧
      (eraseAddr e.addr R.kids).length + 1 = R.kids.length ∧
      Frame s t1 (fp R + fp x) := by
  have hnR : (fp R).Nodup := (Multiset.nodup_add.1 hn).1
  have hlR := length_kids_lt R
  have hFR : R.kids.length < F := by
    simp only [Multiset.card_add] at hF; omega
  obtain ⟨l1, l2, hk⟩ := findRank_split he
  have her : e.rank = x.rank := by
    have := List.find?_some he
    simpa using this
  have hnk : (roots (l1 ++ e :: l2)).Nodup := by
    rw [← hk]; exact nodup_roots (nodup_fp_kids hnR)
  have hera : eraseAddr e.addr R.kids = l1 ++ l2 := by
    rw [hk]; exact eraseAddr_split l1 e l2 hnk
  obtain ⟨t1, e1, w1, wn, dn, dR1, f1⟩ := simpleLink_spec s true R x l1 e l2 F
    ((WFTb_true _ _).2 hR) dR hk hx dx hn hF
  refine ⟨t1, e1, fun n => ?_, ?_, by rw [f1.root_same]; exact hroot, ?_, wn, dn, dR1, ?_, f1⟩
  · rw [insertAux_unfold s bq R x F n hroot hR.value_eq hx.value_eq hx.rank_eq,
      if_neg (by simpa using hv), if_pos (by simpa using hr),
      insert_binomial_unfold s bq R x F _ hroot hR hx.rank_eq hFR, he]
    simp only [Option.map_some']
    rw [bind_ok' e1]
  · unfold simpleLinkT
    split
    · simp [her]
    · simp
  · rw [hera]; exact (WFTb_true _ _).1 w1
  · rw [hera, hk]; simp only [List.length_append, List.length_cons]; omega

theorem insert_on_empty (s : State) (bq a : Nat) (F : Nat) (hF : 0 < F)
    (hroot : s.root bq = none) :
    ∃ t, insert F bq a s = .ok () t ∧ t.root bq = some a := by
  obtain ⟨n, rfl⟩ : ∃ n, F = n + 1 := ⟨F - 1, by omega⟩
  refine ⟨{ s with root := upd s.root bq (some a) }, ?_, by simp [upd_apply]⟩
  unfold insert insertAux
  simp only [gets_bind', hroot]
  rfl

/-- C15.  Method `insert` returns on every queue drawn by the state and every node standing
alone.  On the empty queue it makes the node the root.  On a queue with root tree `R`: a
recursion depth of the number of children of `R` plus two suffices, and `insert` has that
much.  A node whose value is not below the value of the root (equal values included), on a
root not above its children, leaves the root node the same.  The swap branch is followed by
a recursive call that is `insert_skew`, which does not call `insert`: no second swap.  Each
step of the cascade of `insert_binomial` hands to the recursive call a node `y` whose rank is
the rank of the node it was called with plus one, on a root with one child fewer. -/
theorem insert_terminates (s : State) (bq : Nat) (R x : Tree) (F : Nat)
    (hroot : s.root bq = some R.addr) (hR : WFT s R) (dR : Detached s R.addr)
    (hx : WFT s x) (dx : Detached s x.addr) (hn : (fp R + fp x).Nodup)
    (hF : Multiset.card (fp R + fp x) < F) :
    (∀ s0 : State, s0.root bq = none →
      ∃ t, insert F bq x.addr s0 = .ok () t ∧ t.root bq = some x.addr) ∧
    (∀ n, R.kids.length + 2 ≤ n → ∃ t R', insertAux F n bq x.addr s = .ok () t ∧
      t.root bq = some R'.addr ∧ WFT t R' ∧ Detached t R'.addr ∧ fp R' = fp R + fp x) ∧
    (∃ t R', insert F bq x.addr s = .ok () t ∧
      t.root bq = some R'.addr ∧ WFT t R' ∧ Detached t R'.addr ∧ fp R' = fp R + fp x) ∧
    (R.value ≤ x.value → (∀ k ∈ R.kids, R.value ≤ k.value) →
      ∃ t, insert F bq x.addr s = .ok () t ∧ t.root bq = some R.addr) ∧
    (x.value < R.value → ∃ t1, swapWithRoot F bq x.addr s = .ok R.addr t1 ∧
      ∀ n, insertAux F (n + 2) bq x.addr s = insert_skew F bq R.addr t1) ∧
    (R.value ≤ x.value → 0 < x.rank → ∀ e, findRank x.rank R.kids = some e →
      ∃ t1 y, simpleLink F e.addr x.addr s = .ok y t1 ∧
        (∀ n, insertAux F (n + 1) bq x.addr s = insertAux F n bq y t1) ∧
        t1.rank y = s.rank x.addr + 1 ∧ t1.root bq = some R.addr ∧
        walk t1 F (t1.children_head R.addr) = some (roots (eraseAddr e.addr R.kids)) ∧
        (eraseAddr e.addr R.kids).length + 1 = R.kids.length) := by
  have hc1 := card_fp_pos x
  have hlR := length_kids_lt R
  have hFR : R.kids.length + 2 ≤ F := by
    simp only [Multiset.card_add] at hF; omega
  have main : ∀ n, R.kids.length + 2 ≤ n → ∃ t R', insertAux F n bq x.addr s = .ok () t ∧
      t.root bq = some R'.addr ∧ WFT t R' ∧ Detached t R'.addr ∧ fp R' = fp R + fp x ∧
      insertT n R x = some R' := by
    intro n hfuel
    obtain ⟨R', h⟩ := insertT_some n R x hfuel
    obtain ⟨t, e, r, w, d, _, hfp⟩ := insertAux_spec F bq n s true R x R' hroot
      ((WFTb_true _ _).2 hR) dR hx dx hn hF (Or.inl rfl) h
    exact ⟨t, R', e, r, (WFTb_true _ _).1 w, d, hfp, h⟩
  refine ⟨fun s0 h0 => insert_on_empty s0 bq x.addr F (by omega) h0, fun n hfuel => ?_, ?_,
    fun hv hk => ?_, fun hv => ?_, fun hv hr e he => ?_⟩
  · obtain ⟨t, R', e, r, w, d, hfp, _⟩ := main n hfuel
    exact ⟨t, R', e, r, w, d, hfp⟩
  · obtain ⟨t, R', e, r, w, d, hfp, _⟩ := main F hFR
    exact ⟨t, R', e, r, w, d, hfp⟩
  · obtain ⟨t, R', e, r, _, _, _, h⟩ := main F hFR
    exact ⟨t, e, by rw [r, (insertT_noswap F R x R' hv hk h).1]⟩
  · obtain ⟨t1, e1, _, _, _, _, _, _, _⟩ := insertAux_swap s bq R x F 0 hroot hR dR hx dx hn hF hv
    refine ⟨t1, e1, fun n => ?_⟩
    obtain ⟨t2, e2, _, _, _, _, _, _, h2⟩ := insertAux_swap s bq R x F n hroot hR dR hx dx hn hF hv
    rw [e1] at e2
    cases e2
    exact h2
  · obtain ⟨t1, e1, hrec, hrk, r1, w1, wn, _, _, hlen, _⟩ := insertAux_cascade s bq R x e F hroot
      hR dR hx dx hn hF hv hr he
    refine ⟨t1, _, e1, hrec, by rw [wn.rank_eq, hrk, hx.rank_eq], r1, ?_, hlen⟩
    have := w1.walk_kids (F := F) (by simp only [setKids_kids]; omega)
    exact this

theorem insert_terminates_witness :
    (∀ s0 : State, s0.root 0 = none →
      ∃ t, insert 8 0 catalyst.addr s0 = .ok () t ∧ t.root 0 = some catalyst.addr) ∧
    (∀ n, binomialTree.kids.length + 2 ≤ n → ∃ t R',
      insertAux 8 n 0 catalyst.addr binomialSetup = .ok () t ∧
      t.root 0 = some R'.addr ∧ WFT t R' ∧ Detached t R'.addr ∧
      fp R' = fp binomialTree + fp catalyst) ∧
    (∃ t R', insert 8 0 catalyst.addr binomialSetup = .ok () t ∧
      t.root 0 = some R'.addr ∧ WFT t R' ∧ Detached t R'.addr ∧
      fp R' = fp binomialTree + fp catalyst) ∧
    (binomialTree.value ≤ catalyst.value →
      (∀ k ∈ binomialTree.kids, binomialTree.value ≤ k.value) →
      ∃ t, insert 8 0 catalyst.addr binomialSetup = .ok () t ∧
        t.root 0 = some binomialTree.addr) ∧
    (catalyst.value < binomialTree.value →
      ∃ t1, swapWithRoot 8 0 catalyst.addr binomialSetup = .ok binomialTree.addr t1 ∧
        ∀ n, insertAux 8 (n + 2) 0 catalyst.addr binomialSetup =
          insert_skew 8 0 binomialTree.addr t1) ∧
    (binomialTree.value ≤ catalyst.value → 0 < catalyst.rank →
      ∀ e, findRank catalyst.rank binomialTree.kids = some e →
      ∃ t1 y, simpleLink 8 e.addr catalyst.addr binomialSetup = .ok y t1 ∧
        (∀ n, insertAux 8 (n + 1) 0 catalyst.addr binomialSetup = insertAux 8 n 0 y t1) ∧
        t1.rank y = binomialSetup.rank catalyst.addr + 1 ∧
        t1.root 0 = some binomialTree.addr ∧
        walk t1 8 (t1.children_head binomialTree.addr) =
          some (roots (eraseAddr e.addr binomialTree.kids)) ∧
        (eraseAddr e.addr binomialTree.kids).length + 1 = binomialTree.kids.length) :=
  insert_terminates binomialSetup 0 binomialTree catalyst 8 (by decide!) (wfCheck_wft (by decide!))
    (by decide!) (wfCheck_wft (by decide!)) (by decide!) (by decide!) (by decide!)

/-- C14, the run that fails.  After `promotedProgram` the root of queue 0 is node 0 and its
subqueue list is the node 2, whose parent is the node 1 that was promoted.  The drain of
the next `Pop`, `merge_subqueue`, returns; it has put node 2 into the children list of the
root, and it has cleared `subqueue_head` of node 1, not of the root: `subqueue_head` of the
root still names node 2. -/
theorem drain_leaves_subqueue_head :
    (runCmds promotedProgram State.init).val? = some () ∧
      promotedState.root 0 = some 0 ∧ promotedState.subqueue_head 0 = some 2 ∧
      walk promotedState 5 (promotedState.subqueue_head 0) = some [2] ∧
      promotedState.parent 2 = some 1 ∧
      (merge_subqueue (fuel promotedState) 0 promotedState).val? = some () ∧
      (merge_subqueue (fuel promotedState) 0 promotedState).state.root 0 = some 0 ∧
      (merge_subqueue (fuel promotedState) 0 promotedState).state.subqueue_head 0 = some 2 ∧
      (merge_subqueue (fuel promotedState) 0 promotedState).state.subqueue_head 1 = none ∧
      (merge_subqueue (fuel promotedState) 0 promotedState).state.children_head 0 = some 2 ∧
      (merge_subqueue (fuel promotedState) 0 promotedState).state.parent 2 = some 0 := by
  decide!

/-! ### The nodes the observers reach -/

theorem descs_eq (T : Tree) : descs T = T :: descsL T.kids := by
  cases T; simp [descs, Tree.kids]

theorem subs_eq (T : Tree) : subs T = T :: (subsL T.kids ++ subsL T.subq) := by
  cases T; simp [subs, Tree.kids, Tree.subq]

@[simp] theorem descsL_nil : descsL [] = [] := by simp [descsL]

@[simp] theorem descsL_cons (t : Tree) (l : List Tree) : descsL (t :: l) = descs t ++ descsL l := by
  simp [descsL]

@[simp] theorem subsL_nil : subsL [] = [] := by simp [subsL]

@[simp] theorem subsL_cons (t : Tree) (l : List Tree) : subsL (t :: l) = subs t ++ subsL l := by
  simp [subsL]

theorem size_eq (T : Tree) : T.size = (descsL T.kids).length + 1 := by
  unfold Tree.size; rw [descs_eq]; simp

theorem card_kids_lt (T : Tree) : Multiset.card (fpL T.kids) < Multiset.card (fp T) := by
  rw [fp_eq T]
  simp only [Multiset.card_cons, Multiset.card_add]
  omega

theorem card_subq_lt_fp (T : Tree) : Multiset.card (fpL T.subq) < Multiset.card (fp T) := by
  rw [fp_eq T]
  simp only [Multiset.card_cons, Multiset.card_add]
  omega

theorem WFT.kidsOK {s : State} {T : Tree} (h : WFT s T) : KidsOK s T.addr T.kids :=
  ((WFT_iff s T).1 h).1.2.2.1

theorem WFT.sqOK {s : State} {T : Tree} (h : WFT s T) : SqOK s T.addr T.owner T.subq :=
  ((WFT_iff s T).1 h).2

theorem WFT.sub {s : State} {T k : Tree} (h : WFT s T) (hk : k ∈ T.subq) : WFT s k :=
  ((WFT_iff s T).1 h).1.2.2.2.2 k hk

/-- The walk of `treeFrom` along a sibling list whose trees are drawn visits the nodes of
these trees through children lists. -/
theorem treeFrom_seg (s : State) : ∀ (n : Nat) (l : List Tree) (p F : Nat),
    Multiset.card (fpL l) ≤ n → Multiset.card (fpL l) < F → Seg s p (roots l) →
    (∀ k ∈ l, WFT s k) → treeFrom s F (roots l).head? = (descsL l).map Tree.addr := by
  intro n
  induction n with
  | zero =>
    intro l p F hn hF _ _
    cases l with
    | nil => cases F <;> rfl
    | cons t rest =>
      have := card_fp_pos t
      simp only [fpL_cons, Multiset.card_add] at hn
      omega
  | succ n ih =>
    intro l p F hn hF hseg hw
    cases l with
    | nil => cases F <;> rfl
    | cons t rest =>
      have hpos := card_fp_pos t
      simp only [fpL_cons, Multiset.card_add] at hn hF
      obtain ⟨F, rfl⟩ : ∃ F', F = F' + 1 := ⟨F - 1, by omega⟩
      have hk := card_kids_lt t
      have wt := hw t (List.mem_cons_self _ _)
      rw [roots_cons, seg_cons] at hseg
      obtain ⟨_, hrs, _, hrest⟩ := hseg
      have h1 := ih t.kids t.addr F (by omega) (by omega) wt.kidsOK.2 fun k hk => wt.kid hk
      have h2 := ih rest p F (by omega) (by omega) hrest fun k hk =>
        hw k (List.mem_cons_of_mem _ hk)
      rw [roots_cons, List.head?_cons]
      simp only [treeFrom]
      rw [wt.kidsOK.1, h1, hrs, h2, descsL_cons, descs_eq]
      simp

/-- The walk of `nodesFrom` along a sibling list whose trees are drawn visits the nodes of
these trees through children lists and subqueue lists. -/
theorem nodesFrom_seg (s : State) : ∀ (n : Nat) (l : List Tree) (p F : Nat),
    Multiset.card (fpL l) ≤ n → Multiset.card (fpL l) < F → Seg s p (roots l) →
    (∀ k ∈ l, WFT s k) → nodesFrom s F (roots l).head? = (subsL l).map Tree.addr := by
  intro n
  induction n with
  | zero =>
    intro l p F hn hF _ _
    cases l with
    | nil => cases F <;> rfl
    | cons t rest =>
      have := card_fp_pos t
      simp only [fpL_cons, Multiset.card_add] at hn
      omega
  | succ n ih =>
    intro l p F hn hF hseg hw
    cases l with
    | nil => cases F <;> rfl
    | cons t rest =>
      have hpos := card_fp_pos t
      simp only [fpL_cons, Multiset.card_add] at hn hF
      obtain ⟨F, rfl⟩ : ∃ F', F = F' + 1 := ⟨F - 1, by omega⟩
      have hk := card_kids_lt t
      have hq := card_subq_lt_fp t
      have wt := hw t (List.mem_cons_self _ _)
      rw [roots_cons, seg_cons] at hseg
      obtain ⟨_, hrs, _, hrest⟩ := hseg
      have h1 := ih t.kids t.addr F (by omega) (by omega) wt.kidsOK.2 fun k hk => wt.kid hk
      have h3 := ih t.subq t.owner F (by omega) (by omega) wt.sqOK.2.2 fun k hk => wt.sub hk
      have h2 := ih rest p F (by omega) (by omega) hrest fun k hk =>
        hw k (List.mem_cons_of_mem _ hk)
      rw [roots_cons, List.head?_cons]
      simp only [nodesFrom]
      rw [wt.kidsOK.1, h1, wt.sqOK.1, h3, hrs, h2, subsL_cons, subs_eq]
      simp

/-- The node of a drawn tree together with its descendants through children lists. -/
theorem WFT.subtree_eq {s : State} {T : Tree} (h : WFT s T)
    (hF : Multiset.card (fp T) ≤ s.nodes) : subtree s T.addr = (descs T).map Tree.addr := by
  have hk := card_kids_lt T
  unfold subtree
  rw [h.kidsOK.1, treeFrom_seg s _ T.kids T.addr _ (le_refl _) (by omega) h.kidsOK.2
    fun k hk => h.kid hk, descs_eq]
  rfl

/-- The children list of the node of a drawn tree. -/
theorem WFT.childrenOf_eq {s : State} {T : Tree} (h : WFT s T)
    (hF : Multiset.card (fp T) ≤ s.nodes) : childrenOf s T.addr = roots T.kids := by
  have hk := length_kids_lt T
  unfold childrenOf
  rw [h.walk_kids (by omega)]
  rfl

/-- The nodes reachable from the root of a queue are the nodes of its tree. -/
theorem HeapRep.heapNodes_eq {s : State} {bq : Nat} {R : Tree} (h : HeapRep s bq (some R)) :
    heapNodes s bq = (subs R).map Tree.addr := by
  obtain ⟨hroot, hd, hw, hn, hlt⟩ := h
  have hc := card_le_nodes hn hlt
  have hseg : Seg s 0 (roots [R]) → nodesFrom s (s.nodes + 1) (roots [R]).head? =
      (subsL [R]).map Tree.addr := fun hs =>
    nodesFrom_seg s _ [R] 0 _ (le_refl _) (by simp; omega) hs (by simpa using hw)
  unfold heapNodes
  rw [hroot]
  have hcase : nodesFrom s (s.nodes + 1) (some R.addr) =
      R.addr :: (nodesFrom s s.nodes (s.children_head R.addr) ++
        nodesFrom s s.nodes (s.subqueue_head R.addr) ++
        nodesFrom s s.nodes (s.rightsibling R.addr)) := rfl
  have hk := card_kids_lt R
  have hq := card_subq_lt_fp R
  rw [hcase, hw.kidsOK.1, nodesFrom_seg s _ R.kids R.addr _ (le_refl _) (by omega) hw.kidsOK.2
    fun k hk => hw.kid hk, hw.sqOK.1, nodesFrom_seg s _ R.subq R.owner _ (le_refl _) (by omega)
    hw.sqOK.2.2 fun k hk => hw.sub hk, hd.2.2, subs_eq]
  cases s.nodes <;> simp [nodesFrom]

theorem heapNodes_none {s : State} {bq : Nat} (h : s.root bq = none) : heapNodes s bq = [] := by
  unfold heapNodes
  rw [h]
  rfl

/-! ### The cascade of `insert_binomial` -/

theorem mem_eraseAddr_iff {a : Nat} {l : List Tree} {k : Tree} :
    k ∈ eraseAddr a l ↔ k ∈ l ∧ k.addr ≠ a := by
  simp [eraseAddr]

theorem nodup_roots_eraseAddr {a : Nat} {l : List Tree} (h : (roots l).Nodup) :
    (roots (eraseAddr a l)).Nodup :=
  h.sublist ((List.filter_sublist l).map _)

theorem simpleLinkT_rank (e x : Tree) (h : e.rank = x.rank) :
    (simpleLinkT e x).rank = x.rank + 1 := by
  unfold simpleLinkT
  split
  · simp [h]
  · simp

theorem simpleLinkT_value_min (e x : Tree) : (simpleLinkT e x).value = min x.value e.value := by
  rw [simpleLinkT_value]
  split
  · rw [min_eq_right (by omega)]
  · rw [min_eq_left (by omega)]

theorem carryT_cons (e : Tree) (es : List Tree) (x : Tree) :
    carryT (e :: es) x = carryT es (simpleLinkT e x) := rfl

/-- The cascade at the level of trees: the root loses the children `es` one after the
other, and adopts the node built from them and `x`. -/
theorem insertT_carry : ∀ (es : List Tree) (R x : Tree) (n : Nat), R.value ≤ x.value →
    (∀ e ∈ es, R.value ≤ e.value) → 0 < x.rank → (roots R.kids).Nodup →
    (∀ e ∈ es, e ∈ R.kids) →
    (∀ i (h : i < es.length), (es.get ⟨i, h⟩).rank = x.rank + i) →
    (∀ k ∈ R.kids, x.rank ≤ k.rank → k.rank < x.rank + es.length → k ∈ es) →
    (∀ k ∈ R.kids, k.rank ≠ x.rank + es.length) → es.length + 1 ≤ n →
    insertT n R x = some (adoptT
      (R.setKids (R.kids.filter fun k => decide (k.addr ∉ roots es))) (carryT es x)) := by
  intro es
  induction es with
  | nil =>
    intro R x n hv _ hr _ _ _ _ hnone hn
    obtain ⟨n, rfl⟩ : ∃ m, n = m + 1 := ⟨n - 1, by omega⟩
    have hf : findRank x.rank R.kids = none := by
      unfold findRank
      rw [List.find?_eq_none]
      intro k hk
      have := hnone k hk
      simpa using this
    unfold insertT
    rw [if_neg (by omega), if_pos hr, hf]
    have : (R.kids.filter fun k => decide (k.addr ∉ roots [])) = R.kids := by
      simp
    rw [this]
    cases R
    rfl
  | cons e es ih =>
    intro R x n hv hes hr hnd hmem hrk huniq hnone hn
    obtain ⟨n, rfl⟩ : ∃ m, n = m + 1 := ⟨n - 1, by omega⟩
    have he0 : e.rank = x.rank := by
      have := hrk 0 (by simp)
      simpa using this
    have hrk' : ∀ i (h : i < es.length), (es.get ⟨i, h⟩).rank = x.rank + 1 + i := by
      intro i h
      have := hrk (i + 1) (by simp; omega)
      simp only [List.get_eq_getElem, List.getElem_cons_succ] at this ⊢
      rw [this]
      push_cast
      ring
    have hrkm : ∀ k ∈ es, x.rank < k.rank := by
      intro k hk
      obtain ⟨i, hi⟩ := List.get_of_mem hk
      have := hrk' i.1 i.2
      rw [← hi]
      have h2 : es.get ⟨i.1, i.2⟩ = es.get i := rfl
      rw [h2] at this
      omega
    have hf : findRank x.rank R.kids = some e := by
      cases hf : findRank x.rank R.kids with
      | none =>
        unfold findRank at hf
        rw [List.find?_eq_none] at hf
        have := hf e (hmem e (List.mem_cons_self _ _))
        simp [he0] at this
      | some k =>
        have hk1 : k ∈ R.kids := List.mem_of_find?_eq_some hf
        have hk2 : k.rank = x.rank := by
          have := List.find?_some hf
          simpa using this
        have hk3 := huniq k hk1 (by omega) (by simp; omega)
        rcases List.mem_cons.1 hk3 with rfl | hk3
        · rfl
        · have := hrkm k hk3
          omega
    have hne : ∀ k ∈ es, k.addr ≠ e.addr := by
      intro k hk hka
      have hk1 := hmem k (List.mem_cons_of_mem _ hk)
      have he1 := hmem e (List.mem_cons_self _ _)
      have := List.inj_on_of_nodup_map hnd hk1 he1 hka
      have := hrkm k hk
      subst k
      omega
    unfold insertT
    rw [if_neg (by omega), if_pos hr, hf]
    simp only
    have hx1 := simpleLinkT_rank e x he0
    rw [carryT_cons, ih (R.setKids (eraseAddr e.addr R.kids)) (simpleLinkT e x) n
      (by rw [simpleLinkT_value_min, setKids_value]
          exact le_min hv (hes e (List.mem_cons_self _ _)))
      (fun k hk => hes k (List.mem_cons_of_mem _ hk)) (by omega)
      (nodup_roots_eraseAddr hnd)
      (fun k hk => by
        rw [setKids_kids, mem_eraseAddr_iff]
        exact ⟨hmem k (List.mem_cons_of_mem _ hk), hne k hk⟩)
      (fun i h => by rw [hx1]; exact hrk' i h)
      (fun k hk h1 h2 => by
        rw [setKids_kids, mem_eraseAddr_iff] at hk
        rw [hx1] at h1 h2
        have := huniq k hk.1 (by omega) (by simp only [List.length_cons]; push_cast; omega)
        rcases List.mem_cons.1 this with rfl | h3
        · omega
        · exact h3)
      (fun k hk => by
        rw [setKids_kids, mem_eraseAddr_iff] at hk
        rw [hx1]
        have := hnone k hk.1
        simp only [List.length_cons] at this
        push_cast at this
        omega)
      (by simp only [List.length_cons] at hn; omega)]
    rw [setKids_setKids, setKids_kids]
    congr 3
    unfold eraseAddr
    rw [List.filter_filter]
    apply List.filter_congr
    intro k _
    simp [roots, Bool.and_comm]

theorem carryT_rank : ∀ (es : List Tree) (x : Tree),
    (∀ i (h : i < es.length), (es.get ⟨i, h⟩).rank = x.rank + i) →
    (carryT es x).rank = x.rank + es.length := by
  intro es
  induction es with
  | nil => intro x _; simp [carryT]
  | cons e es ih =>
    intro x hrk
    have he0 : e.rank = x.rank := by
      have := hrk 0 (by simp)
      simpa using this
    rw [carryT_cons, ih _ (fun i h => by
      rw [simpleLinkT_rank e x he0]
      have := hrk (i + 1) (by simp; omega)
      simp only [List.get_eq_getElem, List.getElem_cons_succ] at this ⊢
      rw [this]
      push_cast
      ring), simpleLinkT_rank e x he0]
    simp only [List.length_cons]
    push_cast
    ring

theorem carryT_value (es : List Tree) (x : Tree) :
    (carryT es x).value = (es.map Tree.value).foldl min x.value := by
  induction es generalizing x with
  | nil => rfl
  | cons e es ih => rw [carryT_cons, ih, simpleLinkT_value_min]; rfl

theorem carryT_fp (es : List Tree) (x : Tree) : fp (carryT es x) = fp x + fpL es := by
  induction es generalizing x with
  | nil => simp [carryT]
  | cons e es ih =>
    rw [carryT_cons, ih, simpleLinkT_fp, fpL_cons]
    ac_rfl

theorem descs_self (T : Tree) : T ∈ descs T := by
  rw [descs_eq]; exact List.mem_cons_self _ _

theorem mem_descsL {k d : Tree} {l : List Tree} (hk : k ∈ l) (hd : d ∈ descs k) :
    d ∈ descsL l := by
  induction l with
  | nil => simp at hk
  | cons a l ih =>
    rw [descsL_cons, List.mem_append]
    rcases List.mem_cons.1 hk with rfl | hk
    · exact Or.inl hd
    · exact Or.inr (ih hk)

theorem mem_descs_kid {T k d : Tree} (hk : k ∈ T.kids) (hd : d ∈ descs k) : d ∈ descs T := by
  rw [descs_eq]
  exact List.mem_cons_of_mem _ (mem_descsL hk hd)

theorem addr_descs_setRank (T : Tree) (r : Int) :
    (descs (T.setRank r)).map Tree.addr = (descs T).map Tree.addr := by
  rw [descs_eq, descs_eq]
  rfl

theorem descsL_insertByRank_perm (c : Tree) (l : List Tree) :
    (descsL (insertByRank c l)).Perm (descs c ++ descsL l) := by
  induction l with
  | nil => simp [insertByRank]
  | cons b l ih =>
    unfold insertByRank
    split
    · rw [descsL_cons, descsL_cons]
      exact (List.Perm.append_left _ ih).trans (by
        rw [← List.append_assoc, ← List.append_assoc]
        exact List.Perm.append_right _ List.perm_append_comm)
    · rw [descsL_cons]

theorem addr_mem_simpleLinkT {e x : Tree} {a : Nat}
    (h : a ∈ (descs e).map Tree.addr ∨ a ∈ (descs x).map Tree.addr) :
    a ∈ (descs (simpleLinkT e x)).map Tree.addr := by
  have key : ∀ p c : Tree, (a ∈ (descs p).map Tree.addr ∨ a ∈ (descs c).map Tree.addr) →
      a ∈ (descs ((adoptT p c).setRank (p.rank + 1))).map Tree.addr := by
    intro p c h
    rw [addr_descs_setRank]
    rcases h with h | h
    · rw [descs_eq] at h ⊢
      rw [List.map_cons, List.mem_cons] at h ⊢
      rcases h with h | h
      · exact Or.inl h
      · refine Or.inr ?_
        obtain ⟨d, hd, rfl⟩ := List.mem_map.1 h
        have hd' : d ∈ descsL p.kids := hd
        refine List.mem_map_of_mem _ ?_
        show d ∈ descsL (insertByRank c p.kids)
        rw [(descsL_insertByRank_perm c p.kids).mem_iff, List.mem_append]
        exact Or.inr hd'
    · obtain ⟨d, hd, rfl⟩ := List.mem_map.1 h
      exact List.mem_map_of_mem _
        (mem_descs_kid (T := adoptT p c) (mem_insertByRank_self c p.kids) hd)
  unfold simpleLinkT
  split
  · exact key e x h
  · exact key x e h.symm

theorem addr_mem_carryT : ∀ (es : List Tree) (x : Tree) (a : Nat),
    (a ∈ (descs x).map Tree.addr ∨ ∃ e ∈ es, a ∈ (descs e).map Tree.addr) →
    a ∈ (descs (carryT es x)).map Tree.addr := by
  intro es
  induction es with
  | nil =>
    intro x a h
    rcases h with h | ⟨e, he, _⟩
    · exact h
    · simp at he
  | cons e es ih =>
    intro x a h
    rw [carryT_cons]
    apply ih
    rcases h with h | ⟨e', he', h⟩
    · exact Or.inl (addr_mem_simpleLinkT (Or.inr h))
    · rcases List.mem_cons.1 he' with rfl | he'
      · exact Or.inl (addr_mem_simpleLinkT (Or.inl h))
      · exact Or.inr ⟨e', he', h⟩

theorem nodup_of_ranks (es : List Tree) (r : Int)
    (hrk : ∀ i (h : i < es.length), (es.get ⟨i, h⟩).rank = r + i) : es.Nodup := by
  rw [List.nodup_iff_injective_get]
  intro i j hij
  have h1 := hrk i.1 i.2
  have h2 := hrk j.1 j.2
  have h3 : es.get ⟨i.1, i.2⟩ = es.get ⟨j.1, j.2⟩ := hij
  rw [h3, h2] at h1
  exact Fin.ext (by omega)

/-- C18.  Cascading carry.  On a queue whose root tree `R` is drawn by the state, let `x`
be a node standing alone with a rank `r > 0` and a value not below the value of the root,
and let `es` be children of the root, none of them below the root, of the ranks `r`,
`r + 1`, …, `r + k - 1` in this order, such that the root has no other child of one of
these ranks and no child of rank `r + k`, with `r + k` not above the largest `int`, so that
no sum `rank + 1` of `simpleLink` (bonode.go:193, 197) wraps around.  Then `insert` returns
and keeps the root node; the children list of the root is the list of its other children,
unchanged, with one new member `c = carryT es x` put in by rank; `c` has rank `r + k`, an
`int` still, its value is the least of the values of `x` and `es`, and `x` and every member
of `es` are among `c` and its descendants through children lists. -/
theorem insert_binomial_carry (s : State) (bq : Nat) (R x : Tree) (es : List Tree) (F : Nat)
    (hroot : s.root bq = some R.addr) (hR : WFT s R) (dR : Detached s R.addr)
    (hx : WFT s x) (dx : Detached s x.addr) (hn : (fp R + fp x).Nodup)
    (hF : Multiset.card (fp R + fp x) < F)
    (hv : R.value ≤ x.value) (hes : ∀ e ∈ es, R.value ≤ e.value) (hr : 0 < x.rank)
    (hmem : ∀ e ∈ es, e ∈ R.kids)
    (hrk : ∀ i (h : i < es.length), (es.get ⟨i, h⟩).rank = x.rank + i)
    (huniq : ∀ k ∈ R.kids, x.rank ≤ k.rank → k.rank < x.rank + es.length → k ∈ es)
    (hnone : ∀ k ∈ R.kids, k.rank ≠ x.rank + es.length)
    (hmax : s.rank x.addr + es.length ≤ maxInt64) :
    ∃ t, insert F bq x.addr s = .ok () t ∧ t.root bq = some R.addr ∧
      walk t F (t.children_head R.addr) = some (roots (insertByRank (carryT es x)
        (R.kids.filter fun k => decide (k.addr ∉ roots es)))) ∧
      (∀ k ∈ R.kids, k.addr ∉ roots es → WFT t k ∧ t.parent k.addr = some R.addr) ∧
      t.parent (carryT es x).addr = some R.addr ∧
      t.rank (carryT es x).addr = s.rank x.addr + es.length ∧
      t.rank (carryT es x).addr ≤ maxInt64 ∧
      t.value (carryT es x).addr = (es.map Tree.value).foldl min x.value ∧
      x.addr ∈ (carryT es x).addr :: treeFrom t F (t.children_head (carryT es x).addr) ∧
      (∀ e ∈ es,
        e.addr ∈ (carryT es x).addr :: treeFrom t F (t.children_head (carryT es x).addr)) ∧
      WFT t (adoptT (R.setKids (R.kids.filter fun k => decide (k.addr ∉ roots es)))
        (carryT es x)) := by
  have hnR : (fp R).Nodup := (Multiset.nodup_add.1 hn).1
  have hndk : (roots R.kids).Nodup := nodup_roots (nodup_fp_kids hnR)
  have hlen : es.length ≤ R.kids.length :=
    (List.subperm_of_subset (nodup_of_ranks es x.rank hrk) hmem).length_le
  have hlR := length_kids_lt R
  have hcx := card_fp_pos x
  have hfuel : es.length + 1 ≤ F := by
    simp only [Multiset.card_add] at hF; omega
  have hT := insertT_carry es R x F hv hes hr hndk hmem hrk huniq hnone hfuel
  obtain ⟨t, e, r, w, _, _, hfp⟩ := insertAux_spec F bq F s true R x _ hroot
    ((WFTb_true _ _).2 hR) dR hx dx hn hF (Or.inl rfl) hT
  have w' := (WFTb_true _ _).1 w
  have hcmem : carryT es x ∈ (adoptT (R.setKids (R.kids.filter fun k =>
      decide (k.addr ∉ roots es))) (carryT es x)).kids := mem_insertByRank_self _ _
  have wc := w'.kid hcmem
  have hcF : Multiset.card (fpL (carryT es x).kids) < F := by
    have h1 := card_kid_lt hcmem
    have h2 := card_kids_lt (carryT es x)
    rw [hfp] at h1
    omega
  have hdesc : (descs (carryT es x)).map Tree.addr =
      (carryT es x).addr :: treeFrom t F (t.children_head (carryT es x).addr) := by
    rw [wc.kidsOK.1, treeFrom_seg t _ _ _ F (le_refl _) hcF wc.kidsOK.2 fun k hk => wc.kid hk,
      descs_eq]
    rfl
  refine ⟨t, e, r, ?_, fun k hk hne => ?_, w'.parent_kid hcmem, ?_, ?_, ?_, ?_,
    fun e he => ?_, w'⟩
  · have := w'.walk_kids (F := F) (by
      show (insertByRank _ _).length < F
      rw [length_insertByRank, setKids_kids]
      have := List.length_filter_le (fun k => decide (k.addr ∉ roots es)) R.kids
      simp only [Multiset.card_add] at hF
      omega)
    exact this
  · have hkm : k ∈ (adoptT (R.setKids (R.kids.filter fun k =>
        decide (k.addr ∉ roots es))) (carryT es x)).kids :=
      mem_insertByRank_of_mem (List.mem_filter.2 ⟨hk, by simpa using hne⟩)
    exact ⟨w'.kid hkm, w'.parent_kid hkm⟩
  · rw [wc.rank_eq, carryT_rank es x hrk, hx.rank_eq]
  · rw [wc.rank_eq, carryT_rank es x hrk, ← hx.rank_eq]
    exact hmax
  · rw [wc.value_eq, carryT_value]
  · rw [← hdesc]
    exact addr_mem_carryT es x _ (Or.inl (List.mem_map_of_mem _ (descs_self x)))
  · rw [← hdesc]
    exact addr_mem_carryT es x _ (Or.inr ⟨e, he, List.mem_map_of_mem _ (descs_self e)⟩)

theorem insert_binomial_carry_witness :
    ∃ t, insert 8 0 catalyst.addr binomialSetup = .ok () t ∧
      t.root 0 = some binomialTree.addr ∧
      walk t 8 (t.children_head binomialTree.addr) =
        some (roots (insertByRank (carryT binomialTree.kids catalyst)
          (binomialTree.kids.filter fun k => decide (k.addr ∉ roots binomialTree.kids)))) ∧
      (∀ k ∈ binomialTree.kids, k.addr ∉ roots binomialTree.kids →
        WFT t k ∧ t.parent k.addr = some binomialTree.addr) ∧
      t.parent (carryT binomialTree.kids catalyst).addr = some binomialTree.addr ∧
      t.rank (carryT binomialTree.kids catalyst).addr =
        binomialSetup.rank catalyst.addr + binomialTree.kids.length ∧
      t.rank (carryT binomialTree.kids catalyst).addr ≤ maxInt64 ∧
      t.value (carryT binomialTree.kids catalyst).addr =
        (binomialTree.kids.map Tree.value).foldl min catalyst.value ∧
      catalyst.addr ∈ (carryT binomialTree.kids catalyst).addr ::
        treeFrom t 8 (t.children_head (carryT binomialTree.kids catalyst).addr) ∧
      (∀ e ∈ binomialTree.kids, e.addr ∈ (carryT binomialTree.kids catalyst).addr ::
        treeFrom t 8 (t.children_head (carryT binomialTree.kids catalyst).addr)) ∧
      WFT t (adoptT (binomialTree.setKids (binomialTree.kids.filter fun k =>
        decide (k.addr ∉ roots binomialTree.kids))) (carryT binomialTree.kids catalyst)) :=
  insert_binomial_carry binomialSetup 0 binomialTree catalyst binomialTree.kids 8
    (by decide!) (wfCheck_wft (by decide!)) (by decide!) (wfCheck_wft (by decide!))
    (by decide!) (by decide!) (by decide!) (by decide) (by decide) (by decide)
    (fun _ he => he) (by decide) (fun _ hk _ _ => hk) (by decide) (by decide!)

/-- The last call of `Test_insert_binomial` (boheap_test.go:297): node 1 ends with rank 7
and is the parent of `catalyst`, as the test expects. -/
theorem test_insert_binomial :
    (insert 8 0 5 binomialSetup).val? = some () ∧
      (insert 8 0 5 binomialSetup).state.rank 1 = 7 ∧
      (insert 8 0 5 binomialSetup).state.parent 5 = some 1 ∧
      (carryT binomialTree.kids catalyst).addr = 1 ∧
      walk (insert 8 0 5 binomialSetup).state 8
        ((insert 8 0 5 binomialSetup).state.children_head 0) = some [1] := by
  decide!

/-! ### The rank invariants -/

theorem Shape_iff (T : Tree) : Shape T ↔ (T.kids.map Tree.rank).Sorted (· ≤ ·) ∧ 0 ≤ T.rank ∧
    2 ^ T.rank.toNat ≤ T.size ∧ (∀ k ∈ T.kids, Shape k) ∧ ∀ k ∈ T.subq, Shape k := by
  constructor
  · intro h
    cases h with
    | mk a v r kids own subq h1 h2 h3 h4 h5 => exact ⟨h1, h2, h3, h4, h5⟩
  · intro ⟨h1, h2, h3, h4, h5⟩
    cases T
    exact Shape.mk _ _ _ _ _ _ h1 h2 h3 h4 h5

theorem size_pos (T : Tree) : 0 < T.size := by
  rw [size_eq]; omega

theorem length_descsL_insertByRank (c : Tree) (l : List Tree) :
    (descsL (insertByRank c l)).length = c.size + (descsL l).length := by
  rw [(descsL_insertByRank_perm c l).length_eq, List.length_append]
  rfl

theorem size_setKids (T : Tree) (ks : List Tree) : (T.setKids ks).size = (descsL ks).length + 1 := by
  rw [size_eq, setKids_kids]

theorem size_setRank (T : Tree) (r : Int) : (T.setRank r).size = T.size := by
  rw [size_eq, size_eq, setRank_kids]

theorem size_adoptT (p c : Tree) : (adoptT p c).size = p.size + c.size := by
  unfold adoptT
  rw [size_setKids, length_descsL_insertByRank, size_eq p]
  omega

theorem sorted_insertByRank (c : Tree) (l : List Tree) (h : (l.map Tree.rank).Sorted (· ≤ ·)) :
    ((insertByRank c l).map Tree.rank).Sorted (· ≤ ·) := by
  induction l with
  | nil => simp [insertByRank]
  | cons b l ih =>
    unfold insertByRank
    rw [List.map_cons, List.sorted_cons] at h
    split
    · rename_i hgt
      rw [List.map_cons, List.sorted_cons]
      refine ⟨fun r hr => ?_, ih h.2⟩
      obtain ⟨k, hk, rfl⟩ := List.mem_map.1 hr
      rcases mem_insertByRank.1 hk with rfl | hk
      · omega
      · exact h.1 _ (List.mem_map_of_mem _ hk)
    · rename_i hgt
      rw [List.map_cons, List.sorted_cons, List.map_cons, List.sorted_cons]
      refine ⟨fun r hr => ?_, h⟩
      rcases List.mem_cons.1 hr with rfl | hr
      · omega
      · have := h.1 r hr
        omega

theorem sorted_foldl_insertByRank (ks acc : List Tree) (h : (acc.map Tree.rank).Sorted (· ≤ ·)) :
    ((ks.foldl (fun acc k => insertByRank k acc) acc).map Tree.rank).Sorted (· ≤ ·) := by
  induction ks generalizing acc with
  | nil => exact h
  | cons k ks ih => exact ih _ (sorted_insertByRank k acc h)

theorem sorted_eraseAddr (a : Nat) (l : List Tree) (h : (l.map Tree.rank).Sorted (· ≤ ·)) :
    ((eraseAddr a l).map Tree.rank).Sorted (· ≤ ·) :=
  List.Pairwise.sublist ((List.filter_sublist l).map _) h

theorem Shape.root0 {T : Tree} (hr : T.rank = 0) (hs : (T.kids.map Tree.rank).Sorted (· ≤ ·))
    (hk : ∀ k ∈ T.kids, Shape k) (hq : ∀ k ∈ T.subq, Shape k) : Shape T := by
  rw [Shape_iff]
  refine ⟨hs, by omega, ?_, hk, hq⟩
  rw [hr]
  exact size_pos T

theorem Shape.adopt_shape {p c : Tree} (hp : Shape p) (hc : Shape c) : Shape (adoptT p c) := by
  rw [Shape_iff] at hp ⊢
  obtain ⟨h1, h2, h3, h4, h5⟩ := hp
  refine ⟨sorted_insertByRank c p.kids h1, h2, ?_, fun k hk => ?_, h5⟩
  · rw [size_adoptT]
    exact le_trans h3 (Nat.le_add_right _ _)
  · rcases mem_insertByRank.1 hk with rfl | hk
    · exact hc
    · exact h4 k hk

theorem pow_toNat_succ (r : Int) (h : 0 ≤ r) : 2 ^ (r + 1).toNat = 2 * 2 ^ r.toNat := by
  rw [Int.toNat_add h (by omega)]
  show 2 ^ (r.toNat + 1) = _
  rw [pow_succ]
  omega

theorem Shape.link3 {m x y : Tree} (r : Int) (hm : Shape m) (hx : Shape x) (hy : Shape y)
    (hr : 0 ≤ r) (hs : 2 * 2 ^ r.toNat ≤ m.size + x.size + y.size) :
    Shape ((adoptT (adoptT m x) y).setRank (r + 1)) := by
  have h := (hm.adopt_shape hx).adopt_shape hy
  rw [Shape_iff] at h ⊢
  obtain ⟨h1, _, _, h4, h5⟩ := h
  refine ⟨h1, by show 0 ≤ r + 1; omega, ?_, h4, h5⟩
  show 2 ^ (r + 1).toNat ≤ _
  rw [size_setRank, size_adoptT, size_adoptT, pow_toNat_succ r hr]
  exact hs

theorem Shape.link_shape {p c : Tree} (hp : Shape p) (hc : Shape c) (h : p.rank = c.rank) :
    Shape ((adoptT p c).setRank (p.rank + 1)) := by
  have ha := hp.adopt_shape hc
  have hp' := (Shape_iff p).1 hp
  have hc' := (Shape_iff c).1 hc
  rw [Shape_iff] at ha ⊢
  obtain ⟨h1, _, _, h4, h5⟩ := ha
  refine ⟨h1, by show 0 ≤ p.rank + 1; omega, ?_, h4, h5⟩
  show 2 ^ (p.rank + 1).toNat ≤ _
  rw [size_setRank, size_adoptT, pow_toNat_succ p.rank hp'.2.1]
  have h3 := hc'.2.2.1
  rw [← h] at h3
  have := hp'.2.2.1
  omega

theorem Shape.simpleLink {e x : Tree} (he : Shape e) (hx : Shape x) (h : e.rank = x.rank) :
    Shape (simpleLinkT e x) := by
  unfold simpleLinkT
  split
  · exact he.link_shape hx h
  · exact hx.link_shape he h.symm

theorem Shape.skew {a b n : Tree} (ha : Shape a) (hb : Shape b) (hn : Shape n)
    (h : a.rank = b.rank) :
    Shape ((adoptT (adoptT (minOf3T a b n).1 (minOf3T a b n).2.1) (minOf3T a b n).2.2).setRank
      (a.rank + 1)) := by
  have ha' := (Shape_iff a).1 ha
  have hb' := (Shape_iff b).1 hb
  have h1 := ha'.2.2.1
  have h2 := hb'.2.2.1
  rw [← h] at h2
  have h3 := size_pos n
  rcases minOf3T_cases a b n with ⟨e, _⟩ | ⟨e, _⟩ | ⟨e, _⟩ <;> rw [e]
  · exact Shape.link3 a.rank ha hb hn ha'.2.1
      (show 2 * 2 ^ a.rank.toNat ≤ a.size + b.size + n.size by omega)
  · exact Shape.link3 a.rank hn ha hb ha'.2.1
      (show 2 * 2 ^ a.rank.toNat ≤ n.size + a.size + b.size by omega)
  · exact Shape.link3 a.rank hb ha hn ha'.2.1
      (show 2 * 2 ^ a.rank.toNat ≤ b.size + a.size + n.size by omega)

theorem skewLinkT_shape (kids : List Tree) (n : Tree) (hs : (kids.map Tree.rank).Sorted (· ≤ ·))
    (hk : ∀ k ∈ kids, Shape k) (hn : Shape n) :
    ((skewLinkT kids n).1.map Tree.rank).Sorted (· ≤ ·) ∧
      (∀ k ∈ (skewLinkT kids n).1, Shape k) ∧ Shape (skewLinkT kids n).2 := by
  rcases kids with _ | ⟨a, _ | ⟨b, rest⟩⟩
  · exact ⟨hs, hk, hn⟩
  · exact ⟨hs, hk, hn⟩
  · by_cases hr : a.rank = b.rank
    · have e : skewLinkT (a :: b :: rest) n = (rest, (adoptT (adoptT (minOf3T a b n).1
          (minOf3T a b n).2.1) (minOf3T a b n).2.2).setRank (a.rank + 1)) := by
        simp [skewLinkT, hr]
      rw [e]
      simp only [List.map_cons, List.sorted_cons] at hs
      exact ⟨hs.2.2, fun k hk' => hk k (by simp [hk']),
        Shape.skew (hk a (by simp)) (hk b (by simp)) hn hr⟩
    · have e : skewLinkT (a :: b :: rest) n = (a :: b :: rest, n) := by
        simp [skewLinkT, hr]
      rw [e]
      exact ⟨hs, hk, hn⟩

theorem Shape.insert_skew {R n : Tree} (hR : Shape R) (hr : R.rank = 0) (hn : Shape n) :
    Shape (insert_skewT R n) ∧ (insert_skewT R n).rank = 0 := by
  have hR' := (Shape_iff R).1 hR
  obtain ⟨h1, h2, h3⟩ := skewLinkT_shape R.kids n hR'.1 hR'.2.2.2.1 hn
  refine ⟨Shape.root0 hr (sorted_insertByRank _ _ h1) (fun k hk => ?_) hR'.2.2.2.2, hr⟩
  rcases mem_insertByRank.1 hk with rfl | hk
  · exact h3
  · exact h2 k hk

theorem Shape.erase {R : Tree} (hR : Shape R) (hr : R.rank = 0) (a : Nat) :
    Shape (R.setKids (eraseAddr a R.kids)) := by
  have hR' := (Shape_iff R).1 hR
  exact Shape.root0 hr (sorted_eraseAddr a R.kids hR'.1)
    (fun k hk => hR'.2.2.2.1 k (mem_eraseAddr hk)) hR'.2.2.2.2

theorem Shape.of_swapNew {R x : Tree} (hR : Shape R) (hx : Shape x) (hr : x.rank = 0) :
    Shape (swapNew R x) := by
  have hR' := (Shape_iff R).1 hR
  have hx' := (Shape_iff x).1 hx
  refine Shape.root0 hr (sorted_foldl_insertByRank R.kids x.kids hx'.1) (fun k hk => ?_)
    hx'.2.2.2.2
  have hk' : k ∈ R.kids.foldl (fun acc k => insertByRank k acc) x.kids := hk
  rw [(foldl_insertByRank_perm R.kids x.kids).mem_iff, List.mem_append] at hk'
  rcases hk' with h | h
  · exact hR'.2.2.2.1 k h
  · exact hx'.2.2.2.1 k h

theorem Shape.of_swapOld {R : Tree} (hR : Shape R) : Shape (swapOld R) :=
  Shape.root0 (T := swapOld R) rfl (by show (List.map Tree.rank []).Sorted _; simp)
    (fun k hk => by
      have : k ∈ ([] : List Tree) := hk
      simp at this) ((Shape_iff R).1 hR).2.2.2.2

/-- Method `insert` keeps the rank invariants of a queue, when the node inserted has rank 0
or the swap branch is not taken. -/
theorem insertT_shape : ∀ (n : Nat) (R x R' : Tree), Shape R → R.rank = 0 → Shape x →
    (x.rank = 0 ∨ (R.value ≤ x.value ∧ ∀ k ∈ R.kids, R.value ≤ k.value)) →
    insertT n R x = some R' → Shape R' ∧ R'.rank = 0 := by
  intro n
  induction n with
  | zero => intro R x R' _ _ _ _ h; simp [insertT] at h
  | succ n ih =>
    intro R x R' hR hr hx hc h
    unfold insertT at h
    by_cases hv : x.value < R.value
    · rw [if_pos hv] at h
      have hx0 : x.rank = 0 := by
        rcases hc with h0 | ⟨h0, _⟩
        · exact h0
        · omega
      exact ih _ _ _ (hR.of_swapNew hx hx0) hx0 hR.of_swapOld (Or.inl rfl) h
    · rw [if_neg hv] at h
      by_cases hrk : x.rank > 0
      · rw [if_pos hrk] at h
        have hc' : R.value ≤ x.value ∧ ∀ k ∈ R.kids, R.value ≤ k.value := by
          rcases hc with h0 | h0
          · omega
          · exact h0
        cases hf : findRank x.rank R.kids with
        | none =>
          rw [hf] at h
          simp only [Option.some.injEq] at h
          subst h
          exact ⟨hR.adopt_shape hx, hr⟩
        | some e =>
          rw [hf] at h
          simp only at h
          have he1 : e ∈ R.kids := List.mem_of_find?_eq_some hf
          have he2 : e.rank = x.rank := by
            have := List.find?_some hf
            simpa using this
          refine ih _ _ _ (hR.erase hr e.addr) hr
            (Shape.simpleLink (((Shape_iff R).1 hR).2.2.2.1 e he1) hx he2) (Or.inr ⟨?_, ?_⟩) h
          · rw [simpleLinkT_value_min, setKids_value]
            exact le_min hc'.1 (hc'.2 e he1)
          · intro k hk
            exact hc'.2 k (mem_eraseAddr hk)
      · rw [if_neg hrk] at h
        simp only [Option.some.injEq] at h
        subst h
        exact hR.insert_skew hr hx

/-- Re-inserting trees that are not below the root keeps the rank invariants. -/
theorem reinsT_shape (n : Nat) : ∀ (ks : List Tree) (R R' : Tree) (b : Int), Shape R →
    R.rank = 0 → R.value ≤ b → KidsOrd b ks → KidsOrd b R.kids → (∀ k ∈ ks, Shape k) →
    reinsT n ks R = some R' →
    Shape R' ∧ R'.rank = 0 ∧ R'.value = R.value ∧ KidsOrd b R'.kids := by
  intro ks
  induction ks with
  | nil =>
    intro R R' b hR hr _ _ hk _ h
    simp only [reinsT, Option.some.injEq] at h
    subst h
    exact ⟨hR, hr, rfl, hk⟩
  | cons k rest ih =>
    intro R R' b hR hr hb hks hk hsh h
    simp only [reinsT] at h
    cases hi : insertT n R k with
    | none => rw [hi] at h; simp at h
    | some R1 =>
      rw [hi] at h
      simp only [Option.some_bind] at h
      have hkb := hks k (List.mem_cons_self _ _)
      have hRk : ∀ c ∈ R.kids, R.value ≤ c.value := fun c hc => le_trans hb (hk c hc).1
      have h1 := insertT_shape n R k R1 hR hr (hsh k (List.mem_cons_self _ _))
        (Or.inr ⟨le_trans hb hkb.1, hRk⟩) hi
      have h2 := insertT_noswap n R k R1 (le_trans hb hkb.1) hRk hi
      have h3 := insertT_kidsOrd n R k R1 b hb hkb.1 hkb.2 hk hi
      obtain ⟨a1, a2, a3, a4⟩ := ih R1 R' b h1.1 h1.2 (by rw [h2.2.1]; exact hb)
        (fun c hc => hks c (List.mem_cons_of_mem _ hc)) h3
        (fun c hc => hsh c (List.mem_cons_of_mem _ hc)) h
      exact ⟨a1, a2, by rw [a3, h2.2.1], a4⟩

/-- Method `Pop` keeps the rank invariants of a queue. -/
theorem popT_shape (n : Nat) (R : Tree) (v : Int) (T' : Option Tree) (ho : HeapOrd R)
    (hR : Shape R) (hr : R.rank = 0) (h : popT n R = some (v, T')) : ShapeO T' := by
  have hoi := (HeapOrd_iff R).1 ho
  have hR' := (Shape_iff R).1 hR
  unfold popT at h
  have hstrip : Shape (strip R) := Shape.root0 (T := strip R) hr hR'.1 hR'.2.2.2.1
    (fun k hk => by
      have : k ∈ ([] : List Tree) := hk
      simp at this)
  cases h1 : reinsT n R.subq (strip R) with
  | none => rw [h1] at h; simp at h
  | some R1 =>
    rw [h1] at h
    simp only at h
    obtain ⟨s1, r1, v1, k1⟩ := reinsT_shape n R.subq (strip R) R1 R.value hstrip hr (le_refl _)
      hoi.2 hoi.1 hR'.2.2.2.2 h1
    cases h2 : minKid R1.kids with
    | none =>
      rw [h2] at h
      simp only [Option.some.injEq, Prod.mk.injEq] at h
      rw [← h.2]
      trivial
    | some m =>
      rw [h2] at h
      simp only at h
      have hm := minKid_mem h2
      have hmo := k1 m hm
      have hmi := (HeapOrd_iff m).1 hmo.2
      have sm := (Shape_iff m).1 (((Shape_iff R1).1 s1).2.2.2.1 m hm)
      cases h3 : reinsT n m.kids (R1.setKids (eraseAddr m.addr R1.kids)) with
      | none => rw [h3] at h; simp at h
      | some R3 =>
        rw [h3] at h
        simp only [Option.some.injEq, Prod.mk.injEq] at h
        rw [← h.2]
        obtain ⟨s3, r3, _, _⟩ := reinsT_shape n m.kids _ R3 m.value (s1.erase r1 m.addr) r1
          (by rw [setKids_value, v1]; exact hmo.1) hmi.1
          (fun c hc => by
            have hc' := mem_eraseAddr hc
            exact ⟨minKid_le h2 c hc', (k1 c hc').2⟩) sm.2.2.2.1 h3
        have s3' := (Shape_iff R3).1 s3
        exact ⟨Shape.root0 (T := promoteT R3 m) r3 s3'.1 s3'.2.2.2.1 sm.2.2.2.2, r3⟩

theorem shape_leaf (a : Nat) (v : Int) : Shape (leaf a v) :=
  Shape.root0 (T := leaf a v) rfl (by show (List.map Tree.rank []).Sorted _; simp)
    (fun k hk => by
      have : k ∈ ([] : List Tree) := hk
      simp at this)
    (fun k hk => by
      have : k ∈ ([] : List Tree) := hk
      simp at this)

theorem shape_moveT {B : Tree} (hB : Shape B) (hr : B.rank = 0) :
    Shape (moveT B) ∧ (moveT B).rank = 0 :=
  ⟨Shape.root0 (T := moveT B) hr (by show (List.map Tree.rank []).Sorted _; simp)
    (fun k hk => by
      have : k ∈ ([] : List Tree) := hk
      simp at this) ((Shape_iff B).1 hB).2.2.2.1, hr⟩

/-- Method `insert` of a node of rank 0 keeps the rank invariants of a queue. -/
theorem insertH_shape (n : Nat) (T : Option Tree) (x T' : Tree) (hT : ShapeO T) (hx : Shape x)
    (hr : x.rank = 0) (h : insertH n T x = some T') : ShapeO (some T') := by
  cases n with
  | zero => cases T <;> simp [insertH] at h
  | succ n =>
    cases T with
    | none =>
      simp only [insertH, Option.some.injEq] at h
      subst h
      exact ⟨hx, hr⟩
    | some R =>
      simp only [insertH] at h
      exact insertT_shape _ R x T' hT.1 hT.2 hx (Or.inl hr) h

/-! ### Reachable queues keep the rank invariants -/

/-- Method `Insert` keeps the heap order and the rank invariants, and adds one key. -/
theorem Insert_stepR (s : State) (bq : Nat) (T : Option Tree) (v : Int) (h : HeapRep s bq T)
    (ho : HeapOrdO T) (hs : ShapeO T) :
    ∃ t T', Insert bq v s = .ok () t ∧ HeapRep t bq (some T') ∧ HeapOrd T' ∧
      ShapeO (some T') ∧ keys T' = v ::ₘ keysO T ∧
      fp T' = s.nodes ::ₘ fpO T ∧ Grow s t (fpO T) bq ∧ t.size bq = s.size bq + 1 ∧
      t.heaps = s.heaps := by
  obtain ⟨t, T', e, hr, hi, hfp, f, sz, _⟩ := Insert_spec s bq T v h
  have hnd : (fpO T + fp (leaf s.nodes v)).Nodup := by
    have := hr.2.2.2.1
    rw [hfp] at this
    rw [fp_leaf, add_comm, Multiset.singleton_add]
    exact this
  obtain ⟨o1, o2, _, _⟩ := insertH_spec _ T _ T' ho (heapOrd_leaf _ _) hnd hi
  refine ⟨t, T', e, hr, o1, insertH_shape _ T _ T' hs (shape_leaf _ _) rfl hi, ?_, hfp,
    f.to_grow fun a ha => ?_, sz, f.2.2.1⟩
  · rw [o2, keys_leaf, add_comm, Multiset.singleton_add]
  · rcases Multiset.mem_cons.1 ha with rfl | ha
    · exact Or.inr (le_refl _)
    · exact Or.inl ha

/-- Method `Pop` keeps the heap order and the rank invariants, and takes one key. -/
theorem Pop_stepR (s : State) (bq : Nat) (R : Tree) (h : HeapRep s bq (some R))
    (ho : HeapOrd R) (hs : ShapeO (some R)) :
    ∃ t T', Pop bq s = .ok R.value t ∧ HeapRep t bq T' ∧ HeapOrdO T' ∧ ShapeO T' ∧
      keys R = R.value ::ₘ keysO T' ∧ fpO T' ≤ fp R ∧ Grow s t (fp R) bq ∧
      t.size bq = s.size bq - 1 ∧ t.heaps = s.heaps := by
  have hc := card_le_nodes h.2.2.2.1 h.2.2.2.2
  obtain ⟨T', e, hk, ho'⟩ := popT_spec (fuel s) R ho h.2.2.2.1 (by unfold fuel; omega)
  obtain ⟨t, e2, hr, f, sz, _, hle⟩ := Pop_spec s bq R R.value T' h ho e
  exact ⟨t, T', e2, hr, ho', popT_shape _ R _ T' ho hs.1 hs.2 e, hk, hle,
    f.to_grow fun a ha => Or.inl ha, sz, f.2.2.1⟩

/-- Method `Merge` keeps the heap order and the rank invariants, and adds no more keys than
the argument holds. -/
theorem Merge_stepR (s : State) (bq other : Nat) (TA : Option Tree) (B : Tree)
    (hA : HeapRep s bq TA) (hB : HeapRep s other (some B)) (hoA : HeapOrdO TA)
    (hoB : HeapOrd B) (hsA : ShapeO TA) (hsB : ShapeO (some B))
    (hdis : (fpO TA + fp B).Nodup) :
    ∃ t T', Merge bq other s = .ok () t ∧ HeapRep t bq (some T') ∧ HeapOrd T' ∧
      ShapeO (some T') ∧ keys T' = keysO TA + (B.value ::ₘ keysL B.kids) ∧
      fp T' ≤ fpO TA + fp B ∧ Grow s t (fpO TA + fp B) bq ∧
      t.size bq = s.size bq + s.size other ∧ t.heaps = s.heaps := by
  obtain ⟨t, T', e, hr, hi, hfp, f, sz, _⟩ := Merge_spec s bq other TA B hA hB hdis
  have hle : fpO TA + fp (moveT B) ≤ fpO TA + fp B := by
    have := fp_moveT_le B
    rw [Multiset.le_iff_count] at this ⊢
    intro z
    have := this z
    simp only [Multiset.count_add]
    omega
  obtain ⟨o1, o2, _, _⟩ := insertH_spec _ TA _ T' hoA (heapOrd_moveT hoB)
    (nodup_sub hdis hle) hi
  have hm := shape_moveT hsB.1 hsB.2
  refine ⟨t, T', e, hr, o1, insertH_shape _ TA _ T' hsA hm.1 hm.2 hi, by rw [o2, keys_moveT],
    by rw [hfp]; exact hle, f.to_grow fun a ha => Or.inl ha, sz, f.2.2.1⟩

/-- The queue `h` of a world is redrawn as `T` by a call on it that touches only its own
nodes and nodes allocated by the call: the result is a world again. -/
theorem WorldR.stepR {s t : State} {L L' : List Nat} {h : Nat} {A : Multiset Nat}
    {tree : Nat → Option Tree} {T : Option Tree}
    (hall : ∀ k ∈ L, k < s.heaps ∧ HeapRep s k (tree k) ∧ HeapOrdO (tree k) ∧
      ShapeO (tree k) ∧ (Multiset.card (keysO (tree k)) : Int) ≤ s.size k)
    (hdis : ∀ k ∈ L', k ≠ h → ∀ x ∈ fpO (tree k), x ∉ A)
    (hpair : ∀ h ∈ L, ∀ k ∈ L, h ≠ k → ∀ x ∈ fpO (tree h), x ∉ fpO (tree k))
    (g : Grow s t A h) (r : HeapRep t h T) (o : HeapOrdO T) (sh : ShapeO T)
    (sz : (Multiset.card (keysO T) : Int) ≤ t.size h) (hh : h < t.heaps)
    (hfp : ∀ x ∈ fpO T, x ∈ A ∨ s.nodes ≤ x) (hL : ∀ k ∈ L', k ∈ L)
    (hn' : L'.Nodup) : WorldR t L' := by
  refine ⟨hn', upd tree h T, fun k hk => ?_, fun k hk k' hk' hne x hx => ?_⟩
  · by_cases hkh : k = h
    · subst hkh
      rw [upd_same]
      exact ⟨hh, r, o, sh, sz⟩
    · rw [upd_ne _ _ hkh]
      obtain ⟨a1, a2, a3, a4, a5⟩ := hall k (hL k hk)
      exact ⟨lt_of_lt_of_le a1 g.2.2.1, a2.grow_rep g a1 hkh (hdis k hk hkh), a3, a4, by
        rw [(g.2.2.2 k a1 hkh).2]; exact a5⟩
  · by_cases hkh : k = h
    · subst hkh
      rw [upd_same] at hx
      rw [upd_ne _ _ (Ne.symm hne)]
      intro hx'
      have hlt := (hall k' (hL k' hk')).2.1.fp_lt x hx'
      rcases hfp x hx with h1 | h1
      · exact hdis k' hk' (Ne.symm hne) x hx' h1
      · omega
    · rw [upd_ne _ _ hkh] at hx
      by_cases hkh' : k' = h
      · subst hkh'
        rw [upd_same]
        intro hx'
        have hlt := (hall k (hL k hk)).2.1.fp_lt x hx
        rcases hfp x hx' with h1 | h1
        · exact hdis k hk hkh x hx h1
        · omega
      · rw [upd_ne _ _ hkh']
        exact hpair k (hL k hk) k' (hL k' hk') hne x hx

/-- A program that uses its queues properly and runs to its end leaves the queues in use
heap ordered, with the rank invariants, and holding no more keys than they count. -/
theorem worldR_spec : ∀ (cmds : List Cmd) (s : State) (L L' : List Nat), WorldR s L →
    inUse L s.heaps cmds = some L' →
    (∃ t, runCmds cmds s = .fault t) ∨ ∃ t, runCmds cmds s = .ok () t ∧ WorldR t L' := by
  intro cmds
  induction cmds with
  | nil =>
    intro s L L' hw hi
    simp only [inUse, Option.some.injEq] at hi
    subst hi
    exact Or.inr ⟨s, rfl, hw⟩
  | cons c l ih =>
    intro s L L' hw hi
    obtain ⟨hn, tree, hall, hpair⟩ := hw
    have hrun : ∀ {t : State}, runCmd c s = .ok () t →
        ((∃ u, runCmds l t = .fault u) ∨ ∃ u, runCmds l t = .ok () u ∧ WorldR u L') →
        (∃ u, runCmds (c :: l) s = .fault u) ∨
          ∃ u, runCmds (c :: l) s = .ok () u ∧ WorldR u L' := by
      intro t e hr
      have : runCmds (c :: l) s = runCmds l t := by
        show (runCmd c >>= fun _ => runCmds l) s = _
        rw [bind_ok' e]
      rw [this]
      exact hr
    have hfault : ∀ {t : State}, runCmd c s = .fault t →
        (∃ u, runCmds (c :: l) s = .fault u) ∨
          ∃ u, runCmds (c :: l) s = .ok () u ∧ WorldR u L' := by
      intro t e
      refine Or.inl ⟨t, ?_⟩
      show (runCmd c >>= fun _ => runCmds l) s = _
      rw [bind_fault' e]
    cases c with
    | new =>
      obtain ⟨t, e, r, z, g, hh, _⟩ := NewBOHeap_spec s
      have hnin : s.heaps ∉ L := fun hm => lt_irrefl _ (hall _ hm).1
      have hw' : WorldR t (s.heaps :: L) := by
        refine ⟨List.nodup_cons.2 ⟨hnin, hn⟩, upd tree s.heaps none, fun k hk => ?_,
          fun k hk k' hk' hne x hx => ?_⟩
        · rcases List.mem_cons.1 hk with rfl | hk
          · rw [upd_same]
            exact ⟨by omega, r, trivial, trivial, by rw [z]; simp [keysO]⟩
          · have hks : k ≠ s.heaps := fun e => hnin (e ▸ hk)
            rw [upd_ne _ _ hks]
            obtain ⟨a1, a2, a3, a4, a5⟩ := hall k hk
            exact ⟨by omega, a2.grow_rep g a1 hks (by simp), a3, a4, by
              rw [(g.2.2.2 k a1 hks).2]; exact a5⟩
        · by_cases hks : k = s.heaps
          · subst hks
            rw [upd_same] at hx
            simp [fpO] at hx
          · rw [upd_ne _ _ hks] at hx
            by_cases hks' : k' = s.heaps
            · subst hks'
              rw [upd_same]
              simp [fpO]
            · rw [upd_ne _ _ hks']
              have hk1 : k ∈ L := (List.mem_cons.1 hk).resolve_left hks
              have hk2 : k' ∈ L := (List.mem_cons.1 hk').resolve_left hks'
              exact hpair k hk1 k' hk2 hne x hx
      have e' : runCmd .new s = .ok () t := by
        show (NewBOHeap >>= fun _ => pure ()) s = _
        rw [bind_ok' e]
        rfl
      simp only [inUse] at hi
      rw [← hh] at hi
      exact hrun e' (ih t _ L' hw' hi)
    | insert h v =>
      simp only [inUse] at hi
      by_cases hin : h ∈ L
      · rw [if_pos hin] at hi
        obtain ⟨a1, a2, a3, a4, a5⟩ := hall h hin
        obtain ⟨t, T', e, r, o, sh, hk, f, g, sz, hh⟩ := Insert_stepR s h (tree h) v a2 a3 a4
        have hw' : WorldR t L := WorldR.stepR hall
          (fun k hk hne x hx => hpair k hk h hin hne x hx) hpair g r o sh
          (by
            show (Multiset.card (keys T') : Int) ≤ _
            rw [hk, sz, Multiset.card_cons]
            push_cast
            omega) (by omega)
          (fun x hx => by
            have hx' : x ∈ fp T' := hx
            rw [f] at hx'
            rcases Multiset.mem_cons.1 hx' with rfl | hx'
            · exact Or.inr (le_refl _)
            · exact Or.inl hx') (fun k hk => hk) hn
        rw [← hh] at hi
        exact hrun e (ih t L L' hw' hi)
      · rw [if_neg hin] at hi
        simp at hi
    | pop h =>
      simp only [inUse] at hi
      by_cases hin : h ∈ L
      · rw [if_pos hin] at hi
        obtain ⟨a1, a2, a3, a4, a5⟩ := hall h hin
        cases hT : tree h with
        | none =>
          rw [hT] at a2
          apply hfault
          show (Pop h >>= fun _ => pure ()) s = _
          rw [bind_fault' (Pop_empty s h a2)]
        | some R =>
          rw [hT] at a2 a3 a4 a5
          obtain ⟨t, T', e, r, o, sh, hk, f, g, sz, hh⟩ := Pop_stepR s h R a2 a3 a4
          have hw' : WorldR t L := WorldR.stepR hall
            (fun k hk hne x hx hx' => hpair k hk h hin hne x hx (by rw [hT]; exact hx'))
            hpair g r o sh
            (by
              have a5' : (Multiset.card (keys R) : Int) ≤ s.size h := a5
              rw [hk, Multiset.card_cons] at a5'
              rw [sz]
              push_cast at a5'
              omega) (by omega) (fun x hx => Or.inl (Multiset.mem_of_le f hx))
            (fun k hk => hk) hn
          have e' : runCmd (.pop h) s = .ok () t := by
            show (Pop h >>= fun _ => pure ()) s = _
            rw [bind_ok' e]
            rfl
          rw [← hh] at hi
          exact hrun e' (ih t L L' hw' hi)
      · rw [if_neg hin] at hi
        simp at hi
    | merge a b =>
      simp only [inUse] at hi
      by_cases hin : a ∈ L ∧ b ∈ L ∧ a ≠ b
      · rw [if_pos hin] at hi
        obtain ⟨ha, hb, hab⟩ := hin
        obtain ⟨a1, a2, a3, a4, a5⟩ := hall a ha
        obtain ⟨b1, b2, b3, b4, b5⟩ := hall b hb
        cases hT : tree b with
        | none =>
          rw [hT] at b2
          exact hfault (Merge_empty s a b b2)
        | some B =>
          rw [hT] at b2 b3 b4 b5
          have hdis : (fpO (tree a) + fp B).Nodup := by
            refine Multiset.nodup_add.2 ⟨a2.fp_nodup, b2.2.2.2.1, ?_⟩
            rw [Multiset.disjoint_left]
            intro x hx hx'
            exact hpair a ha b hb hab x hx (by rw [hT]; exact hx')
          obtain ⟨t, T', e, r, o, sh, hk, f, g, sz, hh⟩ :=
            Merge_stepR s a b (tree a) B a2 b2 a3 b3 a4 b4 hdis
          have hw' : WorldR t (L.erase b) := WorldR.stepR hall
            (fun k hk hne x hx hx' => by
              have hk' := (hn.mem_erase_iff.1 hk)
              rcases Multiset.mem_add.1 hx' with h1 | h1
              · exact hpair k hk'.2 a ha hne x hx h1
              · exact hpair k hk'.2 b hb hk'.1 x hx (by rw [hT]; exact h1))
            hpair g r o sh
            (by
              have b5' : (Multiset.card (keys B) : Int) ≤ s.size b := b5
              rw [keys_eq B] at b5'
              show (Multiset.card (keys T') : Int) ≤ _
              rw [hk, sz]
              simp only [Multiset.card_add, Multiset.card_cons] at b5' ⊢
              push_cast at b5' ⊢
              omega) (by omega) (fun x hx => Or.inl (Multiset.mem_of_le f hx))
            (fun k hk => List.mem_of_mem_erase hk) (hn.erase b)
          rw [← hh] at hi
          exact hrun e (ih t _ L' hw' hi)
      · rw [if_neg hin] at hi
        simp at hi

/-! ### Every node of a reachable queue -/

theorem mem_subsL {l : List Tree} {d : Tree} (h : d ∈ subsL l) : ∃ k ∈ l, d ∈ subs k := by
  induction l with
  | nil => simp at h
  | cons a l ih =>
    rw [subsL_cons, List.mem_append] at h
    rcases h with h | h
    · exact ⟨a, List.mem_cons_self _ _, h⟩
    · obtain ⟨k, hk, hd⟩ := ih h
      exact ⟨k, List.mem_cons_of_mem _ hk, hd⟩

theorem mem_descsL_iff {l : List Tree} {d : Tree} : d ∈ descsL l ↔ ∃ k ∈ l, d ∈ descs k := by
  induction l with
  | nil => simp
  | cons a l ih => simp [ih]

/-- A property handed down to the members of children lists and subqueue lists holds at
every node below a node where it holds. -/
theorem subs_all (P : Tree → Prop) (hk : ∀ T k, P T → k ∈ T.kids → P k)
    (hq : ∀ T k, P T → k ∈ T.subq → P k) : ∀ (n : Nat) (T : Tree),
    Multiset.card (fp T) ≤ n → P T → ∀ d ∈ subs T, P d := by
  intro n
  induction n with
  | zero =>
    intro T hc
    have := card_fp_pos T
    omega
  | succ n ih =>
    intro T hc hT d hd
    rw [subs_eq, List.mem_cons, List.mem_append] at hd
    rcases hd with rfl | hd | hd
    · exact hT
    · obtain ⟨k, hkm, hd⟩ := mem_subsL hd
      have := card_kid_lt hkm
      exact ih k (by omega) (hk T k hT hkm) d hd
    · obtain ⟨k, hkm, hd⟩ := mem_subsL hd
      have := card_subq_lt hkm
      exact ih k (by omega) (hq T k hT hkm) d hd

/-- A property handed down to the members of children lists holds at every descendant
through children lists of a node where it holds. -/
theorem descs_all (P : Tree → Prop) (hk : ∀ T k, P T → k ∈ T.kids → P k) : ∀ (n : Nat)
    (T : Tree), Multiset.card (fp T) ≤ n → P T → ∀ d ∈ descs T, P d := by
  intro n
  induction n with
  | zero =>
    intro T hc
    have := card_fp_pos T
    omega
  | succ n ih =>
    intro T hc hT d hd
    rw [descs_eq, List.mem_cons] at hd
    rcases hd with rfl | hd
    · exact hT
    · obtain ⟨k, hkm, hd⟩ := mem_descsL_iff.1 hd
      have := card_kid_lt hkm
      exact ih k (by omega) (hk T k hT hkm) d hd

theorem keysL_le_of_mem {l : List Tree} {k : Tree} (h : k ∈ l) : keys k ≤ keysL l := by
  induction l with
  | nil => simp at h
  | cons a l ih =>
    rw [keysL_cons]
    rcases List.mem_cons.1 h with rfl | h
    · exact Multiset.le_add_right _ _
    · exact (ih h).trans (Multiset.le_add_left _ _)

theorem card_keys_kid {T k : Tree} (h : k ∈ T.kids) :
    Multiset.card (keys k) ≤ Multiset.card (keys T) := by
  rw [keys_eq T]
  exact Multiset.card_le_card (((keysL_le_of_mem h).trans (Multiset.le_add_right _ _)).trans
    (Multiset.le_cons_self _ _))

theorem card_keys_subq {T k : Tree} (h : k ∈ T.subq) :
    Multiset.card (keys k) ≤ Multiset.card (keys T) := by
  rw [keys_eq T]
  exact Multiset.card_le_card (((keysL_le_of_mem h).trans (Multiset.le_add_left _ _)).trans
    (Multiset.le_cons_self _ _))

theorem length_descsL_le (l : List Tree)
    (h : ∀ k ∈ l, k.size ≤ Multiset.card (keys k)) :
    (descsL l).length ≤ Multiset.card (keysL l) := by
  induction l with
  | nil => simp
  | cons a l ih =>
    rw [descsL_cons, List.length_append, keysL_cons, Multiset.card_add]
    have h1 : (descs a).length ≤ Multiset.card (keys a) := h a (List.mem_cons_self _ _)
    have h2 := ih fun k hk => h k (List.mem_cons_of_mem _ hk)
    omega

/-- The nodes of a tree through children lists are not more than its keys. -/
theorem size_le_card_keys : ∀ (n : Nat) (T : Tree), Multiset.card (fp T) ≤ n →
    T.size ≤ Multiset.card (keys T) := by
  intro n
  induction n with
  | zero =>
    intro T hc
    have := card_fp_pos T
    omega
  | succ n ih =>
    intro T hc
    rw [size_eq, keys_eq T, Multiset.card_cons, Multiset.card_add]
    have := length_descsL_le T.kids fun k hk => ih k (by
      have := card_kid_lt hk
      omega)
    omega

/-- The loop of `rankOrdered` on a sibling list sorted by rank. -/
theorem rankOrderedLoop_sorted (s : State) (p : Nat) : ∀ (l : List Nat) (prev F : Nat),
    Seg s p l → ((prev :: l).map s.rank).Sorted (· ≤ ·) → l.length < F →
    rankOrderedLoop s F prev l.head? = some true := by
  intro l
  induction l with
  | nil =>
    intro prev F _ _ hF
    obtain ⟨F, rfl⟩ : ∃ m, F = m + 1 := ⟨F - 1, by omega⟩
    rfl
  | cons a l ih =>
    intro prev F hseg hs hF
    simp only [List.length_cons] at hF
    obtain ⟨F, rfl⟩ : ∃ m, F = m + 1 := ⟨F - 1, by omega⟩
    rw [seg_cons] at hseg
    simp only [List.map_cons, List.sorted_cons] at hs
    have h1 : ¬ s.rank prev > s.rank a := by
      have := hs.1 (s.rank a) (by simp)
      omega
    simp only [List.head?_cons, rankOrderedLoop, h1, if_false]
    rw [hseg.2.1]
    exact ih a F hseg.2.2.2 (by simp only [List.map_cons, List.sorted_cons]; exact hs.2)
      (by omega)

/-- The test helper `rankOrdered` accepts a node whose children list is sorted by rank. -/
theorem rankOrdered_sorted (s : State) (p : Nat) (L : List Nat) (F : Nat)
    (hh : s.children_head p = L.head?) (hseg : Seg s p L)
    (hs : (L.map s.rank).Sorted (· ≤ ·)) (hF : L.length < F) :
    rankOrdered F (some p) s = .ok true s := by
  unfold rankOrdered
  cases L with
  | nil => simp only [hh, List.head?_nil]
  | cons c l =>
    simp only [hh, List.head?_cons]
    rw [seg_cons] at hseg
    rw [hseg.2.1]
    cases l with
    | nil => simp only [List.head?_nil]
    | cons n l =>
      simp only [List.head?_cons]
      have := rankOrderedLoop_sorted s p (n :: l) c F hseg.2.2.2 hs
        (by simp only [List.length_cons] at hF ⊢; omega)
      rw [List.head?_cons] at this
      rw [this]
      rfl

theorem map_rank_roots {s : State} {T : Tree} (h : WFT s T) :
    (roots T.kids).map s.rank = T.kids.map Tree.rank := by
  unfold roots
  rw [List.map_map]
  apply List.map_congr_left
  intro k hk
  exact (h.kid hk).rank_eq

/-- What the world invariant says of a node reachable from the root of a queue in use: it
is the root of a tree `D` drawn by the state, heap ordered and with the rank invariants,
that has no more nodes than the state and no more keys than the queue counts. -/
theorem WorldR.node {t : State} {L : List Nat} (hw : WorldR t L) {h : Nat} (hh : h ∈ L)
    {x : Nat} (hx : x ∈ heapNodes t h) :
    ∃ D : Tree, D.addr = x ∧ WFT t D ∧ HeapOrd D ∧ Shape D ∧
      Multiset.card (fp D) ≤ t.nodes ∧ (Multiset.card (keys D) : Int) ≤ t.size h := by
  obtain ⟨_, tree, hall, _⟩ := hw
  obtain ⟨_, hr, ho, hs, hz⟩ := hall h hh
  cases hT : tree h with
  | none =>
    rw [hT] at hr
    rw [heapNodes_none hr] at hx
    simp at hx
  | some R =>
    rw [hT] at hr ho hs hz
    rw [hr.heapNodes_eq] at hx
    obtain ⟨D, hD, rfl⟩ := List.mem_map.1 hx
    have hc := card_le_nodes hr.2.2.2.1 hr.2.2.2.2
    have hz' : (Multiset.card (keys R) : Int) ≤ t.size h := hz
    have hP := subs_all (fun T => WFT t T ∧ HeapOrd T ∧ Shape T ∧
        Multiset.card (fp T) ≤ t.nodes ∧ (Multiset.card (keys T) : Int) ≤ t.size h)
      (fun T k hT hk => ⟨hT.1.kid hk, (((HeapOrd_iff T).1 hT.2.1).1 k hk).2,
        ((Shape_iff T).1 hT.2.2.1).2.2.2.1 k hk, by
          have := card_kid_lt hk
          omega, by
          have := card_keys_kid hk
          omega⟩)
      (fun T k hT hk => ⟨hT.1.sub hk, (((HeapOrd_iff T).1 hT.2.1).2 k hk).2,
        ((Shape_iff T).1 hT.2.2.1).2.2.2.2 k hk, by
          have := card_subq_lt hk
          omega, by
          have := card_keys_subq hk
          omega⟩)
      _ R (le_refl _) ⟨hr.2.2.1, ho, hs.1, hc, hz'⟩ D hD
    exact ⟨D, rfl, hP⟩

theorem worldR_init (s : State) : WorldR s [] :=
  ⟨List.nodup_nil, fun _ => none, by simp, by simp⟩

/-- The queues in use after a program that ran to its end form a world. -/
theorem worldR_run (s : State) (cmds : List Cmd) (L : List Nat) (t : State)
    (hu : inUse [] s.heaps cmds = some L) (hr : runCmds cmds s = .ok () t) : WorldR t L := by
  rcases worldR_spec cmds s [] L (worldR_init s) hu with ⟨u, e⟩ | ⟨u, e, hw⟩
  · rw [hr] at e; simp at e
  · rw [hr] at e
    simp only [Res.ok.injEq, true_and] at e
    subst e
    exact hw

/-- C12.  After a program that makes queues and applies `Insert`, `Pop` and `Merge` to
them (in particular after every `Insert` and every `Pop` of a program on one fresh heap),
for every queue in use and every node reachable from its root, through children lists,
subqueue lists and siblings: the ranks along the children list of the node do not decrease,
and the test helper `rankOrdered` accepts the node. -/
theorem rank_order_everywhere (s : State) (cmds : List Cmd) (L : List Nat) (t : State)
    (hu : inUse [] s.heaps cmds = some L) (hr : runCmds cmds s = .ok () t) :
    ∀ h ∈ L, ∀ x ∈ heapNodes t h,
      ((childrenOf t x).map t.rank).Sorted (· ≤ ·) ∧
        rankOrdered (fuel t) (some x) t = .ok true t := by
  intro h hh x hx
  obtain ⟨D, rfl, w, _, sh, hc, _⟩ := (worldR_run s cmds L t hu hr).node hh hx
  have hs := ((Shape_iff D).1 sh).1
  rw [← map_rank_roots w] at hs
  have hl := length_kids_lt D
  refine ⟨by rw [w.childrenOf_eq hc]; exact hs, ?_⟩
  exact rankOrdered_sorted t D.addr (roots D.kids) (fuel t) w.kidsOK.1 w.kidsOK.2 hs (by
    unfold fuel roots
    rw [List.length_map]
    omega)

theorem rank_order_everywhere_witness :
    0 ∈ heapNodes (runCmds exampleProgram State.init).state 0 ∧
      ((childrenOf (runCmds exampleProgram State.init).state 0).map
        (runCmds exampleProgram State.init).state.rank).Sorted (· ≤ ·) ∧
      rankOrdered (fuel (runCmds exampleProgram State.init).state) (some 0)
        (runCmds exampleProgram State.init).state =
        .ok true (runCmds exampleProgram State.init).state :=
  ⟨by decide!,
    rank_order_everywhere State.init exampleProgram [0] _ (by decide) (Res.eq_ok (by decide!))
      0 (by decide) 0 (by decide!)⟩

/-- C13.  After a program that makes queues and applies `Insert`, `Pop` and `Merge` to
them and runs to its end (no `Pop` met an empty queue, no `Merge` an empty argument), for
every queue in use and every node reachable from its root: the value of the node is not
above the value of a member of its children list, nor above the value of one of its
descendants through children lists. -/
theorem heap_order_everywhere (s : State) (cmds : List Cmd) (L : List Nat) (t : State)
    (hu : inUse [] s.heaps cmds = some L) (hr : runCmds cmds s = .ok () t) :
    ∀ h ∈ L, ∀ x ∈ heapNodes t h,
      (∀ c ∈ childrenOf t x, t.value x ≤ t.value c) ∧
        ∀ d ∈ subtree t x, t.value x ≤ t.value d := by
  intro h hh x hx
  obtain ⟨D, rfl, w, ho, _, hc, _⟩ := (worldR_run s cmds L t hu hr).node hh hx
  have hP := descs_all (fun T => WFT t T ∧ HeapOrd T ∧ D.value ≤ T.value)
    (fun T k hT hk => ⟨hT.1.kid hk, (((HeapOrd_iff T).1 hT.2.1).1 k hk).2,
      le_trans hT.2.2 (((HeapOrd_iff T).1 hT.2.1).1 k hk).1⟩)
    _ D (le_refl _) ⟨w, ho, le_refl _⟩
  constructor
  · intro c hcm
    rw [w.childrenOf_eq hc] at hcm
    obtain ⟨k, hk, rfl⟩ := List.mem_map.1 hcm
    rw [w.value_eq, (w.kid hk).value_eq]
    exact (((HeapOrd_iff D).1 ho).1 k hk).1
  · intro d hd
    rw [w.subtree_eq hc] at hd
    obtain ⟨k, hk, rfl⟩ := List.mem_map.1 hd
    obtain ⟨wk, _, hv⟩ := hP k hk
    rw [w.value_eq, wk.value_eq]
    exact hv

theorem heap_order_everywhere_witness :
    0 ∈ heapNodes (runCmds exampleProgram State.init).state 0 ∧
      (∀ c ∈ childrenOf (runCmds exampleProgram State.init).state 0,
        (runCmds exampleProgram State.init).state.value 0 ≤
          (runCmds exampleProgram State.init).state.value c) ∧
      ∀ d ∈ subtree (runCmds exampleProgram State.init).state 0,
        (runCmds exampleProgram State.init).state.value 0 ≤
          (runCmds exampleProgram State.init).state.value d :=
  ⟨by decide!,
    heap_order_everywhere State.init exampleProgram [0] _ (by decide) (Res.eq_ok (by decide!))
      0 (by decide) 0 (by decide!)⟩

/-- C16.  After a program that makes queues and applies `Insert`, `Pop` and `Merge` to
them, for every queue in use and every node `x` reachable from its root: the rank of `x` is
not negative, two to the power of the rank is at most the number of nodes of `x` and its
descendants through children lists, that number is at most what `Size` returns, and so the
rank is at most the binary logarithm of what `Size` returns. -/
theorem rank_bound_everywhere (s : State) (cmds : List Cmd) (L : List Nat) (t : State)
    (hu : inUse [] s.heaps cmds = some L) (hr : runCmds cmds s = .ok () t) :
    ∀ h ∈ L, ∀ x ∈ heapNodes t h, ∃ n : Nat, Size h t = .ok (n : Int) t ∧
      0 ≤ t.rank x ∧ 2 ^ (t.rank x).toNat ≤ (subtree t x).length ∧
      (subtree t x).length ≤ n ∧ (t.rank x).toNat ≤ Nat.log 2 n := by
  intro h hh x hx
  obtain ⟨D, rfl, w, _, sh, hc, hz⟩ := (worldR_run s cmds L t hu hr).node hh hx
  have hs := (Shape_iff D).1 sh
  have h1 := size_le_card_keys _ D (le_refl _)
  have hlen : (subtree t D.addr).length = D.size := by
    rw [w.subtree_eq hc, List.length_map]
    rfl
  have hn : ((t.size h).toNat : Int) = t.size h := Int.toNat_of_nonneg (by omega)
  have h2 : D.size ≤ (t.size h).toNat := by omega
  refine ⟨(t.size h).toNat, by rw [hn]; rfl, by rw [w.rank_eq]; exact hs.2.1, ?_, ?_, ?_⟩
  · rw [hlen, w.rank_eq]; exact hs.2.2.1
  · rw [hlen]; exact h2
  · rw [w.rank_eq]
    exact Nat.le_log_of_pow_le (by omega) (le_trans hs.2.2.1 h2)

theorem rank_bound_everywhere_witness :
    4 ∈ heapNodes (runCmds exampleProgram State.init).state 0 ∧
      (runCmds exampleProgram State.init).state.rank 4 = 1 ∧
      ∃ n : Nat, Size 0 (runCmds exampleProgram State.init).state =
          .ok (n : Int) (runCmds exampleProgram State.init).state ∧
        0 ≤ (runCmds exampleProgram State.init).state.rank 4 ∧
        2 ^ ((runCmds exampleProgram State.init).state.rank 4).toNat ≤
          (subtree (runCmds exampleProgram State.init).state 4).length ∧
        (subtree (runCmds exampleProgram State.init).state 4).length ≤ n ∧
        ((runCmds exampleProgram State.init).state.rank 4).toNat ≤ Nat.log 2 n :=
  ⟨by decide!, by decide!,
    rank_bound_everywhere State.init exampleProgram [0] _ (by decide) (Res.eq_ok (by decide!))
      0 (by decide) 4 (by decide!)⟩

/-! ### `simpleLink` on a child in any position -/

/-- Method `simpleLink` of a child of a node whose tree is drawn, wherever that node is,
with a node standing alone. -/
theorem simpleLink_mem (s : State) (R e n : Tree) (F : Nat) (hR : WFT s R) (he : e ∈ R.kids)
    (hx : WFT s n) (dn : Detached s n.addr) (hn : (fp R + fp n).Nodup)
    (hF : Multiset.card (fp R + fp n) < F) :
    ∃ t, simpleLink F e.addr n.addr s = .ok (simpleLinkT e n).addr t ∧
      WFT t (R.setKids (eraseAddr e.addr R.kids)) ∧ WFT t (simpleLinkT e n) ∧
      Detached t (simpleLinkT e n).addr ∧ Frame s t (fp R + fp n) := by
  have hnR : (fp R).Nodup := (Multiset.nodup_add.1 hn).1
  have hnR2 : ∀ x ∈ fp n, x ∉ fp R := fun x hx => disjoint_of_nodup_add' hn hx
  obtain ⟨t1, e1, w1, we, de, _, f1, hsp⟩ := rogue_mem s true R e ((WFTb_true _ _).2 hR) he hnR
  generalize hrest : eraseAddr e.addr R.kids = rest at w1 hsp ⊢
  have wn1 : WFT t1 n := hx.frame_wft (f1.toH 0) hnR2
  have dn1 : Detached t1 n.addr := dn.frame_det (f1.toH 0) (hnR2 _ (addr_mem_fp n))
  have hn' := hn
  rw [hsp] at hn'
  have hle := length_kids_lt e
  have hln := length_kids_lt n
  have hcard : Multiset.card (fp e) + Multiset.card (fp n) < F := by
    have := hF
    rw [hsp] at this
    simp only [Multiset.card_add] at this
    omega
  have hen : (fp e + fp n).Nodup := by
    refine nodup_sub hn' (Multiset.le_iff_count.2 fun z => ?_)
    simp only [Multiset.count_add]
    omega
  have hdis : ∀ z ∈ fp (R.setKids rest), z ∉ fp e + fp n := by
    intro z hz
    have : (fp (R.setKids rest) + (fp e + fp n)).Nodup := by
      refine nodup_sub hn' (le_of_eq ?_)
      ac_rfl
    exact disjoint_of_nodup_add this hz
  have hfr : ∀ z, z ∈ fp e + fp n → z ∈ fp R + fp n := by
    intro z hz
    rw [hsp]
    simp only [Multiset.mem_add] at hz ⊢
    tauto
  have hunf : simpleLink F e.addr n.addr s = (do
      if decide (t1.value e.addr < t1.value n.addr) = true then
        adopt F e.addr n.addr
        modify fun s => { s with rank := upd s.rank e.addr (s.rank e.addr + 1) }
        pure e.addr
      else
        adopt F n.addr e.addr
        modify fun s => { s with rank := upd s.rank n.addr (s.rank n.addr + 1) }
        pure n.addr : M Nat) t1 := by
    unfold simpleLink
    rw [bind_ok' e1]
    rfl
  rw [hunf, we.value_eq, wn1.value_eq]
  by_cases hv : e.value < n.value
  · obtain ⟨t, e2, w2, d2, f2⟩ := link2_spec t1 e n F we wn1 de dn1 hen (by omega)
    simp only [hv, decide_True, if_true, simpleLinkT]
    exact ⟨t, e2, (WFTb_true _ _).1 (w1.frame_wftb (f2.toH 0) hdis), w2, d2,
      (f1.mono_frame fun z hz => Multiset.mem_add.2 (Or.inl hz)).trans_frame (f2.mono_frame hfr)⟩
  · obtain ⟨t, e2, w2, d2, f2⟩ := link2_spec t1 n e F wn1 we dn1 de
      (by rw [add_comm]; exact hen) (by omega)
    simp only [hv, decide_False, if_false, simpleLinkT, Bool.false_eq_true]
    rw [add_comm] at f2
    exact ⟨t, e2, (WFTb_true _ _).1 (w1.frame_wftb (f2.toH 0) hdis), w2, d2,
      (f1.mono_frame fun z hz => Multiset.mem_add.2 (Or.inl hz)).trans_frame (f2.mono_frame hfr)⟩

theorem not_mem_roots_eraseAddr (a : Nat) (l : List Tree) : a ∉ roots (eraseAddr a l) := by
  intro h
  obtain ⟨k, hk, rfl⟩ := List.mem_map.1 h
  exact (mem_eraseAddr_iff.1 hk).2 rfl

/-- C21.  Method `simpleLink` on a child `a` of a node `R` whose tree is drawn by the state
and a node `n` standing alone, both of a rank below the largest `int`, so that the sum
`rank + 1` of the code (bonode.go:193, 197) does not wrap around: it returns `m`, which is
`a` when the value of `a` is below the value of `n`, and `n` otherwise (so `n` for equal
values).  Afterwards the rank of `m` is what it was plus one, an `int` still (the larger of
the two ranks plus one when they are equal); the other node, `o`, is in the children list
of `m`, put in by rank, and names `m` as parent; `a` is no longer in the children list of
`R`, which is otherwise what it was; and `m` has no parent and no siblings. -/
theorem simpleLink_links (s : State) (R a n : Tree) (F : Nat)
    (hR : WFT s R) (ha : a ∈ R.kids) (hx : WFT s n) (dn : Detached s n.addr)
    (hn : (fp R + fp n).Nodup) (hF : Multiset.card (fp R + fp n) < F)
    (hmaxa : s.rank a.addr < maxInt64) (hmaxn : s.rank n.addr < maxInt64) :
    ∃ t m o, simpleLink F a.addr n.addr s = .ok m.addr t ∧
      (a.value < n.value → m = a ∧ o = n) ∧ (n.value ≤ a.value → m = n ∧ o = a) ∧
      m.value ≤ o.value ∧
      t.rank m.addr = s.rank m.addr + 1 ∧ t.rank m.addr ≤ maxInt64 ∧
      (s.rank a.addr = s.rank n.addr →
        t.rank m.addr = max (s.rank a.addr) (s.rank n.addr) + 1) ∧
      walk t F (t.children_head m.addr) = some (roots (insertByRank o m.kids)) ∧
      o.addr ∈ roots (insertByRank o m.kids) ∧
      t.parent o.addr = some m.addr ∧
      walk t F (t.children_head R.addr) = some (roots (eraseAddr a.addr R.kids)) ∧
      a.addr ∉ roots (eraseAddr a.addr R.kids) ∧
      Detached t m.addr ∧
      WFT t ((adoptT m o).setRank (m.rank + 1)) ∧
      WFT t (R.setKids (eraseAddr a.addr R.kids)) ∧ Frame s t (fp R + fp n) := by
  obtain ⟨t, e, wR, wm, dm, f⟩ := simpleLink_mem s R a n F hR ha hx dn hn hF
  have wa := hR.kid ha
  have hlR := length_kids_lt R
  have hla := length_kids_lt a
  have hln := length_kids_lt n
  have hca := card_kid_lt ha
  have hwR : walk t F (t.children_head R.addr) = some (roots (eraseAddr a.addr R.kids)) := by
    have := wR.walk_kids (F := F) (by
      rw [setKids_kids]
      have := List.length_filter_le (fun k => decide (k.addr ≠ a.addr)) R.kids
      unfold eraseAddr
      simp only [Multiset.card_add] at hF
      omega)
    exact this
  have key : ∀ m o : Tree, simpleLinkT a n = (adoptT m o).setRank (m.rank + 1) →
      s.rank m.addr = m.rank → s.rank m.addr < maxInt64 → m.kids.length + 1 < F →
      m.value ≤ o.value →
      (a.value < n.value → m = a ∧ o = n) → (n.value ≤ a.value → m = n ∧ o = a) →
      (s.rank a.addr = s.rank n.addr → m.rank + 1 = max (s.rank a.addr) (s.rank n.addr) + 1) →
      ∃ t m o, simpleLink F a.addr n.addr s = .ok m.addr t ∧
      (a.value < n.value → m = a ∧ o = n) ∧ (n.value ≤ a.value → m = n ∧ o = a) ∧
      m.value ≤ o.value ∧
      t.rank m.addr = s.rank m.addr + 1 ∧ t.rank m.addr ≤ maxInt64 ∧
      (s.rank a.addr = s.rank n.addr →
        t.rank m.addr = max (s.rank a.addr) (s.rank n.addr) + 1) ∧
      walk t F (t.children_head m.addr) = some (roots (insertByRank o m.kids)) ∧
      o.addr ∈ roots (insertByRank o m.kids) ∧
      t.parent o.addr = some m.addr ∧
      walk t F (t.children_head R.addr) = some (roots (eraseAddr a.addr R.kids)) ∧
      a.addr ∉ roots (eraseAddr a.addr R.kids) ∧
      Detached t m.addr ∧
      WFT t ((adoptT m o).setRank (m.rank + 1)) ∧
      WFT t (R.setKids (eraseAddr a.addr R.kids)) ∧ Frame s t (fp R + fp n) := by
    intro m o hm hrk hmx hlen hv h1 h2 h3
    rw [hm] at e wm dm
    have hr : t.rank m.addr = m.rank + 1 := wm.rank_eq
    have hom : o ∈ ((adoptT m o).setRank (m.rank + 1)).kids := mem_insertByRank_self o m.kids
    refine ⟨t, m, o, e, h1, h2, hv, by rw [hr, hrk], by rw [hr, ← hrk]; omega,
      fun hh => by rw [hr]; exact h3 hh, ?_,
      List.mem_map_of_mem _ (mem_insertByRank_self o m.kids), wm.parent_kid hom, hwR,
      not_mem_roots_eraseAddr _ _, dm, wm, wR, f⟩
    have := wm.walk_kids (F := F) (by
      show (insertByRank o m.kids).length < F
      rw [length_insertByRank]
      omega)
    exact this
  have hFa : a.kids.length + 1 < F := by
    simp only [Multiset.card_add] at hF
    have := card_fp_pos n
    omega
  have hFn : n.kids.length + 1 < F := by
    simp only [Multiset.card_add] at hF
    have := card_fp_pos R
    omega
  by_cases hv : a.value < n.value
  · refine key a n (by simp [simpleLinkT, hv]) wa.rank_eq hmaxa hFa (by omega) (fun _ => ⟨rfl, rfl⟩)
      (fun h => by omega) (fun hh => ?_)
    rw [← hh, max_self, wa.rank_eq]
  · refine key n a (by simp [simpleLinkT, hv]) hx.rank_eq hmaxn hFn (by omega) (fun h => absurd h hv)
      (fun _ => ⟨rfl, rfl⟩) (fun hh => ?_)
    rw [hh, max_self, hx.rank_eq]

theorem simpleLink_links_witness :
    ∃ t m o, simpleLink 5 (Tree.node 2 3 0 [] none []).addr (leaf 3 4).addr (threeKeys 4) =
        .ok m.addr t ∧
      ((Tree.node 2 3 0 [] none []).value < (leaf 3 4).value →
        m = Tree.node 2 3 0 [] none [] ∧ o = leaf 3 4) ∧
      ((leaf 3 4).value ≤ (Tree.node 2 3 0 [] none []).value →
        m = leaf 3 4 ∧ o = Tree.node 2 3 0 [] none []) ∧
      m.value ≤ o.value ∧
      t.rank m.addr = (threeKeys 4).rank m.addr + 1 ∧ t.rank m.addr ≤ maxInt64 ∧
      ((threeKeys 4).rank (Tree.node 2 3 0 [] none []).addr = (threeKeys 4).rank (leaf 3 4).addr →
        t.rank m.addr = max ((threeKeys 4).rank (Tree.node 2 3 0 [] none []).addr)
          ((threeKeys 4).rank (leaf 3 4).addr) + 1) ∧
      walk t 5 (t.children_head m.addr) = some (roots (insertByRank o m.kids)) ∧
      o.addr ∈ roots (insertByRank o m.kids) ∧
      t.parent o.addr = some m.addr ∧
      walk t 5 (t.children_head threeKeysTree.addr) =
        some (roots (eraseAddr (Tree.node 2 3 0 [] none []).addr threeKeysTree.kids)) ∧
      (Tree.node 2 3 0 [] none []).addr ∉
        roots (eraseAddr (Tree.node 2 3 0 [] none []).addr threeKeysTree.kids) ∧
      Detached t m.addr ∧
      WFT t ((adoptT m o).setRank (m.rank + 1)) ∧
      WFT t (threeKeysTree.setKids
        (eraseAddr (Tree.node 2 3 0 [] none []).addr threeKeysTree.kids)) ∧
      Frame (threeKeys 4) t (fp threeKeysTree + fp (leaf 3 4)) :=
  simpleLink_links (threeKeys 4) threeKeysTree (Tree.node 2 3 0 [] none []) (leaf 3 4) 5
    (wfCheck_wft (by decide!)) (List.mem_cons_self _ _) (wfCheck_wft (by decide!))
    (by decide!) (by decide!) (by decide!) (by decide!) (by decide!)

/-- C22.  Method `Merge` with an argument that has no root, on any receiver `bq`, empty or
not: the call does not return; it faults at the dereference of the absent root of the
argument, after the size of the argument has been added to the size of the receiver.
Nothing else has changed. -/
theorem merge_empty_faults (s : State) (bq other : Nat) (h : s.root other = none) :
    Merge bq other s = .fault { s with size := upd s.size bq (s.size bq + s.size other) } ∧
      (Merge bq other s).val? = none ∧ ∀ t, Merge bq other s ≠ .ok () t := by
  have e := Merge_empty s bq other h
  refine ⟨e, by rw [e]; rfl, fun t ht => ?_⟩
  rw [e] at ht
  cases ht

theorem merge_empty_faults_witness :
    emptyArgumentState.root 0 = some 0 ∧ emptyArgumentState.root 1 = none ∧
      (Merge 0 1 emptyArgumentState = .fault { emptyArgumentState with
          size := upd emptyArgumentState.size 0
            (emptyArgumentState.size 0 + emptyArgumentState.size 1) } ∧
        (Merge 0 1 emptyArgumentState).val? = none ∧
        ∀ t, Merge 0 1 emptyArgumentState ≠ .ok () t) :=
  ⟨by decide!, by decide!, merge_empty_faults emptyArgumentState 0 1 (by decide!)⟩

/-! ### Left siblings -/

theorem chain_tail_pred {α : Type} {r : α → α → Prop} : ∀ {l : List α}, l.Chain' r →
    ∀ x ∈ l.tail, ∃ y ∈ l, r y x := by
  intro l
  induction l with
  | nil => intro _ x hx; simp at hx
  | cons a l ih =>
    intro hc x hx
    cases l with
    | nil => simp at hx
    | cons b l =>
      rw [List.chain'_cons] at hc
      rw [List.tail_cons] at hx
      rcases List.mem_cons.1 hx with rfl | hx
      · exact ⟨a, List.mem_cons_self _ _, hc.1⟩
      · obtain ⟨y, hy, hr⟩ := ih hc.2 x (by simpa using hx)
        exact ⟨y, List.mem_cons_of_mem _ hy, hr⟩

/-- A node reachable from the root of a queue in use is the root of a tree drawn by the
state in which no node occurs twice. -/
theorem WorldR.node_nodup {t : State} {L : List Nat} (hw : WorldR t L) {h : Nat} (hh : h ∈ L)
    {x : Nat} (hx : x ∈ heapNodes t h) :
    ∃ D : Tree, D.addr = x ∧ WFT t D ∧ (fp D).Nodup ∧ Multiset.card (fp D) ≤ t.nodes := by
  obtain ⟨_, tree, hall, _⟩ := hw
  obtain ⟨_, hr, _, _, _⟩ := hall h hh
  cases hT : tree h with
  | none =>
    rw [hT] at hr
    rw [heapNodes_none hr] at hx
    simp at hx
  | some R =>
    rw [hT] at hr
    rw [hr.heapNodes_eq] at hx
    obtain ⟨D, hD, rfl⟩ := List.mem_map.1 hx
    have hc := card_le_nodes hr.2.2.2.1 hr.2.2.2.2
    have hP := subs_all (fun T => WFT t T ∧ (fp T).Nodup ∧ Multiset.card (fp T) ≤ t.nodes)
      (fun T k hT hk => ⟨hT.1.kid hk, nodup_fp_of_mem (nodup_fp_kids hT.2.1) hk, by
          have := card_kid_lt hk
          omega⟩)
      (fun T k hT hk => ⟨hT.1.sub hk, nodup_fp_of_mem (nodup_fp_subq hT.2.1) hk, by
          have := card_subq_lt hk
          omega⟩)
      _ R (le_refl _) ⟨hr.2.2.1, hr.2.2.2.1, hc⟩ D hD
    exact ⟨D, rfl, hP⟩

/-- C23.  After a program that makes queues and applies `Insert`, `Pop` and `Merge` to them
and runs to its end, for every queue in use: every member of the children list of a
reachable node other than the first has a left sibling whose right sibling it is; `rogue`
returns on every member of such a children list; and the next call returns as well,
whether it is an `Insert`, a `Pop` of a queue that is not empty, or a `Merge` with an
argument that is not empty: no `rogue` made by it meets an absent left sibling, for a fault
inside a call is the outcome of the call. -/
theorem leftsibling_linked (s : State) (cmds : List Cmd) (L : List Nat) (t : State)
    (hu : inUse [] s.heaps cmds = some L) (hr : runCmds cmds s = .ok () t) :
    (∀ h ∈ L, ∀ p ∈ heapNodes t h, ∀ x ∈ (childrenOf t p).tail,
      ∃ l, t.leftsibling x = some l ∧ t.rightsibling l = some x) ∧
    (∀ h ∈ L, ∀ p ∈ heapNodes t h, ∀ x ∈ childrenOf t p, ∃ u, rogue x t = .ok () u) ∧
    (∀ h ∈ L, ∀ v, ∃ u, Insert h v t = .ok () u) ∧
    (∀ h ∈ L, t.root h ≠ none → ∃ v u, Pop h t = .ok v u) ∧
    (∀ a ∈ L, ∀ b ∈ L, a ≠ b → t.root b ≠ none → ∃ u, Merge a b t = .ok () u) := by
  have hw := worldR_run s cmds L t hu hr
  refine ⟨fun h hh p hp x hx => ?_, fun h hh p hp x hx => ?_, fun h hh v => ?_,
    fun h hh hne => ?_, fun a ha b hb hab hne => ?_⟩
  · obtain ⟨D, rfl, w, _, _, hc, _⟩ := hw.node hh hp
    rw [w.childrenOf_eq hc] at hx
    obtain ⟨y, _, hl⟩ := chain_tail_pred w.kidsOK.2.2.1 x hx
    exact ⟨y, hl.2, hl.1⟩
  · obtain ⟨D, rfl, w, hn, hc⟩ := hw.node_nodup hh hp
    rw [w.childrenOf_eq hc] at hx
    obtain ⟨k, hk, rfl⟩ := List.mem_map.1 hx
    obtain ⟨u, e, _⟩ := rogue_mem t true D k ((WFTb_true _ _).2 w) hk hn
    exact ⟨u, e⟩
  · obtain ⟨_, tree, hall, _⟩ := hw
    obtain ⟨_, a2, a3, _⟩ := hall h hh
    obtain ⟨u, _, e, _⟩ := Insert_step t h (tree h) v a2 a3
    exact ⟨u, e⟩
  · obtain ⟨_, tree, hall, _⟩ := hw
    obtain ⟨_, a2, a3, _⟩ := hall h hh
    cases hT : tree h with
    | none =>
      rw [hT] at a2
      exact absurd a2 hne
    | some R =>
      rw [hT] at a2 a3
      obtain ⟨u, _, e, _⟩ := Pop_step t h R a2 a3
      exact ⟨R.value, u, e⟩
  · obtain ⟨_, tree, hall, hpair⟩ := hw
    obtain ⟨_, a2, a3, _⟩ := hall a ha
    obtain ⟨_, b2, b3, _⟩ := hall b hb
    cases hT : tree b with
    | none =>
      rw [hT] at b2
      exact absurd b2 hne
    | some B =>
      rw [hT] at b2 b3
      have hdis : (fpO (tree a) + fp B).Nodup := by
        refine Multiset.nodup_add.2 ⟨a2.fp_nodup, b2.2.2.2.1, ?_⟩
        rw [Multiset.disjoint_left]
        intro x hx hx'
        exact hpair a ha b hb hab x hx (by rw [hT]; exact hx')
      obtain ⟨u, _, e, _⟩ := Merge_step t a b (tree a) B a2 b2 a3 b3 hdis
      exact ⟨u, e⟩

theorem leftsibling_linked_witness :
    (∀ h ∈ [1, 0], ∀ p ∈ heapNodes (runCmds twoQueuesProgram State.init).state h,
      ∀ x ∈ (childrenOf (runCmds twoQueuesProgram State.init).state p).tail,
      ∃ l, (runCmds twoQueuesProgram State.init).state.leftsibling x = some l ∧
        (runCmds twoQueuesProgram State.init).state.rightsibling l = some x) ∧
    (∀ h ∈ [1, 0], ∀ p ∈ heapNodes (runCmds twoQueuesProgram State.init).state h,
      ∀ x ∈ childrenOf (runCmds twoQueuesProgram State.init).state p,
      ∃ u, rogue x (runCmds twoQueuesProgram State.init).state = .ok () u) ∧
    (∀ h ∈ [1, 0], ∀ v, ∃ u, Insert h v (runCmds twoQueuesProgram State.init).state = .ok () u) ∧
    (∀ h ∈ [1, 0], (runCmds twoQueuesProgram State.init).state.root h ≠ none →
      ∃ v u, Pop h (runCmds twoQueuesProgram State.init).state = .ok v u) ∧
    (∀ a ∈ [1, 0], ∀ b ∈ [1, 0], a ≠ b → (runCmds twoQueuesProgram State.init).state.root b ≠ none →
      ∃ u, Merge a b (runCmds twoQueuesProgram State.init).state = .ok () u) :=
  leftsibling_linked State.init twoQueuesProgram [1, 0] _ (by decide) (Res.eq_ok (by decide!))

/-! ### Heaps built by `Insert` only -/

theorem insertByRank_front (c : Tree) (l : List Tree) (h : ∀ k ∈ l.head?, c.rank ≤ k.rank) :
    insertByRank c l = c :: l := by
  cases l with
  | nil => rfl
  | cons k l =>
    have := h k (by simp)
    unfold insertByRank
    rw [if_neg (by omega)]

theorem map_rank_foldl_insertByRank (ks : List Tree) (h : (ks.map Tree.rank).Sorted (· ≤ ·)) :
    (ks.foldl (fun acc k => insertByRank k acc) []).map Tree.rank = ks.map Tree.rank := by
  have hp := (foldl_insertByRank_perm ks []).map Tree.rank
  rw [List.append_nil] at hp
  exact List.eq_of_perm_of_sorted hp
    (sorted_foldl_insertByRank ks [] (by simp)) h

theorem insertT_leaf (n : Nat) (R x : Tree) (hr : x.rank = 0) :
    insertT (n + 2) R x = some (if x.value < R.value
      then insert_skewT (swapNew R x) (swapOld R) else insert_skewT R x) := by
  unfold insertT
  by_cases hv : x.value < R.value
  · rw [if_pos hv, if_pos hv]
    unfold insertT
    have h1 : ¬ (swapOld R).value < (swapNew R x).value := by
      show ¬ R.value < x.value
      omega
    have h2 : ¬ (swapOld R).rank > 0 := by
      show ¬ (0 : Int) > 0
      omega
    rw [if_neg h1, if_neg h2]
  · rw [if_neg hv, if_neg hv, if_neg (by omega)]

/-- The step of `insert_skew` on ranks in canonical form: a node of rank 0 goes to the
front when the first two ranks differ, and two equal first ranks `r` are replaced by one
rank `r + 1`. -/
theorem canon_skew (kids : List Tree) (n : Tree) (hc : skewCanonical (kids.map Tree.rank))
    (hk : ∀ k ∈ kids, 0 ≤ k.rank) (hn : n.rank = 0) :
    skewCanonical ((insertByRank (skewLinkT kids n).2 (skewLinkT kids n).1).map Tree.rank) ∧
      ∀ k ∈ insertByRank (skewLinkT kids n).2 (skewLinkT kids n).1, 0 ≤ k.rank := by
  have hfront : ∀ l : List Tree, (∀ k ∈ l, 0 ≤ k.rank) → insertByRank n l = n :: l :=
    fun l hl => insertByRank_front n l fun k hk' => by
      rw [hn]
      exact hl k (List.mem_of_mem_head? hk')
  have hnn : ∀ l : List Tree, (∀ k ∈ l, 0 ≤ k.rank) → ∀ k ∈ n :: l, 0 ≤ k.rank := by
    intro l hl k hk'
    rcases List.mem_cons.1 hk' with rfl | hk'
    · omega
    · exact hl k hk'
  rcases kids with _ | ⟨a, _ | ⟨b, rest⟩⟩
  · have e : skewLinkT [] n = ([], n) := rfl
    rw [e]
    refine ⟨by simp [insertByRank, skewCanonical], hnn [] hk⟩
  · have e : skewLinkT [a] n = ([a], n) := rfl
    rw [e]
    simp only
    rw [hfront [a] hk]
    refine ⟨?_, hnn [a] hk⟩
    have := hk a (by simp)
    simp [skewCanonical, hn, this]
  · obtain ⟨h1, h2⟩ := hc
    simp only [List.map_cons, List.sorted_cons, List.tail_cons, List.mem_cons,
      forall_eq_or_imp] at h1 h2
    obtain ⟨⟨hab, ha_rest⟩, hb_rest, hs_rest⟩ := h1
    obtain ⟨hlt_rest, hss_rest⟩ := h2
    have ha := hk a (by simp)
    have hb := hk b (by simp)
    by_cases hr : a.rank = b.rank
    · have e : skewLinkT (a :: b :: rest) n = (rest, (adoptT (adoptT (minOf3T a b n).1
          (minOf3T a b n).2.1) (minOf3T a b n).2.2).setRank (a.rank + 1)) := by
        simp [skewLinkT, hr]
      rw [e]
      simp only
      have hMr : ((adoptT (adoptT (minOf3T a b n).1 (minOf3T a b n).2.1)
          (minOf3T a b n).2.2).setRank (a.rank + 1)).rank = a.rank + 1 := rfl
      generalize (adoptT (adoptT (minOf3T a b n).1 (minOf3T a b n).2.1)
          (minOf3T a b n).2.2).setRank (a.rank + 1) = M at hMr ⊢
      have hrest : ∀ k ∈ rest, M.rank ≤ k.rank := by
        intro k hk'
        have := hlt_rest k.rank (List.mem_map_of_mem _ hk')
        omega
      rw [insertByRank_front M rest fun k hk' => hrest k (List.mem_of_mem_head? hk')]
      refine ⟨⟨?_, hss_rest⟩, fun k hk' => ?_⟩
      · simp only [List.map_cons, List.sorted_cons]
        refine ⟨?_, hs_rest⟩
        intro r hr'
        obtain ⟨k, hk', rfl⟩ := List.mem_map.1 hr'
        exact hrest k hk'
      · rcases List.mem_cons.1 hk' with rfl | hk'
        · omega
        · exact hk k (by simp [hk'])
    · have e : skewLinkT (a :: b :: rest) n = (a :: b :: rest, n) := by
        simp [skewLinkT, hr]
      rw [e]
      simp only
      rw [hfront _ hk]
      refine ⟨⟨?_, ?_⟩, hnn _ hk⟩
      · simp only [List.map_cons, List.sorted_cons, List.mem_cons, forall_eq_or_imp]
        refine ⟨⟨by omega, by omega, ?_⟩, ⟨hab, ha_rest⟩, hb_rest, hs_rest⟩
        intro r hr'
        obtain ⟨k, hk', rfl⟩ := List.mem_map.1 hr'
        rw [hn]
        exact hk k (by simp [hk'])
      · simp only [List.map_cons, List.tail_cons, List.sorted_cons, List.mem_cons,
          forall_eq_or_imp]
        refine ⟨⟨by omega, ?_⟩, hlt_rest, hss_rest⟩
        intro r hr'
        have := hlt_rest r hr'
        omega

theorem canon_insert_skew (R n : Tree) (hc : CanonO (some R)) (hn : n.rank = 0) :
    CanonO (some (insert_skewT R n)) :=
  canon_skew R.kids n hc.1 hc.2 hn

theorem canon_swapNew (R x : Tree) (hc : CanonO (some R)) (hx : x.kids = []) :
    CanonO (some (swapNew R x)) := by
  have hk : (swapNew R x).kids = R.kids.foldl (fun acc k => insertByRank k acc) [] := by
    simp [swapNew, hx]
  refine ⟨?_, fun k hk' => ?_⟩
  · rw [hk, map_rank_foldl_insertByRank R.kids hc.1.1]
    exact hc.1
  · rw [hk, (foldl_insertByRank_perm R.kids []).mem_iff, List.append_nil] at hk'
    exact hc.2 k hk'

/-- Method `insert` of a fresh node keeps the canonical form of the ranks of the children
of the root. -/
theorem insertH_canon (n : Nat) (T : Option Tree) (a : Nat) (v : Int) (T' : Tree)
    (hc : CanonO T) (h : insertH (n + 2) T (leaf a v) = some T') : CanonO (some T') := by
  cases T with
  | none =>
    simp only [insertH, Option.some.injEq] at h
    subst h
    exact ⟨by simp [leaf, Tree.kids, skewCanonical], by simp [leaf, Tree.kids]⟩
  | some R =>
    simp only [insertH] at h
    rw [insertT_leaf n R (leaf a v) rfl] at h
    simp only [Option.some.injEq] at h
    subst h
    split
    · exact canon_insert_skew _ _ (canon_swapNew R (leaf a v) hc rfl) rfl
    · exact canon_insert_skew _ _ hc rfl

/-- On a queue drawn by the state, `Insert` makes the calls of `Insert_skewOnly`. -/
theorem Insert_eq_skewOnly (s : State) (bq : Nat) (T : Option Tree) (v : Int)
    (h : HeapRep s bq T) : Insert bq v s = Insert_skewOnly bq v s := by
  have hunf : Insert_skewOnly bq v s = (do
      match (← gets fun s => s.root bq) with
      | none => modify fun t => { t with root := upd t.root bq (some s.nodes) }
      | some r =>
        if (← gets fun t => decide (t.value s.nodes < t.value r)) then
          let oldroot ← swapWithRoot (s.nodes + 3) bq s.nodes
          insert_skew (s.nodes + 3) bq oldroot
        else
          insert_skew (s.nodes + 3) bq s.nodes : M Unit) (afterNew s bq v) := rfl
  rw [Insert_unfold, hunf]
  obtain ⟨hw1, hd1⟩ := leaf_wft s bq v
  cases T with
  | none =>
    have hr : (afterNew s bq v).root bq = none := h
    simp only [insertAux, gets_bind', hr]
  | some R =>
    obtain ⟨hroot, dR, hw, hn, hlt⟩ := h
    have hfresh : s.nodes ∉ fp R := fun hm => lt_irrefl _ (hlt _ hm)
    have hne : ∀ a ∈ fp R, a ≠ s.nodes := by
      rintro a ha rfl
      exact hfresh ha
    have hwR : WFT (afterNew s bq v) R :=
      hw.congr_wft (fun a ha => (afterNew_same s bq v a (hne a ha)).1)
        fun a ha => (afterNew_same s bq v a (hne a (inner_mem_fp ha))).2
    have hdR : Detached (afterNew s bq v) R.addr := by
      obtain ⟨l1, l2, l3⟩ := (afterNew_same s bq v R.addr (hne _ (addr_mem_fp R))).2
      exact ⟨by rw [l1, dR.1], by rw [l2, dR.2.1], by rw [l3, dR.2.2]⟩
    have hnd : (fp R + fp (leaf s.nodes v)).Nodup := by
      rw [fp_leaf, add_comm, Multiset.singleton_add]
      exact Multiset.nodup_cons.2 ⟨hfresh, hn⟩
    have hcard := card_le_nodes hn hlt
    have hF : Multiset.card (fp R + fp (leaf s.nodes v)) < s.nodes + 3 := by
      rw [fp_leaf, Multiset.card_add, Multiset.card_singleton]
      omega
    have hr : (afterNew s bq v).root bq = some R.addr := hroot
    have hvx : (afterNew s bq v).value s.nodes = v := hw1.value_eq
    simp only [gets_bind', hr, hvx, hwR.value_eq]
    by_cases hv : v < R.value
    · obtain ⟨t1, e1, _, _, _, _, _, _, e2⟩ := insertAux_swap (afterNew s bq v) bq R
        (leaf s.nodes v) (s.nodes + 3) (s.nodes + 1) hr hwR hdR hw1 hd1 hnd hF hv
      have e2' : insertAux (s.nodes + 3) (s.nodes + 3) bq s.nodes (afterNew s bq v) =
          insert_skew (s.nodes + 3) bq R.addr t1 := e2
      have e1' : swapWithRoot (s.nodes + 3) bq s.nodes (afterNew s bq v) = .ok R.addr t1 := e1
      rw [e2']
      simp only [hv, decide_True, if_true]
      rw [bind_ok' e1']
    · have e := insertAux_unfold (afterNew s bq v) bq R (leaf s.nodes v) (s.nodes + 3)
        (s.nodes + 2) hr hwR.value_eq hw1.value_eq hw1.rank_eq
      have hv' : ¬ (leaf s.nodes v).value < R.value := hv
      have hr0 : ¬ (leaf s.nodes v).rank > 0 := by
        show ¬ (0 : Int) > 0
        omega
      rw [if_neg (by simpa using hv'), if_neg (by simpa using hr0)] at e
      have e' : insertAux (s.nodes + 3) (s.nodes + 3) bq s.nodes (afterNew s bq v) =
          insert_skew (s.nodes + 3) bq s.nodes (afterNew s bq v) := e
      rw [e']
      simp only [hv, decide_False, if_false, Bool.false_eq_true]

/-- Method `insert_mult` keeps the canonical form. -/
theorem insert_mult_canon (bq : Nat) : ∀ (xs : List Int) (s : State) (T : Option Tree),
    HeapRep s bq T → CanonO T →
    ∃ t T', insert_mult bq xs s = .ok () t ∧ HeapRep t bq T' ∧ CanonO T' ∧
      (T' = none ↔ T = none ∧ xs = []) ∧ t.heaps = s.heaps := by
  intro xs
  induction xs with
  | nil =>
    intro s T h hc
    exact ⟨s, T, rfl, h, hc, by simp, rfl⟩
  | cons v l ih =>
    intro s T h hc
    obtain ⟨t1, T1, e1, r1, hi, _, f1, _, _⟩ := Insert_spec s bq T v h
    have c1 := insertH_canon (s.nodes + 1) T s.nodes v T1 hc hi
    obtain ⟨t, T', e, r, c, hiff, hh⟩ := ih t1 (some T1) r1 c1
    refine ⟨t, T', ?_, r, c, ?_, by rw [hh, f1.2.2.1]⟩
    · show (Insert bq v >>= fun _ => insert_mult bq l) s = _
      rw [bind_ok' e1]
      exact e
    · constructor
      · intro h0
        have := hiff.1 h0
        simp at this
      · intro h0
        simp at h0

theorem rootRanks_eq {s : State} {bq : Nat} {R : Tree} (h : HeapRep s bq (some R)) :
    rootRanks s bq = R.kids.map Tree.rank := by
  obtain ⟨hroot, _, hw, hn, hlt⟩ := h
  unfold rootRanks
  rw [hroot]
  simp only
  rw [hw.childrenOf_eq (card_le_nodes hn hlt), map_rank_roots hw]

/-- C24.  A heap made by `NewBOHeap` and then by `Insert` calls only, for any values and
any number of them: the build returns; the heap has a root unless no value was inserted;
the ranks of the children of the root, read from `children_head`, are in skew-binary
canonical form (not decreasing, and strictly increasing from the second on, so only the
first two may be equal) and not negative; and the next `Insert` on it makes the calls of
`Insert_skewOnly`: none of `insert_binomial` and so no simple link, one of `insert_skew`
and so at most one skew link.  As the list of values is arbitrary, this holds for each
`Insert` of the build. -/
theorem insert_only_canonical (s : State) (xs : List Int) :
    ∃ t, buildHeap xs s = .ok s.heaps t ∧ (t.root s.heaps = none ↔ xs = []) ∧
      skewCanonical (rootRanks t s.heaps) ∧ (∀ r ∈ rootRanks t s.heaps, 0 ≤ r) ∧
      ∀ v, Insert s.heaps v t = Insert_skewOnly s.heaps v t := by
  obtain ⟨t0, e0, r0, _, _, _, _⟩ := NewBOHeap_spec s
  obtain ⟨t, T', e, r, c, hiff, _⟩ := insert_mult_canon s.heaps xs t0 none r0 trivial
  have hrun : buildHeap xs s = .ok s.heaps t := by
    show (NewBOHeap >>= fun heap => insert_mult heap xs >>= fun _ => pure heap) s = _
    rw [bind_ok' e0, bind_ok' e]
    rfl
  refine ⟨t, hrun, ?_, ?_, ?_, fun v => Insert_eq_skewOnly t s.heaps T' v r⟩
  · cases T' with
    | none =>
      have h1 : t.root s.heaps = none := r
      simp only [h1, true_iff]
      exact (hiff.1 rfl).2
    | some R =>
      have h1 : t.root s.heaps = some R.addr := r.1
      constructor
      · intro h0
        rw [h1] at h0
        simp at h0
      · intro h0
        have := hiff.2 ⟨rfl, h0⟩
        simp at this
  · cases T' with
    | none =>
      have h1 : t.root s.heaps = none := r
      simp [rootRanks, h1, skewCanonical]
    | some R =>
      rw [rootRanks_eq r]
      exact c.1
  · cases T' with
    | none =>
      have h1 : t.root s.heaps = none := r
      simp [rootRanks, h1]
    | some R =>
      rw [rootRanks_eq r]
      intro x hx
      obtain ⟨k, hk, rfl⟩ := List.mem_map.1 hx
      exact c.2 k hk

theorem insert_only_canonical_witness :
    ∃ t, buildHeap [1, 2, 3, 4, 5, 6, 7] State.init = .ok State.init.heaps t ∧
      (t.root State.init.heaps = none ↔ [1, 2, 3, 4, 5, 6, (7 : Int)] = []) ∧
      skewCanonical (rootRanks t State.init.heaps) ∧
      (∀ r ∈ rootRanks t State.init.heaps, 0 ≤ r) ∧
      ∀ v, Insert State.init.heaps v t = Insert_skewOnly State.init.heaps v t :=
  insert_only_canonical State.init [1, 2, 3, 4, 5, 6, 7]

/-- Builds evaluated: after the keys 1, …, 7 the children of the root have the ranks 1 and
1; after 1, …, 6 the ranks 0, 0, 1; after 7, 6, …, 0 the rank 2. -/
theorem insert_only_canonical_example :
    (buildHeap [1, 2, 3, 4, 5, 6, 7] State.init).val? = some 0 ∧
      rootRanks (buildHeap [1, 2, 3, 4, 5, 6, 7] State.init).state 0 = [1, 1] ∧
      rootRanks (buildHeap [1, 2, 3, 4, 5, 6] State.init).state 0 = [0, 0, 1] ∧
      rootRanks (buildHeap [7, 6, 5, 4, 3, 2, 1, 0] State.init).state 0 = [2] := by
  decide!

/-! ### The swap case of `insert` -/

/-- Where the former children of the old root are after the swap case of `insert`: among
the children of the new root, or among the children of the node `M` at the address of the
old root, which is a child of the new root. -/
theorem swap_final_kids (R x : Tree) (hord : ∀ k ∈ R.kids, R.value ≤ k.value)
    (hperm : (swapNew R x).kids.Perm R.kids) :
    ∃ M ∈ (insert_skewT (swapNew R x) (swapOld R)).kids, M.addr = R.addr ∧
      ∀ k ∈ R.kids, k ∈ (insert_skewT (swapNew R x) (swapOld R)).kids ∨ k ∈ M.kids := by
  have hkidsF : (insert_skewT (swapNew R x) (swapOld R)).kids =
      insertByRank (skewLinkT (swapNew R x).kids (swapOld R)).2
        (skewLinkT (swapNew R x).kids (swapOld R)).1 := rfl
  by_cases hp : ∀ a b rest, (swapNew R x).kids = a :: b :: rest → a.rank ≠ b.rank
  · rw [hkidsF, skewLinkT_plain (swapNew R x).kids (swapOld R) hp]
    exact ⟨swapOld R, mem_insertByRank_self _ _, rfl, fun k hk =>
      Or.inl (mem_insertByRank_of_mem (hperm.mem_iff.2 hk))⟩
  · push_neg at hp
    obtain ⟨a, b, rest, hab, hr⟩ := hp
    have ha : (swapOld R).value ≤ a.value := hord a (hperm.mem_iff.1 (by rw [hab]; simp))
    have hb : (swapOld R).value ≤ b.value := hord b (hperm.mem_iff.1 (by rw [hab]; simp))
    rw [hkidsF, hab, skewLinkT_link a b rest (swapOld R) hr ha hb]
    have hkk : ((adoptT (adoptT (swapOld R) a) b).setRank (a.rank + 1)).kids = [b, a] := by
      show insertByRank b (insertByRank a []) = [b, a]
      simp [insertByRank, hr]
    refine ⟨_, mem_insertByRank_self _ _, rfl, fun k hk => ?_⟩
    have hk' := hperm.mem_iff.2 hk
    rw [hab] at hk'
    rcases List.mem_cons.1 hk' with rfl | hk'
    · exact Or.inr (by rw [hkk]; simp)
    · rcases List.mem_cons.1 hk' with rfl | hk'
      · exact Or.inr (by rw [hkk]; simp)
      · exact Or.inl (mem_insertByRank_of_mem hk')

/-- C20.  Swap case of `insert`: on a queue whose root tree `R` is drawn by the state, with
no child of `R` below the value of `R` and the ranks of the children below the largest
`int`, and a childless node `x` standing alone with a value below the value of `R`.  First
`swapWithRoot` returns `R`, in a state `t1` where `x` is the root, the children of `x` are
the former children of `R`, re-adopted by rank, each with `x` as parent, and `R` stands
alone, childless, of rank 0, with its subqueue.  The rest of `insert` is `insert_skew` of
`R`, the path of a node of rank 0, which returns.  In the end `x` is the root, `R` is a child
of `x` with its subqueue, and every former child of `R` is below `x`, its own tree unchanged,
with `x` as parent, or with `R` as parent when it was skew-linked with `R`.  When the first
two children of `x` after the swap do not have the same rank (or there are fewer than two),
`R` is still childless and of rank 0; when they do, `R` has been skew-linked with them. -/
theorem insert_swap (s : State) (bq : Nat) (R x : Tree) (F : Nat)
    (hroot : s.root bq = some R.addr) (hR : WFT s R) (dR : Detached s R.addr)
    (hx : WFT s x) (dx : Detached s x.addr) (hxk : x.kids = [])
    (hv : x.value < R.value) (hord : ∀ k ∈ R.kids, R.value ≤ k.value)
    (hmax : ∀ k ∈ R.kids, s.rank k.addr < maxInt64)
    (hn : (fp R + fp x).Nodup) (hF : Multiset.card (fp R + fp x) < F) :
    ∃ t1 t, swapWithRoot F bq x.addr s = .ok R.addr t1 ∧
      t1.root bq = some x.addr ∧ Detached t1 x.addr ∧
      walk t1 F (t1.children_head x.addr) = some (roots (swapNew R x).kids) ∧
      (swapNew R x).kids.Perm R.kids ∧
      (∀ k ∈ R.kids, t1.parent k.addr = some x.addr) ∧
      Detached t1 R.addr ∧ t1.rank R.addr = 0 ∧ t1.children_head R.addr = none ∧
      t1.subqueue_head R.addr = s.subqueue_head R.addr ∧
      insert F bq x.addr s = insert_skew F bq R.addr t1 ∧
      insert_skew F bq R.addr t1 = .ok () t ∧
      t.root bq = some x.addr ∧ Detached t x.addr ∧
      t.parent R.addr = some x.addr ∧ R.addr ∈ treeFrom t F (t.children_head x.addr) ∧
      t.subqueue_head R.addr = s.subqueue_head R.addr ∧
      (∀ k ∈ R.kids, (t.parent k.addr = some x.addr ∨ t.parent k.addr = some R.addr) ∧
        k.addr ∈ treeFrom t F (t.children_head x.addr) ∧ WFT t k) ∧
      ((∀ a b rest, (swapNew R x).kids = a :: b :: rest → a.rank ≠ b.rank) →
        t.rank R.addr = 0 ∧ t.children_head R.addr = none ∧
          ∀ k ∈ R.kids, t.parent k.addr = some x.addr) ∧
      (∀ a b rest, (swapNew R x).kids = a :: b :: rest → a.rank = b.rank →
        t.rank R.addr = a.rank + 1 ∧ t.rank R.addr ≤ maxInt64 ∧
          walk t F (t.children_head R.addr) = some [b.addr, a.addr] ∧
          t.parent a.addr = some R.addr ∧ t.parent b.addr = some R.addr ∧
          ∀ k ∈ rest, t.parent k.addr = some x.addr) := by
  have hc1 := card_fp_pos R
  have hc2 := card_fp_pos x
  have hlR := length_kids_lt R
  obtain ⟨n, rfl⟩ : ∃ n, F = n + 2 := ⟨F - 2, by simp only [Multiset.card_add] at hF; omega⟩
  obtain ⟨t1, e1, r1, wN, wO, dN, dO, _, eq⟩ := insertAux_swap s bq R x (n + 2) n hroot hR dR hx
    dx hn hF hv
  obtain ⟨t, e, r, d, w, hperm, parR, sqR, case1, case2⟩ := insert_swap_cases s bq R x (n + 2)
    hroot hR dR hx dx hxk hv hord hn hF
  have eq' : insert (n + 2) bq x.addr s = insert_skew (n + 2) bq R.addr t1 := eq
  obtain ⟨M, hM, hMa, hall⟩ := swap_final_kids R x hord hperm
  have hcF : Multiset.card (fpL (insert_skewT (swapNew R x) (swapOld R)).kids) < n + 2 := by
    have h1 := card_kids_lt (insert_skewT (swapNew R x) (swapOld R))
    rw [insert_skewT_fp, swap_fp] at h1
    omega
  have htree : treeFrom t (n + 2) (t.children_head x.addr) =
      (descsL (insert_skewT (swapNew R x) (swapOld R)).kids).map Tree.addr := by
    have h1 : t.children_head x.addr =
        (roots (insert_skewT (swapNew R x) (swapOld R)).kids).head? := w.kidsOK.1
    rw [h1]
    exact treeFrom_seg t _ _ x.addr (n + 2) (le_refl _) hcF w.kidsOK.2 fun k hk => w.kid hk
  have wM := w.kid hM
  refine ⟨t1, t, e1, r1, dN, ?_, hperm, fun k hk => wN.parent_kid (hperm.mem_iff.2 hk), dO,
    wO.rank_eq, wO.kidsOK.1, ?_, eq', eq'.symm.trans e, r, d, parR, ?_, sqR, fun k hk => ?_,
    case1, fun a b rest hab hr => ?_⟩
  · exact wN.walk_kids (by
      rw [hperm.length_eq]
      simp only [Multiset.card_add] at hF
      omega)
  · rw [hR.sq_head]
    exact wO.sq_head
  · rw [htree, ← hMa]
    exact List.mem_map_of_mem _ (mem_descsL hM (descs_self M))
  · rw [htree]
    rcases hall k hk with h1 | h1
    · exact ⟨Or.inl (w.parent_kid h1), List.mem_map_of_mem _ (mem_descsL h1 (descs_self k)),
        w.kid h1⟩
    · refine ⟨Or.inr ?_, List.mem_map_of_mem _ (mem_descsL hM (mem_descs_kid h1 (descs_self k))),
        wM.kid h1⟩
      rw [← hMa]
      exact wM.parent_kid h1
  · obtain ⟨c1, c2, c3, c4, c5⟩ := case2 a b rest hab hr
    refine ⟨c1, ?_, c2, c3, c4, c5⟩
    have ha : a ∈ R.kids := hperm.mem_iff.1 (by rw [hab]; simp)
    have := hmax a ha
    rw [(hR.kid ha).rank_eq] at this
    rw [c1]
    omega

theorem insert_swap_witness :
    ∃ t1 t, swapWithRoot 5 0 (leaf 3 0).addr (threeKeys 0) = .ok threeKeysTree.addr t1 ∧
      t1.root 0 = some (leaf 3 0).addr ∧ Detached t1 (leaf 3 0).addr ∧
      walk t1 5 (t1.children_head (leaf 3 0).addr) =
        some (roots (swapNew threeKeysTree (leaf 3 0)).kids) ∧
      (swapNew threeKeysTree (leaf 3 0)).kids.Perm threeKeysTree.kids ∧
      (∀ k ∈ threeKeysTree.kids, t1.parent k.addr = some (leaf 3 0).addr) ∧
      Detached t1 threeKeysTree.addr ∧ t1.rank threeKeysTree.addr = 0 ∧
      t1.children_head threeKeysTree.addr = none ∧
      t1.subqueue_head threeKeysTree.addr = (threeKeys 0).subqueue_head threeKeysTree.addr ∧
      insert 5 0 (leaf 3 0).addr (threeKeys 0) = insert_skew 5 0 threeKeysTree.addr t1 ∧
      insert_skew 5 0 threeKeysTree.addr t1 = .ok () t ∧
      t.root 0 = some (leaf 3 0).addr ∧ Detached t (leaf 3 0).addr ∧
      t.parent threeKeysTree.addr = some (leaf 3 0).addr ∧
      threeKeysTree.addr ∈ treeFrom t 5 (t.children_head (leaf 3 0).addr) ∧
      t.subqueue_head threeKeysTree.addr = (threeKeys 0).subqueue_head threeKeysTree.addr ∧
      (∀ k ∈ threeKeysTree.kids,
        (t.parent k.addr = some (leaf 3 0).addr ∨ t.parent k.addr = some threeKeysTree.addr) ∧
        k.addr ∈ treeFrom t 5 (t.children_head (leaf 3 0).addr) ∧ WFT t k) ∧
      ((∀ a b rest, (swapNew threeKeysTree (leaf 3 0)).kids = a :: b :: rest →
          a.rank ≠ b.rank) →
        t.rank threeKeysTree.addr = 0 ∧ t.children_head threeKeysTree.addr = none ∧
          ∀ k ∈ threeKeysTree.kids, t.parent k.addr = some (leaf 3 0).addr) ∧
      (∀ a b rest, (swapNew threeKeysTree (leaf 3 0)).kids = a :: b :: rest →
        a.rank = b.rank →
        t.rank threeKeysTree.addr = a.rank + 1 ∧ t.rank threeKeysTree.addr ≤ maxInt64 ∧
          walk t 5 (t.children_head threeKeysTree.addr) = some [b.addr, a.addr] ∧
          t.parent a.addr = some threeKeysTree.addr ∧
          t.parent b.addr = some threeKeysTree.addr ∧
          ∀ k ∈ rest, t.parent k.addr = some (leaf 3 0).addr) :=
  insert_swap (threeKeys 0) 0 threeKeysTree (leaf 3 0) 5 (by decide!)
    (wfCheck_wft (by decide!)) (by decide!) (wfCheck_wft (by decide!)) (by decide!) rfl
    (by decide) (by decide) (by decide!) (by decide!) (by decide!)

end BrodalOkasakiHeap
